import Mathlib

/-!
# Lowering of pseudo-instructions to hardware instructions

A shallow embedding of `src/amd/compiler/aco_lower_to_hw_instr.cpp`:
the parallel-copy resolution (`split_copy`, `do_copy`, `do_swap`,
`do_pack_2x16`, `handle_operands`) and the reduction lowering
(`emit_int64_op`, `emit_op`, `emit_dpp_op`, `emit_reduction`), together with
reference interpreters for the instructions these functions emit.

Machine integers are natural numbers with explicit wrap-around; assertions
and undefined behaviour are faults of the `Except` monad.
-/

namespace Aco

/-! ## Register and operand model -/

/-- Hardware generations named by the source. -/
inductive chip_class where
  | GFX6 | GFX7 | GFX8 | GFX9 | GFX10
deriving DecidableEq, Repr

/-- Position of a generation in the ordering used by `>=` and `<`. -/
def chip_class.rank : chip_class → Nat
  | .GFX6 => 6
  | .GFX7 => 7
  | .GFX8 => 8
  | .GFX9 => 9
  | .GFX10 => 10

/-- Ways a lowering function can stop without a result. -/
inductive Fault where
  | assertion
  | undefined_behaviour
  | fuel
deriving DecidableEq, Repr

/-- Physical register: a byte address `reg_b` (a 16-bit field in the source). -/
structure PhysReg where
  reg_b : Nat
deriving DecidableEq, Repr

namespace PhysReg

/-- The constructor `PhysReg{r}` from a register number. -/
def ofReg (r : Nat) : PhysReg := ⟨(r * 4) % 65536⟩

def reg (p : PhysReg) : Nat := p.reg_b / 4

def byte (p : PhysReg) : Nat := p.reg_b % 4

/-- The method `advance(bytes)` and the statement `reg_b += bytes`, for `bytes ≥ 0`. -/
def advance (p : PhysReg) (bytes : Nat) : PhysReg := ⟨(p.reg_b + bytes) % 65536⟩

/-- The method `advance(-bytes)`. -/
def retreat (p : PhysReg) (bytes : Nat) : PhysReg :=
  ⟨(p.reg_b + (65536 - bytes % 65536)) % 65536⟩

/-- The expression `PhysReg{p + i}`: the conversion to `unsigned` yields the register number. -/
def plus (p : PhysReg) (i : Nat) : PhysReg := ofReg (p.reg + i)

end PhysReg

def m0 : PhysReg := PhysReg.ofReg 124
def vcc : PhysReg := PhysReg.ofReg 106
def vcc_hi : PhysReg := PhysReg.ofReg 107
def exec : PhysReg := PhysReg.ofReg 126
def exec_lo : PhysReg := PhysReg.ofReg 126
def exec_hi : PhysReg := PhysReg.ofReg 127
def scc : PhysReg := PhysReg.ofReg 253

inductive RegType where
  | sgpr | vgpr
deriving DecidableEq, Repr

/-- Register class: type, size field (dwords, or bytes for a sub-dword class) and sub-dword flag. -/
structure RegClass where
  type : RegType
  size_field : Nat
  subdword : Bool
deriving DecidableEq, Repr

namespace RegClass

/-- The constructor `RegClass(type, size)` with `size` in dwords. -/
def ofSize (t : RegType) (size : Nat) : RegClass := ⟨t, size, false⟩

def as_subdword (rc : RegClass) : RegClass := ⟨rc.type, rc.size_field, true⟩

def is_subdword (rc : RegClass) : Bool := rc.subdword

def bytes (rc : RegClass) : Nat := if rc.subdword then rc.size_field else rc.size_field * 4

def size (rc : RegClass) : Nat := (rc.bytes + 3) / 4

/-- The static function `RegClass::get(type, bytes)`. -/
def get (t : RegType) (bytes : Nat) : RegClass :=
  match t with
  | .sgpr => ofSize t ((bytes + 3) / 4)
  | .vgpr => if bytes % 4 ≠ 0 then (ofSize t bytes).as_subdword else ofSize t (bytes / 4)

end RegClass

def s1 : RegClass := RegClass.ofSize .sgpr 1
def s2 : RegClass := RegClass.ofSize .sgpr 2
def v1 : RegClass := RegClass.ofSize .vgpr 1
def v2 : RegClass := RegClass.ofSize .vgpr 2
def v1b : RegClass := (RegClass.ofSize .vgpr 1).as_subdword
def v2b : RegClass := (RegClass.ofSize .vgpr 2).as_subdword

/-- Operand: a fixed register of some class, or a constant (then `regClass` carries its width
and `physReg` its inline-constant encoding). -/
structure Operand where
  physReg : PhysReg
  regClass : RegClass
  isConstant : Bool
  constantValue64 : Nat
deriving DecidableEq, Repr

namespace Operand

/-- The constructor `Operand(reg, rc)`. -/
def ofReg (r : PhysReg) (rc : RegClass) : Operand := ⟨r, rc, false, 0⟩

/-- Register holding the encoding of a 32-bit constant, as chosen by `Operand(uint32_t)`. -/
def constReg (v : Nat) : PhysReg :=
  if v ≤ 64 then PhysReg.ofReg (128 + v)
  else if v ≥ 0xFFFFFFF0 then PhysReg.ofReg ((192 + 4294967296 - v) % 4294967296)
  else if v = 0x3f000000 then PhysReg.ofReg 240
  else if v = 0xbf000000 then PhysReg.ofReg 241
  else if v = 0x3f800000 then PhysReg.ofReg 242
  else if v = 0xbf800000 then PhysReg.ofReg 243
  else if v = 0x40000000 then PhysReg.ofReg 244
  else if v = 0xc0000000 then PhysReg.ofReg 245
  else if v = 0x40800000 then PhysReg.ofReg 246
  else if v = 0xc0800000 then PhysReg.ofReg 247
  else PhysReg.ofReg 255

/-- The constructor `Operand(uint32_t v)`. -/
def c32 (v : Nat) : Operand := ⟨constReg (v % 4294967296), s1, true, v % 4294967296⟩

def bytes (o : Operand) : Nat := o.regClass.bytes

def size (o : Operand) : Nat := o.regClass.size

def isLiteral (o : Operand) : Bool := o.isConstant && o.physReg == PhysReg.ofReg 255

def setFixed (o : Operand) (r : PhysReg) : Operand := ⟨r, o.regClass, o.isConstant, o.constantValue64⟩

def constantValue (o : Operand) : Nat := o.constantValue64 % 4294967296

end Operand

/-- Definition: the register written and its class. -/
structure Definition where
  physReg : PhysReg
  regClass : RegClass
deriving DecidableEq, Repr

namespace Definition

def bytes (d : Definition) : Nat := d.regClass.bytes

def size (d : Definition) : Nat := d.regClass.size

def setFixed (d : Definition) (r : PhysReg) : Definition := ⟨r, d.regClass⟩

end Definition

/-! ## Instructions -/

/-- Opcodes emitted by the lowering functions; `copy` stands for the one move emitted by the
builder helper `Builder::copy`, `num_opcodes` is the marker of the opcode table. -/
inductive aco_opcode where
  | copy
  | s_mov_b32 | s_mov_b64 | s_cmp_lg_i32 | s_xor_b32 | s_xor_b64 | s_bfm_b32 | s_bfm_b64
  | s_or_saveexec_b32 | s_or_saveexec_b64 | s_andn2_b64
  | v_mov_b32 | v_swap_b32 | v_xor_b32 | v_and_b32 | v_or_b32
  | v_lshrrev_b32 | v_lshlrev_b32 | v_cvt_pk_u16_u32 | v_mul_u32_u24
  | v_mul_lo_u32 | v_mul_hi_u32 | v_pk_add_u16 | v_pack_b32_f16
  | v_add_u32 | v_add_co_u32 | v_add_co_u32_e64 | v_addc_co_u32 | v_add_u16
  | v_mul_lo_u16 | v_mul_lo_u16_e64
  | v_add_f16 | v_mul_f16 | v_min_f16 | v_max_f16
  | v_add_f32 | v_mul_f32 | v_min_f32 | v_max_f32
  | v_add_f64 | v_mul_f64 | v_min_f64 | v_max_f64
  | v_max_i32 | v_min_i32 | v_max_u32 | v_min_u32
  | v_max_i16 | v_min_i16 | v_max_u16 | v_min_u16
  | v_cmp_gt_u64 | v_cmp_lt_u64 | v_cmp_gt_i64 | v_cmp_lt_i64
  | v_cndmask_b32 | v_bfe_i32 | v_bfe_u32
  | v_readlane_b32 | v_writelane_b32 | v_permlanex16_b32 | v_cmpx_eq_u32
  | ds_swizzle_b32 | ds_bpermute_b32
  | p_reduce | p_inclusive_scan | p_exclusive_scan
  | p_split_vector | p_create_vector | p_parallelcopy | p_extract_vector
  | p_wqm | p_exit_early_if | p_spill | p_reload | p_as_uniform | p_bpermute | p_logical_end
  | p_branch | p_cbranch_nz | p_cbranch_z
  | s_endpgm | exp | s_dcache_wb | s_setreg_imm32_b32 | v_readfirstlane_b32
  | s_branch | s_cbranch_execnz | s_cbranch_vccnz | s_cbranch_scc1
  | s_cbranch_execz | s_cbranch_vccz | s_cbranch_scc0
  | num_opcodes
deriving DecidableEq, Repr

/-- Sub-dword selection of an SDWA operand or result; `isra` is the selection the builder derives
from the operand's own byte range. -/
inductive sdwa_sel where
  | isra | ubyte | uword | udword | sbyte | sword
deriving DecidableEq, Repr

/-- Encoding-specific fields of an instruction. -/
inductive Mods where
  | none
  | dpp (dpp_ctrl row_mask bank_mask : Nat) (bound_ctrl : Bool)
  | sdwa (sel0 dst_sel : sdwa_sel)
  | opsel (v : Nat)
  | opsel_p (lo hi : Nat)
  | imm (v : Nat)
  | exp (enabled_mask dest : Nat) (compressed done valid_mask : Bool)
deriving DecidableEq, Repr

structure Instruction where
  opcode : aco_opcode
  definitions : List Definition
  operands : List Operand
  mods : Mods
deriving DecidableEq, Repr

/-- Plain instruction without encoding-specific fields (`bld.sop1`, `bld.vop2`, ...). -/
def Instruction.plain (o : aco_opcode) (ds : List Definition) (os : List Operand) : Instruction :=
  ⟨o, ds, os, .none⟩

/-! ## Copy operations -/

/-- The struct `copy_operation`; `uses` is the array `uint8_t uses[8]`, which the source also
reads as the 64-bit word `is_used`. -/
structure copy_operation where
  op : Operand
  def_ : Definition
  bytes : Nat
  uses : List Nat
deriving DecidableEq, Repr

def no_uses : List Nat := [0, 0, 0, 0, 0, 0, 0, 0]

/-- The aggregate `copy_operation{op, def, bytes}` with `is_used = 0`. -/
def copy_operation.init (op : Operand) (d : Definition) (bytes : Nat) : copy_operation :=
  ⟨op, d, bytes, no_uses⟩

/-- The word `is_used` is non-zero. -/
def copy_operation.is_used (c : copy_operation) : Bool := c.uses.any (fun u => u != 0)

/-- The array element `uses[i]`. -/
def copy_operation.use (c : copy_operation) (i : Nat) : Nat := c.uses.getD i 0

/-! ## Helpers from the utility headers -/

def MAX2i (a b : Int) : Int := if a > b then a else b

/-- The header function `u_bit_consecutive(start, count)`; it asserts `start + count <= 32`. -/
def u_bit_consecutive (start count : Nat) : Except Fault Nat :=
  if start + count > 32 then .error .assertion
  else if count = 32 then .ok 0xFFFFFFFF
  else .ok ((((1 <<< count) - 1) <<< start) % 4294967296)

def next_power_of_two_loop : Nat → Nat → Nat → Nat
  | 0, p, _ => p
  | fuel + 1, p, x => if x ≤ p then p else next_power_of_two_loop fuel (p * 2) x

/-- The header function `util_next_power_of_two(x)` for 32-bit `x`. -/
def util_next_power_of_two (x : Nat) : Nat := next_power_of_two_loop 32 1 x

/-- Unsigned 32-bit difference `a - b` as computed for the `distance` variables. -/
def udiff (a b : Nat) : Nat := (a + 4294967296 - b % 4294967296) % 4294967296

/-- Increment and decrement of a `uint8_t`. -/
def u8_inc (u : Nat) : Nat := (u + 1) % 256

def u8_dec (u : Nat) : Nat := (u + 255) % 256

/-! ## `split_copy` and `get_intersection_mask` -/

/-- The loop of `split_copy` that grows `bytes` while the chunk stays aligned, inside the copy,
within `max_size` and uniform in its use counts. -/
def split_copy_loop (src : copy_operation) (offset : Nat) (ignore_uses : Bool)
    (max_size def_b op_b : Nat) : Nat → Nat → Nat
  | 0, bytes => bytes
  | fuel + 1, bytes =>
    if bytes ≤ max_size then
      let next := bytes * 2
      let can0 : Bool := def_b % next == 0 && decide (offset + next ≤ src.bytes) &&
        decide (next ≤ max_size)
      let can1 : Bool := if !src.op.isConstant && can0 then op_b % next == 0 else can0
      let can2 : Bool := if ignore_uses then can1 else
        can1 && (List.range bytes).all (fun i =>
          (src.use (offset + bytes + i) == 0) == (src.use offset == 0))
      if can2 then split_copy_loop src offset ignore_uses max_size def_b op_b fuel next
      else bytes
    else bytes

/-- Size in bytes of the chunk that `split_copy` selects at `offset`. -/
def split_copy_bytes (offset : Nat) (src : copy_operation) (ignore_uses : Bool)
    (max_size : Nat) : Nat :=
  let def_reg := src.def_.physReg.advance offset
  let op_reg := src.op.physReg.advance offset
  let max_size := min max_size (if src.def_.regClass.type = .vgpr then 4 else 8)
  split_copy_loop src offset ignore_uses max_size def_reg.reg_b op_reg.reg_b 4 1

/-- The function `split_copy`: the definition and operand of the chunk at `offset`. -/
def split_copy (offset : Nat) (src : copy_operation) (ignore_uses : Bool) (max_size : Nat) :
    Except Fault (Definition × Operand) :=
  let def_reg := src.def_.physReg.advance offset
  let op_reg := src.op.physReg.advance offset
  let bytes := split_copy_bytes offset src ignore_uses max_size
  let def_cls := if bytes % 4 = 0 then RegClass.ofSize src.def_.regClass.type (bytes / 4)
    else (RegClass.ofSize src.def_.regClass.type bytes).as_subdword
  let d : Definition := ⟨def_reg, def_cls⟩
  if src.op.isConstant then
    if offset = 0 ∨ (offset = 4 ∧ src.op.bytes = 8) then
      if src.op.bytes = 8 ∧ bytes = 4 then
        .ok (d, Operand.c32 (src.op.constantValue64 >>> (offset * 8)))
      else .ok (d, src.op)
    else .error .assertion
  else
    let op_cls := if bytes % 4 = 0 then RegClass.ofSize src.op.regClass.type (bytes / 4)
      else (RegClass.ofSize src.op.regClass.type bytes).as_subdword
    .ok (d, Operand.ofReg op_reg op_cls)

/-- The function `get_intersection_mask` on C `int` arguments. -/
def get_intersection_mask (a_start a_size b_start b_size : Int) : Except Fault Nat :=
  let intersection_start := MAX2i (b_start - a_start) 0
  let intersection_end := MAX2i (b_start + b_size - a_start) 0
  if intersection_start ≥ a_size ∨ intersection_end = 0 then .ok 0
  else
    match u_bit_consecutive 0 ((a_size % 4294967296).toNat) with
    | .error e => .error e
    | .ok mask =>
      match u_bit_consecutive intersection_start.toNat
          (((intersection_end - intersection_start) % 4294967296).toNat) with
      | .error e => .error e
      | .ok m => .ok (m &&& mask)

/-! ## `do_copy`, `do_swap`, `do_pack_2x16` -/

/-- Instructions emitted by `do_copy` for one chunk `(def, op)`; the Boolean tells whether the
chunk sets `*preserve_scc`. -/
def do_copy_chunk (chip : chip_class) (d : Definition) (op : Operand) (scratch_sgpr : PhysReg) :
    Except Fault (List Instruction × Bool × Definition) :=
  if d.physReg = scc then
    .ok ([Instruction.plain .s_cmp_lg_i32 [d] [op, Operand.c32 0]], true, d)
  else if d.bytes = 8 ∧ d.regClass.type = .sgpr then
    .ok ([Instruction.plain .s_mov_b64 [d] [Operand.ofReg op.physReg s2]], false, d)
  else if d.regClass.is_subdword ∧ chip.rank < 8 then
    if op.physReg.byte ≠ 0 then
      if d.physReg.byte = 0 then
        .ok ([Instruction.plain .v_lshrrev_b32 [d] [Operand.c32 (op.physReg.byte * 8), op]],
          false, d)
      else .error .assertion
    else if d.physReg.byte = 2 then
      if op.physReg.byte = 0 then
        let d2 : Definition := ⟨d.physReg.retreat 2, v1⟩
        let i1 := Instruction.plain .v_and_b32 [⟨op.physReg, v1⟩] [Operand.c32 0xFFFF, op]
        let i2 := if d2.physReg.reg ≠ op.physReg.reg then
          [Instruction.plain .v_and_b32 [d2] [Operand.c32 0xFFFF, Operand.ofReg d2.physReg v2b]]
          else []
        let i3 := Instruction.plain .v_cvt_pk_u16_u32 [d2] [Operand.ofReg d2.physReg v2b, op]
        .ok (i1 :: i2 ++ [i3], false, d2)
      else .error .assertion
    else if d.physReg.byte ≠ 0 then
      let bits := d.physReg.byte * 8
      if op.physReg.byte = 0 then
        let d2 : Definition := ⟨d.physReg.retreat d.physReg.byte, v1⟩
        let i1 := Instruction.plain .v_and_b32 [d2]
          [Operand.c32 ((1 <<< bits) - 1), Operand.ofReg d2.physReg op.regClass]
        let rest :=
          if d2.physReg.reg = op.physReg.reg then
            if bits < 24 then
              [Instruction.plain .v_mul_u32_u24 [d2] [Operand.c32 ((1 <<< bits) + 1), op]]
            else
              [Instruction.plain .s_mov_b32 [⟨scratch_sgpr, s1⟩] [Operand.c32 ((1 <<< bits) + 1)],
               Instruction.plain .v_mul_lo_u32 [d2] [Operand.ofReg scratch_sgpr s1, op]]
          else
            [Instruction.plain .v_lshlrev_b32 [⟨op.physReg, d2.regClass⟩] [Operand.c32 bits, op],
             Instruction.plain .v_or_b32 [d2] [Operand.ofReg d2.physReg op.regClass, op],
             Instruction.plain .v_lshrrev_b32 [⟨op.physReg, d2.regClass⟩] [Operand.c32 bits, op]]
        .ok (i1 :: rest, false, d2)
      else .error .assertion
    else
      .ok ([Instruction.plain .v_mov_b32 [d] [op]], false, d)
  else
    .ok ([Instruction.plain .copy [d] [op]], false, d)

/-- Result of `do_copy`: emitted instructions, the value left in `*preserve_scc`, and the
returned `did_copy`. -/
structure copy_result where
  instrs : List Instruction
  preserve_scc : Bool
  did_copy : Bool
deriving DecidableEq, Repr

/-- The loop of `do_copy` over the byte offsets of the copy. -/
def do_copy_loop (chip : chip_class) (copy : copy_operation) (scratch_sgpr : PhysReg) :
    Nat → Nat → copy_result → Except Fault copy_result
  | 0, offset, acc => if offset < copy.bytes then .error .fuel else .ok acc
  | fuel + 1, offset, acc =>
    if offset < copy.bytes then
      if copy.use offset ≠ 0 then
        do_copy_loop chip copy scratch_sgpr fuel (offset + 1) acc
      else
        match split_copy offset copy false 8 with
        | .error e => .error e
        | .ok (d, op) =>
          match do_copy_chunk chip d op scratch_sgpr with
          | .error e => .error e
          | .ok (is, sets_scc, d2) =>
            do_copy_loop chip copy scratch_sgpr fuel (offset + d2.bytes)
              ⟨acc.instrs ++ is, acc.preserve_scc || sets_scc, true⟩
    else .ok acc

/-- The function `do_copy`. -/
def do_copy (chip : chip_class) (copy : copy_operation) (preserve_scc : Bool)
    (scratch_sgpr : PhysReg) : Except Fault copy_result :=
  do_copy_loop chip copy scratch_sgpr copy.bytes 0 ⟨[], preserve_scc, false⟩

/-- The fields of `Pseudo_instruction` read by the copy lowering. -/
structure Pseudo_instruction where
  opcode : aco_opcode
  tmp_in_scc : Bool
  scratch_sgpr : PhysReg
deriving DecidableEq, Repr

/-- Instructions emitted by one iteration of the swap loop of `do_swap` for the chunk
`(def, op)`. -/
def do_swap_chunk (chip : chip_class) (d : Definition) (op : Operand) (preserve_scc : Bool)
    (pi : Pseudo_instruction) : Except Fault (List Instruction) :=
  if op.regClass ≠ d.regClass then .error .assertion
  else
    let def_as_op := Operand.ofReg d.physReg d.regClass
    let op_as_def : Definition := ⟨op.physReg, op.regClass⟩
    if chip.rank ≥ 9 ∧ d.regClass = v1 then
      .ok [Instruction.plain .v_swap_b32 [d, op_as_def] [op, def_as_op]]
    else if d.regClass = v1 ∨ (d.regClass.is_subdword ∧ chip.rank < 8) then
      if d.physReg.byte = 0 ∧ op.physReg.byte = 0 then
        .ok [Instruction.plain .v_xor_b32 [op_as_def] [op, def_as_op],
             Instruction.plain .v_xor_b32 [d] [op, def_as_op],
             Instruction.plain .v_xor_b32 [op_as_def] [op, def_as_op]]
      else .error .assertion
    else if op.physReg = scc ∨ d.physReg = scc then
      if preserve_scc then .error .assertion
      else
        let other := if op.physReg = scc then d.physReg else op.physReg
        .ok [Instruction.plain .s_mov_b32 [⟨pi.scratch_sgpr, s1⟩] [Operand.ofReg scc s1],
             Instruction.plain .s_cmp_lg_i32 [⟨scc, s1⟩] [Operand.ofReg other s1, Operand.c32 0],
             Instruction.plain .s_mov_b32 [⟨other, s1⟩] [Operand.ofReg pi.scratch_sgpr s1]]
    else if d.regClass = s1 then
      if preserve_scc then
        .ok [Instruction.plain .s_mov_b32 [⟨pi.scratch_sgpr, s1⟩] [op],
             Instruction.plain .s_mov_b32 [op_as_def] [def_as_op],
             Instruction.plain .s_mov_b32 [d] [Operand.ofReg pi.scratch_sgpr s1]]
      else
        .ok [Instruction.plain .s_xor_b32 [op_as_def, ⟨scc, s1⟩] [op, def_as_op],
             Instruction.plain .s_xor_b32 [d, ⟨scc, s1⟩] [op, def_as_op],
             Instruction.plain .s_xor_b32 [op_as_def, ⟨scc, s1⟩] [op, def_as_op]]
    else if d.regClass = s2 then
      let save := if preserve_scc then
        [Instruction.plain .s_mov_b32 [⟨pi.scratch_sgpr, s1⟩] [Operand.ofReg scc s1]] else []
      let restore := if preserve_scc then
        [Instruction.plain .s_cmp_lg_i32 [⟨scc, s1⟩]
          [Operand.ofReg pi.scratch_sgpr s1, Operand.c32 0]] else []
      .ok (save ++
            [Instruction.plain .s_xor_b64 [op_as_def, ⟨scc, s1⟩] [op, def_as_op],
             Instruction.plain .s_xor_b64 [d, ⟨scc, s1⟩] [op, def_as_op],
             Instruction.plain .s_xor_b64 [op_as_def, ⟨scc, s1⟩] [op, def_as_op]] ++ restore)
    else if chip.rank ≥ 9 ∧ d.bytes = 2 ∧ d.physReg.reg = op.physReg.reg then
      .ok [⟨.v_pk_add_u16, [⟨PhysReg.ofReg op.physReg.reg, v1⟩],
            [Operand.ofReg (PhysReg.ofReg op.physReg.reg) v1, Operand.c32 0], .opsel_p 1 2⟩]
    else if d.regClass.is_subdword then
      .ok [⟨.v_xor_b32, [op_as_def], [op, def_as_op], .sdwa .isra .isra⟩,
           ⟨.v_xor_b32, [d], [op, def_as_op], .sdwa .isra .isra⟩,
           ⟨.v_xor_b32, [op_as_def], [op, def_as_op], .sdwa .isra .isra⟩]
    else .error .assertion

/-- The swap loop of `do_swap`, from `offset` on. -/
def do_swap_loop (chip : chip_class) (copy : copy_operation) (preserve_scc : Bool)
    (pi : Pseudo_instruction) : Nat → Nat → List Instruction → Except Fault (List Instruction)
  | 0, offset, acc => if offset < copy.bytes then .error .fuel else .ok acc
  | fuel + 1, offset, acc =>
    if offset < copy.bytes then
      match split_copy offset copy true 8 with
      | .error e => .error e
      | .ok (d, op) =>
        match do_swap_chunk chip d op preserve_scc pi with
        | .error e => .error e
        | .ok is => do_swap_loop chip copy preserve_scc pi fuel (offset + d.bytes) (acc ++ is)
    else .ok acc

/-- The tail of `do_swap`: on GFX8 and later the fix-up copy of the bytes that were swapped
without being used. -/
def do_swap_fixup (chip : chip_class) (copy : copy_operation) (preserve_scc : Bool)
    (pi : Pseudo_instruction) : Except Fault (List Instruction) :=
  if chip.rank ≤ 7 then .ok []
  else
    let tmp_copy : copy_operation :=
      ⟨copy.op.setFixed copy.def_.physReg, copy.def_.setFixed copy.op.physReg, copy.bytes,
        copy.uses⟩
    match do_copy chip tmp_copy preserve_scc pi.scratch_sgpr with
    | .error e => .error e
    | .ok r => .ok r.instrs

/-- The function `do_swap` for a copy that does not take the three-byte path: swap loop, then
fix-up. -/
def do_swap_plain (chip : chip_class) (copy : copy_operation) (preserve_scc : Bool)
    (pi : Pseudo_instruction) (offset : Nat) : Except Fault (List Instruction) :=
  match do_swap_loop chip copy preserve_scc pi copy.bytes offset [] with
  | .error e => .error e
  | .ok is =>
    match do_swap_fixup chip copy preserve_scc pi with
    | .error e => .error e
    | .ok fx => .ok (is ++ fx)

/-- The function `do_swap`.  The two recursive calls of the three-byte path are on copies of
four bytes and of one byte, which do not recurse further. -/
def do_swap (chip : chip_class) (copy : copy_operation) (preserve_scc : Bool)
    (pi : Pseudo_instruction) : Except Fault (List Instruction) :=
  if copy.bytes = 3 ∧ copy.def_.physReg.reg_b % 4 ≤ 1 ∧
      copy.def_.physReg.reg_b % 4 = copy.op.physReg.reg_b % 4 then
    let op : PhysReg := ⟨copy.op.physReg.reg_b - copy.op.physReg.reg_b % 4⟩
    let d : PhysReg := ⟨copy.def_.physReg.reg_b - copy.def_.physReg.reg_b % 4⟩
    let tmp4 : copy_operation := ⟨Operand.ofReg op v1, ⟨d, v1⟩, 4, [1, 1, 1, 1, 0, 0, 0, 0]⟩
    let inc := if copy.def_.physReg.reg_b % 4 = 0 then 3 else 0
    let tmp1 : copy_operation :=
      ⟨Operand.ofReg (op.advance inc) v1b, ⟨d.advance inc, v1b⟩, 1, [1, 1, 1, 1, 0, 0, 0, 0]⟩
    match do_swap_plain chip tmp4 preserve_scc pi 0 with
    | .error e => .error e
    | .ok i4 =>
      match do_swap_plain chip tmp1 preserve_scc pi 0 with
      | .error e => .error e
      | .ok i1 =>
        match do_swap_plain chip copy preserve_scc pi copy.bytes with
        | .error e => .error e
        | .ok rest => .ok (i4 ++ i1 ++ rest)
  else do_swap_plain chip copy preserve_scc pi 0

/-- The function `do_pack_2x16`. -/
def do_pack_2x16 (chip : chip_class) (d : Definition) (lo hi : Operand) :
    Except Fault (List Instruction) :=
  if chip.rank ≥ 9 then
    .ok [⟨.v_pack_b32_f16, [d], [lo, hi], .opsel (hi.physReg.byte ||| (lo.physReg.byte >>> 1))⟩]
  else if chip.rank ≥ 8 then
    let reg := d.physReg
    .ok [Instruction.plain .copy [⟨reg, v2b⟩] [lo],
         Instruction.plain .copy [⟨reg.advance 2, v2b⟩] [hi]]
  else
    if lo.physReg.byte = 0 ∧ hi.physReg.byte = 0 then
      .ok [Instruction.plain .v_and_b32 [⟨lo.physReg, v1⟩] [Operand.c32 0xFFFF, lo],
           Instruction.plain .v_and_b32 [⟨hi.physReg, v1⟩] [Operand.c32 0xFFFF, hi],
           Instruction.plain .v_cvt_pk_u16_u32 [d] [lo, hi]]
    else .error .assertion

/-! ## The copy map

`std::map<PhysReg, copy_operation>`: an association list kept in increasing key order.  An
iterator is the key of its entry, `none` being `end()`. -/

abbrev copy_map := List (PhysReg × copy_operation)

def map_find (m : copy_map) (k : PhysReg) : Option copy_operation :=
  match m with
  | [] => none
  | e :: rest => if e.1 = k then some e.2 else map_find rest k

def map_erase (m : copy_map) (k : PhysReg) : copy_map :=
  m.filter (fun e => e.1 != k)

/-- The assignment `copy_map[k] = v`. -/
def map_insert (m : copy_map) (k : PhysReg) (v : copy_operation) : copy_map :=
  match m with
  | [] => [(k, v)]
  | e :: rest =>
    if k.reg_b < e.1.reg_b then (k, v) :: e :: rest
    else if e.1 = k then (k, v) :: rest
    else e :: map_insert rest k v

/-- The iterator `begin()`. -/
def map_begin (m : copy_map) : Option PhysReg :=
  match m with
  | [] => none
  | e :: _ => some e.1

/-- The iterator after the one at key `k` (`++it`, or the result of `erase(it)`). -/
def map_next (m : copy_map) (k : PhysReg) : Option PhysReg :=
  match m with
  | [] => none
  | e :: rest => if k.reg_b < e.1.reg_b then some e.1 else map_next rest k

/-- Write through an iterator or reference: replace the value stored at key `k`. -/
def map_set (m : copy_map) (k : PhysReg) (v : copy_operation) : copy_map :=
  m.map (fun e => if e.1 = k then (e.1, v) else e)

def set_use (c : copy_operation) (i : Nat) (u : Nat) : copy_operation :=
  ⟨c.op, c.def_, c.bytes, c.uses.set i u⟩

/-! ## `handle_operands`: pre-processing -/

/-- The block "split large copies" for the entry at `k`. -/
def split_large (m : copy_map) (k : PhysReg) (c : copy_operation) : Except Fault copy_map :=
  if c.bytes > 8 then
    if c.op.isConstant then .error .assertion
    else if c.def_.regClass.is_subdword then .error .assertion
    else
      let rc := RegClass.ofSize c.def_.regClass.type
        ((c.def_.size + 4294967296 - 2) % 4294967296)
      let hi_def : Definition := ⟨k.plus 2, rc⟩
      let rc2 := RegClass.ofSize c.op.regClass.type ((c.op.size + 4294967296 - 2) % 4294967296)
      let hi_op := Operand.ofReg (c.op.physReg.plus 2) rc2
      let m1 := map_insert m hi_def.physReg (copy_operation.init hi_op hi_def (c.bytes - 8))
      match map_find m1 k with
      | none => .error .undefined_behaviour
      | some c1 =>
        if c1.op.physReg.byte = 0 ∧ c1.def_.physReg.byte = 0 then
          .ok (map_set m1 k
            ⟨Operand.ofReg c1.op.physReg (if c1.op.regClass.type = .sgpr then s2 else v2),
             ⟨c1.def_.physReg, if c1.def_.regClass.type = .sgpr then s2 else v2⟩, 8, c1.uses⟩)
        else .error .assertion
  else .ok m

/-- The block "try to coalesce copies" for the entry at `k`. -/
def try_coalesce (m : copy_map) (k : PhysReg) (c : copy_operation) : Except Fault copy_map :=
  let p := util_next_power_of_two (c.bytes + 1)
  if c.bytes < 8 ∧ c.op.isConstant = false ∧ k.reg_b % p = 0 ∧ c.op.physReg.reg_b % p = 0 then
    let other_def_reg := k.advance c.bytes
    let other_op_reg := c.op.physReg.advance c.bytes
    match map_find m other_def_reg with
    | none => .ok m
    | some other =>
      if other.op.physReg = other_op_reg ∧ c.bytes + other.bytes ≤ 8 then
        let bytes := c.bytes + other.bytes
        let m1 := map_set m k
          ⟨Operand.ofReg c.op.physReg (RegClass.get c.op.regClass.type bytes),
           ⟨k, RegClass.get c.def_.regClass.type bytes⟩, bytes, c.uses⟩
        if other_def_reg = k then .error .undefined_behaviour
        else .ok (map_erase m1 other_def_reg)
      else .ok m
  else .ok m

/-- The use-count loop for the entry `c` at key `k`: one increment of `uses[i]` for every
non-constant entry of `m` whose source range contains destination byte `i`. -/
def count_uses (m : copy_map) (k : PhysReg) (c : copy_operation) : copy_operation :=
  m.foldl (fun acc e =>
    if e.2.op.isConstant then acc
    else (List.range acc.bytes).foldl (fun a i =>
      if udiff (k.reg_b + i) e.2.op.physReg.reg_b < e.2.bytes
      then set_use a i (u8_inc (a.use i)) else a) acc) c

/-- One iteration of the first loop of `handle_operands` at iterator `k`; yields the map, the
next iterator and `writes_scc`. -/
def preprocess_step (pi : Pseudo_instruction) (m : copy_map) (k : PhysReg) (writes_scc : Bool) :
    Except Fault (copy_map × Option PhysReg × Bool) :=
  match map_find m k with
  | none => .error .undefined_behaviour
  | some c =>
    let w := writes_scc || decide (c.def_.physReg = scc)
    if pi.tmp_in_scc ∧ c.def_.physReg = pi.scratch_sgpr then .error .assertion
    else if k = c.op.physReg then .ok (map_erase m k, map_next m k, w)
    else
      match split_large m k c with
      | .error e => .error e
      | .ok m1 =>
        match map_find m1 k with
        | none => .error .undefined_behaviour
        | some c1 =>
          match try_coalesce m1 k c1 with
          | .error e => .error e
          | .ok m2 =>
            match map_find m2 k with
            | none => .error .undefined_behaviour
            | some c2 =>
              let m3 := map_set m2 k (count_uses m2 k c2)
              .ok (m3, map_next m3 k, w)

/-- The first loop of `handle_operands`. -/
def preprocess_loop (pi : Pseudo_instruction) :
    Nat → copy_map → Option PhysReg → Bool → Except Fault (copy_map × Bool)
  | _, m, none, w => .ok (m, w)
  | 0, _, some _, _ => .error .fuel
  | fuel + 1, m, some k, w =>
    match preprocess_step pi m k w with
    | .error e => .error e
    | .ok (m1, it1, w1) => preprocess_loop pi fuel m1 it1 w1

/-! ## `handle_operands`: the acyclic phase -/

/-- Local state of the loops of `handle_operands`: the map, the iterator `it`, the two flags,
the instructions appended so far, and two counters kept for the statements about the number of
`do_swap` calls and of `do_copy` calls that copied. -/
structure loop_state where
  m : copy_map
  it : Option PhysReg
  skip_partial_copies : Bool
  preserve_scc : Bool
  instrs : List Instruction
  swaps : Nat
  copies : Nat
deriving DecidableEq, Repr

/-- How one iteration of the acyclic loop ends: `return`, `break`, or the next iteration. -/
inductive step_outcome where
  | returned (s : loop_state)
  | broke (s : loop_state)
  | continued (s : loop_state)
deriving DecidableEq, Repr

/-- Decrement `uses[i]` of every entry for each byte `i` selected by `hit key i`. -/
def dec_uses (m : copy_map) (hit : PhysReg → Nat → Bool) : copy_map :=
  m.map (fun e => (e.1, (List.range e.2.bytes).foldl (fun a i =>
    if hit e.1 i then set_use a i (u8_dec (a.use i)) else a) e.2))

/-- In map order, the first entry whose operand is `reg_hi` gets its operand moved to `target`. -/
def redirect_first (m : copy_map) (reg_hi target : PhysReg) : copy_map :=
  match m with
  | [] => []
  | e :: rest =>
    if e.2.op.physReg = reg_hi then
      (e.1, ⟨e.2.op.setFixed target, e.2.def_, e.2.bytes, e.2.uses⟩) :: rest
    else e :: redirect_first rest reg_hi target

/-- The `while (reg_hi != ...)` loop of the GFX6/7 work-around for `p_split_vector`. -/
def split_vector_loop (k : PhysReg) : Nat → copy_map → PhysReg → Except Fault copy_map
  | 0, _, _ => .error .fuel
  | fuel + 1, m, reg_hi =>
    match map_find m k with
    | none => .error .undefined_behaviour
    | some c =>
      if reg_hi ≠ PhysReg.ofReg (c.op.physReg.reg + 1) then
        let m1 := redirect_first m reg_hi (k.advance reg_hi.byte)
        match map_find m1 k with
        | none => .error .undefined_behaviour
        | some c1 => split_vector_loop k fuel m1 (reg_hi.advance c1.bytes)
      else .ok m

/-- The GFX6/7 work-arounds applied to the entry `c` at `k` (chip < GFX8, `bytes < 4`). -/
def gfx67_workaround (pi : Pseudo_instruction) (m : copy_map) (k : PhysReg)
    (c : copy_operation) : Except Fault copy_map :=
  if k.byte = 0 ∧ c.op.physReg.byte = 0 ∧ c.is_used = false ∧ pi.opcode = .p_split_vector then
    split_vector_loop k 65536 m (c.op.physReg.advance c.bytes)
  else if k.byte ≠ 0 then
    if pi.opcode ≠ .p_create_vector then .error .assertion
    else
      let lo := PhysReg.ofReg k.reg
      match map_find m lo with
      | none => .ok m
      | some other =>
        if other.bytes ≠ k.byte then .error .assertion
        else
          let new_reg_hi := other.op.physReg.advance k.byte
          let m1 := map_set m k ⟨c.op, ⟨new_reg_hi, c.def_.regClass⟩, c.bytes, no_uses⟩
          match map_find m1 lo, map_find m1 k with
          | some o1, some c1 =>
            let ob := o1.bytes + c1.bytes
            let m2 := map_set m1 lo
              ⟨⟨o1.op.physReg, RegClass.get .vgpr ob, o1.op.isConstant, o1.op.constantValue64⟩,
               ⟨o1.def_.physReg, RegClass.get .vgpr ob⟩, ob, o1.uses⟩
            match map_find m2 new_reg_hi with
            | none => .ok m2
            | some _ =>
              .ok ((List.range c1.bytes).foldl (fun mm i =>
                match map_find mm new_reg_hi with
                | none => mm
                | some t => map_set mm new_reg_hi (set_use t i (u8_inc (t.use i)))) m2)
          | _, _ => .error .undefined_behaviour
  else .ok m

/-- The bit set `has_zero_use_bytes`. -/
def has_zero_use_bytes (c : copy_operation) : Nat :=
  (List.range c.bytes).foldl (fun h i => h ||| ((if c.use i = 0 then 1 else 0) <<< i)) 0

/-- The search that may set `partial_copy`: some entry has a byte read only by `c`, at a byte
of `c` that is free. -/
def allows_further_copy (m : copy_map) (c : copy_operation) : Bool :=
  m.any (fun e => (List.range e.2.bytes).any (fun i =>
    let distance := udiff (e.1.reg_b + i) c.op.physReg.reg_b
    decide (distance < c.bytes) && e.2.use i == 1 && c.use distance == 0))

/-- The loop that re-inserts the still-used portions of `original` after a partial copy. -/
def reinsert_loop (original : copy_operation) :
    Nat → Nat → copy_map → Except Fault copy_map
  | 0, offset, m => if offset < original.bytes then .error .fuel else .ok m
  | fuel + 1, offset, m =>
    if offset < original.bytes then
      if original.use offset = 0 then reinsert_loop original fuel (offset + 1) m
      else
        match split_copy offset original false 8 with
        | .error e => .error e
        | .ok (d, op) =>
          let copy : copy_operation :=
            (List.range d.bytes).foldl (fun a i => set_use a i (original.use (i + offset)))
              (copy_operation.init op d d.bytes)
          reinsert_loop original fuel (offset + d.bytes) (map_insert m d.physReg copy)
    else .ok m

/-- The pack check of the acyclic loop: the entry at `k` and the entry two bytes above are both
two-byte copies with no uses. -/
def pack_partner (m : copy_map) (k : PhysReg) (c : copy_operation) : Option copy_operation :=
  if k.byte = 0 ∧ c.bytes = 2 then
    match map_find m (k.advance 2) with
    | none => none
    | some other =>
      if other.bytes = 2 ∧ c.is_used = false ∧ other.is_used = false then some other else none
  else none

/-- The map after the entry `c` at `k` has been copied: erased when it had no uses, otherwise
replaced by its still-used portions. -/
def remainder_map (m : copy_map) (k : PhysReg) (c : copy_operation) : Except Fault copy_map :=
  if c.is_used = false then .ok (map_erase m k) else reinsert_loop c c.bytes 0 (map_erase m k)

/-- The block "reduce the number of uses of the operand reg by one" after copying `c`. -/
def release_uses (m : copy_map) (c : copy_operation) (did_copy : Bool) : copy_map :=
  if did_copy = true ∧ c.op.isConstant = false then
    dec_uses m (fun key i =>
      let distance := udiff (key.reg_b + i) c.op.physReg.reg_b
      decide (distance < c.bytes) && c.use distance == 0)
  else m

/-- The tail of an iteration of the acyclic loop, from `do_copy` on. -/
def acyclic_copy (chip : chip_class) (pi : Pseudo_instruction) (s : loop_state) (k : PhysReg)
    (c : copy_operation) : Except Fault step_outcome :=
  match do_copy chip c s.preserve_scc pi.scratch_sgpr with
  | .error e => .error e
  | .ok r =>
    match remainder_map s.m k c with
    | .error e => .error e
    | .ok m1 =>
      .ok (.continued ⟨release_uses m1 c r.did_copy, map_begin m1, r.did_copy, r.preserve_scc,
        s.instrs ++ r.instrs, s.swaps, if r.did_copy then s.copies + 1 else s.copies⟩)

/-- The block "check if we can pack one register at once" when it applies to the entry `c` at
`k` and its partner `other`. -/
def acyclic_pack (chip : chip_class) (s : loop_state) (k : PhysReg) (skip : Bool)
    (c other : copy_operation) : Except Fault step_outcome :=
  match do_pack_2x16 chip ⟨k, v1⟩ c.op other.op with
  | .error e => .error e
  | .ok is =>
    let m1 := map_erase (map_erase s.m k) (k.advance 2)
    let m2 := dec_uses m1 (fun key i =>
      decide (udiff (key.reg_b + i) c.op.physReg.reg_b < 2) ||
      decide (udiff (key.reg_b + i) other.op.physReg.reg_b < 2))
    .ok (.continued ⟨m2, map_begin m2, skip, s.preserve_scc, s.instrs ++ is, s.swaps,
      s.copies⟩)

/-- The GFX6/7 work-arounds, when their guard holds. -/
def apply_workaround (chip : chip_class) (pi : Pseudo_instruction) (m : copy_map) (k : PhysReg)
    (c : copy_operation) : Except Fault copy_map :=
  if chip.rank < 8 ∧ c.bytes < 4 then gfx67_workaround pi m k c else .ok m

/-- The decision of the block "find portions where the target reg is not used as operand for
any other copy": `true` when the entry is copied now, `false` when the iterator moves on. -/
def copies_now (m : copy_map) (c : copy_operation) (skip : Bool) : Bool :=
  if c.is_used then
    if c.op.isConstant ∨ skip = true then false
    else
      let h := has_zero_use_bytes c
      if h ≠ 0 then decide (h = 0xf ∨ h = 0xf0 ∨ allows_further_copy m c = true) else false
  else true

/-- The body of the acyclic loop for the entry `c` at iterator `k`. -/
def acyclic_body (chip : chip_class) (pi : Pseudo_instruction) (s : loop_state) (k : PhysReg)
    (skip : Bool) (c : copy_operation) : Except Fault step_outcome :=
  match pack_partner s.m k c with
  | some other => acyclic_pack chip s k skip c other
  | none =>
    match apply_workaround chip pi s.m k c with
    | .error e => .error e
    | .ok m1 =>
      match map_find m1 k with
      | none => .error .undefined_behaviour
      | some c1 =>
        if copies_now m1 c1 skip then
          acyclic_copy chip pi ⟨m1, some k, skip, s.preserve_scc, s.instrs, s.swaps, s.copies⟩
            k c1
        else
          .ok (.continued
            ⟨m1, map_next m1 k, skip, s.preserve_scc, s.instrs, s.swaps, s.copies⟩)

/-- The iterator and the flag `skip_partial_copies` after the test `it == copy_map.end()`;
`none` when the loop breaks. -/
def loop_position (s : loop_state) : Option (PhysReg × Bool) :=
  match s.it with
  | some k => some (k, s.skip_partial_copies)
  | none => if s.skip_partial_copies then (map_begin s.m).map (fun k => (k, false)) else none

/-- One iteration of the loop "handle paths in the location transfer graph". -/
def acyclic_step (chip : chip_class) (pi : Pseudo_instruction) (s : loop_state) :
    Except Fault step_outcome :=
  if s.m = [] then .ok (.returned s)
  else
    match loop_position s with
    | none => .ok (.broke s)
    | some (k, skip) =>
      match map_find s.m k with
      | none => .error .undefined_behaviour
      | some c => acyclic_body chip pi s k skip c

/-- The loop "handle paths in the location transfer graph"; `true` in the result means that
the function returned from inside the loop. -/
def acyclic_loop (chip : chip_class) (pi : Pseudo_instruction) :
    Nat → loop_state → Except Fault (Bool × loop_state)
  | 0, _ => .error .fuel
  | fuel + 1, s =>
    match acyclic_step chip pi s with
    | .error e => .error e
    | .ok (.returned s1) => .ok (true, s1)
    | .ok (.broke s1) => .ok (false, s1)
    | .ok (.continued s1) => acyclic_loop chip pi fuel s1

/-! ## `handle_operands`: the cyclic phase -/

/-- The variable `largest`: the maximal byte count in the map. -/
def largest_bytes (m : copy_map) : Nat := m.foldl (fun l e => max l e.2.bytes) 0

/-- The selection loop of the cyclic phase: starting from `begin()`, move to every later entry
that is strictly larger, and stop at one of `largest` bytes. -/
def select_swap_from (largest : Nat) (cur : PhysReg × copy_operation) :
    copy_map → PhysReg × copy_operation
  | [] => cur
  | e :: rest =>
    if e.2.bytes > cur.2.bytes then
      if e.2.bytes = largest then e else select_swap_from largest e rest
    else select_swap_from largest cur rest

def select_swap (largest : Nat) (m : copy_map) : Option (PhysReg × copy_operation) :=
  match m with
  | [] => none
  | e :: _ => some (select_swap_from largest e m)

/-- The call `memcpy(dst.uses, src + off, n)` into a fresh `uses` array. -/
def memcpy_uses (src : List Nat) (off n : Nat) : Except Fault (List Nat) :=
  if off + n ≤ 8 then .ok ((List.range 8).map (fun i => if i < n then src.getD (off + i) 0 else 0))
  else .error .undefined_behaviour

/-- The call `memset(uses + off, 0, n)`. -/
def memset_uses (uses : List Nat) (off n : Nat) : Except Fault (List Nat) :=
  if off + n ≤ 8 then
    .ok ((List.range 8).map (fun i => if off ≤ i ∧ i < off + n then 0 else uses.getD i 0))
  else .error .undefined_behaviour

/-- The block that splits a self-intersecting swap: yields the map with the `middle` and `end`
entries inserted and the shortened `swap`. -/
def split_self_intersecting (m : copy_map) (swap : copy_operation) :
    Except Fault (copy_map × copy_operation) :=
  let lower0 := if swap.def_.physReg.reg_b > swap.op.physReg.reg_b
    then swap.op.physReg else swap.def_.physReg
  let higher0 := if swap.def_.physReg.reg_b > swap.op.physReg.reg_b
    then swap.def_.physReg else swap.op.physReg
  if higher0.reg_b - lower0.reg_b < swap.bytes then
    let offset := higher0.reg_b - lower0.reg_b
    let type := swap.def_.regClass.type
    let lower1 := lower0.advance offset
    let higher1 := higher0.advance offset
    let middle_bytes := (swap.bytes + 4294967296 - (offset * 2) % 4294967296) % 4294967296
    match memcpy_uses swap.uses offset middle_bytes with
    | .error e => .error e
    | .ok mu =>
      let middle : copy_operation :=
        ⟨Operand.ofReg lower1 (RegClass.get type middle_bytes),
         ⟨higher1, RegClass.get type middle_bytes⟩, middle_bytes, mu⟩
      let m1 := map_insert m higher1 middle
      let lower2 := lower1.advance middle_bytes
      let higher2 := higher1.advance middle_bytes
      let end_bytes := (swap.bytes + 4294967296 - (offset + middle_bytes) % 4294967296)
        % 4294967296
      match memcpy_uses swap.uses (offset + middle_bytes) end_bytes with
      | .error e => .error e
      | .ok eu =>
        let end_ : copy_operation :=
          ⟨Operand.ofReg lower2 (RegClass.get type end_bytes),
           ⟨higher2, RegClass.get type end_bytes⟩, end_bytes, eu⟩
        let m2 := map_insert m1 higher2 end_
        match memset_uses swap.uses offset (swap.bytes - offset) with
        | .error e => .error e
        | .ok su => .ok (m2, ⟨swap.op, swap.def_, offset, su⟩)
  else .ok (m, swap)

/-- What the body of the target loop does with one target: stop the loop, or go on with the
remaining `bytes_left`. -/
inductive target_outcome where
  | stop (m : copy_map)
  | next (m : copy_map) (bytes_left : Nat)
deriving DecidableEq, Repr

/-- The body of the loop "change the operand reg of the target's uses and split uses if
needed" for the target at key `tk`. -/
def rewrite_target (swap : copy_operation) (m : copy_map) (tk : PhysReg) (bytes_left : Nat) :
    Except Fault target_outcome :=
  match map_find m tk with
  | none => .error .undefined_behaviour
  | some t =>
    if t.op.physReg = swap.def_.physReg ∧ swap.bytes = t.bytes then
      .ok (.stop (map_set m tk ⟨t.op.setFixed swap.op.physReg, t.def_, t.bytes, t.uses⟩))
    else
      match get_intersection_mask swap.def_.physReg.reg_b swap.bytes t.op.physReg.reg_b
          t.bytes with
      | .error e => .error e
      | .ok imask =>
        if imask = 0 then .ok (.next m bytes_left)
        else if ¬ (t.bytes < swap.bytes) then .error .assertion
        else
          let offset : Int := (t.op.physReg.reg_b : Int) - (swap.def_.physReg.reg_b : Int)
          let target_op_end : Int := (t.op.physReg.reg_b : Int) + (t.bytes : Int)
          let swap_def_end : Int := (swap.def_.physReg.reg_b : Int) + (swap.bytes : Int)
          let before_bytes : Int := MAX2i (-offset) 0
          let after_bytes : Int := MAX2i (target_op_end - swap_def_end) 0
          let middle_bytes : Int := (t.bytes : Int) - before_bytes - after_bytes
          let after_offset : Nat := ((before_bytes + middle_bytes) % 4294967296).toNat
          let m1 : Except Fault copy_map :=
            if after_bytes ≠ 0 then
              if after_offset = 0 then .error .assertion
              else
                match memcpy_uses t.uses after_offset after_bytes.toNat with
                | .error e => .error e
                | .ok u =>
                  let rc := RegClass.get t.op.regClass.type after_bytes.toNat
                  let d : Definition := ⟨t.def_.physReg.advance after_offset, rc⟩
                  .ok (map_insert m d.physReg
                    ⟨Operand.ofReg (t.op.physReg.advance after_offset) rc, d,
                     after_bytes.toNat, u⟩)
            else .ok m
          match m1 with
          | .error e => .error e
          | .ok m1 =>
            match map_find m1 tk with
            | none => .error .undefined_behaviour
            | some t1 =>
              let m2 : Except Fault copy_map :=
                if middle_bytes ≠ 0 then
                  let mb := (middle_bytes % 4294967296).toNat
                  match memcpy_uses t1.uses before_bytes.toNat mb with
                  | .error e => .error e
                  | .ok u =>
                    let rc := RegClass.get t1.op.regClass.type mb
                    let d : Definition := ⟨t1.def_.physReg.advance before_bytes.toNat, rc⟩
                    .ok (map_insert m1 d.physReg
                      ⟨Operand.ofReg (swap.op.physReg.advance (MAX2i offset 0).toNat) rc, d,
                       mb, u⟩)
                else .ok m1
              match m2 with
              | .error e => .error e
              | .ok m2 =>
                match map_find m2 tk with
                | none => .error .undefined_behaviour
                | some t2 =>
                  let m3 : Except Fault copy_map :=
                    if before_bytes ≠ 0 then
                      let bb := before_bytes.toNat
                      let rc := RegClass.get t2.op.regClass.type bb
                      match memset_uses t2.uses bb (8 - bb) with
                      | .error e => .error e
                      | .ok u =>
                        .ok (map_set m2 tk
                          ⟨Operand.ofReg t2.op.physReg rc, ⟨t2.def_.physReg, rc⟩, bb, u⟩)
                    else .ok m2
                  match m3 with
                  | .error e => .error e
                  | .ok m3 =>
                    let left := bytes_left &&& (4294967295 ^^^ imask)
                    if left = 0 then .ok (.stop m3) else .ok (.next m3 left)

/-- The target loop, from the iterator `target` on. -/
def rewrite_loop (swap : copy_operation) :
    Nat → copy_map → Option PhysReg → Nat → Except Fault copy_map
  | _, m, none, _ => .ok m
  | 0, _, some _, _ => .error .fuel
  | fuel + 1, m, some tk, bytes_left =>
    match rewrite_target swap m tk bytes_left with
    | .error e => .error e
    | .ok (.stop m1) => .ok m1
    | .ok (.next m1 left) => rewrite_loop swap fuel m1 (map_next m1 tk) left

/-- One iteration of the loop `while (!copy_map.empty())` of the cyclic phase. -/
def cyclic_step (chip : chip_class) (pi : Pseudo_instruction) (largest : Nat) (fuel : Nat)
    (s : loop_state) : Except Fault loop_state :=
  match select_swap largest s.m with
  | none => .ok s
  | some (k, c) =>
    if c.op.isConstant then .error .assertion
    else if c.def_.regClass ≠ c.op.regClass then .error .assertion
    else if k = c.op.physReg then
      .ok ⟨map_erase s.m k, s.it, s.skip_partial_copies, s.preserve_scc, s.instrs, s.swaps,
        s.copies⟩
    else if s.preserve_scc ∧ c.def_.regClass.type = .sgpr ∧ c.def_.physReg = pi.scratch_sgpr
    then .error .assertion
    else
      match split_self_intersecting s.m c with
      | .error e => .error e
      | .ok (m1, swap) =>
        match do_swap chip swap s.preserve_scc pi with
        | .error e => .error e
        | .ok is =>
          let m2 := map_erase m1 k
          match u_bit_consecutive 0 swap.bytes with
          | .error e => .error e
          | .ok bytes_left =>
            match rewrite_loop swap fuel m2 (map_begin m2) bytes_left with
            | .error e => .error e
            | .ok m3 =>
              .ok ⟨m3, s.it, s.skip_partial_copies, s.preserve_scc, s.instrs ++ is,
                s.swaps + 1, s.copies⟩

/-- The loop `while (!copy_map.empty())` of the cyclic phase. -/
def cyclic_loop (chip : chip_class) (pi : Pseudo_instruction) (largest : Nat) :
    Nat → loop_state → Except Fault loop_state
  | 0, s => if s.m = [] then .ok s else .error .fuel
  | fuel + 1, s =>
    if s.m = [] then .ok s
    else
      match cyclic_step chip pi largest (fuel + 1) s with
      | .error e => .error e
      | .ok s1 => cyclic_loop chip pi largest fuel s1

/-! ## `handle_operands` -/

/-- Index of the counter of emitted copies in `Program::statistics`. -/
def statistic_copies : Nat := 2

/-- The fields of `Program` read or written by the lowering. -/
structure Program where
  chip_class : chip_class
  wave_size : Nat
  statistics : Nat → Nat

structure lower_context where
  program : Program
  instructions : List Instruction

/-- What `handle_operands` leaves behind: the copy map, the context, and the counters of
`do_swap` calls and of `do_copy` calls that copied. -/
structure operands_result where
  copy_map : copy_map
  ctx : lower_context
  swaps : Nat
  copies : Nat

/-- The statement `statistics[statistic_copies] += instructions.size() - before` together with
the instructions appended by the call. -/
def finish_operands (ctx : lower_context) (s : loop_state) : operands_result :=
  let num_instructions_before := ctx.instructions.length
  let instructions := ctx.instructions ++ s.instrs
  ⟨s.m,
   ⟨⟨ctx.program.chip_class, ctx.program.wave_size,
      fun i => if i = statistic_copies then
        (ctx.program.statistics i + (instructions.length - num_instructions_before))
          % 4294967296
      else ctx.program.statistics i⟩,
    instructions⟩,
   s.swaps, s.copies⟩

/-- The function `handle_operands`; `fuel` bounds the number of iterations of each loop.  The
parameter `chip_class` is not read by the source, which uses `ctx->program->chip_class`. -/
def handle_operands (fuel : Nat) (copy_map : copy_map) (ctx : lower_context)
    (_chip_class : chip_class) (pi : Pseudo_instruction) : Except Fault operands_result :=
  match preprocess_loop pi fuel copy_map (map_begin copy_map) false with
  | .error e => .error e
  | .ok (m, writes_scc) =>
    let preserve_scc := pi.tmp_in_scc && !writes_scc
    match acyclic_loop ctx.program.chip_class pi fuel
        ⟨m, map_begin m, true, preserve_scc, [], 0, 0⟩ with
    | .error e => .error e
    | .ok (true, s) => .ok (finish_operands ctx s)
    | .ok (false, s) =>
      match cyclic_loop ctx.program.chip_class pi (largest_bytes s.m) fuel s with
      | .error e => .error e
      | .ok s1 => .ok (finish_operands ctx s1)

/-! ## Reference interpreter for the instructions of the copy lowering

The register file is byte-addressed by `reg_b`; every lane executes the same moves, so one
lane is modelled.  `scc` is the dword at register 253 holding 0 or 1. -/

abbrev reg_file := Nat → Nat

/-- Overwrite the `n` bytes from address `a` with `f 0, ..., f (n-1)`. -/
def write_fn (st : reg_file) (a n : Nat) (f : Nat → Nat) : reg_file :=
  fun x => if a ≤ x ∧ x < a + n then f (x - a) else st x

/-- Byte `i` of a number. -/
def byte_of (v i : Nat) : Nat := (v / 256 ^ i) % 256

/-- Byte `i` of an operand read at byte address `base`: constants yield their value, register
numbers 128..208 the inline constants 0..64 and -1..-16. -/
def operand_byte (st : reg_file) (base : Nat) (o : Operand) (i : Nat) : Nat :=
  if o.isConstant then byte_of o.constantValue64 i
  else if 128 ≤ o.physReg.reg ∧ o.physReg.reg ≤ 192 then byte_of (o.physReg.reg - 128) i
  else if 193 ≤ o.physReg.reg ∧ o.physReg.reg ≤ 208 then
    byte_of (18446744073709551616 - (o.physReg.reg - 192)) i
  else st (base + i)

/-- Little-endian value of the first `n` bytes of an operand read at `base`. -/
def operand_val (st : reg_file) (base : Nat) (o : Operand) : Nat → Nat
  | 0 => 0
  | n + 1 => operand_val st base o n + operand_byte st base o n * 256 ^ n

/-- Address of the dword that holds a register byte. -/
def dword_base (r : PhysReg) : Nat := r.reg * 4

/-- The value a 32-bit ALU instruction reads for an operand: the whole dword register. -/
def src32 (st : reg_file) (o : Operand) : Nat := operand_val st (dword_base o.physReg) o 4

/-- Write a 32-bit result to the dword register of a definition. -/
def dst32 (st : reg_file) (d : Definition) (v : Nat) : reg_file :=
  write_fn st (dword_base d.physReg) 4 (byte_of v)

/-- Upper (`true`) or lower 16 bits of a 32-bit value. -/
def half_of (v : Nat) (high : Bool) : Nat := if high then (v / 65536) % 65536 else v % 65536

/-- Effect of one instruction of the copy lowering; `none` for an instruction that the copy
lowering does not emit. -/
def step (i : Instruction) (st : reg_file) : Option reg_file :=
  match i.opcode, i.definitions, i.operands, i.mods with
  | .copy, [d], [o], .none =>
    some (write_fn st d.physReg.reg_b d.bytes (operand_byte st o.physReg.reg_b o))
  | .v_mov_b32, [d], [o], .none =>
    some (write_fn st (dword_base d.physReg) 4 (operand_byte st (dword_base o.physReg) o))
  | .s_mov_b32, [d], [o], .none =>
    some (write_fn st (dword_base d.physReg) 4 (operand_byte st (dword_base o.physReg) o))
  | .s_mov_b64, [d], [o], .none =>
    some (write_fn st (dword_base d.physReg) 8 (operand_byte st (dword_base o.physReg) o))
  | .s_cmp_lg_i32, [d], [a, b], .none =>
    some (dst32 st d (if src32 st a ≠ src32 st b then 1 else 0))
  | .v_swap_b32, [d0, d1], [o0, o1], .none =>
    some (fun x =>
      if dword_base d0.physReg ≤ x ∧ x < dword_base d0.physReg + 4 then
        operand_byte st (dword_base o0.physReg) o0 (x - dword_base d0.physReg)
      else if dword_base d1.physReg ≤ x ∧ x < dword_base d1.physReg + 4 then
        operand_byte st (dword_base o1.physReg) o1 (x - dword_base d1.physReg)
      else st x)
  | .v_xor_b32, [d], [a, b], .none =>
    some (write_fn st (dword_base d.physReg) 4 (fun j =>
      operand_byte st (dword_base a.physReg) a j ^^^ operand_byte st (dword_base b.physReg) b j))
  | .v_xor_b32, [d], [a, b], .sdwa .isra .isra =>
    some (write_fn st d.physReg.reg_b d.bytes (fun j =>
      operand_byte st a.physReg.reg_b a j ^^^ operand_byte st b.physReg.reg_b b j))
  | .v_and_b32, [d], [a, b], .none =>
    some (write_fn st (dword_base d.physReg) 4 (fun j =>
      operand_byte st (dword_base a.physReg) a j &&& operand_byte st (dword_base b.physReg) b j))
  | .v_or_b32, [d], [a, b], .none =>
    some (write_fn st (dword_base d.physReg) 4 (fun j =>
      operand_byte st (dword_base a.physReg) a j ||| operand_byte st (dword_base b.physReg) b j))
  | .s_xor_b32, [d, c], [a, b], .none =>
    let r := src32 st a ^^^ src32 st b
    some (dst32 (dst32 st d r) c (if r ≠ 0 then 1 else 0))
  | .s_xor_b64, [d, c], [a, b], .none =>
    let r := operand_val st (dword_base a.physReg) a 8 ^^^
      operand_val st (dword_base b.physReg) b 8
    some (dst32 (write_fn st (dword_base d.physReg) 8 (byte_of r)) c (if r ≠ 0 then 1 else 0))
  | .v_lshrrev_b32, [d], [sh, v], .none =>
    some (dst32 st d (src32 st v / 2 ^ (src32 st sh % 32)))
  | .v_lshlrev_b32, [d], [sh, v], .none =>
    some (dst32 st d ((src32 st v * 2 ^ (src32 st sh % 32)) % 4294967296))
  | .v_cvt_pk_u16_u32, [d], [a, b], .none =>
    some (dst32 st d (min (src32 st a) 65535 + 65536 * min (src32 st b) 65535))
  | .v_mul_u32_u24, [d], [a, b], .none =>
    some (dst32 st d (((src32 st a % 16777216) * (src32 st b % 16777216)) % 4294967296))
  | .v_mul_lo_u32, [d], [a, b], .none =>
    some (dst32 st d ((src32 st a * src32 st b) % 4294967296))
  | .v_pk_add_u16, [d], [a, b], .opsel_p lo hi =>
    let rl := (half_of (src32 st a) (lo % 2 = 1) + half_of (src32 st b) (lo / 2 % 2 = 1)) % 65536
    let rh := (half_of (src32 st a) (hi % 2 = 1) + half_of (src32 st b) (hi / 2 % 2 = 1)) % 65536
    some (dst32 st d (rl + 65536 * rh))
  | .v_pack_b32_f16, [d], [a, b], .opsel v =>
    some (dst32 st d
      (half_of (src32 st a) (v % 2 = 1) + 65536 * half_of (src32 st b) (v / 2 % 2 = 1)))
  | _, _, _, _ => none

/-- Execute an instruction list in order. -/
def run : List Instruction → reg_file → Option reg_file
  | [], st => some st
  | i :: rest, st =>
    match step i st with
    | none => none
    | some st1 => run rest st1

/-! ## Reduction lowering: operators, opcode table, identities -/

/-- The enumeration `ReduceOp`. -/
inductive ReduceOp where
  | iadd8 | iadd16 | iadd32 | iadd64
  | imul8 | imul16 | imul32 | imul64
  | fadd16 | fadd32 | fadd64
  | fmul16 | fmul32 | fmul64
  | imin8 | imin16 | imin32 | imin64
  | imax8 | imax16 | imax32 | imax64
  | umin8 | umin16 | umin32 | umin64
  | umax8 | umax16 | umax32 | umax64
  | fmin16 | fmin32 | fmin64
  | fmax16 | fmax32 | fmax64
  | iand8 | iand16 | iand32 | iand64
  | ior8 | ior16 | ior32 | ior64
  | ixor8 | ixor16 | ixor32 | ixor64
deriving DecidableEq, Repr

/-- The function `get_reduce_opcode`. -/
def get_reduce_opcode (chip : chip_class) (op : ReduceOp) : aco_opcode :=
  match op with
  | .iadd8 | .iadd16 =>
    if chip.rank ≥ 10 then .v_add_u32 else if chip.rank ≥ 8 then .v_add_u16 else .v_add_co_u32
  | .imul8 | .imul16 =>
    if chip.rank ≥ 10 then .v_mul_lo_u16_e64 else if chip.rank ≥ 8 then .v_mul_lo_u16
    else .v_mul_u32_u24
  | .fadd16 => .v_add_f16
  | .fmul16 => .v_mul_f16
  | .imax8 | .imax16 =>
    if chip.rank ≥ 10 then .v_max_i32 else if chip.rank ≥ 8 then .v_max_i16 else .v_max_i32
  | .imin8 | .imin16 =>
    if chip.rank ≥ 10 then .v_min_i32 else if chip.rank ≥ 8 then .v_min_i16 else .v_min_i32
  | .umin8 | .umin16 =>
    if chip.rank ≥ 10 then .v_min_u32 else if chip.rank ≥ 8 then .v_min_u16 else .v_min_u32
  | .umax8 | .umax16 =>
    if chip.rank ≥ 10 then .v_max_u32 else if chip.rank ≥ 8 then .v_max_u16 else .v_max_u32
  | .fmin16 => .v_min_f16
  | .fmax16 => .v_max_f16
  | .iadd32 => if chip.rank ≥ 9 then .v_add_u32 else .v_add_co_u32
  | .imul32 => .v_mul_lo_u32
  | .fadd32 => .v_add_f32
  | .fmul32 => .v_mul_f32
  | .imax32 => .v_max_i32
  | .imin32 => .v_min_i32
  | .umin32 => .v_min_u32
  | .umax32 => .v_max_u32
  | .fmin32 => .v_min_f32
  | .fmax32 => .v_max_f32
  | .iand8 | .iand16 | .iand32 => .v_and_b32
  | .ixor8 | .ixor16 | .ixor32 => .v_xor_b32
  | .ior8 | .ior16 | .ior32 => .v_or_b32
  | .iadd64 => .num_opcodes
  | .imul64 => .num_opcodes
  | .fadd64 => .v_add_f64
  | .fmul64 => .v_mul_f64
  | .imin64 => .num_opcodes
  | .imax64 => .num_opcodes
  | .umin64 => .num_opcodes
  | .umax64 => .num_opcodes
  | .fmin64 => .v_min_f64
  | .fmax64 => .v_max_f64
  | .iand64 => .num_opcodes
  | .ior64 => .num_opcodes
  | .ixor64 => .num_opcodes

/-- The table lookup `instr_info.format[opcode] == Format::VOP3` for the opcodes that
`get_reduce_opcode` returns: the 64-bit float operations, `v_mul_lo_u32` and
`v_mul_lo_u16_e64` are encoded as VOP3, the others as VOP2. -/
def format_is_vop3 (opcode : aco_opcode) : Bool :=
  match opcode with
  | .v_mul_lo_u32 | .v_mul_lo_u16_e64 | .v_add_f64 | .v_mul_f64 | .v_min_f64 | .v_max_f64 => true
  | _ => false

/-- The function `is_vop3_reduce_opcode`. -/
def is_vop3_reduce_opcode (opcode : aco_opcode) : Bool :=
  if opcode = .num_opcodes then true else format_is_vop3 opcode

/-- The function `get_reduction_identity` (as a 32-bit word). -/
def get_reduction_identity (op : ReduceOp) (idx : Nat) : Nat :=
  match op with
  | .iadd8 | .iadd16 | .iadd32 | .iadd64 | .fadd16 | .fadd32 | .fadd64
  | .ior8 | .ior16 | .ior32 | .ior64 | .ixor8 | .ixor16 | .ixor32 | .ixor64
  | .umax8 | .umax16 | .umax32 | .umax64 => 0
  | .imul8 | .imul16 | .imul32 | .imul64 => if idx ≠ 0 then 0 else 1
  | .fmul16 => 0x3c00
  | .fmul32 => 0x3f800000
  | .fmul64 => if idx ≠ 0 then 0x3ff00000 else 0
  | .imin8 => 0x7f
  | .imin16 => 0x7fff
  | .imin32 => 0x7fffffff
  | .imin64 => if idx ≠ 0 then 0x7fffffff else 0xffffffff
  | .imax8 => 0xffffff80
  | .imax16 => 0xffff8000
  | .imax32 => 0x80000000
  | .imax64 => if idx ≠ 0 then 0x80000000 else 0
  | .umin8 | .umin16 | .iand8 | .iand16 => 0xffffffff
  | .umin32 | .umin64 | .iand32 | .iand64 => 0xffffffff
  | .fmin16 => 0x7c00
  | .fmin32 => 0x7f800000
  | .fmin64 => if idx ≠ 0 then 0x7ff00000 else 0
  | .fmax16 => 0xfc00
  | .fmax32 => 0xff800000
  | .fmax64 => if idx ≠ 0 then 0xfff00000 else 0

/-! ## Reduction lowering: emitters -/

/-- DPP controls and swizzle patterns of the IR header. -/
def dpp_quad_perm (a b c d : Nat) : Nat := a ||| (b <<< 2) ||| (c <<< 4) ||| (d <<< 6)
def dpp_row_sr (n : Nat) : Nat := 0x110 ||| n
def dpp_wf_sr1 : Nat := 0x138
def dpp_row_mirror : Nat := 0x140
def dpp_row_half_mirror : Nat := 0x141
def dpp_row_bcast15 : Nat := 0x142
def dpp_row_bcast31 : Nat := 0x143
def ds_pattern_bitmode (and_mask or_mask xor_mask : Nat) : Nat :=
  and_mask ||| (or_mask <<< 5) ||| (xor_mask <<< 10)

/-- The constant operand `Operand(UINT64_MAX)`. -/
def Operand.all_ones64 : Operand := ⟨PhysReg.ofReg 193, s2, true, 18446744073709551615⟩

/-- Operand `Operand(PhysReg{r + i}, v1)` or its scalar counterpart. -/
def vop (r : PhysReg) (i : Nat) : Operand := Operand.ofReg (r.plus i) v1
def sop (r : PhysReg) (i : Nat) : Operand := Operand.ofReg (r.plus i) s1
def vdef (r : PhysReg) (i : Nat) : Definition := ⟨r.plus i, v1⟩
def sdef (r : PhysReg) (i : Nat) : Definition := ⟨r.plus i, s1⟩

/-- The wave-size dependent lane-mask class `bld.lm`. -/
def lane_mask_class (wave_size : Nat) : RegClass := if wave_size = 64 then s2 else s1

/-- The helper `emit_vadd32` (lines 159-166). The builder call `vadd32` it wraps is generated
code: without carry-out it gives `v_add_co_u32` with a lane-mask carry definition before GFX9
and `v_add_u32` from GFX9 on; the helper pins a carry definition to `vcc`. -/
def emit_vadd32 (p : Program) (d : Definition) (src0 src1 : Operand) : List Instruction :=
  if p.chip_class.rank < 9 then
    [Instruction.plain .v_add_co_u32 [d, ⟨vcc, lane_mask_class p.wave_size⟩] [src0, src1]]
  else [Instruction.plain .v_add_u32 [d] [src0, src1]]

/-- The comparison opcode chosen for a 64-bit minimum or maximum. -/
def int64_cmp_opcode (op : ReduceOp) : aco_opcode :=
  match op with
  | .umin64 => .v_cmp_gt_u64
  | .umax64 => .v_cmp_lt_u64
  | .imin64 => .v_cmp_gt_i64
  | .imax64 => .v_cmp_lt_i64
  | _ => .num_opcodes

/-- The function `emit_int64_op`. -/
def emit_int64_op (p : Program) (dst_reg src0_reg src1_reg vtmp : PhysReg) (op : ReduceOp) :
    Except Fault (List Instruction) :=
  let lm := lane_mask_class p.wave_size
  let dst0 : Definition := ⟨dst_reg, v1⟩
  let dst1 := vdef dst_reg 1
  let src0_rc := if src0_reg.reg ≥ 256 then v1 else s1
  let src0_is_s := decide (src0_rc = s1)
  let minmax := decide (op = .umin64 ∨ op = .umax64 ∨ op = .imin64 ∨ op = .imax64)
  let to_vtmp := src0_is_s && (decide (op = .imul64) || minmax)
  let hi_to_vtmp := src0_is_s && !to_vtmp && decide (op = .iadd64)
  if (to_vtmp || hi_to_vtmp) && decide (vtmp.reg = 0) then .error .assertion
  else
    let pre : List Instruction :=
      if to_vtmp then
        [Instruction.plain .v_mov_b32 [⟨vtmp, v1⟩] [Operand.ofReg src0_reg src0_rc],
         Instruction.plain .v_mov_b32 [vdef vtmp 1] [Operand.ofReg (src0_reg.plus 1) src0_rc]]
      else if hi_to_vtmp then
        [Instruction.plain .v_mov_b32 [vdef vtmp 1] [Operand.ofReg (src0_reg.plus 1) src0_rc]]
      else []
    let src0_reg1 := if to_vtmp then vtmp else src0_reg
    let src0_lo := if to_vtmp then Operand.ofReg vtmp v1 else Operand.ofReg src0_reg src0_rc
    let src0_hi := if to_vtmp ∨ hi_to_vtmp then vop vtmp 1
      else Operand.ofReg (src0_reg.plus 1) src0_rc
    let src0_64 := if to_vtmp then Operand.ofReg vtmp v2
      else Operand.ofReg src0_reg (if src0_reg.reg ≥ 256 then v2 else s2)
    let src1_lo := Operand.ofReg src1_reg v1
    let src1_hi := vop src1_reg 1
    let src1_64 := Operand.ofReg src1_reg v2
    let vccd : Definition := ⟨vcc, lm⟩
    let vcco := Operand.ofReg vcc lm
    match op with
    | .iadd64 =>
      .ok (pre ++
        [Instruction.plain (if p.chip_class.rank ≥ 10 then .v_add_co_u32_e64 else .v_add_co_u32)
           [dst0, vccd] [src0_lo, src1_lo],
         Instruction.plain .v_addc_co_u32 [dst1, vccd]
           [src0_hi, src1_hi, vcco]])
    | .iand64 =>
      .ok (pre ++
        [Instruction.plain .v_and_b32 [dst0] [src0_lo, src1_lo],
         Instruction.plain .v_and_b32 [dst1] [src0_hi, src1_hi]])
    | .ior64 =>
      .ok (pre ++
        [Instruction.plain .v_or_b32 [dst0] [src0_lo, src1_lo],
         Instruction.plain .v_or_b32 [dst1] [src0_hi, src1_hi]])
    | .ixor64 =>
      .ok (pre ++
        [Instruction.plain .v_xor_b32 [dst0] [src0_lo, src1_lo],
         Instruction.plain .v_xor_b32 [dst1] [src0_hi, src1_hi]])
    | .umin64 | .umax64 | .imin64 | .imax64 =>
      .ok (pre ++
        [Instruction.plain (int64_cmp_opcode op) [vccd] [src0_64, src1_64],
         Instruction.plain .v_cndmask_b32 [dst0] [src0_lo, src1_lo, vcco],
         Instruction.plain .v_cndmask_b32 [dst1] [src0_hi, src1_hi, vcco]])
    | .imul64 =>
      let sw := decide (src1_reg = dst_reg)
      let a_reg := if sw then src1_reg else src0_reg1
      let b_reg := if sw then src0_reg1 else src1_reg
      let a_lo := if sw then src1_lo else src0_lo
      let a_hi := if sw then src1_hi else src0_hi
      let b_lo := if sw then src0_lo else src1_lo
      let b_hi := if sw then src0_hi else src1_hi
      if a_reg = b_reg then .error .assertion
      else
        let tmp0_def := vdef a_reg 1
        let tmp1_def := vdef b_reg 1
        let tmp0_op := a_hi
        let tmp1_op := b_hi
        .ok (pre ++
          [Instruction.plain .v_mul_lo_u32 [tmp0_def] [a_hi, b_lo],
           Instruction.plain .v_mul_lo_u32 [tmp1_def] [a_lo, b_hi]] ++
          emit_vadd32 p tmp0_def tmp1_op tmp0_op ++
          [Instruction.plain .v_mul_hi_u32 [tmp1_def] [a_lo, b_lo]] ++
          emit_vadd32 p dst1 tmp0_op tmp1_op ++
          [Instruction.plain .v_mul_lo_u32 [dst0] [a_lo, b_lo]])
    | _ => .ok pre

/-- A DPP-encoded instruction (`bld.vop1_dpp`, `bld.vop2_dpp`). -/
def Instruction.with_dpp (o : aco_opcode) (ds : List Definition) (os : List Operand)
    (dpp_ctrl row_mask bank_mask : Nat) (bound_ctrl : Bool) : Instruction :=
  ⟨o, ds, os, .dpp dpp_ctrl row_mask bank_mask bound_ctrl⟩

/-- The function `emit_int64_dpp_op`; `identity` is `none` for a null pointer. -/
def emit_int64_dpp_op (p : Program) (dst_reg src0_reg src1_reg vtmp_reg : PhysReg)
    (op : ReduceOp) (dpp_ctrl row_mask bank_mask : Nat) (bound_ctrl : Bool)
    (identity : Option (Operand × Operand)) : List Instruction :=
  let lm := lane_mask_class p.wave_size
  let dst0 : Definition := ⟨dst_reg, v1⟩
  let dst1 := vdef dst_reg 1
  let vtmp_def0 : Definition := ⟨vtmp_reg, v1⟩
  let vtmp_def1 := vdef vtmp_reg 1
  let src0_lo := Operand.ofReg src0_reg v1
  let src0_hi := vop src0_reg 1
  let src1_lo := Operand.ofReg src1_reg v1
  let src1_hi := vop src1_reg 1
  let src1_64 := Operand.ofReg src1_reg v2
  let vtmp_op0 := Operand.ofReg vtmp_reg v1
  let vtmp_op1 := vop vtmp_reg 1
  let vtmp_op64 := Operand.ofReg vtmp_reg v2
  let vccd : Definition := ⟨vcc, lm⟩
  let vcco := Operand.ofReg vcc lm
  let dpp := fun (o : aco_opcode) (ds : List Definition) (os : List Operand) =>
    Instruction.with_dpp o ds os dpp_ctrl row_mask bank_mask bound_ctrl
  let id_mov := fun (d : Definition) (pick : Operand × Operand → Operand) =>
    match identity with
    | some ident => [Instruction.plain .v_mov_b32 [d] [pick ident]]
    | none => []
  match op with
  | .iadd64 =>
    (if p.chip_class.rank ≥ 10 then
      id_mov vtmp_def0 (fun ident => ident.1) ++
      [dpp .v_mov_b32 [vtmp_def0] [src0_lo],
       Instruction.plain .v_add_co_u32_e64 [dst0, vccd] [vtmp_op0, src1_lo]]
    else [dpp .v_add_co_u32 [dst0, vccd] [src0_lo, src1_lo]]) ++
    [dpp .v_addc_co_u32 [dst1, vccd] [src0_hi, src1_hi, vcco]]
  | .iand64 =>
    [dpp .v_and_b32 [dst0] [src0_lo, src1_lo], dpp .v_and_b32 [dst1] [src0_hi, src1_hi]]
  | .ior64 =>
    [dpp .v_or_b32 [dst0] [src0_lo, src1_lo], dpp .v_or_b32 [dst1] [src0_hi, src1_hi]]
  | .ixor64 =>
    [dpp .v_xor_b32 [dst0] [src0_lo, src1_lo], dpp .v_xor_b32 [dst1] [src0_hi, src1_hi]]
  | .umin64 | .umax64 | .imin64 | .imax64 =>
    id_mov vtmp_def0 (fun ident => ident.1) ++ id_mov vtmp_def1 (fun ident => ident.2) ++
    [dpp .v_mov_b32 [vtmp_def0] [src0_lo],
     dpp .v_mov_b32 [vtmp_def1] [src0_hi],
     Instruction.plain (int64_cmp_opcode op) [vccd] [vtmp_op64, src1_64],
     Instruction.plain .v_cndmask_b32 [dst0] [vtmp_op0, src1_lo, vcco],
     Instruction.plain .v_cndmask_b32 [dst1] [vtmp_op1, src1_hi, vcco]]
  | .imul64 =>
    id_mov vtmp_def0 (fun ident => ident.2) ++
    [dpp .v_mov_b32 [vtmp_def0] [src0_hi],
     Instruction.plain .v_mul_lo_u32 [vtmp_def1] [vtmp_op0, src1_lo]] ++
    id_mov vtmp_def0 (fun ident => ident.1) ++
    [dpp .v_mov_b32 [vtmp_def0] [src0_lo],
     Instruction.plain .v_mul_lo_u32 [vtmp_def0] [vtmp_op0, src1_hi]] ++
    emit_vadd32 p vtmp_def1 vtmp_op0 vtmp_op1 ++
    id_mov vtmp_def0 (fun ident => ident.1) ++
    [dpp .v_mov_b32 [vtmp_def0] [src0_lo],
     Instruction.plain .v_mul_hi_u32 [vtmp_def0] [vtmp_op0, src1_lo]] ++
    emit_vadd32 p dst1 vtmp_op1 vtmp_op0 ++
    id_mov vtmp_def0 (fun ident => ident.1) ++
    [dpp .v_mov_b32 [vtmp_def0] [src0_lo],
     Instruction.plain .v_mul_lo_u32 [dst0] [vtmp_op0, src1_lo]]
  | _ => []

/-- The function `emit_dpp_op`. -/
def emit_dpp_op (p : Program) (dst_reg src0_reg src1_reg vtmp : PhysReg) (op : ReduceOp)
    (size dpp_ctrl row_mask bank_mask : Nat) (bound_ctrl : Bool)
    (identity : Option (Operand × Operand)) : List Instruction :=
  let rc := RegClass.ofSize .vgpr size
  let dst : Definition := ⟨dst_reg, rc⟩
  let src0 := Operand.ofReg src0_reg rc
  let src1 := Operand.ofReg src1_reg rc
  let opcode := get_reduce_opcode p.chip_class op
  if is_vop3_reduce_opcode opcode = false then
    if opcode = .v_add_co_u32 then
      [Instruction.with_dpp opcode [dst, ⟨vcc, lane_mask_class p.wave_size⟩] [src0, src1]
        dpp_ctrl row_mask bank_mask bound_ctrl]
    else [Instruction.with_dpp opcode [dst] [src0, src1] dpp_ctrl row_mask bank_mask bound_ctrl]
  else if opcode = .num_opcodes then
    emit_int64_dpp_op p dst_reg src0_reg src1_reg vtmp op dpp_ctrl row_mask bank_mask bound_ctrl
      identity
  else
    (match identity with
     | some ident =>
       Instruction.plain .v_mov_b32 [⟨vtmp, v1⟩] [ident.1] ::
         (if size ≥ 2 then [Instruction.plain .v_mov_b32 [vdef vtmp 1] [ident.2]] else [])
     | none => []) ++
    (List.range size).map (fun i =>
      Instruction.with_dpp .v_mov_b32 [vdef vtmp i] [vop src0_reg i]
        dpp_ctrl row_mask bank_mask bound_ctrl) ++
    [Instruction.plain opcode [dst] [Operand.ofReg vtmp rc, src1]]

/-- The function `emit_op`. -/
def emit_op (p : Program) (dst_reg src0_reg src1_reg vtmp : PhysReg) (op : ReduceOp)
    (size : Nat) : Except Fault (List Instruction) :=
  let rc := RegClass.ofSize .vgpr size
  let dst : Definition := ⟨dst_reg, rc⟩
  let src0 := Operand.ofReg src0_reg
    (RegClass.ofSize (if src0_reg.reg ≥ 256 then .vgpr else .sgpr) size)
  let src1 := Operand.ofReg src1_reg rc
  let opcode := get_reduce_opcode p.chip_class op
  if opcode = .num_opcodes then emit_int64_op p dst_reg src0_reg src1_reg vtmp op
  else if is_vop3_reduce_opcode opcode then .ok [Instruction.plain opcode [dst] [src0, src1]]
  else if opcode = .v_add_co_u32 then
    .ok [Instruction.plain opcode [dst, ⟨vcc, lane_mask_class p.wave_size⟩] [src0, src1]]
  else .ok [Instruction.plain opcode [dst] [src0, src1]]

/-- The function `emit_dpp_mov`. -/
def emit_dpp_mov (dst src0 : PhysReg) (size dpp_ctrl row_mask bank_mask : Nat)
    (bound_ctrl : Bool) : List Instruction :=
  (List.range size).map (fun i =>
    Instruction.with_dpp .v_mov_b32 [vdef dst i] [vop src0 i] dpp_ctrl row_mask bank_mask
      bound_ctrl)

/-- The function `emit_ds_swizzle`. -/
def emit_ds_swizzle (dst src : PhysReg) (size ds_pattern : Nat) : List Instruction :=
  (List.range size).map (fun i =>
    ⟨.ds_swizzle_b32, [vdef dst i], [vop src i], .imm ds_pattern⟩)

/-- Concatenate emitted instruction lists, stopping at the first fault. -/
def emit_all : List (Except Fault (List Instruction)) → Except Fault (List Instruction)
  | [] => .ok []
  | x :: rest =>
    match x with
    | .error e => .error e
    | .ok is =>
      match emit_all rest with
      | .error e => .error e
      | .ok js => .ok (is ++ js)

def emitted (is : List Instruction) : Except Fault (List Instruction) := .ok is

/-- The helper `bld.readlane(def, vsrc, lane)`. -/
def readlane (d : Definition) (vsrc lane : Operand) : Instruction :=
  Instruction.plain .v_readlane_b32 [d] [vsrc, lane]

/-- The helper `bld.writelane(def, val, lane, vsrc)`. -/
def writelane (d : Definition) (val lane vsrc : Operand) : Instruction :=
  Instruction.plain .v_writelane_b32 [d] [val, lane, vsrc]

/-- The instruction `v_permlanex16_b32 dst, src, sel, sel` with the given `opsel`. -/
def permlanex16 (d : Definition) (src : Operand) (sel opsel : Nat) : Instruction :=
  ⟨.v_permlanex16_b32, [d], [src, Operand.c32 sel, Operand.c32 sel], .opsel opsel⟩

/-- The wave-size dependent move `Builder::s_mov` into `exec`. -/
def s_mov_exec (p : Program) (o : Operand) : Instruction :=
  Instruction.plain (if p.wave_size = 64 then .s_mov_b64 else .s_mov_b32)
    [⟨exec, lane_mask_class p.wave_size⟩] [o]

/-- Set both halves of `exec` with two `s_mov_b32`, the second reading `exec_lo`. -/
def set_exec_halves (v : Nat) : List Instruction :=
  [Instruction.plain .s_mov_b32 [⟨exec_lo, s1⟩] [Operand.c32 v],
   Instruction.plain .s_mov_b32 [⟨exec_hi, s1⟩] [Operand.ofReg exec_lo s1]]

/-- Set both halves of `exec` with two `s_bfm_b32 size, offset`. -/
def bfm_exec_halves (size offset : Nat) : List Instruction :=
  [Instruction.plain .s_bfm_b32 [⟨exec_lo, s1⟩] [Operand.c32 size, Operand.c32 offset],
   Instruction.plain .s_bfm_b32 [⟨exec_hi, s1⟩] [Operand.c32 size, Operand.c32 offset]]

def exec_all64 : Instruction :=
  Instruction.plain .s_mov_b64 [⟨exec, s2⟩] [Operand.all_ones64]

/-- Registers and identities that `emit_reduction` carries from one part to the next. -/
structure reduction_vars where
  tmp : PhysReg
  vtmp : PhysReg
  identity0 : Operand
  identity1 : Operand
deriving DecidableEq, Repr

def reduction_vars.identity (v : reduction_vars) (i : Nat) : Operand :=
  if i = 0 then v.identity0 else v.identity1

def reduction_vars.set_identity (v : reduction_vars) (i : Nat) (o : Operand) : reduction_vars :=
  if i = 0 then ⟨v.tmp, v.vtmp, o, v.identity1⟩ else ⟨v.tmp, v.vtmp, v.identity0, o⟩

/-- First part of `emit_reduction`: save `exec`, materialise literal identities, copy the
source to `tmp` with the identity in inactive lanes, and extend 8- and 16-bit sources. -/
def reduction_prologue (p : Program) (op : aco_opcode) (reduce_op : ReduceOp)
    (tmp stmp vtmp sitmp : PhysReg) (src : Operand) : List Instruction × reduction_vars :=
  let lm := lane_mask_class p.wave_size
  let v0 : reduction_vars := ⟨tmp, vtmp, Operand.c32 (get_reduction_identity reduce_op 0),
    Operand.c32 (get_reduction_identity reduce_op 1)⟩
  let save := Instruction.plain (if p.wave_size = 64 then .s_or_saveexec_b64
      else .s_or_saveexec_b32)
    [⟨stmp, lm⟩, ⟨scc, s1⟩, ⟨exec, lm⟩] [Operand.all_ones64, Operand.ofReg exec lm]
  let lit := (List.range src.size).foldl (fun (acc : List Instruction × reduction_vars ×
      List Operand) i =>
    let ident := acc.2.1.identity i
    if ident.isLiteral ∧ op = .p_exclusive_scan ∧ p.chip_class.rank < 10 then
      (acc.1 ++ [Instruction.plain .s_mov_b32 [sdef sitmp i] [ident],
                 Instruction.plain .v_mov_b32 [vdef tmp i] [sop sitmp i]],
       acc.2.1.set_identity i (sop sitmp i), acc.2.2 ++ [vop tmp i])
    else if ident.isLiteral then
      (acc.1 ++ [Instruction.plain .v_mov_b32 [vdef tmp i] [ident]], acc.2.1,
       acc.2.2 ++ [vop tmp i])
    else (acc.1, acc.2.1, acc.2.2 ++ [ident])) ([], v0, [])
  let cnd := (List.range src.size).map (fun i =>
    Instruction.plain .v_cndmask_b32 [vdef tmp i]
      [lit.2.2.getD i v0.identity0, vop src.physReg i, Operand.ofReg stmp lm])
  let tmp_op := Operand.ofReg (PhysReg.ofReg tmp.reg) v1
  let tmp_def : Definition := ⟨PhysReg.ofReg tmp.reg, v1⟩
  let signed8 := decide (reduce_op = .imin8 ∨ reduce_op = .imax8)
  let signed16 := decide (reduce_op = .imin16 ∨ reduce_op = .imax16 ∨ reduce_op = .iadd16)
  let ext : List Instruction :=
    if src.regClass = v1b then
      if p.chip_class.rank ≥ 8 then
        [⟨.v_mov_b32, [tmp_def], [tmp_op], .sdwa (if signed8 then .sbyte else .ubyte) .udword⟩]
      else
        [Instruction.plain (if signed8 then .v_bfe_i32 else .v_bfe_u32) [tmp_def]
          [tmp_op, Operand.c32 0, Operand.c32 8]]
    else if src.regClass = v2b then
      if p.chip_class.rank ≥ 10 ∧ (reduce_op = .iadd16 ∨ reduce_op = .imax16 ∨
          reduce_op = .imin16 ∨ reduce_op = .umin16 ∨ reduce_op = .umax16) then
        [⟨.v_mov_b32, [tmp_def], [tmp_op], .sdwa (if signed16 then .sword else .uword) .udword⟩]
      else if p.chip_class = .GFX6 ∨ p.chip_class = .GFX7 then
        [Instruction.plain (if signed16 then .v_bfe_i32 else .v_bfe_u32) [tmp_def]
          [tmp_op, Operand.c32 0, Operand.c32 16]]
      else []
    else []
  (save :: lit.1 ++ cnd ++ ext, lit.2.1)

/-- The `p_reduce` case of `emit_reduction`: the emitted steps and `reduction_needs_last_op`. -/
def reduce_steps (p : Program) (reduce_op : ReduceOp) (cluster_size : Nat)
    (tmp vtmp : PhysReg) (src : Operand) (dst : Definition) :
    Except Fault (List Instruction × Bool) :=
  let n := src.size
  let zero := PhysReg.ofReg 0
  let read_dst := (List.range n).map (fun i => readlane (sdef dst.physReg i) (vop tmp i)
    (Operand.c32 0))
  let done := fun (needs_last : Bool) (parts : List (Except Fault (List Instruction))) =>
    match emit_all parts with
    | .error e => Except.error e
    | .ok is => Except.ok (is, needs_last)
  if cluster_size = 1 then .ok ([], false)
  else if p.chip_class.rank ≤ 7 then
    let sw := fun (pat : Nat) => emitted (emit_ds_swizzle vtmp tmp n pat)
    let opd := emit_op p tmp vtmp tmp zero reduce_op n
    let s1 := [sw ((1 <<< 15) ||| dpp_quad_perm 1 0 3 2)]
    let s2 := s1 ++ [opd, sw ((1 <<< 15) ||| dpp_quad_perm 2 3 0 1)]
    let s3 := s2 ++ [opd, sw (ds_pattern_bitmode 0x1f 0 0x04)]
    let s4 := s3 ++ [opd, sw (ds_pattern_bitmode 0x1f 0 0x08)]
    let s5 := s4 ++ [opd, sw (ds_pattern_bitmode 0x1f 0 0x10)]
    if cluster_size = 2 then done true s1
    else if cluster_size = 4 then done true s2
    else if cluster_size = 8 then done true s3
    else if cluster_size = 16 then done true s4
    else if cluster_size = 32 then done true s5
    else done false (s5 ++ [opd, emitted read_dst,
      emit_op p tmp dst.physReg tmp vtmp reduce_op n])
  else
    let dp := fun (ctrl row_mask : Nat) =>
      emitted (emit_dpp_op p tmp tmp tmp vtmp reduce_op n ctrl row_mask 0xf false none)
    let d1 := [dp (dpp_quad_perm 1 0 3 2) 0xf]
    let d2 := d1 ++ [dp (dpp_quad_perm 2 3 0 1) 0xf]
    let d3 := d2 ++ [dp dpp_row_half_mirror 0xf]
    let d4 := d3 ++ [dp dpp_row_mirror 0xf]
    if cluster_size = 2 then done false d1
    else if cluster_size = 4 then done false d2
    else if cluster_size = 8 then done false d3
    else if cluster_size = 16 then done false d4
    else if p.chip_class.rank ≥ 10 then
      let perm := emitted ((List.range n).map (fun i =>
        permlanex16 (vdef vtmp i) (vop tmp i) 0 0))
      if cluster_size = 32 then done true (d4 ++ [perm])
      else done false (d4 ++ [perm, emit_op p tmp tmp vtmp zero reduce_op n, emitted read_dst,
        emit_op p tmp dst.physReg tmp vtmp reduce_op n])
    else if cluster_size = 32 then
      done true (d4 ++ [emitted (emit_ds_swizzle vtmp tmp n (ds_pattern_bitmode 0x1f 0 0x10))])
    else if cluster_size ≠ 64 then .error .assertion
    else done false (d4 ++ [dp dpp_row_bcast15 0xa, dp dpp_row_bcast31 0xc])

/-- The part of the `p_exclusive_scan` case before the fall-through: shift the wavefront right
by one lane and put the identity in lane 0. -/
def exclusive_shift (p : Program) (v : reduction_vars) (sitmp : PhysReg) (src : Operand) :
    Except Fault (List Instruction × reduction_vars) :=
  let n := src.size
  let tmp := v.tmp
  let vtmp := v.vtmp
  let shifted : List Instruction × reduction_vars :=
    if p.chip_class.rank ≥ 10 then
      (emit_dpp_mov vtmp tmp n (dpp_row_sr 1) 0xf 0xf true ++
       [Instruction.plain .s_mov_b32 [⟨exec_lo, s1⟩] [Operand.c32 0x10000],
        Instruction.plain .s_mov_b32 [⟨exec_hi, s1⟩] [Operand.c32 0x10000]] ++
       (List.range n).map (fun i => permlanex16 (vdef vtmp i) (vop tmp i) 0xffffffff 1) ++
       [s_mov_exec p Operand.all_ones64] ++
       (if p.wave_size = 64 then
         (List.range n).flatMap (fun i =>
           [readlane (sdef sitmp i) (vop tmp i) (Operand.c32 31),
            writelane (vdef vtmp i) (sop sitmp i) (Operand.c32 32) (vop vtmp i)])
        else []),
       ⟨vtmp, tmp, v.identity0, v.identity1⟩)
    else if p.chip_class.rank ≥ 8 then
      (emit_dpp_mov tmp tmp n dpp_wf_sr1 0xf 0xf true, v)
    else
      let movs := (List.range n).map (fun i =>
        Instruction.plain .v_mov_b32 [vdef vtmp i] [vop tmp i])
      (emit_ds_swizzle vtmp tmp n ((1 <<< 15) ||| dpp_quad_perm 0 0 1 2) ++
       emit_ds_swizzle tmp tmp n (ds_pattern_bitmode 0x1F 0x00 0x07) ++
       set_exec_halves 0x10101010 ++ movs ++
       [exec_all64] ++
       emit_ds_swizzle tmp tmp n (ds_pattern_bitmode 0x1F 0x00 0x08) ++
       set_exec_halves 0x01000100 ++ movs ++
       [exec_all64] ++
       emit_ds_swizzle tmp tmp n (ds_pattern_bitmode 0x1F 0x00 0x10) ++
       bfm_exec_halves 1 16 ++ movs ++
       [exec_all64] ++
       (List.range n).flatMap (fun i =>
         [writelane (vdef vtmp i) (v.identity i) (Operand.c32 0) (vop vtmp i),
          readlane (sdef sitmp i) (vop tmp i) (Operand.c32 0),
          writelane (vdef vtmp i) (sop sitmp i) (Operand.c32 32) (vop vtmp i)]),
       (List.range n).foldl (fun (w : reduction_vars) i => w.set_identity i (Operand.c32 0))
         ⟨vtmp, tmp, v.identity0, v.identity1⟩)
  let v1 := shifted.2
  let fill := (List.range n).map (fun i =>
    let ident := v1.identity i
    if ident.isConstant = false ∨ ident.constantValue ≠ 0 then
      if p.chip_class.rank < 10 ∧
          ¬ ((ident.isConstant = true ∧ ident.isLiteral = false) ∨
             ident.physReg = sitmp.plus i) then
        Except.error Fault.assertion
      else emitted [writelane (vdef v1.tmp i) ident (Operand.c32 0) (vop v1.tmp i)]
    else emitted [])
  match emit_all fill with
  | .error e => .error e
  | .ok is => .ok (shifted.1 ++ is, v1)

/-- The `p_inclusive_scan` case of `emit_reduction`. -/
def inclusive_steps (p : Program) (reduce_op : ReduceOp) (cluster_size : Nat)
    (v : reduction_vars) (sitmp : PhysReg) (src : Operand) : Except Fault (List Instruction) :=
  let n := src.size
  let tmp := v.tmp
  let vtmp := v.vtmp
  let zero := PhysReg.ofReg 0
  let ident := some (v.identity0, v.identity1)
  if cluster_size ≠ p.wave_size then .error .assertion
  else if p.chip_class.rank ≤ 7 then
    let opd := emit_op p tmp tmp vtmp zero reduce_op n
    let sw := fun (pat : Nat) => emitted (emit_ds_swizzle vtmp tmp n pat)
    emit_all
      [sw (ds_pattern_bitmode 0x1e 0x00 0x00), emitted (set_exec_halves 0xAAAAAAAA), opd,
       emitted [exec_all64],
       sw (ds_pattern_bitmode 0x1c 0x01 0x00), emitted (set_exec_halves 0xCCCCCCCC), opd,
       emitted [exec_all64],
       sw (ds_pattern_bitmode 0x18 0x03 0x00), emitted (set_exec_halves 0xF0F0F0F0), opd,
       emitted [exec_all64],
       sw (ds_pattern_bitmode 0x10 0x07 0x00), emitted (set_exec_halves 0xFF00FF00), opd,
       emitted [exec_all64],
       sw (ds_pattern_bitmode 0x00 0x0f 0x00), emitted (bfm_exec_halves 16 16), opd,
       emitted ((List.range n).map (fun i =>
         readlane (sdef sitmp i) (vop tmp i) (Operand.c32 31))),
       emitted [Instruction.plain .s_bfm_b64 [⟨exec, s2⟩] [Operand.c32 32, Operand.c32 32]],
       emit_op p tmp sitmp tmp vtmp reduce_op n]
  else
    let dp := fun (ctrl row_mask : Nat) =>
      emitted (emit_dpp_op p tmp tmp tmp vtmp reduce_op n ctrl row_mask 0xf false ident)
    emit_all
      ([dp (dpp_row_sr 1) 0xf, dp (dpp_row_sr 2) 0xf, dp (dpp_row_sr 4) 0xf,
        dp (dpp_row_sr 8) 0xf] ++
       (if p.chip_class.rank ≥ 10 then
         [emitted (bfm_exec_halves 16 16),
          emitted ((List.range n).map (fun i =>
            permlanex16 (vdef vtmp i) (vop tmp i) 0xffffffff 1)),
          emit_op p tmp tmp vtmp zero reduce_op n] ++
         (if p.wave_size = 64 then
           [emitted [Instruction.plain .s_bfm_b64 [⟨exec, s2⟩]
              [Operand.c32 32, Operand.c32 32]],
            emitted ((List.range n).map (fun i =>
              readlane (sdef sitmp i) (vop tmp i) (Operand.c32 31))),
            emit_op p tmp sitmp tmp vtmp reduce_op n]
          else [])
        else [dp dpp_row_bcast15 0xa, dp dpp_row_bcast31 0xc]))

/-- Last part of `emit_reduction`: the pending last operation, the restore of `exec`, and the
move of the result to the destination. -/
def reduction_epilogue (p : Program) (op : aco_opcode) (reduce_op : ReduceOp)
    (v : reduction_vars) (stmp : PhysReg) (needs_last_op : Bool) (src : Operand)
    (dst : Definition) : Except Fault (List Instruction) :=
  let n := src.size
  let lm := lane_mask_class p.wave_size
  let zero := PhysReg.ofReg 0
  let restore := s_mov_exec p (Operand.ofReg stmp lm)
  if op = .p_reduce ∧ needs_last_op = true ∧ dst.regClass.type = .vgpr then
    emit_all [emitted [restore], emit_op p dst.physReg v.tmp v.vtmp zero reduce_op n]
  else
    emit_all
      [if op = .p_reduce ∧ needs_last_op = true then
         emit_op p v.tmp v.vtmp v.tmp zero reduce_op n else emitted [],
       emitted [restore],
       emitted
         (if dst.regClass.type = .sgpr then
           (List.range n).map (fun k => readlane (sdef dst.physReg k) (vop v.tmp k)
             (Operand.c32 (p.wave_size - 1)))
          else if dst.physReg ≠ v.tmp then
           (List.range n).map (fun k =>
             Instruction.plain .v_mov_b32 [vdef dst.physReg k] [vop v.tmp k])
          else [])]

/-- The function `emit_reduction`: the instructions it appends to `ctx->instructions`. -/
def emit_reduction (p : Program) (op : aco_opcode) (reduce_op : ReduceOp) (cluster_size : Nat)
    (tmp stmp vtmp sitmp : PhysReg) (src : Operand) (dst : Definition) :
    Except Fault (List Instruction) :=
  if ¬ (cluster_size = p.wave_size ∨ op = .p_reduce) then .error .assertion
  else if ¬ (cluster_size ≤ p.wave_size) then .error .assertion
  else
    let pro := reduction_prologue p op reduce_op tmp stmp vtmp sitmp src
    let body : Except Fault (List Instruction × reduction_vars × Bool) :=
      match op with
      | .p_reduce =>
        match reduce_steps p reduce_op cluster_size pro.2.tmp pro.2.vtmp src dst with
        | .error e => .error e
        | .ok (is, needs) => .ok (is, pro.2, needs)
      | .p_exclusive_scan =>
        match exclusive_shift p pro.2 sitmp src with
        | .error e => .error e
        | .ok (is, v1) =>
          match inclusive_steps p reduce_op cluster_size v1 sitmp src with
          | .error e => .error e
          | .ok js => .ok (is ++ js, v1, false)
      | .p_inclusive_scan =>
        match inclusive_steps p reduce_op cluster_size pro.2 sitmp src with
        | .error e => .error e
        | .ok js => .ok (js, pro.2, false)
      | _ => .error .assertion
    match body with
    | .error e => .error e
    | .ok (is, v1, needs) =>
      match reduction_epilogue p op reduce_op v1 stmp needs src dst with
      | .error e => .error e
      | .ok es => .ok (pro.1 ++ is ++ es)

/-! ## Reference interpreter for the instructions of the reduction lowering

A wavefront of `W` lanes: `vgpr r l` is the dword of vector register `r` (numbers from 256)
in lane `l`, `sgpr r` the dword of scalar register `r`; `exec` is `sgpr 126/127`, `vcc` is
`sgpr 106/107`, `scc` is `sgpr 253`. -/

structure wave_state where
  vgpr : Nat → Nat → Nat
  sgpr : Nat → Nat

/-- Bit `l` of the lane mask held in the dwords `lo` and `hi`. -/
def lane_bit (lo hi l : Nat) : Bool := if l < 32 then lo.testBit l else hi.testBit (l - 32)

/-- Lane `l` exists and is enabled in `exec`. -/
def active (W : Nat) (st : wave_state) (l : Nat) : Bool :=
  decide (l < W) && lane_bit (st.sgpr 126) (st.sgpr 127) l

/-- Dword `idx` of an operand as seen by lane `l`. -/
def rd (st : wave_state) (o : Operand) (idx l : Nat) : Nat :=
  if o.isConstant then (o.constantValue64 / 4294967296 ^ idx) % 4294967296
  else if o.physReg.reg + idx ≥ 256 then st.vgpr (o.physReg.reg + idx) l
  else st.sgpr (o.physReg.reg + idx)

/-- 64-bit value of a two-dword operand as seen by lane `l`. -/
def rd64 (st : wave_state) (o : Operand) (l : Nat) : Nat :=
  rd st o 0 l + 4294967296 * rd st o 1 l

/-- Lane-mask bit of lane `l` in a mask operand. -/
def rd_mask (st : wave_state) (o : Operand) (l : Nat) : Bool :=
  lane_bit (rd st o 0 l) (rd st o 1 l) l

/-- The number whose bit `l`, for `l < n`, is `f l`. -/
def mask_bits (f : Nat → Bool) : Nat → Nat
  | 0 => 0
  | n + 1 => mask_bits f n + (if f n then 2 ^ n else 0)

/-- Write a vector register: lane `l` receives `f l` when `en l` holds. -/
def set_vgpr (st : wave_state) (r : Nat) (en : Nat → Bool) (f : Nat → Nat) : wave_state :=
  ⟨fun r1 l => if r1 = r ∧ en l = true then f l else st.vgpr r1 l, st.sgpr⟩

def set_sgpr (st : wave_state) (r v : Nat) : wave_state :=
  ⟨st.vgpr, fun r1 => if r1 = r then v else st.sgpr r1⟩

/-- Write a lane mask of class `rc` (one or two dwords) whose bit `l` is `f l`. -/
def set_mask (W : Nat) (st : wave_state) (d : Definition) (f : Nat → Bool) : wave_state :=
  let m := mask_bits f W
  let st1 := set_sgpr st d.physReg.reg (m % 4294967296)
  if d.regClass.size ≥ 2 then set_sgpr st1 (d.physReg.reg + 1) (m / 4294967296) else st1

/-- Two's complement value of the low `w` bits. -/
def to_int (w v : Nat) : Int :=
  if v % 2 ^ w ≥ 2 ^ (w - 1) then (v % 2 ^ w : Int) - (2 ^ w : Int) else (v % 2 ^ w : Int)

/-- Sign extension of the low `w` bits to 32 bits. -/
def sext32 (w v : Nat) : Nat :=
  if v % 2 ^ w ≥ 2 ^ (w - 1) then v % 2 ^ w + (4294967296 - 2 ^ w) else v % 2 ^ w

/-- Result of a two-operand vector ALU opcode on dwords; `none` for opcodes that are not
integer operations of this kind. -/
def valu2 (o : aco_opcode) : Option (Nat → Nat → Nat) :=
  match o with
  | .v_add_u32 | .v_add_co_u32 | .v_add_co_u32_e64 => some (fun a b => (a + b) % 4294967296)
  | .v_mul_lo_u32 => some (fun a b => (a * b) % 4294967296)
  | .v_mul_hi_u32 => some (fun a b => (a * b) / 4294967296)
  | .v_mul_u32_u24 => some (fun a b => ((a % 16777216) * (b % 16777216)) % 4294967296)
  | .v_and_b32 => some (fun a b => a &&& b)
  | .v_or_b32 => some (fun a b => a ||| b)
  | .v_xor_b32 => some (fun a b => a ^^^ b)
  | .v_min_u32 => some (fun a b => if a ≤ b then a else b)
  | .v_max_u32 => some (fun a b => if a ≤ b then b else a)
  | .v_min_i32 => some (fun a b => if to_int 32 a ≤ to_int 32 b then a else b)
  | .v_max_i32 => some (fun a b => if to_int 32 a ≤ to_int 32 b then b else a)
  | .v_add_u16 => some (fun a b => (a % 65536 + b % 65536) % 65536)
  | .v_mul_lo_u16 | .v_mul_lo_u16_e64 => some (fun a b => ((a % 65536) * (b % 65536)) % 65536)
  | .v_min_u16 => some (fun a b => if a % 65536 ≤ b % 65536 then a % 65536 else b % 65536)
  | .v_max_u16 => some (fun a b => if a % 65536 ≤ b % 65536 then b % 65536 else a % 65536)
  | .v_min_i16 => some (fun a b => if to_int 16 a ≤ to_int 16 b then a % 65536 else b % 65536)
  | .v_max_i16 => some (fun a b => if to_int 16 a ≤ to_int 16 b then b % 65536 else a % 65536)
  | _ => none

/-- Result of a 64-bit vector comparison. -/
def vcmp64 (o : aco_opcode) : Option (Nat → Nat → Bool) :=
  match o with
  | .v_cmp_gt_u64 => some (fun a b => decide (a > b))
  | .v_cmp_lt_u64 => some (fun a b => decide (a < b))
  | .v_cmp_gt_i64 => some (fun a b => decide (to_int 64 a > to_int 64 b))
  | .v_cmp_lt_i64 => some (fun a b => decide (to_int 64 a < to_int 64 b))
  | _ => none

/-- Source lane of a DPP control for lane `l`; `none` when it is out of range. -/
def dpp_src (W ctrl l : Nat) : Option Nat :=
  if ctrl < 0x100 then some (l / 4 * 4 + (ctrl / 4 ^ (l % 4)) % 4)
  else if 0x101 ≤ ctrl ∧ ctrl ≤ 0x10F then
    if l % 16 + (ctrl - 0x100) < 16 then some (l + (ctrl - 0x100)) else none
  else if 0x111 ≤ ctrl ∧ ctrl ≤ 0x11F then
    if ctrl - 0x110 ≤ l % 16 then some (l - (ctrl - 0x110)) else none
  else if 0x121 ≤ ctrl ∧ ctrl ≤ 0x12F then
    some (l / 16 * 16 + (l % 16 + 16 - (ctrl - 0x120)) % 16)
  else if ctrl = 0x130 then (if l + 1 < W then some (l + 1) else none)
  else if ctrl = 0x134 then some ((l + 1) % W)
  else if ctrl = 0x138 then (if 1 ≤ l then some (l - 1) else none)
  else if ctrl = 0x13C then some ((l + W - 1) % W)
  else if ctrl = 0x140 then some (l / 16 * 16 + (15 - l % 16))
  else if ctrl = 0x141 then some (l / 8 * 8 + (7 - l % 8))
  else if ctrl = 0x142 then (if 16 ≤ l then some (l / 16 * 16 - 1) else none)
  else if ctrl = 0x143 then (if 32 ≤ l then some 31 else none)
  else none

/-- What a DPP instruction does in lane `l`: no write, or a write with the given value of the
first source. -/
def dpp_fetch (W : Nat) (st : wave_state) (o : Operand) (idx : Nat)
    (ctrl row_mask bank_mask : Nat) (bound_ctrl : Bool) (l : Nat) : Option Nat :=
  if active W st l = false then none
  else if (row_mask.testBit (l / 16) && bank_mask.testBit (l % 16 / 4)) = false then none
  else
    match dpp_src W ctrl l with
    | some s => if active W st s then some (rd st o idx s)
                else if bound_ctrl then some 0 else none
    | none => if bound_ctrl then some 0 else none

/-- Source lane of `ds_swizzle_b32` with the given offset field. -/
def swizzle_src (offset l : Nat) : Nat :=
  if (offset / 32768) % 2 = 1 then l / 4 * 4 + (offset / 4 ^ (l % 4)) % 4
  else l / 32 * 32 + ((((l % 32) &&& (offset % 32)) ||| (offset / 32 % 32)) ^^^
    (offset / 1024 % 32))

/-- Source lane of `v_permlanex16_b32` with lane selects `s1`, `s2`. -/
def permlanex16_src (s1 s2 l : Nat) : Nat :=
  l / 32 * 32 + (1 - l / 16 % 2) * 16 +
    (if l % 16 < 8 then (s1 / 16 ^ (l % 16)) % 16 else (s2 / 16 ^ (l % 16 - 8)) % 16)

/-- Select of an SDWA source: the selected part of a dword, extended to 32 bits. -/
def sdwa_select (sel : sdwa_sel) (v : Nat) : Nat :=
  match sel with
  | .ubyte => v % 256
  | .sbyte => sext32 8 v
  | .uword => v % 65536
  | .sword => sext32 16 v
  | _ => v

/-- Effect of one instruction of the reduction lowering on a wavefront of `W` lanes; `none`
for instructions outside the integer subset modelled here. -/
def wstep (W : Nat) (i : Instruction) (st : wave_state) : Option wave_state :=
  match i.opcode, i.definitions, i.operands, i.mods with
  | .s_or_saveexec_b64, [d, c, e], [s0, ex], .none =>
    let lo := rd st s0 0 0 ||| rd st ex 0 0
    let hi := rd st s0 1 0 ||| rd st ex 1 0
    let st1 := set_sgpr (set_sgpr st d.physReg.reg (rd st ex 0 0)) (d.physReg.reg + 1)
      (rd st ex 1 0)
    let st2 := set_sgpr (set_sgpr st1 e.physReg.reg lo) (e.physReg.reg + 1) hi
    some (set_sgpr st2 c.physReg.reg (if lo = 0 ∧ hi = 0 then 0 else 1))
  | .s_or_saveexec_b32, [d, c, e], [s0, ex], .none =>
    let lo := rd st s0 0 0 ||| rd st ex 0 0
    let st1 := set_sgpr st d.physReg.reg (rd st ex 0 0)
    some (set_sgpr (set_sgpr st1 e.physReg.reg lo) c.physReg.reg (if lo = 0 then 0 else 1))
  | .s_mov_b32, [d], [o], .none => some (set_sgpr st d.physReg.reg (rd st o 0 0))
  | .s_mov_b64, [d], [o], .none =>
    some (set_sgpr (set_sgpr st d.physReg.reg (rd st o 0 0)) (d.physReg.reg + 1) (rd st o 1 0))
  | .s_bfm_b32, [d], [a, b], .none =>
    some (set_sgpr st d.physReg.reg
      (((2 ^ (rd st a 0 0 % 32) - 1) * 2 ^ (rd st b 0 0 % 32)) % 4294967296))
  | .s_bfm_b64, [d], [a, b], .none =>
    let m := ((2 ^ (rd st a 0 0 % 64) - 1) * 2 ^ (rd st b 0 0 % 64)) % 18446744073709551616
    some (set_sgpr (set_sgpr st d.physReg.reg (m % 4294967296)) (d.physReg.reg + 1)
      (m / 4294967296))
  | .v_mov_b32, [d], [o], .none =>
    some (set_vgpr st d.physReg.reg (active W st) (fun l => rd st o 0 l))
  | .v_mov_b32, [d], [o], .sdwa sel .udword =>
    some (set_vgpr st d.physReg.reg (active W st) (fun l => sdwa_select sel (rd st o 0 l)))
  | .v_mov_b32, [d], [o], .dpp ctrl rm bm bc =>
    some (set_vgpr st d.physReg.reg (fun l => (dpp_fetch W st o 0 ctrl rm bm bc l).isSome)
      (fun l => (dpp_fetch W st o 0 ctrl rm bm bc l).getD 0))
  | .v_bfe_u32, [d], [v, off, w], .none =>
    some (set_vgpr st d.physReg.reg (active W st) (fun l =>
      (rd st v 0 l / 2 ^ (rd st off 0 l % 32)) % 2 ^ (rd st w 0 l % 32)))
  | .v_bfe_i32, [d], [v, off, w], .none =>
    some (set_vgpr st d.physReg.reg (active W st) (fun l =>
      sext32 (rd st w 0 l % 32) (rd st v 0 l / 2 ^ (rd st off 0 l % 32))))
  | .v_cndmask_b32, [d], [a, b, m], .none =>
    some (set_vgpr st d.physReg.reg (active W st) (fun l =>
      if rd_mask st m l then rd st b 0 l else rd st a 0 l))
  | .v_addc_co_u32, [d, co], [a, b, ci], .none =>
    let sum := fun l => rd st a 0 l + rd st b 0 l + (if rd_mask st ci l then 1 else 0)
    some (set_mask W (set_vgpr st d.physReg.reg (active W st) (fun l => sum l % 4294967296))
      co (fun l => active W st l && decide (sum l ≥ 4294967296)))
  | .v_addc_co_u32, [d, co], [a, b, ci], .dpp ctrl rm bm bc =>
    let en := fun l => (dpp_fetch W st a 0 ctrl rm bm bc l).isSome
    let sum := fun l => (dpp_fetch W st a 0 ctrl rm bm bc l).getD 0 + rd st b 0 l +
      (if rd_mask st ci l then 1 else 0)
    some (set_mask W (set_vgpr st d.physReg.reg en (fun l => sum l % 4294967296))
      co (fun l => en l && decide (sum l ≥ 4294967296)))
  | .ds_swizzle_b32, [d], [o], .imm offset =>
    some (set_vgpr st d.physReg.reg (active W st) (fun l =>
      if active W st (swizzle_src offset l) then rd st o 0 (swizzle_src offset l) else 0))
  | .v_permlanex16_b32, [d], [o, s1, s2], .opsel sel =>
    let src := fun l => permlanex16_src (rd st s1 0 l) (rd st s2 0 l) l
    some (set_vgpr st d.physReg.reg
      (fun l => active W st l && (active W st (src l) || sel.testBit 0 || sel.testBit 1))
      (fun l => if active W st (src l) || sel.testBit 0 then rd st o 0 (src l) else 0))
  | .v_readlane_b32, [d], [v, lane], .none =>
    some (set_sgpr st d.physReg.reg (rd st v 0 (rd st lane 0 0 % W)))
  | .v_writelane_b32, [d], [v, lane, _], .none =>
    some (set_vgpr st d.physReg.reg (fun l => decide (l = rd st lane 0 0 % W))
      (fun _ => rd st v 0 0))
  | op, [d], [a, b], .none =>
    match valu2 op, vcmp64 op with
    | some f, _ =>
      some (set_vgpr st d.physReg.reg (active W st) (fun l => f (rd st a 0 l) (rd st b 0 l)))
    | none, some c =>
      some (set_mask W st d (fun l => active W st l && c (rd64 st a l) (rd64 st b l)))
    | none, none => none
  | op, [d], [a, b], .dpp ctrl rm bm bc =>
    match valu2 op with
    | some f =>
      some (set_vgpr st d.physReg.reg (fun l => (dpp_fetch W st a 0 ctrl rm bm bc l).isSome)
        (fun l => f ((dpp_fetch W st a 0 ctrl rm bm bc l).getD 0) (rd st b 0 l)))
    | none => none
  | op, [d, co], [a, b], .none =>
    if op = .v_add_co_u32 ∨ op = .v_add_co_u32_e64 then
      let sum := fun l => rd st a 0 l + rd st b 0 l
      some (set_mask W (set_vgpr st d.physReg.reg (active W st) (fun l => sum l % 4294967296))
        co (fun l => active W st l && decide (sum l ≥ 4294967296)))
    else none
  | op, [d, co], [a, b], .dpp ctrl rm bm bc =>
    if op = .v_add_co_u32 then
      let en := fun l => (dpp_fetch W st a 0 ctrl rm bm bc l).isSome
      let sum := fun l => (dpp_fetch W st a 0 ctrl rm bm bc l).getD 0 + rd st b 0 l
      some (set_mask W (set_vgpr st d.physReg.reg en (fun l => sum l % 4294967296))
        co (fun l => en l && decide (sum l ≥ 4294967296)))
    else none
  | _, _, _, _ => none

/-- Execute an instruction list on a wavefront. -/
def wrun (W : Nat) : List Instruction → wave_state → Option wave_state
  | [], st => some st
  | i :: rest, st =>
    match wstep W i st with
    | none => none
    | some st1 => wrun W rest st1

/-! ## Observations on results, and concrete inputs used by the theorems -/

/-- Whether a lowering function produced a result. -/
def succeeded {α : Type} (r : Except Fault α) : Bool :=
  match r with
  | .ok _ => true
  | .error _ => false

/-- The register bytes at `addrs` after executing the instructions emitted by a call of
`handle_operands`; `none` if the call or the execution failed. -/
def final_bytes (r : Except Fault operands_result) (st : reg_file) (addrs : List Nat) :
    Option (List Nat) :=
  match r with
  | .error _ => none
  | .ok r => (run r.ctx.instructions st).map (fun f => addrs.map f)

def v3b : RegClass := (RegClass.ofSize .vgpr 3).as_subdword

/-- A context with no instructions and all statistics zero. -/
def empty_ctx (chip : chip_class) : lower_context := ⟨⟨chip, 64, fun _ => 0⟩, []⟩

/-- A `p_parallelcopy` whose scratch register is `s0` and whose `scc` is free. -/
def parallelcopy_pi : Pseudo_instruction := ⟨.p_parallelcopy, false, PhysReg.ofReg 0⟩

/-- Byte rotation inside `v0` (bytes 1024..1027): bytes 0..2 are read from bytes 1..3 by one
three-byte copy, byte 3 is read from byte 0. -/
def byte_rotation_map : copy_map :=
  [(⟨1024⟩, copy_operation.init (Operand.ofReg ⟨1025⟩ v3b) ⟨⟨1024⟩, v3b⟩ 3),
   (⟨1027⟩, copy_operation.init (Operand.ofReg ⟨1024⟩ v1b) ⟨⟨1027⟩, v1b⟩ 1)]

/-- Register file holding 0x11, 0x22, 0x33, 0x44 in the four bytes of `v0`. -/
def byte_rotation_regs : reg_file := fun x =>
  if x = 1024 then 0x11 else if x = 1025 then 0x22 else if x = 1026 then 0x33
  else if x = 1027 then 0x44 else 0

/-- A program context for a chip class and wave size, statistics zero. -/
def program_of (chip : chip_class) (wave_size : Nat) : Program := ⟨chip, wave_size, fun _ => 0⟩

/-- A wavefront state with every lane enabled, `v0:v1` holding `2^64 - 1` and `v2:v3` holding
`2^32 + 1` in every lane, and zero elsewhere. -/
def sample_wave : wave_state :=
  ⟨fun r _ => if r = 256 ∨ r = 257 then 0xFFFFFFFF else if r = 258 ∨ r = 259 then 1 else 0,
   fun r => if r = 126 ∨ r = 127 then 0xFFFFFFFF else 0⟩

/-- The reference meaning of the four 64-bit minimum and maximum operators: `r` is the
unsigned or two's-complement signed minimum or maximum of `x` and `y`. -/
def int64_minmax_spec (op : ReduceOp) (x y r : Nat) : Prop :=
  match op with
  | .umin64 => r = min x y
  | .umax64 => r = max x y
  | .imin64 => r < 18446744073709551616 ∧ to_int 64 r = min (to_int 64 x) (to_int 64 y)
  | .imax64 => r < 18446744073709551616 ∧ to_int 64 r = max (to_int 64 x) (to_int 64 y)
  | _ => False

/-- A wavefront with every lane enabled whose register `v0` is 1 in every lane; all other
vector registers hold `0xDEADBEEF` and all other scalar registers `0x5A5A5A5A`. -/
def all_ones_wave (W : Nat) : wave_state :=
  ⟨fun r _ => if r = 256 then 1 else 0xDEADBEEF,
   fun r => if r = 126 then 0xFFFFFFFF
     else if r = 127 then (if W = 64 then 0xFFFFFFFF else 0) else 0x5A5A5A5A⟩

/-- Destination lanes after running the `iadd32` scan `op` over the whole wave, for source `v0`,
destination `v1`, `tmp = v2`, `vtmp = v3`, `stmp = s[10:11]` and `sitmp = s12`, started from
`all_ones_wave`; `none` when emission or execution fails. -/
def scan_lanes (chip : chip_class) (W : Nat) (op : aco_opcode) : Option (List Nat) :=
  match emit_reduction (program_of chip W) op .iadd32 W (PhysReg.ofReg 258) (PhysReg.ofReg 10)
      (PhysReg.ofReg 259) (PhysReg.ofReg 12) (Operand.ofReg (PhysReg.ofReg 256) v1)
      ⟨PhysReg.ofReg 257, v1⟩ with
  | .ok is => (wrun W is (all_ones_wave W)).map (fun st => (List.range W).map (st.vgpr 257))
  | .error _ => none

/-- The chip classes and wave sizes a program can have: wave64 everywhere, wave32 on GFX10. -/
def wave_configs : List (chip_class × Nat) :=
  [(.GFX6, 64), (.GFX7, 64), (.GFX8, 64), (.GFX9, 64), (.GFX10, 64), (.GFX10, 32)]

/-! ## Reference meaning of the reduction operators -/

/-- Operand width in bits of a reduction operator, as named by the enumeration. -/
def ReduceOp.bits : ReduceOp → Nat
  | .iadd8 | .imul8 | .imin8 | .imax8 | .umin8 | .umax8 | .iand8 | .ior8 | .ixor8 => 8
  | .iadd16 | .imul16 | .fadd16 | .fmul16 | .imin16 | .imax16 | .umin16 | .umax16
  | .fmin16 | .fmax16 | .iand16 | .ior16 | .ixor16 => 16
  | .iadd32 | .imul32 | .fadd32 | .fmul32 | .imin32 | .imax32 | .umin32 | .umax32
  | .fmin32 | .fmax32 | .iand32 | .ior32 | .ixor32 => 32
  | .iadd64 | .imul64 | .fadd64 | .fmul64 | .imin64 | .imax64 | .umin64 | .umax64
  | .fmin64 | .fmax64 | .iand64 | .ior64 | .ixor64 => 64

/-- The floating-point reduction operators. -/
def ReduceOp.is_float : ReduceOp → Bool
  | .fadd16 | .fadd32 | .fadd64 | .fmul16 | .fmul32 | .fmul64
  | .fmin16 | .fmin32 | .fmin64 | .fmax16 | .fmax32 | .fmax64 => true
  | _ => false

/-- The mathematical operation named by an integer reduction operator, on values of its
width `w` (two's complement for the signed minimum and maximum); `none` for the
floating-point operators. -/
def reduce_op_spec (op : ReduceOp) (a b : Nat) : Option Nat :=
  let w := op.bits
  match op with
  | .iadd8 | .iadd16 | .iadd32 | .iadd64 => some ((a + b) % 2 ^ w)
  | .imul8 | .imul16 | .imul32 | .imul64 => some ((a * b) % 2 ^ w)
  | .imin8 | .imin16 | .imin32 | .imin64 => some (if to_int w a ≤ to_int w b then a else b)
  | .imax8 | .imax16 | .imax32 | .imax64 => some (if to_int w a ≤ to_int w b then b else a)
  | .umin8 | .umin16 | .umin32 | .umin64 => some (min a b)
  | .umax8 | .umax16 | .umax32 | .umax64 => some (max a b)
  | .iand8 | .iand16 | .iand32 | .iand64 => some (a &&& b)
  | .ior8 | .ior16 | .ior32 | .ior64 => some (a ||| b)
  | .ixor8 | .ixor16 | .ixor32 | .ixor64 => some (a ^^^ b)
  | _ => none

/-- The constant built from `get_reduction_identity`: word 0 reduced to the operator's width
for widths up to 32, words 1 and 0 as high and low half for width 64. -/
def reduction_identity_value (op : ReduceOp) : Nat :=
  if op.bits = 64 then get_reduction_identity op 0 + 4294967296 * get_reduction_identity op 1
  else get_reduction_identity op 0 % 2 ^ op.bits

/-- The nine 64-bit integer operators, which have no single native instruction. -/
def decomposed_ops : List ReduceOp :=
  [.iadd64, .imul64, .imin64, .imax64, .umin64, .umax64, .iand64, .ior64, .ixor64]

/-- Opcodes that name a 16-bit ALU operation. -/
def opcode_is_16bit (o : aco_opcode) : Bool :=
  match o with
  | .v_add_u16 | .v_mul_lo_u16 | .v_mul_lo_u16_e64 | .v_pk_add_u16 | .v_pack_b32_f16
  | .v_add_f16 | .v_mul_f16 | .v_min_f16 | .v_max_f16
  | .v_max_i16 | .v_min_i16 | .v_max_u16 | .v_min_u16 => true
  | _ => false

/-- A full-dword copy `v1 := v0` whose four bytes are each read by one other copy. -/
def dword_copy_in_use : copy_operation :=
  ⟨Operand.ofReg (PhysReg.ofReg 256) v1, ⟨PhysReg.ofReg 257, v1⟩, 4, [1, 1, 1, 1, 0, 0, 0, 0]⟩

/-! ## Well-formed copy maps and the byte-level meaning of a map -/

/-- Total number of destination bytes of a map. -/
def map_bytes (m : copy_map) : Nat := (m.map (fun e => e.2.bytes)).sum

/-- Destinations in increasing key order, pairwise disjoint, non-empty and inside the
register file of 512 dwords. -/
def dest_chain (m : copy_map) : Prop :=
  m.Pairwise (fun a b => a.1.reg_b + a.2.bytes ≤ b.1.reg_b) ∧
  ∀ e ∈ m, 1 ≤ e.2.bytes ∧ e.1.reg_b + e.2.bytes ≤ 2048

instance (m : copy_map) : Decidable (dest_chain m) := by
  unfold dest_chain
  infer_instance

/-- An entry keyed by its destination register whose source is either a constant with an
inline-constant encoding (registers 128..255) or a register range in the scalar file, `scc`,
or a register range in the vector file. -/
def source_ok (e : PhysReg × copy_operation) : Prop :=
  e.1 = e.2.def_.physReg ∧
  (if e.2.op.isConstant then
    512 ≤ e.2.op.physReg.reg_b ∧ e.2.op.physReg.reg_b < 1024 ∧ e.2.op.physReg.reg_b % 4 = 0
   else
    (e.2.op.physReg.reg_b + e.2.bytes ≤ 512 ∨
      (e.2.op.physReg.reg_b = 1012 ∧ e.2.bytes ≤ 4) ∨ 1024 ≤ e.2.op.physReg.reg_b) ∧
    e.2.op.physReg.reg_b + e.2.bytes ≤ 2048)

instance (e : PhysReg × copy_operation) : Decidable (source_ok e) := by
  unfold source_ok
  infer_instance

/-- A copy map as handed to `handle_operands`: disjoint destinations in key order, sources as
in `source_ok`, and all use counts zero. -/
def well_formed (m : copy_map) : Prop :=
  dest_chain m ∧ ∀ e ∈ m, source_ok e ∧ e.2.uses = no_uses

instance (m : copy_map) : Decidable (well_formed m) := by
  unfold well_formed
  infer_instance

/-- The first eight bytes of an entry of more than eight bytes, as left by the block "split
large copies". -/
def split_low (c : copy_operation) : copy_operation :=
  ⟨Operand.ofReg c.op.physReg (if c.op.regClass.type = .sgpr then s2 else v2),
   ⟨c.def_.physReg, if c.def_.regClass.type = .sgpr then s2 else v2⟩, 8, c.uses⟩

/-- The remaining bytes of an entry of more than eight bytes at key `k`, as inserted by the
block "split large copies". -/
def split_high (k : PhysReg) (c : copy_operation) : copy_operation :=
  copy_operation.init
    (Operand.ofReg (c.op.physReg.plus 2)
      (RegClass.ofSize c.op.regClass.type ((c.op.size + 4294967296 - 2) % 4294967296)))
    ⟨k.plus 2, RegClass.ofSize c.def_.regClass.type
      ((c.def_.size + 4294967296 - 2) % 4294967296)⟩
    (c.bytes - 8)

/-- The entry that replaces `c` at key `k` and its neighbour `other` in the block "try to
coalesce copies". -/
def coalesced (k : PhysReg) (c other : copy_operation) : copy_operation :=
  ⟨Operand.ofReg c.op.physReg (RegClass.get c.op.regClass.type (c.bytes + other.bytes)),
   ⟨k, RegClass.get c.def_.regClass.type (c.bytes + other.bytes)⟩, c.bytes + other.bytes,
   c.uses⟩

/-- Destination byte `x` is copied from register byte `y` by some entry of the map. -/
def copies_byte (m : copy_map) (x y : Nat) : Prop :=
  ∃ e ∈ m, e.2.op.isConstant = false ∧
    ∃ i, i < e.2.bytes ∧ x = e.1.reg_b + i ∧ y = e.2.op.physReg.reg_b + i

/-- The entry reads register byte `x`. -/
def reads_byte (e : PhysReg × copy_operation) (x : Nat) : Bool :=
  !e.2.op.isConstant && decide (e.2.op.physReg.reg_b ≤ x ∧ x < e.2.op.physReg.reg_b + e.2.bytes)

/-- Number of entries of the map that read register byte `x`. -/
def readers (m : copy_map) (x : Nat) : Nat := m.countP (fun e => reads_byte e x)

/-- State of the first loop of `handle_operands` in a well-formed map: `V` holds the entries
before the iterator, `R` the entries from the iterator on.  Entries of `V` are final: they are
not no-ops, have at most eight bytes, and their use counts are the numbers of readers (modulo
256, the width of the counter). -/
def pre_inv (V R : copy_map) : Prop :=
  dest_chain (V ++ R) ∧ (∀ e ∈ V ++ R, source_ok e) ∧ (∀ e ∈ R, e.2.uses = no_uses) ∧
  (∀ e ∈ V, e.1 ≠ e.2.op.physReg ∧ e.2.bytes ≤ 8 ∧
    ∀ i, i < e.2.bytes → e.2.use i = readers (V ++ R) (e.1.reg_b + i) % 256)

/-- The entry passes the assertions of the first loop of `handle_operands`: the scratch
register of a pseudo-instruction that keeps a temporary in `scc` lies outside the destination,
and a copy of more than eight bytes is a dword-aligned register copy of a full-dword class. -/
def no_assert (pi : Pseudo_instruction) (e : PhysReg × copy_operation) : Prop :=
  (pi.tmp_in_scc = true →
    ¬ (e.1.reg_b ≤ pi.scratch_sgpr.reg_b ∧ pi.scratch_sgpr.reg_b < e.1.reg_b + e.2.bytes)) ∧
  (8 < e.2.bytes →
    e.2.op.isConstant = false ∧ e.2.def_.regClass.is_subdword = false ∧
    e.2.op.physReg.reg_b % 4 = 0 ∧ e.1.reg_b % 4 = 0)

instance (pi : Pseudo_instruction) (e : PhysReg × copy_operation) : Decidable (no_assert pi e) := by
  unfold no_assert
  infer_instance

/-- Number of entries other than the one at key `k` that read register byte `x`. -/
def other_readers (m : copy_map) (k : PhysReg) (x : Nat) : Nat := readers (map_erase m k) x

/-- The map left by the first loop of `handle_operands`, keys as byte addresses with the
source address, the byte count and the use counts of each entry; `none` if the loop fails. -/
def preprocessed (pi : Pseudo_instruction) (fuel : Nat) (m : copy_map) :
    Option (List (Nat × Nat × Nat × List Nat)) :=
  match preprocess_loop pi fuel m (map_begin m) false with
  | .ok (m1, _) => some (m1.map (fun e => (e.1.reg_b, e.2.op.physReg.reg_b, e.2.bytes, e.2.uses)))
  | .error _ => none

/-- A register copy of class `rc` from register byte `s` to register byte `d`. -/
def reg_copy (d s : Nat) (rc : RegClass) : PhysReg × copy_operation :=
  (⟨d⟩, copy_operation.init (Operand.ofReg ⟨s⟩ rc) ⟨⟨d⟩, rc⟩ rc.bytes)

/-- The copy `v[0:1] := v[1:2]`, whose source overlaps its own destination. -/
def overlap_map : copy_map := [reg_copy 1024 1028 v2]

/-- The copies `v0 := v2`, `v1.lo := v3.lo`, `v1.hi := v3.hi`. -/
def chained_map : copy_map :=
  [reg_copy 1024 1032 v1, reg_copy 1028 1036 v2b, reg_copy 1030 1038 v2b]

/-- The copy `v[0:3] := v[4:7]` of sixteen bytes. -/
def wide_map : copy_map := [reg_copy 1024 1040 (RegClass.ofSize .vgpr 4)]

/-- The no-op copies `v0 := v0` and `s[4:5] := s[4:5]`. -/
def noop_map : copy_map := [reg_copy 16 16 s2, reg_copy 1024 1024 v1]

/-- The copies `v0 := v2` and `v1 := v3`, which the first loop merges into `v[0:1] := v[2:3]`. -/
def coalesce_pair : copy_map := [reg_copy 1024 1032 v1, reg_copy 1028 1036 v1]

/-! ## Pack fusion: states and side conditions -/

/-- The register file after the two halves of the dword at `k` have been written with the
bytes that a copy reads from `lo` and from `hi` in the old register file. -/
def packed_state (st : reg_file) (k : PhysReg) (lo hi : Operand) : reg_file :=
  write_fn (write_fn st k.reg_b 2 (operand_byte st lo.physReg.reg_b lo)) (k.reg_b + 2) 2
    (operand_byte st hi.physReg.reg_b hi)

/-- A two-byte source that the operand-select bits of `v_pack_b32_f16` can address: the low
half of its dword, or the high half of a register that is not an inline constant. -/
def half_aligned (o : Operand) : Prop :=
  o.physReg.byte = 0 ∨
    (o.physReg.byte = 2 ∧ o.isConstant = false ∧ (o.physReg.reg < 128 ∨ 208 < o.physReg.reg))

instance (o : Operand) : Decidable (half_aligned o) := by
  unfold half_aligned; infer_instance

/-- The two source bytes at `o` lie outside the dword at `k`. -/
def outside_dword (o : Operand) (k : PhysReg) : Prop :=
  o.physReg.reg_b + 2 ≤ k.reg_b ∨ k.reg_b + 4 ≤ o.physReg.reg_b

instance (o : Operand) (k : PhysReg) : Decidable (outside_dword o k) := by
  unfold outside_dword; infer_instance

/-- A register operand of the VGPR file that starts a dword. -/
def dword_vgpr (o : Operand) : Prop :=
  o.isConstant = false ∧ 256 ≤ o.physReg.reg ∧ o.physReg.byte = 0

instance (o : Operand) : Decidable (dword_vgpr o) := by
  unfold dword_vgpr; infer_instance

/-- The two half copies that `do_copy` emits for a pair on GFX8 and later. -/
def half_copies (k : PhysReg) (lo hi : Operand) : List Instruction × List Instruction :=
  ([Instruction.plain .copy [⟨k, v2b⟩] [lo], Instruction.plain .copy [⟨k.advance 2, v2b⟩] [hi]],
   [Instruction.plain .copy [⟨k.advance 2, v2b⟩] [hi], Instruction.plain .copy [⟨k, v2b⟩] [lo]])

/-- A register file whose byte at address `x` is `x mod 256`. -/
def address_bytes : reg_file := fun x => x % 256

/-- Two half copies into `v0` whose low source starts at byte 1 of `v1`. -/
def odd_pack_map : copy_map :=
  [(⟨1024⟩, copy_operation.init (Operand.ofReg ⟨1029⟩ v2b) ⟨⟨1024⟩, v2b⟩ 2),
   (⟨1026⟩, copy_operation.init (Operand.ofReg ⟨1032⟩ v2b) ⟨⟨1026⟩, v2b⟩ 2)]

/-- Two half copies into `v0` from the high half of `v1` and the low half of `v2`. -/
def pack_map : copy_map :=
  [(⟨1024⟩, copy_operation.init (Operand.ofReg ⟨1030⟩ v2b) ⟨⟨1024⟩, v2b⟩ 2),
   (⟨1026⟩, copy_operation.init (Operand.ofReg ⟨1032⟩ v2b) ⟨⟨1026⟩, v2b⟩ 2)]

/-! ## Chunks of `split_copy` -/

/-- The bound `MIN2(max_size, type == vgpr ? 4 : 8)` of `split_copy`. -/
def chunk_limit (src : copy_operation) (max_size : Nat) : Nat :=
  min max_size (if src.def_.regClass.type = .vgpr then 4 else 8)

/-- The constraints that `split_copy` puts on a chunk of `b` bytes at `offset`, uses apart. -/
def chunk_fits (src : copy_operation) (offset max_size b : Nat) : Prop :=
  b ≤ chunk_limit src max_size ∧ offset + b ≤ src.bytes ∧
  (src.def_.physReg.advance offset).reg_b % b = 0 ∧
  (src.op.isConstant = false → (src.op.physReg.advance offset).reg_b % b = 0)

instance (src : copy_operation) (offset max_size b : Nat) :
    Decidable (chunk_fits src offset max_size b) := by
  unfold chunk_fits; infer_instance

/-- A four-byte copy `v0 := v1`. -/
def dword_copy : copy_operation :=
  copy_operation.init (Operand.ofReg ⟨1028⟩ v1) ⟨⟨1024⟩, v1⟩ 4

/-! ## The cyclic phase: states reached and selection -/

/-- Every entry of the map has at most `largest` bytes. -/
def bytes_bounded (largest : Nat) (m : copy_map) : Prop := ∀ e ∈ m, e.2.bytes ≤ largest

instance (largest : Nat) (m : copy_map) : Decidable (bytes_bounded largest m) := by
  unfold bytes_bounded; infer_instance

/-- The states at the head of the iterations of the loop `while (!copy_map.empty())` that
starts in state `s`: `s` itself, and the result of an iteration whose head state is reached and
whose map is not empty. -/
inductive cyclic_reaches (chip : chip_class) (pi : Pseudo_instruction) (largest : Nat)
    (s : loop_state) : loop_state → Prop where
  | start : cyclic_reaches chip pi largest s s
  | iteration (s1 s2 : loop_state) (fuel : Nat) :
      cyclic_reaches chip pi largest s s1 → s1.m ≠ [] →
      cyclic_step chip pi largest fuel s1 = .ok s2 → cyclic_reaches chip pi largest s s2

/-- A two-cycle of an eight-byte and two four-byte copies: `v[0:1] := v[2:3]`, `v2 := v0`,
`v3 := v1`. -/
def mixed_cycle_map : copy_map :=
  [(⟨1024⟩, ⟨Operand.ofReg ⟨1032⟩ v2, ⟨⟨1024⟩, v2⟩, 8, [1, 1, 1, 1, 1, 1, 1, 1]⟩),
   (⟨1032⟩, ⟨Operand.ofReg ⟨1024⟩ v1, ⟨⟨1032⟩, v1⟩, 4, [1, 1, 1, 1, 0, 0, 0, 0]⟩),
   (⟨1036⟩, ⟨Operand.ofReg ⟨1028⟩ v1, ⟨⟨1036⟩, v1⟩, 4, [1, 1, 1, 1, 0, 0, 0, 0]⟩)]

/-- The map carried by an outcome of the body of the target loop. -/
def target_outcome.map : target_outcome → copy_map
  | .stop m => m
  | .next m _ => m

/-! ## Use counts after a copy -/

/-- Byte address `x` lies in the source range of the copy `c` at a position that `do_copy`
copied (use count zero). -/
def source_hit (c : copy_operation) (x : Nat) : Prop :=
  c.op.physReg.reg_b ≤ x ∧ x < c.op.physReg.reg_b + c.bytes ∧
    c.use (x - c.op.physReg.reg_b) = 0

instance (c : copy_operation) (x : Nat) : Decidable (source_hit c x) := by
  unfold source_hit; infer_instance

/-- The state carried by the outcome of an iteration. -/
def step_outcome.state : step_outcome → loop_state
  | .returned s => s
  | .broke s => s
  | .continued s => s

/-- The chain `v0 := v1`, `v1 := v2` after the first loop: `v1` is read by the first copy. -/
def chain_map : copy_map :=
  [(⟨1024⟩, ⟨Operand.ofReg ⟨1028⟩ v1, ⟨⟨1024⟩, v1⟩, 4, [0, 0, 0, 0, 0, 0, 0, 0]⟩),
   (⟨1028⟩, ⟨Operand.ofReg ⟨1032⟩ v1, ⟨⟨1028⟩, v1⟩, 4, [1, 1, 1, 1, 0, 0, 0, 0]⟩)]

/-! ## `emit_reduction` on a raw operator value -/

/-- The switch of `get_reduction_identity` on a raw value of the enumeration `ReduceOp`;
`decode` is the numbering of the enumerators (fixed by `aco_ir.h`).  A value that names no
operator reaches `unreachable("Invalid reduction operation")`. -/
def get_reduction_identity_raw (decode : Nat → Option ReduceOp) (raw idx : Nat) :
    Except Fault Nat :=
  match decode raw with
  | some op => .ok (get_reduction_identity op idx)
  | none => .error .assertion

/-- How a call of `emit_reduction` ends: before its first `bld` call, with the instruction
vector of the context as it was on entry, or as the emitting part does. -/
inductive reduction_outcome where
  | failed_at_entry (f : Fault) (instructions : List Instruction)
  | emitting (r : Except Fault (List Instruction))

/-- The function `emit_reduction` on a raw operator value and with the instruction vector of
the context explicit: the two assertions, the two calls of `get_reduction_identity`, then the
emitting part. -/
def emit_reduction_raw (decode : Nat → Option ReduceOp) (ctx : lower_context)
    (op : aco_opcode) (raw : Nat) (cluster_size : Nat) (tmp stmp vtmp sitmp : PhysReg)
    (src : Operand) (dst : Definition) : reduction_outcome :=
  if ¬ (cluster_size = ctx.program.wave_size ∨ op = .p_reduce) then
    .failed_at_entry .assertion ctx.instructions
  else if ¬ (cluster_size ≤ ctx.program.wave_size) then
    .failed_at_entry .assertion ctx.instructions
  else
    match get_reduction_identity_raw decode raw 0 with
    | .error f => .failed_at_entry f ctx.instructions
    | .ok _ =>
      match get_reduction_identity_raw decode raw 1 with
      | .error f => .failed_at_entry f ctx.instructions
      | .ok _ =>
        match decode raw with
        | none => .failed_at_entry .assertion ctx.instructions
        | some reduce_op =>
          .emitting (emit_reduction ctx.program op reduce_op cluster_size tmp stmp vtmp sitmp
            src dst)

/-- A numbering of `ReduceOp` in the order of the switch of `get_reduction_identity`. -/
def sample_numbering (n : Nat) : Option ReduceOp :=
  [ReduceOp.iadd8, .iadd16, .iadd32, .iadd64, .imul8, .imul16, .imul32, .imul64,
   .fadd16, .fadd32, .fadd64, .fmul16, .fmul32, .fmul64,
   .imin8, .imin16, .imin32, .imin64, .imax8, .imax16, .imax32, .imax64,
   .umin8, .umin16, .umin32, .umin64, .umax8, .umax16, .umax32, .umax64,
   .fmin16, .fmin32, .fmin64, .fmax16, .fmax32, .fmax64,
   .iand8, .iand16, .iand32, .iand64, .ior8, .ior16, .ior32, .ior64,
   .ixor8, .ixor16, .ixor32, .ixor64][n]?

/-! ## Reads of `uses` in `split_copy` -/

/-- The indices of `src.uses` read by the inner loop of `split_copy` for the current `bytes`:
index `offset` and `offset + bytes + i` for `i = 0, 1, ...` up to the first `i` whose
comparison fails. -/
def inner_reads (src : copy_operation) (offset bytes : Nat) : Nat → Nat → List Nat
  | 0, _ => []
  | n + 1, i =>
    if i < bytes then
      if (src.use (offset + bytes + i) == 0) == (src.use offset == 0) then
        (offset + bytes + i) :: offset :: inner_reads src offset bytes n (i + 1)
      else [offset + bytes + i, offset]
    else []

/-- The indices of `src.uses` read by the loop of `split_copy`, in order. -/
def split_copy_reads_loop (src : copy_operation) (offset : Nat) (ignore_uses : Bool)
    (max_size def_b op_b : Nat) : Nat → Nat → List Nat
  | 0, _ => []
  | fuel + 1, bytes =>
    if bytes ≤ max_size then
      let next := bytes * 2
      let can0 : Bool := def_b % next == 0 && decide (offset + next ≤ src.bytes) &&
        decide (next ≤ max_size)
      let can1 : Bool := if !src.op.isConstant && can0 then op_b % next == 0 else can0
      let reads := if !ignore_uses && can1 then inner_reads src offset bytes bytes 0 else []
      let can2 : Bool := if ignore_uses then can1 else
        can1 && (List.range bytes).all (fun i =>
          (src.use (offset + bytes + i) == 0) == (src.use offset == 0))
      if can2 then
        reads ++ split_copy_reads_loop src offset ignore_uses max_size def_b op_b fuel next
      else reads
    else []

/-- The indices of `src.uses` read by `split_copy`. -/
def split_copy_reads (offset : Nat) (src : copy_operation) (ignore_uses : Bool)
    (max_size : Nat) : List Nat :=
  let def_reg := src.def_.physReg.advance offset
  let op_reg := src.op.physReg.advance offset
  let max_size := min max_size (if src.def_.regClass.type = .vgpr then 4 else 8)
  split_copy_reads_loop src offset ignore_uses max_size def_reg.reg_b op_reg.reg_b 4 1

/-- An eight-byte copy `s[0:1] := s[2:3]` whose upper half is in use. -/
def half_used_copy : copy_operation :=
  ⟨Operand.ofReg ⟨8⟩ s2, ⟨⟨0⟩, s2⟩, 8, [0, 0, 0, 0, 1, 1, 1, 1]⟩

/-! ## `lower_to_hw_instr`: copy map of `p_create_vector`, and the block loop -/

/-- An operand of `p_create_vector` together with the answer of `isUndefined()`. -/
structure vector_operand where
  op : Operand
  isUndefined : Bool
deriving DecidableEq, Repr

/-- What the loop of the `p_create_vector` case does for one operand at register `reg`: the copy
it stores in `copy_operations`, if any. -/
def create_vector_copy (def_type : RegType) (reg : PhysReg) (o : vector_operand) :
    Option (PhysReg × copy_operation) :=
  if o.op.isConstant then
    let d : Definition := ⟨reg, RegClass.ofSize def_type o.op.size⟩
    some (reg, copy_operation.init o.op d o.op.bytes)
  else if o.isUndefined then none
  else
    let rc_def := if o.op.regClass.is_subdword then o.op.regClass
      else RegClass.ofSize def_type o.op.size
    let d : Definition := ⟨reg, rc_def⟩
    some (d.physReg, copy_operation.init o.op d o.op.bytes)

/-- The loop over the operands of `p_create_vector`: the copies created, one item per operand
in operand order, starting at register `reg`. -/
def create_vector_copies (def_type : RegType) : PhysReg → List vector_operand →
    List (Option (PhysReg × copy_operation))
  | _, [] => []
  | reg, o :: rest =>
    create_vector_copy def_type reg o ::
      create_vector_copies def_type (reg.advance o.op.bytes) rest

/-- The map `copy_operations` that the `p_create_vector` case passes to `handle_operands`. -/
def create_vector_map (d : Definition) (ops : List vector_operand) : copy_map :=
  (create_vector_copies d.regClass.type d.physReg ops).foldl (fun m c =>
    match c with
    | some e => map_insert m e.1 e.2
    | none => m) []

/-- Sum of the byte sizes of the first `k` operands. -/
def bytes_before (ops : List vector_operand) (k : Nat) : Nat :=
  ((ops.take k).map (fun o => o.op.bytes)).sum

/-- Operands `v1`, undefined `v1`, constant 0 of a three-dword vector. -/
def sample_vector_operands : List vector_operand :=
  [⟨Operand.ofReg ⟨1040⟩ v1, false⟩, ⟨Operand.ofReg ⟨0⟩ v1, true⟩, ⟨Operand.c32 0, false⟩]

/-- The definition `v[0:2]` of the sample vector. -/
def sample_vector_definition : Definition := ⟨⟨1024⟩, RegClass.ofSize .vgpr 3⟩

/-- The field `format` of an instruction, as far as the block loop of `lower_to_hw_instr`
distinguishes it; `hardware` stands for every other encoding. -/
inductive Format where
  | PSEUDO | PSEUDO_BRANCH | PSEUDO_REDUCTION
  | hardware (encoding : Nat)
deriving DecidableEq, Repr

/-- An instruction of a block as the loop sees it: its format, the instruction, and the fields
of the derived instruction classes that the loop reads: `tmp_in_scc` and `scratch_sgpr`
(`Pseudo_instruction`), `dest` (`Export_instruction`), `target[0]`
(`Pseudo_branch_instruction`), `reduce_op` and `cluster_size`
(`Pseudo_reduction_instruction`).  `undefined` holds `isUndefined()` of each operand and
`linear_vgpr` the comparison `operands[0].regClass() == v1.as_linear()`, which the operand
model does not carry. -/
structure block_instruction where
  format : Format
  instr : Instruction
  tmp_in_scc : Bool
  scratch_sgpr : PhysReg
  undefined : List Bool
  linear_vgpr : Bool
  dest : Nat
  target : Nat
  reduce_op : ReduceOp
  cluster_size : Nat
deriving DecidableEq, Repr

/-- An instruction with the given format whose other fields are not set. -/
def block_instruction.of (format : Format) (instr : Instruction) : block_instruction :=
  ⟨format, instr, false, ⟨0⟩, [], false, 0, 0, .iadd32, 0⟩

/-- The cast `(Pseudo_instruction*)instr.get()`. -/
def block_instruction.pi (bi : block_instruction) : Pseudo_instruction :=
  ⟨bi.instr.opcode, bi.tmp_in_scc, bi.scratch_sgpr⟩

/-- What the loop reads of the program and of the block besides the instructions:
`block->index`, which is also the position `i` of the block in `program->blocks`, `block->kind & block_kind_top_level`, `block->fp_mode.val`,
`program->config->float_mode`, the `fp_mode.val` of the linear predecessors,
`program->stage & hw_fs`, `program->wb_smem_l1_on_end`, `program->config->num_vgprs`,
`program->blocks[i].instructions.size()`, and the constants `V_008DFC_SQ_EXP_NULL` and
`V_008DFC_SQ_EXP_POS` of a header that is not part of the sources. -/
structure block_env where
  index : Nat
  top_level : Bool
  fp_mode : Nat
  float_mode : Nat
  pred_fp_modes : List Nat
  stage_hw_fs : Bool
  wb_smem_l1_on_end : Bool
  num_vgprs : Nat
  block_size : Nat → Nat
  sq_exp_null : Nat
  sq_exp_pos : Nat

/-- What one iteration of the loop can change: the context, `block->linear_succs`, the index
of the discard block once it exists with its instructions and `linear_preds`, and
`program->blocks.size()`. -/
structure block_state where
  ctx : lower_context
  linear_succs : List Nat
  discard_block : Option Nat
  discard_instructions : List Instruction
  discard_preds : List Nat
  num_blocks : Nat

/-- Append the instructions built by the builder `bld`, which is bound to
`ctx.instructions`. -/
def block_state.emit (s : block_state) (is : List Instruction) : block_state :=
  ⟨⟨s.ctx.program, s.ctx.instructions ++ is⟩, s.linear_succs, s.discard_block,
    s.discard_instructions, s.discard_preds, s.num_blocks⟩

/-- A call `handle_operands(copy_operations, &ctx, program->chip_class, pi)`. -/
def block_state.handle (fuel : Nat) (s : block_state) (m : copy_map)
    (bi : block_instruction) : Except Fault block_state :=
  match handle_operands fuel m s.ctx s.ctx.program.chip_class bi.pi with
  | .error e => .error e
  | .ok r => .ok ⟨r.ctx, s.linear_succs, s.discard_block, s.discard_instructions,
      s.discard_preds, s.num_blocks⟩

/-- The constructor `Operand(RegClass)` of an undefined operand, which is fixed to register
128. -/
def Operand.undef (rc : RegClass) : Operand := ⟨PhysReg.ofReg 128, rc, false, 0⟩

/-- The loop of the `p_split_vector` case that fills `copy_operations`. -/
def split_vector_map (op_type : RegType) : PhysReg → List Definition → copy_map → copy_map
  | _, [], m => m
  | reg, d :: ds, m =>
    let rc_op := if d.regClass.is_subdword then d.regClass else RegClass.ofSize op_type d.size
    split_vector_map op_type (reg.advance d.bytes) ds
      (map_insert m d.physReg (copy_operation.init (Operand.ofReg reg rc_op) d d.bytes))

/-- The loop of the `p_parallelcopy` case that fills `copy_operations`. -/
def parallelcopy_map : List Operand → List Definition → copy_map → Except Fault copy_map
  | [], _, m => .ok m
  | _ :: _, [], _ => .error .undefined_behaviour
  | o :: os, d :: ds, m =>
    if d.bytes ≠ o.bytes then .error .assertion
    else parallelcopy_map os ds (map_insert m d.physReg (copy_operation.init o d o.bytes))

/-- The operands of `p_create_vector` with their `isUndefined()` flags. -/
def flagged_operands (bi : block_instruction) : List vector_operand :=
  bi.instr.operands.enum.map (fun e => ⟨e.2, bi.undefined.getD e.1 false⟩)

/-- The function `emit_gfx6_bpermute`. -/
def emit_gfx6_bpermute (p : Program) (instr : Instruction) : Except Fault (List Instruction) :=
  match instr.operands, instr.definitions with
  | index :: input :: _, dst :: temp_exec :: clobber_vcc :: _ =>
    let lm := lane_mask_class p.wave_size
    if dst.regClass ≠ v1 then .error .assertion
    else if temp_exec.regClass ≠ lm then .error .assertion
    else if clobber_vcc.regClass ≠ lm then .error .assertion
    else if clobber_vcc.physReg ≠ vcc then .error .assertion
    else if index.regClass ≠ v1 then .error .assertion
    else if index.physReg = dst.physReg then .error .assertion
    else if input.regClass.type ≠ .vgpr then .error .assertion
    else if ¬ (input.bytes ≤ 4) then .error .assertion
    else if input.physReg = dst.physReg then .error .assertion
    else
      .ok (Instruction.plain .s_mov_b64 [temp_exec] [Operand.ofReg exec s2] ::
        ((List.range p.wave_size).map (fun n =>
          [Instruction.plain .v_cmpx_eq_u32 [⟨exec, lm⟩, clobber_vcc] [Operand.c32 n, index],
           readlane ⟨vcc, s1⟩ input (Operand.c32 n),
           Instruction.plain .v_mov_b32 [dst] [Operand.ofReg vcc s1],
           Instruction.plain .s_mov_b64 [⟨exec, s2⟩]
             [Operand.ofReg temp_exec.physReg s2]])).flatten)
  | _, _ => .error .undefined_behaviour

/-- The helper `dpp_quad_perm(0, 1, 2, 3)`. -/
def dpp_quad_perm_0123 : Nat := 0 + 1 * 4 + 2 * 16 + 3 * 64

/-- The function `emit_gfx10_wave64_bpermute`; `num_vgprs` is `program->config->num_vgprs`. -/
def emit_gfx10_wave64_bpermute (p : Program) (num_vgprs : Nat) (instr : Instruction) :
    Except Fault (List Instruction) :=
  if ¬ (p.chip_class.rank ≥ 10) then .error .assertion
  else if p.wave_size ≠ 64 then .error .assertion
  else
    match instr.operands, instr.definitions with
    | index_x4 :: input_data :: same_half :: _, dst :: tmp_exec :: clobber_scc :: _ =>
      let lm := lane_mask_class p.wave_size
      let shared_vgpr_reg_0 := ((num_vgprs + 3) / 4 * 4 + 256) % 4294967296
      if dst.regClass ≠ v1 then .error .assertion
      else if tmp_exec.regClass ≠ lm then .error .assertion
      else if clobber_scc.physReg ≠ scc then .error .assertion
      else if same_half.regClass ≠ lm then .error .assertion
      else if index_x4.regClass ≠ v1 then .error .assertion
      else if input_data.regClass.type ≠ .vgpr then .error .assertion
      else if ¬ (input_data.bytes ≤ 4) then .error .assertion
      else if dst.physReg = index_x4.physReg then .error .assertion
      else if dst.physReg = input_data.physReg then .error .assertion
      else if tmp_exec.physReg = same_half.physReg then .error .assertion
      else
        let shared_vgpr_lo := PhysReg.ofReg shared_vgpr_reg_0
        let shared_vgpr_hi := PhysReg.ofReg ((shared_vgpr_reg_0 + 1) % 4294967296)
        .ok ([⟨.ds_bpermute_b32, [dst], [index_x4, input_data], .imm 0⟩,
           Instruction.with_dpp .v_mov_b32 [⟨shared_vgpr_hi, v1⟩] [input_data]
             dpp_quad_perm_0123 0xc 0xf false,
           Instruction.plain .s_mov_b64 [tmp_exec] [Operand.ofReg exec s2],
           Instruction.plain .s_bfm_b64 [⟨exec, s2⟩] [Operand.c32 32, Operand.c32 0],
           Instruction.plain .v_mov_b32 [⟨shared_vgpr_lo, v1⟩] [input_data],
           ⟨.ds_bpermute_b32, [⟨shared_vgpr_hi, v1⟩],
             [index_x4, Operand.ofReg shared_vgpr_hi v1], .imm 0⟩,
           Instruction.plain .s_bfm_b64 [⟨exec, s2⟩] [Operand.c32 32, Operand.c32 32],
           ⟨.ds_bpermute_b32, [⟨shared_vgpr_lo, v1⟩],
             [index_x4, Operand.ofReg shared_vgpr_lo v1], .imm 0⟩,
           Instruction.plain .s_andn2_b64 [⟨exec, s2⟩, clobber_scc]
             [Operand.ofReg tmp_exec.physReg s2, same_half],
           Instruction.with_dpp .v_mov_b32 [dst] [Operand.ofReg shared_vgpr_hi v1]
             dpp_quad_perm_0123 0x3 0xf false,
           Instruction.with_dpp .v_mov_b32 [dst] [Operand.ofReg shared_vgpr_lo v1]
             dpp_quad_perm_0123 0xc 0xf false,
           Instruction.plain .s_mov_b64 [⟨exec, s2⟩] [Operand.ofReg tmp_exec.physReg s2]] ++
          (if input_data.physReg.byte ≠ 0 then
            [Instruction.plain .v_lshrrev_b32 [dst]
              [Operand.c32 (input_data.physReg.byte * 8), Operand.ofReg dst.physReg v1]]
           else []))
    | _, _ => .error .undefined_behaviour

/-- One instruction after a `p_exit_early_if` does not prevent ignoring the early exit.
After register allocation every definition is fixed, so `isFixed()` holds. -/
def early_exit_ignorable (null_exp_dest : Nat) (bi : block_instruction) : Except Fault Bool :=
  if bi.instr.opcode = .s_endpgm ∨ bi.instr.opcode = .p_logical_end then .ok true
  else if bi.instr.opcode = .exp ∧ bi.dest = null_exp_dest then .ok true
  else if bi.instr.opcode = .p_parallelcopy then
    match bi.instr.definitions with
    | [] => .error .undefined_behaviour
    | d :: _ => .ok (decide (d.physReg = exec))
  else .ok false

/-- The loop over the instructions after a `p_exit_early_if`: the final value of
`ignore_early_exit`. -/
def ignore_early_exit (null_exp_dest : Nat) : List block_instruction → Except Fault Bool
  | [] => .ok true
  | bi :: rest =>
    match early_exit_ignorable null_exp_dest bi with
    | .error e => .error e
    | .ok b =>
      match ignore_early_exit null_exp_dest rest with
      | .error e => .error e
      | .ok r => .ok (b && r)

/-- The instructions of the discard block. -/
def discard_block_instructions (env : block_env) : List Instruction :=
  [⟨.exp, [], [Operand.undef v1, Operand.undef v1, Operand.undef v1, Operand.undef v1],
     .exp 0 env.sq_exp_null false true true⟩] ++
  (if env.wb_smem_l1_on_end then [Instruction.plain .s_dcache_wb [] []] else []) ++
  [Instruction.plain .s_endpgm [] []]

/-- The case `p_exit_early_if`; `rest` are the instructions of the block after it.
`create_and_insert_block`, whose body is in a header outside the sources, is taken to append
an empty block whose index is the old number of blocks. -/
def lower_exit_early_if (env : block_env) (s : block_state) (bi : block_instruction)
    (rest : List block_instruction) : Except Fault block_state :=
  let last_opcode := ((bi :: rest).getLast?.map (fun b => b.instr.opcode)).getD bi.instr.opcode
  let null_exp_dest := if env.stage_hw_fs then 9 else env.sq_exp_pos
  let ignored : Except Fault Bool :=
    if rest.length ≤ 4 ∧ last_opcode = .s_endpgm then ignore_early_exit null_exp_dest rest
    else .ok false
  match ignored with
  | .error e => .error e
  | .ok true => .ok s
  | .ok false =>
    let s1 : block_state :=
      match s.discard_block with
      | some _ => s
      | none => ⟨s.ctx, s.linear_succs, some s.num_blocks, discard_block_instructions env,
          s.discard_preds, s.num_blocks + 1⟩
    match bi.instr.operands, s1.discard_block with
    | op0 :: _, some idx =>
      if op0.physReg ≠ scc then .error .assertion
      else
        .ok ⟨⟨s1.ctx.program, s1.ctx.instructions ++ [⟨.s_cbranch_scc0, [], [op0], .imm idx⟩]⟩,
          s1.linear_succs ++ [idx], s1.discard_block, s1.discard_instructions,
          s1.discard_preds ++ [env.index], s1.num_blocks⟩
    | _, _ => .error .undefined_behaviour

/-- The switch of the `Format::PSEUDO` case; `rest` are the instructions of the block after
this one.  The case `p_bpermute` has no `break` and falls into `default: break`. -/
def lower_pseudo (fuel : Nat) (env : block_env) (s : block_state) (bi : block_instruction)
    (rest : List block_instruction) : Except Fault block_state :=
  match bi.instr.opcode with
  | .p_extract_vector =>
    match bi.instr.operands, bi.instr.definitions with
    | op0 :: op1 :: _, d :: _ =>
      let reg := op0.physReg.advance ((op1.constantValue * d.bytes) % 4294967296)
      if reg = d.physReg then .ok s
      else
        let op_rc := if d.regClass.is_subdword then d.regClass
          else RegClass.ofSize op0.regClass.type d.size
        s.handle fuel
          (map_insert [] d.physReg (copy_operation.init (Operand.ofReg reg op_rc) d d.bytes)) bi
    | _, _ => .error .undefined_behaviour
  | .p_create_vector =>
    match bi.instr.definitions with
    | d :: _ => s.handle fuel (create_vector_map d (flagged_operands bi)) bi
    | [] => .error .undefined_behaviour
  | .p_split_vector =>
    match bi.instr.operands with
    | op0 :: _ =>
      s.handle fuel (split_vector_map op0.regClass.type op0.physReg bi.instr.definitions []) bi
    | [] => .error .undefined_behaviour
  | .p_parallelcopy | .p_wqm =>
    match parallelcopy_map bi.instr.operands bi.instr.definitions [] with
    | .error e => .error e
    | .ok m => s.handle fuel m bi
  | .p_exit_early_if => lower_exit_early_if env s bi rest
  | .p_spill =>
    match bi.instr.operands with
    | op0 :: op1 :: op2 :: _ =>
      if bi.linear_vgpr = false then .error .assertion
      else
        .ok (s.emit ((List.range op2.size).map (fun i =>
          writelane ⟨op0.physReg, v1⟩ (Operand.ofReg (op2.physReg.plus i) s1)
            (Operand.c32 (op1.constantValue + i)) op0)))
    | _ => .error .undefined_behaviour
  | .p_reload =>
    match bi.instr.operands, bi.instr.definitions with
    | op0 :: op1 :: _, d :: _ =>
      if bi.linear_vgpr = false then .error .assertion
      else
        .ok (s.emit ((List.range d.size).map (fun i =>
          readlane ⟨d.physReg.plus i, s1⟩ op0 (Operand.c32 (op1.constantValue + i)))))
    | _, _ => .error .undefined_behaviour
  | .p_as_uniform =>
    match bi.instr.operands, bi.instr.definitions with
    | op0 :: _, d :: _ =>
      if op0.isConstant ∨ op0.regClass.type = .sgpr then
        s.handle fuel (map_insert [] d.physReg (copy_operation.init op0 d d.bytes)) bi
      else if op0.regClass.type ≠ .vgpr then .error .assertion
      else if d.regClass.type ≠ .sgpr then .error .assertion
      else if op0.size ≠ d.size then .error .assertion
      else
        .ok (s.emit ((List.range d.size).map (fun i =>
          Instruction.plain .v_readfirstlane_b32 [⟨d.physReg.plus i, s1⟩]
            [Operand.ofReg (op0.physReg.plus i) v1])))
    | _, _ => .error .undefined_behaviour
  | .p_bpermute =>
    if s.ctx.program.chip_class.rank ≤ 7 then
      match emit_gfx6_bpermute s.ctx.program bi.instr with
      | .error e => .error e
      | .ok is => .ok (s.emit is)
    else if s.ctx.program.chip_class = .GFX10 ∧ s.ctx.program.wave_size = 64 then
      match emit_gfx10_wave64_bpermute s.ctx.program env.num_vgprs bi.instr with
      | .error e => .error e
      | .ok is => .ok (s.emit is)
    else .error .assertion
  | _ => .ok s

/-- The test `can_remove` of the `Format::PSEUDO_BRANCH` case: all blocks from the current one
to the target are empty. -/
def can_remove (env : block_env) (bi : block_instruction) : Bool :=
  decide (env.index < bi.target) &&
    (List.range (bi.target - (env.index + 1))).all (fun k =>
      decide (env.block_size (env.index + 1 + k) = 0))

/-- The switch of the `Format::PSEUDO_BRANCH` case for a branch that is kept. -/
def lower_branch (s : block_state) (bi : block_instruction) : Except Fault block_state :=
  match bi.instr.opcode with
  | .p_branch =>
    match s.linear_succs with
    | succ0 :: _ =>
      if succ0 ≠ bi.target then .error .assertion
      else .ok (s.emit [⟨.s_branch, [], [], .imm bi.target⟩])
    | [] => .error .undefined_behaviour
  | .p_cbranch_nz =>
    match s.linear_succs, bi.instr.operands with
    | _ :: succ1 :: _, op0 :: _ =>
      if succ1 ≠ bi.target then .error .assertion
      else if op0.physReg = exec then .ok (s.emit [⟨.s_cbranch_execnz, [], [], .imm bi.target⟩])
      else if op0.physReg = vcc then .ok (s.emit [⟨.s_cbranch_vccnz, [], [], .imm bi.target⟩])
      else if op0.physReg ≠ scc then .error .assertion
      else .ok (s.emit [⟨.s_cbranch_scc1, [], [], .imm bi.target⟩])
    | _, _ => .error .undefined_behaviour
  | .p_cbranch_z =>
    match s.linear_succs, bi.instr.operands with
    | _ :: succ1 :: _, op0 :: _ =>
      if succ1 ≠ bi.target then .error .assertion
      else if op0.physReg = exec then .ok (s.emit [⟨.s_cbranch_execz, [], [], .imm bi.target⟩])
      else if op0.physReg = vcc then .ok (s.emit [⟨.s_cbranch_vccz, [], [], .imm bi.target⟩])
      else if op0.physReg ≠ scc then .error .assertion
      else .ok (s.emit [⟨.s_cbranch_scc0, [], [], .imm bi.target⟩])
    | _, _ => .error .undefined_behaviour
  | _ => .error .assertion

/-- The `Format::PSEUDO_REDUCTION` case: the call of `emit_reduction`. -/
def lower_reduction (s : block_state) (bi : block_instruction) : Except Fault block_state :=
  match bi.instr.operands, bi.instr.definitions with
  | op0 :: op1 :: op2 :: _, d0 :: d1 :: d2 :: _ =>
    match emit_reduction s.ctx.program bi.instr.opcode bi.reduce_op bi.cluster_size
        op1.physReg d1.physReg op2.physReg d2.physReg op0 d0 with
    | .error e => .error e
    | .ok is => .ok (s.emit is)
  | _, _ => .error .undefined_behaviour

/-- One iteration of the loop over the instructions of a block. -/
def lower_instruction (fuel : Nat) (env : block_env) (s : block_state) (bi : block_instruction)
    (rest : List block_instruction) : Except Fault block_state :=
  match bi.format with
  | .PSEUDO => lower_pseudo fuel env s bi rest
  | .PSEUDO_BRANCH => if can_remove env bi then .ok s else lower_branch s bi
  | .PSEUDO_REDUCTION => lower_reduction s bi
  | .hardware _ => .ok (s.emit [bi.instr])

/-- The loop over the instructions of a block. -/
def lower_block_loop (fuel : Nat) (env : block_env) :
    block_state → List block_instruction → Except Fault block_state
  | s, [] => .ok s
  | s, bi :: rest =>
    match lower_instruction fuel env s bi rest with
    | .error e => .error e
    | .ok s1 => lower_block_loop fuel env s1 rest

/-- The value of `set_mode` for the block. -/
def set_mode (env : block_env) : Bool :=
  (decide (env.index = 0) && decide (env.fp_mode ≠ env.float_mode)) ||
    env.pred_fp_modes.any (fun m => decide (m ≠ env.fp_mode))

/-- The instructions with which the context of a block starts. -/
def mode_instructions (env : block_env) : Except Fault (List Instruction) :=
  if set_mode env then
    if env.top_level = false then .error .assertion
    else .ok [⟨.s_setreg_imm32_b32, [], [Operand.c32 env.fp_mode], .imm (7 * 2048 + 1)⟩]
  else .ok []

/-- One iteration of the loop over the blocks: a fresh context, the optional
`s_setreg_imm32_b32`, the loop over the instructions, and the final `swap`, after which
`ctx.instructions` of the returned state are the instructions of the block.  The state `s`
carries the program and what earlier blocks left; its instruction list is not used. -/
def lower_block (fuel : Nat) (env : block_env) (s : block_state)
    (instructions : List block_instruction) : Except Fault block_state :=
  match mode_instructions env with
  | .error e => .error e
  | .ok ms =>
    lower_block_loop fuel env
      ⟨⟨s.ctx.program, ms⟩, s.linear_succs, s.discard_block, s.discard_instructions,
        s.discard_preds, s.num_blocks⟩ instructions

/-- The instruction is neither a pseudo-instruction, a pseudo-branch nor a reduction. -/
def Format.is_hardware : Format → Bool
  | .hardware _ => true
  | _ => false

/-- An environment of a top-level block with index 0 in a fragment shader, no mode change,
and empty other blocks. -/
def sample_env : block_env := ⟨0, true, 0, 0, [], true, false, 8, fun _ => 0, 9, 12⟩

/-- The state before the first block of a GFX9 program with two blocks. -/
def sample_state : block_state := ⟨empty_ctx .GFX9, [1], none, [], [], 2⟩

/-- A block `v_mov_b32 v1, v0; p_parallelcopy v2 = v1; p_exit_early_if scc;
v_mov_b32 v3, v2; p_branch 1` whose branch to the next block is removable. -/
def sample_block : List block_instruction :=
  [block_instruction.of (.hardware 0)
     (Instruction.plain .v_mov_b32 [⟨⟨1028⟩, v1⟩] [Operand.ofReg ⟨1024⟩ v1]),
   block_instruction.of .PSEUDO
     (Instruction.plain .p_parallelcopy [⟨⟨1032⟩, v1⟩] [Operand.ofReg ⟨1028⟩ v1]),
   block_instruction.of .PSEUDO
     (Instruction.plain .p_exit_early_if [] [Operand.ofReg scc s1]),
   block_instruction.of (.hardware 0)
     (Instruction.plain .v_mov_b32 [⟨⟨1036⟩, v1⟩] [Operand.ofReg ⟨1032⟩ v1]),
   ⟨.PSEUDO_BRANCH, Instruction.plain .p_branch [] [], false, ⟨0⟩, [], false, 0, 1,
     .iadd32, 0⟩]

/-- The state after lowering the sample block. -/
def sample_block_state : block_state :=
  match lower_block 16 sample_env sample_state sample_block with
  | .ok s => s
  | .error _ => sample_state

/-! ## Turnip: GMEM partition of `create_render_pass_common` (`tu_pass.c`)

Unsigned 32-bit arithmetic is written out with `% 4294967296`; a division by zero and a shift
by 32 or more are undefined behaviour. -/

/-- The fields of `struct tu_render_pass_attachment` read or written by the partition. -/
structure tu_render_pass_attachment where
  cpp : Nat
  gmem_offset : Int
deriving DecidableEq, Repr

/-- The attachment is a gmem attachment: `att->gmem_offset >= 0`. -/
def tu_render_pass_attachment.in_gmem (a : tu_render_pass_attachment) : Bool :=
  decide (0 ≤ a.gmem_offset)

/-- Locals `cpp_total`, `tile_align_w`, `block_align_shift` of the first loop. -/
structure cpp_state where
  cpp_total : Nat
  tile_align_w : Nat
  block_align_shift : Nat
deriving DecidableEq, Repr

/-- The loop "calculate total bytes per pixel". -/
def cpp_total_loop : List tu_render_pass_attachment → cpp_state → cpp_state
  | [], s => s
  | att :: rest, s =>
    if 0 ≤ att.gmem_offset then
      let cpp_total := (s.cpp_total + att.cpp) % 4294967296
      if att.cpp = 1 ∧ s.tile_align_w % 64 ≠ 0 then
        cpp_total_loop rest ⟨cpp_total, (s.tile_align_w * 2) % 4294967296,
          (s.block_align_shift + 4294967296 - 1) % 4294967296⟩
      else cpp_total_loop rest ⟨cpp_total, s.tile_align_w, s.block_align_shift⟩
    else cpp_total_loop rest s

/-- Locals `gmem_blocks`, `cpp_total`, `offset`, `pixels` of the second loop. -/
structure gmem_state where
  gmem_blocks : Nat
  cpp_total : Nat
  offset : Nat
  pixels : Nat
deriving DecidableEq, Repr

/-- Conversion of a `uint32_t` to the `int32_t` field `gmem_offset`. -/
def to_int32 (x : Nat) : Int := if x < 2147483648 then (x : Int) else (x : Int) - 4294967296

/-- The local `nblocks` of one iteration of the second loop. -/
def attachment_nblocks (block_align_shift : Nat) (s : gmem_state)
    (att : tu_render_pass_attachment) : Nat :=
  let align := max 1 (att.cpp >>> block_align_shift)
  max ((s.gmem_blocks * att.cpp % 4294967296 / s.cpp_total) &&& (4294967296 - align)) align

/-- The second loop: the attachments with their `gmem_offset` assigned, the value of `nblocks`
of every iteration that did not `continue`, in order, and the final locals. -/
def gmem_loop (gmem_align block_align_shift : Nat) :
    List tu_render_pass_attachment → gmem_state →
    Except Fault (List tu_render_pass_attachment × List Nat × gmem_state)
  | [], s => .ok ([], [], s)
  | att :: rest, s =>
    if att.gmem_offset < 0 then
      match gmem_loop gmem_align block_align_shift rest s with
      | .error e => .error e
      | .ok (atts, nbs, s1) => .ok (att :: atts, nbs, s1)
    else if 32 ≤ block_align_shift then .error .undefined_behaviour
    else if s.cpp_total = 0 then .error .undefined_behaviour
    else if att.cpp = 0 then .error .undefined_behaviour
    else
      let nblocks := attachment_nblocks block_align_shift s att
      let s1 : gmem_state :=
        ⟨(s.gmem_blocks + 4294967296 - nblocks) % 4294967296,
         (s.cpp_total + 4294967296 - att.cpp) % 4294967296,
         (s.offset + nblocks * gmem_align % 4294967296) % 4294967296,
         min s.pixels (nblocks * gmem_align % 4294967296 / att.cpp)⟩
      match gmem_loop gmem_align block_align_shift rest s1 with
      | .error e => .error e
      | .ok (atts, nbs, s2) => .ok (⟨att.cpp, to_int32 s.offset⟩ :: atts, nblocks :: nbs, s2)

/-- What the partition leaves in `pass`, with the `nblocks` handed out and the final
`gmem_blocks`. -/
structure gmem_partition where
  tile_align_w : Nat
  gmem_pixels : Nat
  attachments : List tu_render_pass_attachment
  nblocks : List Nat
  gmem_blocks : Nat
deriving DecidableEq, Repr

/-- The local `gmem_align`; `tile_align_h` is the constant `TILE_ALIGN_H`. -/
def gmem_align (tile_align_w tile_align_h : Nat) : Nat :=
  16 * tile_align_w * tile_align_h % 4294967296

/-- The part of `create_render_pass_common` up to `pass->gmem_pixels = pixels`. -/
def create_render_pass_common (attachments : List tu_render_pass_attachment)
    (tile_align_w tile_align_h ccu_offset_gmem : Nat) : Except Fault gmem_partition :=
  let c := cpp_total_loop attachments ⟨0, tile_align_w, 4⟩
  if c.cpp_total = 0 then
    .ok ⟨c.tile_align_w, 1024 * 1024, attachments, [], 0⟩
  else if gmem_align tile_align_w tile_align_h = 0 then .error .undefined_behaviour
  else
    let gmem_blocks := ccu_offset_gmem / gmem_align tile_align_w tile_align_h
    match gmem_loop (gmem_align tile_align_w tile_align_h) c.block_align_shift attachments
        ⟨gmem_blocks, c.cpp_total, 0, 4294967295⟩ with
    | .error e => .error e
    | .ok (atts, nbs, s) => .ok ⟨c.tile_align_w, s.pixels, atts, nbs, s.gmem_blocks⟩

/-- Sum of `cpp` over the gmem attachments. -/
def gmem_cpp_sum (attachments : List tu_render_pass_attachment) : Nat :=
  ((attachments.filter (fun a => a.in_gmem)).map (fun a => a.cpp)).sum

/-- Two gmem attachments with `cpp` 1 and 4. -/
def sample_attachments : List tu_render_pass_attachment := [⟨1, 0⟩, ⟨4, 0⟩]

/-- Three gmem attachments with `cpp` 4. -/
def crowded_attachments : List tu_render_pass_attachment := [⟨4, 0⟩, ⟨4, 0⟩, ⟨4, 0⟩]

/-! ## Observations for the save and restore of `exec` by `emit_reduction` -/

/-- No definition of the instructions starts at scalar dword `r` or at the dword before it
(a definition of the lowering is at most two dwords long). -/
def keeps_sgpr (is : List Instruction) (r : Nat) : Prop :=
  ∀ i ∈ is, ∀ d ∈ i.definitions, d.physReg.reg ≠ r ∧ d.physReg.reg + 1 ≠ r

/-- The first instruction of `emit_reduction`. -/
def save_exec (p : Program) (stmp : PhysReg) : Instruction :=
  Instruction.plain (if p.wave_size = 64 then .s_or_saveexec_b64 else .s_or_saveexec_b32)
    [⟨stmp, lane_mask_class p.wave_size⟩, ⟨scc, s1⟩, ⟨exec, lane_mask_class p.wave_size⟩]
    [Operand.all_ones64, Operand.ofReg exec (lane_mask_class p.wave_size)]

/-- A register number of the vector file with room for a pair. -/
def vgpr_pair (r : PhysReg) : Prop := 256 ≤ r.reg ∧ r.reg + 2 ≤ 512

instance (r : PhysReg) : Decidable (vgpr_pair r) := by unfold vgpr_pair; infer_instance

/-- A wave64 program on GFX9. -/
def sample_reduce_program : Program := ⟨.GFX9, 64, fun _ => 0⟩

/-- The instructions of a full-wave `iadd32` reduction of `v0` into `s20`, with `tmp = v1`,
`stmp = s[10:11]`, `vtmp = v2`, `sitmp = s12`. -/
def sample_reduce_instructions : List Instruction :=
  match emit_reduction sample_reduce_program .p_reduce .iadd32 64 (PhysReg.ofReg 257)
      (PhysReg.ofReg 10) (PhysReg.ofReg 258) (PhysReg.ofReg 12)
      (Operand.ofReg (PhysReg.ofReg 256) v1) ⟨PhysReg.ofReg 20, s1⟩ with
  | .ok is => is
  | .error _ => []

/-! ## Values of register pairs -/

/-- The dword of register `r` as lane `l` sees it: a vector register for `r ≥ 256`, a scalar
register otherwise. -/
def dword_value (st : wave_state) (r l : Nat) : Nat :=
  if 256 ≤ r then st.vgpr r l else st.sgpr r

/-- The 64-bit value of the register pair starting at `r` as lane `l` sees it. -/
def pair_value (st : wave_state) (r l : Nat) : Nat :=
  dword_value st r l + 4294967296 * dword_value st (r + 1) l

/-- A wavefront state with every lane enabled in which vector register `v[i]` holds `i + 1`
and scalar register `s[i]` holds `i + 1`, except `exec`. -/
def numbered_wave : wave_state :=
  ⟨fun r _ => r - 255, fun r => if r = 126 ∨ r = 127 then 0xFFFFFFFF else r + 1⟩

/-- The pair `(dst_reg+1 : dst_reg)` in lane `l` after running what `emit_int64_op` emits. -/
def int64_result (p : Program) (rd ra rb : Nat) (vtmp : PhysReg) (op : ReduceOp)
    (st : wave_state) (l : Nat) : Option Nat :=
  match emit_int64_op p (PhysReg.ofReg rd) (PhysReg.ofReg ra) (PhysReg.ofReg rb) vtmp op with
  | .ok is => (wrun p.wave_size is st).map (fun s => pair_value s rd l)
  | .error _ => none

/-! # Theorems -/

/-! ## `handle_operands`: return paths, drained map, statistics -/

theorem acyclic_copy_continues (chip : chip_class) (pi : Pseudo_instruction) (s : loop_state)
    (k : PhysReg) (c : copy_operation) (o : step_outcome)
    (h : acyclic_copy chip pi s k c = .ok o) : ∃ s1, o = .continued s1 := by
  unfold acyclic_copy at h
  repeat' split at h
  all_goals first
    | (simp at h; done)
    | (simp only [Except.ok.injEq] at h; exact ⟨_, h.symm⟩)

theorem acyclic_pack_continues (chip : chip_class) (s : loop_state) (k : PhysReg) (skip : Bool)
    (c other : copy_operation) (o : step_outcome)
    (h : acyclic_pack chip s k skip c other = .ok o) : ∃ s1, o = .continued s1 := by
  unfold acyclic_pack at h
  split at h
  · simp at h
  · simp only [Except.ok.injEq] at h; exact ⟨_, h.symm⟩

theorem acyclic_body_continues (chip : chip_class) (pi : Pseudo_instruction) (s : loop_state)
    (k : PhysReg) (skip : Bool) (c : copy_operation) (o : step_outcome)
    (h : acyclic_body chip pi s k skip c = .ok o) : ∃ s1, o = .continued s1 := by
  unfold acyclic_body at h
  repeat' split at h
  all_goals first
    | (simp at h; done)
    | exact acyclic_copy_continues _ _ _ _ _ _ h
    | exact acyclic_pack_continues _ _ _ _ _ _ _ h
    | (simp only [Except.ok.injEq] at h; exact ⟨_, h.symm⟩)

theorem acyclic_step_returned (chip : chip_class) (pi : Pseudo_instruction) (s s1 : loop_state)
    (h : acyclic_step chip pi s = .ok (.returned s1)) : s.m = [] ∧ s1 = s := by
  unfold acyclic_step at h
  by_cases hm : s.m = []
  · simp [hm] at h; exact ⟨hm, h.symm⟩
  · exfalso
    simp only [hm, if_false] at h
    repeat' split at h
    all_goals first
      | (simp at h; done)
      | (obtain ⟨s2, hs2⟩ := acyclic_body_continues _ _ _ _ _ _ _ h; simp at hs2)

theorem acyclic_loop_returned_empty (chip : chip_class) (pi : Pseudo_instruction) :
    ∀ (fuel : Nat) (s s1 : loop_state),
      acyclic_loop chip pi fuel s = .ok (true, s1) → s1.m = [] := by
  intro fuel
  induction fuel with
  | zero => intro s s1 h; simp [acyclic_loop] at h
  | succ n ih =>
    intro s s1 h
    rw [acyclic_loop] at h
    cases hstep : acyclic_step chip pi s with
    | error e => rw [hstep] at h; simp at h
    | ok o =>
      rw [hstep] at h
      cases o with
      | returned s2 =>
        simp at h
        subst h
        obtain ⟨h1, h2⟩ := acyclic_step_returned _ _ _ _ hstep
        rw [h2]; exact h1
      | broke s2 => simp at h
      | continued s2 => exact ih s2 s1 h

theorem cyclic_loop_empty (chip : chip_class) (pi : Pseudo_instruction) (largest : Nat) :
    ∀ (fuel : Nat) (s s1 : loop_state),
      cyclic_loop chip pi largest fuel s = .ok s1 → s1.m = [] := by
  intro fuel
  induction fuel with
  | zero =>
    intro s s1 h
    unfold cyclic_loop at h
    split at h
    · simp at h; subst h; assumption
    · simp at h
  | succ n ih =>
    intro s s1 h
    rw [cyclic_loop] at h
    split at h
    · simp at h; subst h; assumption
    · split at h
      · simp at h
      · exact ih _ _ h

/-- Every result of `handle_operands` is `finish_operands` of the final loop state, whose map
is empty. -/
theorem handle_operands_finish (fuel : Nat) (m : copy_map) (ctx : lower_context)
    (chip : chip_class) (pi : Pseudo_instruction) (r : operands_result)
    (h : handle_operands fuel m ctx chip pi = .ok r) :
    ∃ s : loop_state, s.m = [] ∧ r = finish_operands ctx s := by
  unfold handle_operands at h
  split at h
  · simp at h
  · dsimp only at h
    split at h
    · simp at h
    · simp only [Except.ok.injEq] at h
      exact ⟨_, acyclic_loop_returned_empty _ _ _ _ _ (by assumption), h.symm⟩
    · split at h
      · simp at h
      · simp only [Except.ok.injEq] at h
        exact ⟨_, cyclic_loop_empty _ _ _ _ _ _ (by assumption), h.symm⟩

/-- C1 (evaluated at the failing input): on GFX9 the byte rotation inside `v0`, whose
destinations are disjoint, is lowered by `handle_operands` to nine instructions that leave the
bytes 0x22, 0x44, 0x11, 0x33 in `v0`, whereas the sources before the first instruction were
0x22, 0x33, 0x44, 0x11: bytes 1, 2 and 3 of the destination do not hold their source values. -/
theorem handle_operands_byte_rotation_wrong :
    final_bytes (handle_operands 20 byte_rotation_map (empty_ctx .GFX9) .GFX9 parallelcopy_pi)
        byte_rotation_regs [1024, 1025, 1026, 1027] = some [0x22, 0x44, 0x11, 0x33] ∧
      [1025, 1026, 1027, 1024].map byte_rotation_regs = [0x22, 0x33, 0x44, 0x11] := by
  decide

/-- C4: whenever `handle_operands` returns a result, the copy map it leaves is empty; this
covers the return inside the acyclic loop and the return after the cyclic loop. -/
theorem handle_operands_drains (fuel : Nat) (m : copy_map) (ctx : lower_context)
    (chip : chip_class) (pi : Pseudo_instruction) (r : operands_result)
    (h : handle_operands fuel m ctx chip pi = .ok r) : r.copy_map = [] := by
  obtain ⟨s, hs, hr⟩ := handle_operands_finish fuel m ctx chip pi r h
  rw [hr]
  exact hs

theorem handle_operands_drains_witness :
    ∃ r, handle_operands 20 byte_rotation_map (empty_ctx .GFX9) .GFX9 parallelcopy_pi = .ok r ∧
      r.copy_map = [] := by
  cases h : handle_operands 20 byte_rotation_map (empty_ctx .GFX9) .GFX9 parallelcopy_pi with
  | error e =>
    have hs : succeeded
        (handle_operands 20 byte_rotation_map (empty_ctx .GFX9) .GFX9 parallelcopy_pi) = true := by
      decide
    rw [h] at hs
    simp [succeeded] at hs
  | ok r => exact ⟨r, rfl, handle_operands_drains _ _ _ _ _ _ h⟩

/-- C5: a call of `handle_operands` that returns keeps the instructions that were already in
the context, appends its own, adds the number of appended instructions to
`statistics[statistic_copies]` (32-bit addition, exact when it does not overflow), and leaves
every other statistic unchanged. -/
theorem handle_operands_statistics (fuel : Nat) (m : copy_map) (ctx : lower_context)
    (chip : chip_class) (pi : Pseudo_instruction) (r : operands_result)
    (h : handle_operands fuel m ctx chip pi = .ok r) :
    (∃ appended, r.ctx.instructions = ctx.instructions ++ appended) ∧
    r.ctx.program.statistics statistic_copies =
      (ctx.program.statistics statistic_copies +
        (r.ctx.instructions.length - ctx.instructions.length)) % 4294967296 ∧
    (ctx.program.statistics statistic_copies +
        (r.ctx.instructions.length - ctx.instructions.length) < 4294967296 →
      r.ctx.program.statistics statistic_copies =
        ctx.program.statistics statistic_copies +
          (r.ctx.instructions.length - ctx.instructions.length)) ∧
    ∀ i, i ≠ statistic_copies → r.ctx.program.statistics i = ctx.program.statistics i := by
  obtain ⟨s, _, hr⟩ := handle_operands_finish fuel m ctx chip pi r h
  subst hr
  refine ⟨⟨s.instrs, rfl⟩, ?_, ?_, ?_⟩
  · simp [finish_operands]
  · intro hlt
    simp only [finish_operands, if_true]
    exact Nat.mod_eq_of_lt hlt
  · intro i hi
    simp [finish_operands, hi]

theorem handle_operands_statistics_witness :
    ∃ r, handle_operands 20 byte_rotation_map (empty_ctx .GFX9) .GFX9 parallelcopy_pi = .ok r ∧
      r.ctx.program.statistics statistic_copies = 9 ∧ r.ctx.program.statistics 0 = 0 := by
  cases h : handle_operands 20 byte_rotation_map (empty_ctx .GFX9) .GFX9 parallelcopy_pi with
  | error e =>
    have hs : succeeded
        (handle_operands 20 byte_rotation_map (empty_ctx .GFX9) .GFX9 parallelcopy_pi) = true := by
      decide
    rw [h] at hs
    simp [succeeded] at hs
  | ok r =>
    have hst := handle_operands_statistics _ _ _ _ _ _ h
    have hlen : (match handle_operands 20 byte_rotation_map (empty_ctx .GFX9) .GFX9
        parallelcopy_pi with
        | .ok r => r.ctx.instructions.length
        | .error _ => 0) = 9 := by decide
    rw [h] at hlen
    simp only at hlen
    refine ⟨r, rfl, ?_, ?_⟩
    · rw [hst.2.1, hlen]; rfl
    · rw [hst.2.2.2 0 (by decide)]; rfl

/-! ## Registers, lane masks and state updates of the wavefront interpreter -/

theorem ofReg_reg (r : Nat) (h : r < 16384) : (PhysReg.ofReg r).reg = r := by
  unfold PhysReg.ofReg PhysReg.reg
  simp only
  omega

theorem ofReg_plus (r i : Nat) (h : r < 16384) :
    (PhysReg.ofReg r).plus i = PhysReg.ofReg (r + i) := by
  unfold PhysReg.plus
  rw [ofReg_reg r h]

theorem mask_bits_lt (f : Nat → Bool) (n : Nat) : mask_bits f n < 2 ^ n := by
  induction n with
  | zero => simp [mask_bits]
  | succ k ih =>
    rw [mask_bits, pow_succ]
    split <;> omega

theorem mask_bits_testBit (f : Nat → Bool) (n l : Nat) (h : l < n) :
    (mask_bits f n).testBit l = f l := by
  induction n with
  | zero => omega
  | succ k ih =>
    rw [mask_bits]
    by_cases hl : l = k
    · subst hl
      cases hf : f l with
      | true =>
        simp only [if_true]
        rw [Nat.add_comm, Nat.testBit_two_pow_add_eq, Nat.testBit_lt_two_pow (mask_bits_lt f l)]
        rfl
      | false =>
        simp only [Bool.false_eq_true, if_false, Nat.add_zero]
        exact Nat.testBit_lt_two_pow (mask_bits_lt f l)
    · have hlk : l < k := by omega
      cases hf : f k with
      | true =>
        simp only [if_true]
        rw [Nat.add_comm, Nat.testBit_two_pow_add_gt hlk]
        exact ih hlk
      | false =>
        simp only [Bool.false_eq_true, if_false, Nat.add_zero]
        exact ih hlk

/-- Reading back lane `l` of a lane mask written as two dwords. -/
theorem lane_bit_mask_bits (f : Nat → Bool) (W l : Nat) (hl : l < W) :
    lane_bit (mask_bits f W % 4294967296) (mask_bits f W / 4294967296) l = f l := by
  unfold lane_bit
  have h232 : (4294967296 : Nat) = 2 ^ 32 := by norm_num
  split
  · rename_i h32
    rw [h232, Nat.testBit_mod_two_pow]
    simp [h32, mask_bits_testBit f W l hl]
  · rename_i h32
    rw [h232, ← Nat.shiftRight_eq_div_pow, Nat.testBit_shiftRight]
    have : 32 + (l - 32) = l := by omega
    rw [this]
    exact mask_bits_testBit f W l hl

theorem set_mask_vgpr (W : Nat) (st : wave_state) (d : Definition) (f : Nat → Bool) :
    (set_mask W st d f).vgpr = st.vgpr := by
  unfold set_mask
  dsimp only
  split <;> rfl

theorem set_mask_sgpr_other (W : Nat) (st : wave_state) (d : Definition) (f : Nat → Bool)
    (r : Nat) (h0 : r ≠ d.physReg.reg) (h1 : r ≠ d.physReg.reg + 1) :
    (set_mask W st d f).sgpr r = st.sgpr r := by
  unfold set_mask
  dsimp only
  split <;> simp [set_sgpr, h0, h1]

theorem active_set_mask (W : Nat) (st : wave_state) (d : Definition) (f : Nat → Bool) (l : Nat)
    (h : d.physReg.reg + 1 < 126 ∨ 127 < d.physReg.reg) :
    active W (set_mask W st d f) l = active W st l := by
  unfold active
  rw [set_mask_sgpr_other W st d f 126 (by omega) (by omega),
    set_mask_sgpr_other W st d f 127 (by omega) (by omega)]

theorem active_set_vgpr (W : Nat) (st : wave_state) (r : Nat) (en : Nat → Bool) (f : Nat → Nat)
    (l : Nat) : active W (set_vgpr st r en f) l = active W st l := rfl

theorem vcc_reg : vcc.reg = 106 := by decide

/-- A lane mask written to `vcc` is read back bit by bit, in both wave sizes. -/
theorem rd_mask_set_mask_vcc (W : Nat) (hW : W = 32 ∨ W = 64) (st : wave_state)
    (f : Nat → Bool) (l : Nat) (hl : l < W) :
    rd_mask (set_mask W st ⟨vcc, lane_mask_class W⟩ f) (Operand.ofReg vcc (lane_mask_class W)) l
      = f l := by
  have h232 : (4294967296 : Nat) = 2 ^ 32 := by norm_num
  rcases hW with hW | hW
  · subst hW
    have hl32 : l < 32 := hl
    simp only [rd_mask, rd, Operand.ofReg, set_mask, lane_mask_class, vcc_reg, set_sgpr, s1,
      RegClass.ofSize, RegClass.size, RegClass.bytes]
    simp only [lane_bit, hl32, if_true]
    simp
    rw [h232, Nat.testBit_mod_two_pow]
    simp [hl32, mask_bits_testBit f 32 l hl]
  · subst hW
    simp only [rd_mask, rd, Operand.ofReg, set_mask, lane_mask_class, vcc_reg, set_sgpr, s2,
      RegClass.ofSize, RegClass.size, RegClass.bytes]
    simp
    exact lane_bit_mask_bits f 64 l hl
theorem iadd64_arith (xl xh yl yh : Nat) (hxl : xl < 4294967296)
    (hyl : yl < 4294967296) :
    (xl + yl) % 4294967296 +
      4294967296 * ((xh + yh + (if xl + yl ≥ 4294967296 then 1 else 0)) % 4294967296) =
    ((xl + 4294967296 * xh) + (yl + 4294967296 * yh)) % 18446744073709551616 := by
  split <;> omega

theorem emit_int64_op_iadd64_list (p : Program) (ra rb rd : Nat) (vtmp : PhysReg)
    (ha : 256 ≤ ra ∧ ra < 16383) :
    emit_int64_op p (PhysReg.ofReg rd) (PhysReg.ofReg ra) (PhysReg.ofReg rb) vtmp .iadd64 =
      .ok [Instruction.plain
            (if p.chip_class.rank ≥ 10 then .v_add_co_u32_e64 else .v_add_co_u32)
            [⟨PhysReg.ofReg rd, v1⟩, ⟨vcc, lane_mask_class p.wave_size⟩]
            [Operand.ofReg (PhysReg.ofReg ra) v1, Operand.ofReg (PhysReg.ofReg rb) v1],
           Instruction.plain .v_addc_co_u32
            [vdef (PhysReg.ofReg rd) 1, ⟨vcc, lane_mask_class p.wave_size⟩]
            [Operand.ofReg ((PhysReg.ofReg ra).plus 1) v1, vop (PhysReg.ofReg rb) 1,
             Operand.ofReg vcc (lane_mask_class p.wave_size)]] := by
  have hra : (PhysReg.ofReg ra).reg = ra := ofReg_reg ra (by omega)
  have h256 : (PhysReg.ofReg ra).reg ≥ 256 := by rw [hra]; exact ha.1
  simp [emit_int64_op, h256, s1, v1, RegClass.ofSize]

theorem wstep_add_co (W : Nat) (o : aco_opcode) (ho : o = .v_add_co_u32 ∨ o = .v_add_co_u32_e64)
    (d co : Definition) (a b : Operand) (st : wave_state) :
    wstep W (Instruction.plain o [d, co] [a, b]) st =
      some (set_mask W (set_vgpr st d.physReg.reg (active W st)
          (fun l => (rd st a 0 l + rd st b 0 l) % 4294967296))
        co (fun l => active W st l && decide (rd st a 0 l + rd st b 0 l ≥ 4294967296))) := by
  rcases ho with ho | ho <;> subst ho <;> rfl

theorem wstep_addc_co (W : Nat) (d co : Definition) (a b ci : Operand) (st : wave_state) :
    wstep W (Instruction.plain .v_addc_co_u32 [d, co] [a, b, ci]) st =
      some (set_mask W (set_vgpr st d.physReg.reg (active W st)
          (fun l => (rd st a 0 l + rd st b 0 l + (if rd_mask st ci l then 1 else 0))
            % 4294967296))
        co (fun l => active W st l &&
          decide (rd st a 0 l + rd st b 0 l + (if rd_mask st ci l then 1 else 0)
            ≥ 4294967296))) := rfl

theorem rd_vgpr (st : wave_state) (r : Nat) (rc : RegClass) (l : Nat)
    (h : 256 ≤ r ∧ r < 16384) : rd st (Operand.ofReg (PhysReg.ofReg r) rc) 0 l = st.vgpr r l := by
  simp [rd, Operand.ofReg, ofReg_reg r h.2, h.1]

theorem set_vgpr_same (st : wave_state) (r : Nat) (en : Nat → Bool) (f : Nat → Nat) (l : Nat) :
    (set_vgpr st r en f).vgpr r l = if en l = true then f l else st.vgpr r l := by
  simp [set_vgpr]

theorem set_vgpr_other (st : wave_state) (r r1 : Nat) (en : Nat → Bool) (f : Nat → Nat)
    (l : Nat) (h : r1 ≠ r) : (set_vgpr st r en f).vgpr r1 l = st.vgpr r1 l := by
  simp [set_vgpr, h]

theorem set_mask_vgpr_at (W : Nat) (st : wave_state) (d : Definition) (f : Nat → Bool)
    (r l : Nat) : (set_mask W st d f).vgpr r l = st.vgpr r l := by
  rw [set_mask_vgpr]

theorem rd_vgpr_at (st : wave_state) (r : Nat) (rc : RegClass) (l : Nat)
    (h : 256 ≤ r ∧ r < 16384) : rd st (Operand.ofReg (PhysReg.ofReg r) rc) 0 l = st.vgpr r l :=
  rd_vgpr st r rc l h

/-- For vector register pairs `ra`, `rb` holding `x` and `y` and a destination pair `rd`
whose low register is not the high register of a source (the destination may equal either
source pair), the two instructions that `emit_int64_op` emits for `iadd64` on any chip class
leave, in every active lane, `(rd+1 : rd)` equal to `(x + y) mod 2^64`. -/
theorem iadd64_vector_source (p : Program) (ra rb rd : Nat) (vtmp : PhysReg) (st : wave_state)
    (l : Nat) (hW : p.wave_size = 32 ∨ p.wave_size = 64)
    (ha : 256 ≤ ra ∧ ra + 1 < 512) (hb : 256 ≤ rb ∧ rb + 1 < 512) (hd : 256 ≤ rd ∧ rd + 1 < 512)
    (hda : rd ≠ ra + 1) (hdb : rd ≠ rb + 1)
    (hl : active p.wave_size st l = true)
    (hxl : st.vgpr ra l < 4294967296) (hyl : st.vgpr rb l < 4294967296) :
    ∃ is st1,
      emit_int64_op p (PhysReg.ofReg rd) (PhysReg.ofReg ra) (PhysReg.ofReg rb) vtmp .iadd64
        = .ok is ∧
      wrun p.wave_size is st = some st1 ∧
      st1.vgpr rd l + 4294967296 * st1.vgpr (rd + 1) l =
        ((st.vgpr ra l + 4294967296 * st.vgpr (ra + 1) l) +
         (st.vgpr rb l + 4294967296 * st.vgpr (rb + 1) l)) % 18446744073709551616 := by
  have hlW : l < p.wave_size := by
    unfold active at hl
    simp at hl
    exact hl.1
  have hvcc : (⟨vcc, lane_mask_class p.wave_size⟩ : Definition).physReg.reg + 1 < 126 ∨
      127 < (⟨vcc, lane_mask_class p.wave_size⟩ : Definition).physReg.reg := by
    left; simp [vcc_reg]
  have e1 : rd ≠ rd + 1 := by omega
  have e2 : rd + 1 ≠ rd := by omega
  have e3 : ra + 1 ≠ rd := Ne.symm hda
  have e4 : rb + 1 ≠ rd := Ne.symm hdb
  apply Exists.intro _
  apply Exists.intro _
  refine And.intro (emit_int64_op_iadd64_list p ra rb rd vtmp ⟨ha.1, by omega⟩) ?_
  rw [wrun, wstep_add_co _ _ (by split <;> simp)]
  dsimp only
  rw [wrun, wstep_addc_co]
  dsimp only
  rw [wrun]
  refine ⟨rfl, ?_⟩
  rw [ofReg_plus ra 1 (by omega)]
  simp only [vdef, vop, ofReg_plus rd 1 (show rd < 16384 by omega),
    ofReg_plus rb 1 (show rb < 16384 by omega), ofReg_reg rd (show rd < 16384 by omega),
    ofReg_reg (rd + 1) (show rd + 1 < 16384 by omega)]
  simp only [set_mask_vgpr_at, set_vgpr_same, set_vgpr_other _ _ _ _ _ _ e1,
    set_vgpr_other _ _ _ _ _ _ e2, set_vgpr_other _ _ _ _ _ _ e3, set_vgpr_other _ _ _ _ _ _ e4,
    active_set_mask _ _ _ _ _ hvcc, active_set_vgpr, hl, if_true,
    rd_mask_set_mask_vcc _ hW _ _ _ hlW,
    rd_vgpr_at _ ra _ _ ⟨ha.1, by omega⟩, rd_vgpr_at _ rb _ _ ⟨hb.1, by omega⟩,
    rd_vgpr_at _ (ra + 1) _ _ ⟨by omega, by omega⟩,
    rd_vgpr_at _ (rb + 1) _ _ ⟨by omega, by omega⟩, Bool.true_and, decide_eq_true_eq]
  exact iadd64_arith _ _ _ _ hxl hyl


theorem emit_int64_op_minmax_list (p : Program) (ra rb rd : Nat) (vtmp : PhysReg)
    (op : ReduceOp) (hop : op = .umin64 ∨ op = .umax64 ∨ op = .imin64 ∨ op = .imax64)
    (ha : 256 ≤ ra ∧ ra < 16383) :
    emit_int64_op p (PhysReg.ofReg rd) (PhysReg.ofReg ra) (PhysReg.ofReg rb) vtmp op =
      .ok [Instruction.plain (int64_cmp_opcode op) [⟨vcc, lane_mask_class p.wave_size⟩]
            [Operand.ofReg (PhysReg.ofReg ra) v2, Operand.ofReg (PhysReg.ofReg rb) v2],
           Instruction.plain .v_cndmask_b32 [⟨PhysReg.ofReg rd, v1⟩]
            [Operand.ofReg (PhysReg.ofReg ra) v1, Operand.ofReg (PhysReg.ofReg rb) v1,
             Operand.ofReg vcc (lane_mask_class p.wave_size)],
           Instruction.plain .v_cndmask_b32 [vdef (PhysReg.ofReg rd) 1]
            [Operand.ofReg ((PhysReg.ofReg ra).plus 1) v1, vop (PhysReg.ofReg rb) 1,
             Operand.ofReg vcc (lane_mask_class p.wave_size)]] := by
  have hra : (PhysReg.ofReg ra).reg = ra := ofReg_reg ra (by omega)
  have h256 : (PhysReg.ofReg ra).reg ≥ 256 := by rw [hra]; exact ha.1
  rcases hop with h | h | h | h <;> subst h <;>
    simp [emit_int64_op, h256, s1, v1, RegClass.ofSize]

/-- The comparison performed by the opcode chosen for a 64-bit minimum or maximum. -/
theorem wstep_cmp64 (W : Nat) (op : ReduceOp)
    (hop : op = .umin64 ∨ op = .umax64 ∨ op = .imin64 ∨ op = .imax64)
    (d : Definition) (a b : Operand) (st : wave_state) :
    ∃ c, vcmp64 (int64_cmp_opcode op) = some c ∧
      wstep W (Instruction.plain (int64_cmp_opcode op) [d] [a, b]) st =
        some (set_mask W st d (fun l => active W st l && c (rd64 st a l) (rd64 st b l))) := by
  rcases hop with h | h | h | h <;> subst h <;> exact ⟨_, rfl, rfl⟩

theorem wstep_cndmask (W : Nat) (d : Definition) (a b m : Operand) (st : wave_state) :
    wstep W (Instruction.plain .v_cndmask_b32 [d] [a, b, m]) st =
      some (set_vgpr st d.physReg.reg (active W st) (fun l =>
        if rd_mask st m l then rd st b 0 l else rd st a 0 l)) := rfl

theorem rd64_vgpr (st : wave_state) (r : Nat) (rc : RegClass) (l : Nat)
    (h : 256 ≤ r ∧ r + 1 < 16384) :
    rd64 st (Operand.ofReg (PhysReg.ofReg r) rc) l =
      st.vgpr r l + 4294967296 * st.vgpr (r + 1) l := by
  have h1 : 256 ≤ r + 1 := by omega
  simp [rd64, rd, Operand.ofReg, ofReg_reg r (by omega), h.1, h1]

theorem rd_mask_set_vgpr (st : wave_state) (r : Nat) (en : Nat → Bool) (f : Nat → Nat)
    (rc : RegClass) (l : Nat) :
    rd_mask (set_vgpr st r en f) (Operand.ofReg vcc rc) l = rd_mask st (Operand.ofReg vcc rc) l := by
  simp [rd_mask, rd, Operand.ofReg, vcc_reg, set_vgpr]

theorem to_int_lt (x : Nat) (h : x < 18446744073709551616) :
    to_int 64 x = if x ≥ 9223372036854775808 then (x : Int) - 18446744073709551616 else x := by
  unfold to_int
  have h1 : x % 2 ^ 64 = x := Nat.mod_eq_of_lt (by norm_num; exact h)
  rw [h1]
  norm_num
  split <;> omega

theorem minmax64_sel (op : ReduceOp)
    (hop : op = .umin64 ∨ op = .umax64 ∨ op = .imin64 ∨ op = .imax64)
    (c : Nat → Nat → Bool) (hc : vcmp64 (int64_cmp_opcode op) = some c)
    (x y : Nat) (hx : x < 18446744073709551616) (hy : y < 18446744073709551616) :
    int64_minmax_spec op x y (if c x y = true then y else x) := by
  rcases hop with h | h | h | h <;> subst h <;>
    simp only [int64_cmp_opcode, vcmp64, Option.some.injEq] at hc <;> subst hc <;>
    simp only [int64_minmax_spec, decide_eq_true_eq]
  · split <;> omega
  · split <;> omega
  · split
    · exact ⟨hy, by omega⟩
    · exact ⟨hx, by omega⟩
  · split
    · exact ⟨hy, by omega⟩
    · exact ⟨hx, by omega⟩

theorem select_pair (b : Bool) (xl xh yl yh : Nat) :
    (if b = true then yl else xl) + 4294967296 * (if b = true then yh else xh) =
      if b = true then yl + 4294967296 * yh else xl + 4294967296 * xh := by
  cases b <;> simp

/-- For vector register pairs `ra`, `rb` holding `x` and `y`, the compare-and-select
sequence that `emit_int64_op` emits for `umin64`, `umax64`, `imin64` and `imax64` leaves, in
every active lane, the destination pair equal to the unsigned minimum, unsigned maximum,
signed minimum and signed maximum of `x` and `y`, for all 64-bit values. -/
theorem minmax_vector_source (p : Program) (op : ReduceOp) (ra rb rd : Nat) (vtmp : PhysReg)
    (st : wave_state) (l : Nat)
    (hop : op = .umin64 ∨ op = .umax64 ∨ op = .imin64 ∨ op = .imax64)
    (hW : p.wave_size = 32 ∨ p.wave_size = 64)
    (ha : 256 ≤ ra ∧ ra + 1 < 512) (hb : 256 ≤ rb ∧ rb + 1 < 512) (hd : 256 ≤ rd ∧ rd + 1 < 512)
    (hda : rd ≠ ra + 1) (hdb : rd ≠ rb + 1)
    (hl : active p.wave_size st l = true)
    (hxl : st.vgpr ra l < 4294967296) (hxh : st.vgpr (ra + 1) l < 4294967296)
    (hyl : st.vgpr rb l < 4294967296) (hyh : st.vgpr (rb + 1) l < 4294967296) :
    ∃ is st1,
      emit_int64_op p (PhysReg.ofReg rd) (PhysReg.ofReg ra) (PhysReg.ofReg rb) vtmp op = .ok is ∧
      wrun p.wave_size is st = some st1 ∧
      int64_minmax_spec op
        (st.vgpr ra l + 4294967296 * st.vgpr (ra + 1) l)
        (st.vgpr rb l + 4294967296 * st.vgpr (rb + 1) l)
        (st1.vgpr rd l + 4294967296 * st1.vgpr (rd + 1) l) := by
  have hlW : l < p.wave_size := by
    unfold active at hl
    simp at hl
    exact hl.1
  have e1 : rd ≠ rd + 1 := by omega
  have e2 : rd + 1 ≠ rd := by omega
  have e3 : ra + 1 ≠ rd := Ne.symm hda
  have e4 : rb + 1 ≠ rd := Ne.symm hdb
  have hvcc : (⟨vcc, lane_mask_class p.wave_size⟩ : Definition).physReg.reg + 1 < 126 ∨
      127 < (⟨vcc, lane_mask_class p.wave_size⟩ : Definition).physReg.reg := by
    left; simp [vcc_reg]
  obtain ⟨c, hc, hstep⟩ := wstep_cmp64 p.wave_size op hop ⟨vcc, lane_mask_class p.wave_size⟩
    (Operand.ofReg (PhysReg.ofReg ra) v2) (Operand.ofReg (PhysReg.ofReg rb) v2) st
  apply Exists.intro _
  apply Exists.intro _
  refine And.intro (emit_int64_op_minmax_list p ra rb rd vtmp op hop ⟨ha.1, by omega⟩) ?_
  rw [wrun, hstep]
  dsimp only
  rw [wrun, wstep_cndmask]
  dsimp only
  rw [wrun, wstep_cndmask]
  dsimp only
  rw [wrun]
  refine ⟨rfl, ?_⟩
  rw [ofReg_plus ra 1 (by omega)]
  simp only [vdef, vop, ofReg_plus rd 1 (show rd < 16384 by omega),
    ofReg_plus rb 1 (show rb < 16384 by omega), ofReg_reg rd (show rd < 16384 by omega),
    ofReg_reg (rd + 1) (show rd + 1 < 16384 by omega)]
  simp only [set_mask_vgpr_at, set_vgpr_same, set_vgpr_other _ _ _ _ _ _ e1,
    set_vgpr_other _ _ _ _ _ _ e2, set_vgpr_other _ _ _ _ _ _ e3, set_vgpr_other _ _ _ _ _ _ e4,
    active_set_mask _ _ _ _ _ hvcc, active_set_vgpr, hl, if_true, rd_mask_set_vgpr,
    rd_mask_set_mask_vcc _ hW _ _ _ hlW,
    rd64_vgpr _ ra _ _ ⟨ha.1, by omega⟩, rd64_vgpr _ rb _ _ ⟨hb.1, by omega⟩,
    rd_vgpr_at _ ra _ _ ⟨ha.1, by omega⟩, rd_vgpr_at _ rb _ _ ⟨hb.1, by omega⟩,
    rd_vgpr_at _ (ra + 1) _ _ ⟨by omega, by omega⟩,
    rd_vgpr_at _ (rb + 1) _ _ ⟨by omega, by omega⟩, Bool.true_and, select_pair]
  have hx : st.vgpr ra l + 4294967296 * st.vgpr (ra + 1) l < 18446744073709551616 := by omega
  have hy : st.vgpr rb l + 4294967296 * st.vgpr (rb + 1) l < 18446744073709551616 := by omega
  exact minmax64_sel op hop c hc _ _ hx hy

theorem imul64_arith (al ah bl bh : Nat) :
    (al * bl) % 4294967296 +
      4294967296 * ((((al * bh) % 4294967296 + (ah * bl) % 4294967296) % 4294967296 +
        (al * bl) / 4294967296) % 4294967296) =
    ((al + 4294967296 * ah) * (bl + 4294967296 * bh)) % 18446744073709551616 := by
  have h : (al + 4294967296 * ah) * (bl + 4294967296 * bh) =
      al * bl + 4294967296 * (al * bh + ah * bl) + 18446744073709551616 * (ah * bh) := by ring
  rw [h]
  generalize al * bl = P
  generalize al * bh = Q
  generalize ah * bl = R
  generalize ah * bh = S
  omega

theorem wstep_mul_lo (W : Nat) (d : Definition) (a b : Operand) (st : wave_state) :
    wstep W (Instruction.plain .v_mul_lo_u32 [d] [a, b]) st =
      some (set_vgpr st d.physReg.reg (active W st)
        (fun l => (rd st a 0 l * rd st b 0 l) % 4294967296)) := rfl

theorem wstep_mul_hi (W : Nat) (d : Definition) (a b : Operand) (st : wave_state) :
    wstep W (Instruction.plain .v_mul_hi_u32 [d] [a, b]) st =
      some (set_vgpr st d.physReg.reg (active W st)
        (fun l => (rd st a 0 l * rd st b 0 l) / 4294967296)) := rfl

theorem wstep_add_u32 (W : Nat) (d : Definition) (a b : Operand) (st : wave_state) :
    wstep W (Instruction.plain .v_add_u32 [d] [a, b]) st =
      some (set_vgpr st d.physReg.reg (active W st)
        (fun l => (rd st a 0 l + rd st b 0 l) % 4294967296)) := rfl

/-- One two-operand vector instruction on vector registers, seen from an active lane `l`:
the destination register receives `f` of the two sources, every other register and the
activity of the lane are unchanged. -/
theorem wrun_valu (W : Nat) (op : aco_opcode) (f : Nat → Nat → Nat) (d a b : Nat)
    (rest : List Instruction) (st : wave_state) (l : Nat)
    (hop : wstep W (Instruction.plain op [⟨PhysReg.ofReg d, v1⟩]
        [Operand.ofReg (PhysReg.ofReg a) v1, Operand.ofReg (PhysReg.ofReg b) v1]) st =
      some (set_vgpr st (PhysReg.ofReg d).reg (active W st)
        (fun l => f (rd st (Operand.ofReg (PhysReg.ofReg a) v1) 0 l)
          (rd st (Operand.ofReg (PhysReg.ofReg b) v1) 0 l))))
    (hd : d < 16384) (ha : 256 ≤ a ∧ a < 16384) (hb : 256 ≤ b ∧ b < 16384)
    (hl : active W st l = true) :
    ∃ st1, wrun W (Instruction.plain op [⟨PhysReg.ofReg d, v1⟩]
        [Operand.ofReg (PhysReg.ofReg a) v1, Operand.ofReg (PhysReg.ofReg b) v1] :: rest) st =
        wrun W rest st1 ∧
      active W st1 l = true ∧
      ∀ r, st1.vgpr r l = if r = d then f (st.vgpr a l) (st.vgpr b l) else st.vgpr r l := by
  refine Exists.intro (set_vgpr st (PhysReg.ofReg d).reg (active W st)
      (fun l => f (rd st (Operand.ofReg (PhysReg.ofReg a) v1) 0 l)
        (rd st (Operand.ofReg (PhysReg.ofReg b) v1) 0 l))) (And.intro ?_ (And.intro ?_ ?_))
  · rw [wrun, hop]
  · rw [active_set_vgpr]
    exact hl
  · intro r
    rw [ofReg_reg d hd]
    by_cases hr : r = d
    · subst hr
      rw [set_vgpr_same]
      simp only [hl, if_true, rd_vgpr_at _ a _ _ ha, rd_vgpr_at _ b _ _ hb]
    · rw [set_vgpr_other _ _ _ _ _ _ hr]
      simp only [hr, if_false]

/-- The addition emitted by `emit_vadd32` on vector registers, seen from an active lane, on
every generation. -/
theorem wrun_vadd32 (p : Program) (W : Nat) (d a b : Nat)
    (rest : List Instruction) (st : wave_state) (l : Nat)
    (hd : d < 16384) (ha : 256 ≤ a ∧ a < 16384) (hb : 256 ≤ b ∧ b < 16384)
    (hl : active W st l = true) :
    ∃ st1, wrun W (emit_vadd32 p ⟨PhysReg.ofReg d, v1⟩ (Operand.ofReg (PhysReg.ofReg a) v1)
        (Operand.ofReg (PhysReg.ofReg b) v1) ++ rest) st = wrun W rest st1 ∧
      active W st1 l = true ∧
      ∀ r, st1.vgpr r l =
        if r = d then (st.vgpr a l + st.vgpr b l) % 4294967296 else st.vgpr r l := by
  unfold emit_vadd32
  split
  · refine Exists.intro (set_mask W (set_vgpr st (PhysReg.ofReg d).reg (active W st)
        (fun l => (rd st (Operand.ofReg (PhysReg.ofReg a) v1) 0 l +
          rd st (Operand.ofReg (PhysReg.ofReg b) v1) 0 l) % 4294967296))
      ⟨vcc, lane_mask_class p.wave_size⟩
      (fun l => active W st l && decide (rd st (Operand.ofReg (PhysReg.ofReg a) v1) 0 l +
          rd st (Operand.ofReg (PhysReg.ofReg b) v1) 0 l ≥ 4294967296)))
      (And.intro ?_ (And.intro ?_ ?_))
    · simp only [List.cons_append, List.nil_append]
      rw [wrun, wstep_add_co _ _ (Or.inl rfl)]
    · rw [active_set_mask _ _ _ _ _ (by left; simp [vcc_reg]), active_set_vgpr]
      exact hl
    · intro r
      rw [set_mask_vgpr_at, ofReg_reg d hd]
      by_cases hr : r = d
      · subst hr
        rw [set_vgpr_same]
        simp only [hl, if_true, rd_vgpr_at _ a _ _ ha, rd_vgpr_at _ b _ _ hb]
      · rw [set_vgpr_other _ _ _ _ _ _ hr]
        simp only [hr, if_false]
  · exact wrun_valu W .v_add_u32 (fun x y => (x + y) % 4294967296) d a b rest st l
      (wstep_add_u32 W _ _ _ st) hd ha hb hl

/-- The six-instruction multiplication sequence on vector register pairs `A` (whose high
register is the first temporary) and `B`, with destination pair `D`. -/
theorem imul64_core (p : Program) (W A B D : Nat) (st : wave_state) (l : Nat)
    (hA : 256 ≤ A ∧ A + 1 < 512) (hB : 256 ≤ B ∧ B + 1 < 512) (hD : 256 ≤ D ∧ D + 1 < 512)
    (hAB : A + 1 < B ∨ B + 1 < A) (hDA : D + 1 ≠ A) (hDB : D + 1 ≠ B)
    (hl : active W st l = true) :
    ∃ st1,
      wrun W
        (Instruction.plain .v_mul_lo_u32 [⟨PhysReg.ofReg (A + 1), v1⟩]
            [Operand.ofReg (PhysReg.ofReg (A + 1)) v1, Operand.ofReg (PhysReg.ofReg B) v1] ::
         Instruction.plain .v_mul_lo_u32 [⟨PhysReg.ofReg (B + 1), v1⟩]
            [Operand.ofReg (PhysReg.ofReg A) v1, Operand.ofReg (PhysReg.ofReg (B + 1)) v1] ::
         (emit_vadd32 p ⟨PhysReg.ofReg (A + 1), v1⟩ (Operand.ofReg (PhysReg.ofReg (B + 1)) v1)
            (Operand.ofReg (PhysReg.ofReg (A + 1)) v1) ++
          (Instruction.plain .v_mul_hi_u32 [⟨PhysReg.ofReg (B + 1), v1⟩]
            [Operand.ofReg (PhysReg.ofReg A) v1, Operand.ofReg (PhysReg.ofReg B) v1] ::
           (emit_vadd32 p ⟨PhysReg.ofReg (D + 1), v1⟩ (Operand.ofReg (PhysReg.ofReg (A + 1)) v1)
              (Operand.ofReg (PhysReg.ofReg (B + 1)) v1) ++
            [Instruction.plain .v_mul_lo_u32 [⟨PhysReg.ofReg D, v1⟩]
              [Operand.ofReg (PhysReg.ofReg A) v1, Operand.ofReg (PhysReg.ofReg B) v1]])))) st
        = some st1 ∧
      st1.vgpr D l + 4294967296 * st1.vgpr (D + 1) l =
        ((st.vgpr A l + 4294967296 * st.vgpr (A + 1) l) *
         (st.vgpr B l + 4294967296 * st.vgpr (B + 1) l)) % 18446744073709551616 := by
  have n1 : A ≠ A + 1 := by omega
  have n2 : A ≠ B + 1 := by omega
  have n3 : B ≠ A + 1 := by omega
  have n4 : B ≠ B + 1 := by omega
  have n5 : A + 1 ≠ B + 1 := by omega
  have n6 : B + 1 ≠ A + 1 := by omega
  have n7 : A ≠ D + 1 := Ne.symm hDA
  have n8 : B ≠ D + 1 := Ne.symm hDB
  have n9 : D + 1 ≠ D := by omega
  obtain ⟨s1, e1, a1, r1⟩ := wrun_valu W .v_mul_lo_u32 (fun x y => (x * y) % 4294967296)
    (A + 1) (A + 1) B
    (Instruction.plain .v_mul_lo_u32 [⟨PhysReg.ofReg (B + 1), v1⟩]
            [Operand.ofReg (PhysReg.ofReg A) v1, Operand.ofReg (PhysReg.ofReg (B + 1)) v1] ::
         (emit_vadd32 p ⟨PhysReg.ofReg (A + 1), v1⟩ (Operand.ofReg (PhysReg.ofReg (B + 1)) v1)
            (Operand.ofReg (PhysReg.ofReg (A + 1)) v1) ++
          (Instruction.plain .v_mul_hi_u32 [⟨PhysReg.ofReg (B + 1), v1⟩]
            [Operand.ofReg (PhysReg.ofReg A) v1, Operand.ofReg (PhysReg.ofReg B) v1] ::
           (emit_vadd32 p ⟨PhysReg.ofReg (D + 1), v1⟩ (Operand.ofReg (PhysReg.ofReg (A + 1)) v1)
              (Operand.ofReg (PhysReg.ofReg (B + 1)) v1) ++
            [Instruction.plain .v_mul_lo_u32 [⟨PhysReg.ofReg D, v1⟩]
              [Operand.ofReg (PhysReg.ofReg A) v1, Operand.ofReg (PhysReg.ofReg B) v1]]))))
    st l (wstep_mul_lo W _ _ _ st) (by omega) ⟨by omega, by omega⟩ ⟨by omega, by omega⟩ hl
  obtain ⟨s2, e2, a2, r2⟩ := wrun_valu W .v_mul_lo_u32 (fun x y => (x * y) % 4294967296)
    (B + 1) A (B + 1)
    (emit_vadd32 p ⟨PhysReg.ofReg (A + 1), v1⟩ (Operand.ofReg (PhysReg.ofReg (B + 1)) v1)
            (Operand.ofReg (PhysReg.ofReg (A + 1)) v1) ++
          (Instruction.plain .v_mul_hi_u32 [⟨PhysReg.ofReg (B + 1), v1⟩]
            [Operand.ofReg (PhysReg.ofReg A) v1, Operand.ofReg (PhysReg.ofReg B) v1] ::
           (emit_vadd32 p ⟨PhysReg.ofReg (D + 1), v1⟩ (Operand.ofReg (PhysReg.ofReg (A + 1)) v1)
              (Operand.ofReg (PhysReg.ofReg (B + 1)) v1) ++
            [Instruction.plain .v_mul_lo_u32 [⟨PhysReg.ofReg D, v1⟩]
              [Operand.ofReg (PhysReg.ofReg A) v1, Operand.ofReg (PhysReg.ofReg B) v1]])))
    s1 l (wstep_mul_lo W _ _ _ s1) (by omega) ⟨by omega, by omega⟩ ⟨by omega, by omega⟩ a1
  obtain ⟨s3, e3, a3, r3⟩ := wrun_vadd32 p W (A + 1) (B + 1) (A + 1)
    (Instruction.plain .v_mul_hi_u32 [⟨PhysReg.ofReg (B + 1), v1⟩]
            [Operand.ofReg (PhysReg.ofReg A) v1, Operand.ofReg (PhysReg.ofReg B) v1] ::
           (emit_vadd32 p ⟨PhysReg.ofReg (D + 1), v1⟩ (Operand.ofReg (PhysReg.ofReg (A + 1)) v1)
              (Operand.ofReg (PhysReg.ofReg (B + 1)) v1) ++
            [Instruction.plain .v_mul_lo_u32 [⟨PhysReg.ofReg D, v1⟩]
              [Operand.ofReg (PhysReg.ofReg A) v1, Operand.ofReg (PhysReg.ofReg B) v1]]))
    s2 l (by omega) ⟨by omega, by omega⟩ ⟨by omega, by omega⟩ a2
  obtain ⟨s4, e4, a4, r4⟩ := wrun_valu W .v_mul_hi_u32 (fun x y => (x * y) / 4294967296)
    (B + 1) A B
    (emit_vadd32 p ⟨PhysReg.ofReg (D + 1), v1⟩ (Operand.ofReg (PhysReg.ofReg (A + 1)) v1)
              (Operand.ofReg (PhysReg.ofReg (B + 1)) v1) ++
            [Instruction.plain .v_mul_lo_u32 [⟨PhysReg.ofReg D, v1⟩]
              [Operand.ofReg (PhysReg.ofReg A) v1, Operand.ofReg (PhysReg.ofReg B) v1]])
    s3 l (wstep_mul_hi W _ _ _ s3) (by omega) ⟨by omega, by omega⟩ ⟨by omega, by omega⟩ a3
  obtain ⟨s5, e5, a5, r5⟩ := wrun_vadd32 p W (D + 1) (A + 1) (B + 1)
    [Instruction.plain .v_mul_lo_u32 [⟨PhysReg.ofReg D, v1⟩]
              [Operand.ofReg (PhysReg.ofReg A) v1, Operand.ofReg (PhysReg.ofReg B) v1]]
    s4 l (by omega) ⟨by omega, by omega⟩ ⟨by omega, by omega⟩ a4
  obtain ⟨s6, e6, _, r6⟩ := wrun_valu W .v_mul_lo_u32 (fun x y => (x * y) % 4294967296)
    D A B [] s5 l (wstep_mul_lo W _ _ _ s5) (by omega) ⟨by omega, by omega⟩
    ⟨by omega, by omega⟩ a5
  refine ⟨s6, ?_, ?_⟩
  · rw [e1, e2, e3, e4, e5, e6, wrun]
  · simp only [r6, r5, r4, r3, r2, r1, n1, n2, n3, n4, n5, n6, n7, n8, n9, if_true, if_false]
    exact imul64_arith _ _ _ _

theorem ofReg_ne (a b : Nat) (ha : a < 16384) (hb : b < 16384) (h : a ≠ b) :
    PhysReg.ofReg a ≠ PhysReg.ofReg b := by
  intro e
  apply h
  rw [← ofReg_reg a ha, ← ofReg_reg b hb, e]

/-- C8 (amended): for disjoint vector register pairs `ra`, `rb` holding `x` and `y` and a destination
pair `rd` whose high register is not the low register of a source (so `rd` may equal `ra` or
`rb`), the sequence that `emit_int64_op` emits for `imul64` on any chip class leaves, in every
active lane, `(rd+1 : rd)` equal to `(x * y) mod 2^64`. -/
theorem emit_int64_op_imul64 (p : Program) (ra rb rd : Nat) (vtmp : PhysReg) (st : wave_state)
    (l : Nat)
    (ha : 256 ≤ ra ∧ ra + 1 < 512) (hb : 256 ≤ rb ∧ rb + 1 < 512) (hd : 256 ≤ rd ∧ rd + 1 < 512)
    (hab : ra + 1 < rb ∨ rb + 1 < ra) (hda : rd + 1 ≠ ra) (hdb : rd + 1 ≠ rb)
    (hl : active p.wave_size st l = true) :
    ∃ is st1,
      emit_int64_op p (PhysReg.ofReg rd) (PhysReg.ofReg ra) (PhysReg.ofReg rb) vtmp .imul64
        = .ok is ∧
      wrun p.wave_size is st = some st1 ∧
      st1.vgpr rd l + 4294967296 * st1.vgpr (rd + 1) l =
        ((st.vgpr ra l + 4294967296 * st.vgpr (ra + 1) l) *
         (st.vgpr rb l + 4294967296 * st.vgpr (rb + 1) l)) % 18446744073709551616 := by
  have hra : (PhysReg.ofReg ra).reg = ra := ofReg_reg ra (by omega)
  have h256 : (PhysReg.ofReg ra).reg ≥ 256 := by rw [hra]; exact ha.1
  have hne : PhysReg.ofReg ra ≠ PhysReg.ofReg rb :=
    ofReg_ne ra rb (by omega) (by omega) (by omega)
  by_cases hsw : rb = rd
  · subst hsw
    obtain ⟨st1, hrun, hres⟩ := imul64_core p p.wave_size rb ra rb st l hb ha hb
      (by omega) hdb hda hl
    refine ⟨_, st1, ?_, hrun, ?_⟩
    · simp [emit_int64_op, h256, s1, v1, RegClass.ofSize, vdef, vop, hne, Ne.symm hne,
        ofReg_plus ra 1 (show ra < 16384 by omega), ofReg_plus rb 1 (show rb < 16384 by omega)]
    · rw [hres, Nat.mul_comm]
  · have hne2 : PhysReg.ofReg rb ≠ PhysReg.ofReg rd :=
      ofReg_ne rb rd (by omega) (by omega) hsw
    obtain ⟨st1, hrun, hres⟩ := imul64_core p p.wave_size ra rb rd st l ha hb hd
      hab hda hdb hl
    refine ⟨_, st1, ?_, hrun, hres⟩
    simp [emit_int64_op, h256, s1, v1, RegClass.ofSize, vdef, vop, hne, hne2,
      ofReg_plus ra 1 (show ra < 16384 by omega), ofReg_plus rb 1 (show rb < 16384 by omega),
      ofReg_plus rd 1 (show rd < 16384 by omega)]

theorem emit_int64_op_imul64_witness :
    ∃ is st1,
      emit_int64_op (program_of .GFX8 64) (PhysReg.ofReg 258) (PhysReg.ofReg 256)
        (PhysReg.ofReg 258) (PhysReg.ofReg 260) .imul64 = .ok is ∧
      wrun 64 is sample_wave = some st1 ∧
      st1.vgpr 258 40 + 4294967296 * st1.vgpr (258 + 1) 40 =
        ((sample_wave.vgpr 256 40 + 4294967296 * sample_wave.vgpr (256 + 1) 40) *
         (sample_wave.vgpr 258 40 + 4294967296 * sample_wave.vgpr (258 + 1) 40))
          % 18446744073709551616 :=
  emit_int64_op_imul64 (program_of .GFX8 64) 256 258 258 (PhysReg.ofReg 260) sample_wave 40
    (by decide) (by decide) (by decide) (by decide) (by decide) (by decide) (by decide)

set_option maxRecDepth 100000 in
theorem inclusive_scan_gfx6_wave64 :
    scan_lanes .GFX6 64 .p_inclusive_scan = some ((List.range 64).map (fun i => i + 1)) := by
  decide!

set_option maxRecDepth 100000 in
theorem exclusive_scan_gfx6_wave64 :
    scan_lanes .GFX6 64 .p_exclusive_scan = some (List.range 64) := by
  decide!

set_option maxRecDepth 100000 in
theorem inclusive_scan_gfx7_wave64 :
    scan_lanes .GFX7 64 .p_inclusive_scan = some ((List.range 64).map (fun i => i + 1)) := by
  decide!

set_option maxRecDepth 100000 in
theorem exclusive_scan_gfx7_wave64 :
    scan_lanes .GFX7 64 .p_exclusive_scan = some (List.range 64) := by
  decide!

set_option maxRecDepth 100000 in
theorem inclusive_scan_gfx8_wave64 :
    scan_lanes .GFX8 64 .p_inclusive_scan = some ((List.range 64).map (fun i => i + 1)) := by
  decide!

set_option maxRecDepth 100000 in
theorem exclusive_scan_gfx8_wave64 :
    scan_lanes .GFX8 64 .p_exclusive_scan = some (List.range 64) := by
  decide!

set_option maxRecDepth 100000 in
theorem inclusive_scan_gfx9_wave64 :
    scan_lanes .GFX9 64 .p_inclusive_scan = some ((List.range 64).map (fun i => i + 1)) := by
  decide!

set_option maxRecDepth 100000 in
theorem exclusive_scan_gfx9_wave64 :
    scan_lanes .GFX9 64 .p_exclusive_scan = some (List.range 64) := by
  decide!

set_option maxRecDepth 100000 in
theorem inclusive_scan_gfx10_wave64 :
    scan_lanes .GFX10 64 .p_inclusive_scan = some ((List.range 64).map (fun i => i + 1)) := by
  decide!

set_option maxRecDepth 100000 in
theorem exclusive_scan_gfx10_wave64 :
    scan_lanes .GFX10 64 .p_exclusive_scan = some (List.range 64) := by
  decide!

set_option maxRecDepth 100000 in
theorem inclusive_scan_gfx10_wave32 :
    scan_lanes .GFX10 32 .p_inclusive_scan = some ((List.range 32).map (fun i => i + 1)) := by
  decide!

set_option maxRecDepth 100000 in
theorem exclusive_scan_gfx10_wave32 :
    scan_lanes .GFX10 32 .p_exclusive_scan = some (List.range 32) := by
  decide!

/-- C7: with all lanes active, operator `iadd32` and a source register that is 1 in every lane,
the sequence emitted for `p_inclusive_scan` leaves lane `i` of the destination equal to `i + 1`
and the sequence emitted for `p_exclusive_scan` leaves lane `i` equal to `i`, for every lane of
the wave, on every chip class in wave64 and on GFX10 in wave32 as well (source `v0`,
destination `v1`, scratch registers `v2`, `v3`, `s[10:11]`, `s12`, other registers arbitrary
nonzero contents). -/
theorem scan_all_ones :
    ∀ c ∈ wave_configs,
      scan_lanes c.1 c.2 .p_inclusive_scan = some ((List.range c.2).map (fun i => i + 1)) ∧
      scan_lanes c.1 c.2 .p_exclusive_scan = some (List.range c.2) := by
  intro c hc
  simp only [wave_configs, List.mem_cons, List.mem_singleton, List.not_mem_nil, or_false] at hc
  rcases hc with h | h | h | h | h | h <;> subst h
  · exact ⟨inclusive_scan_gfx6_wave64, exclusive_scan_gfx6_wave64⟩
  · exact ⟨inclusive_scan_gfx7_wave64, exclusive_scan_gfx7_wave64⟩
  · exact ⟨inclusive_scan_gfx8_wave64, exclusive_scan_gfx8_wave64⟩
  · exact ⟨inclusive_scan_gfx9_wave64, exclusive_scan_gfx9_wave64⟩
  · exact ⟨inclusive_scan_gfx10_wave64, exclusive_scan_gfx10_wave64⟩
  · exact ⟨inclusive_scan_gfx10_wave32, exclusive_scan_gfx10_wave32⟩

theorem scan_all_ones_witness :
    scan_lanes .GFX9 64 .p_inclusive_scan = some ((List.range 64).map (fun i => i + 1)) ∧
      scan_lanes .GFX9 64 .p_exclusive_scan = some (List.range 64) :=
  scan_all_ones (.GFX9, 64) (by decide)

theorem and_mask_eq (n x : Nat) (h : x < 2 ^ n) : (2 ^ n - 1) &&& x = x := by
  rw [Nat.and_comm, Nat.and_pow_two_sub_one_eq_mod, Nat.mod_eq_of_lt h]

/-- C11: for every integer reduction operator of width `w`, the constant built from
`get_reduction_identity` is a left identity: combining it with any `w`-bit value `x` gives
`x`. -/
theorem reduction_identity_neutral (op : ReduceOp) (x : Nat) (hint : op.is_float = false)
    (hx : x < 2 ^ op.bits) :
    reduce_op_spec op (reduction_identity_value op) x = some x := by
  cases op <;> first
    | (exfalso; revert hint; decide)
    | skip
  all_goals simp only [ReduceOp.bits] at hx
  all_goals simp only [reduce_op_spec, reduction_identity_value, get_reduction_identity,
    ReduceOp.bits, Option.some.injEq]
  all_goals norm_num at hx ⊢
  all_goals first
    | exact hx
    | exact Nat.le_of_lt_succ hx
    | exact and_mask_eq 8 x hx
    | exact and_mask_eq 16 x hx
    | exact and_mask_eq 32 x hx
    | exact and_mask_eq 64 x hx
    | (unfold to_int; norm_num; split_ifs <;> omega)

theorem reduction_identity_neutral_witness :
    reduce_op_spec .imax16 (reduction_identity_value .imax16) 0x7fff = some 0x7fff :=
  reduction_identity_neutral .imax16 0x7fff (by decide) (by decide)

/-- C12: on every chip class `get_reduce_opcode` returns the marker `num_opcodes` exactly for
the nine 64-bit integer operators and an opcode other than the marker for every other
operator. -/
theorem get_reduce_opcode_decomposed (chip : chip_class) (op : ReduceOp) :
    get_reduce_opcode chip op = .num_opcodes ↔ op ∈ decomposed_ops := by
  cases chip <;> cases op <;> decide

/-- On GFX6 the 16-bit floating-point addition keeps its 16-bit opcode. -/
theorem narrow_float_keeps_16bit_opcode :
    chip_class.rank .GFX6 < 8 ∧ ReduceOp.bits .fadd16 = 16 ∧
      get_reduce_opcode .GFX6 .fadd16 = .v_add_f16 ∧
      opcode_is_16bit (get_reduce_opcode .GFX6 .fadd16) = true := by
  decide

/-- C13 (amended): on every chip class before GFX8, `get_reduce_opcode` returns for every 8-bit
or 16-bit integer reduction operator an opcode that is not a 16-bit operation; and on every
chip class each of the four 16-bit floating-point operators keeps its f16 opcode
(`v_add_f16`, `v_mul_f16`, `v_min_f16`, `v_max_f16`), which is a 16-bit operation. -/
theorem narrow_integer_promoted (chip : chip_class) (op : ReduceOp) (hbits : op.bits ≤ 16) :
    (chip.rank < 8 → op.is_float = false →
      opcode_is_16bit (get_reduce_opcode chip op) = false) ∧
    (op.is_float = true →
      opcode_is_16bit (get_reduce_opcode chip op) = true ∧
      (op = .fadd16 ∨ op = .fmul16 ∨ op = .fmin16 ∨ op = .fmax16) ∧
      (op = .fadd16 → get_reduce_opcode chip op = .v_add_f16) ∧
      (op = .fmul16 → get_reduce_opcode chip op = .v_mul_f16) ∧
      (op = .fmin16 → get_reduce_opcode chip op = .v_min_f16) ∧
      (op = .fmax16 → get_reduce_opcode chip op = .v_max_f16)) := by
  cases chip <;> cases op <;> first | decide | (exfalso; revert hbits; decide)

theorem narrow_integer_promoted_witness :
    (chip_class.rank .GFX7 < 8 → ReduceOp.is_float .imul8 = false →
      opcode_is_16bit (get_reduce_opcode .GFX7 .imul8) = false) ∧
    (ReduceOp.is_float .imul8 = true →
      opcode_is_16bit (get_reduce_opcode .GFX7 .imul8) = true ∧
      (ReduceOp.imul8 = .fadd16 ∨ ReduceOp.imul8 = .fmul16 ∨ ReduceOp.imul8 = .fmin16 ∨
        ReduceOp.imul8 = .fmax16) ∧
      (ReduceOp.imul8 = .fadd16 → get_reduce_opcode .GFX7 .imul8 = .v_add_f16) ∧
      (ReduceOp.imul8 = .fmul16 → get_reduce_opcode .GFX7 .imul8 = .v_mul_f16) ∧
      (ReduceOp.imul8 = .fmin16 → get_reduce_opcode .GFX7 .imul8 = .v_min_f16) ∧
      (ReduceOp.imul8 = .fmax16 → get_reduce_opcode .GFX7 .imul8 = .v_max_f16)) :=
  narrow_integer_promoted .GFX7 .imul8 (by decide)

/-- Structural facts about full-dword register addresses. -/
theorem ofReg_advance_zero (r : Nat) : (PhysReg.ofReg r).advance 0 = PhysReg.ofReg r := by
  simp [PhysReg.advance, PhysReg.ofReg]

theorem ofReg_byte (r : Nat) : (PhysReg.ofReg r).byte = 0 := by
  simp only [PhysReg.byte, PhysReg.ofReg]
  omega

theorem ofReg_reg_b_mod2 (r : Nat) : (PhysReg.ofReg r).reg_b % 2 = 0 := by
  simp only [PhysReg.ofReg]
  omega

theorem ofReg_reg_b_mod4 (r : Nat) : (PhysReg.ofReg r).reg_b % 4 = 0 := by
  simp only [PhysReg.ofReg]
  omega

/-- The chunk that `split_copy` selects for a full-dword vector copy, ignoring uses. -/
theorem split_copy_dword (c : copy_operation) (d s : Nat)
    (hd : c.def_ = ⟨PhysReg.ofReg d, v1⟩) (ho : c.op = Operand.ofReg (PhysReg.ofReg s) v1)
    (hb : c.bytes = 4) :
    split_copy 0 c true 8 = .ok (⟨PhysReg.ofReg d, v1⟩, Operand.ofReg (PhysReg.ofReg s) v1) := by
  have h1 := ofReg_reg_b_mod2 d
  have h2 := ofReg_reg_b_mod4 d
  have h3 := ofReg_reg_b_mod2 s
  have h4 := ofReg_reg_b_mod4 s
  have hbytes : split_copy_bytes 0 c true 8 = 4 := by
    simp [split_copy_bytes, split_copy_loop, hd, ho, hb, ofReg_advance_zero, v1, RegClass.ofSize,
      Operand.ofReg, h1, h2, h3, h4]
  unfold split_copy
  rw [hbytes]
  simp [hd, ho, ofReg_advance_zero, Operand.ofReg, v1, RegClass.ofSize]

/-- The loop of `do_copy` copies nothing when every remaining byte is in use. -/
theorem do_copy_loop_all_used (chip : chip_class) (c : copy_operation) (sg : PhysReg)
    (fuel offset : Nat) (acc : copy_result)
    (hu : ∀ i, offset ≤ i → i < c.bytes → c.use i ≠ 0) (hf : c.bytes ≤ fuel + offset) :
    do_copy_loop chip c sg fuel offset acc = .ok acc := by
  induction fuel generalizing offset with
  | zero =>
    unfold do_copy_loop
    rw [if_neg (by omega)]
  | succ n ih =>
    unfold do_copy_loop
    by_cases h : offset < c.bytes
    · rw [if_pos h, if_pos (hu offset (Nat.le_refl _) h)]
      exact ih (offset + 1) (fun i h1 h2 => hu i (by omega) h2) (by omega)
    · rw [if_neg h]

/-- The fix-up copy of `do_swap` emits nothing when every byte of the copy is in use. -/
theorem do_swap_fixup_all_used (chip : chip_class) (c : copy_operation) (psc : Bool)
    (pi : Pseudo_instruction) (hu : ∀ i, i < c.bytes → c.use i ≠ 0) :
    do_swap_fixup chip c psc pi = .ok [] := by
  unfold do_swap_fixup
  split
  · rfl
  · unfold do_copy
    dsimp only
    rw [do_copy_loop_all_used chip
      ⟨c.op.setFixed c.def_.physReg, c.def_.setFixed c.op.physReg, c.bytes, c.uses⟩
      pi.scratch_sgpr c.bytes 0 _ (fun i _ h => hu i h) (by simp)]

/-- The instructions of `do_swap` for a full-dword vector-register swap in use. -/
theorem do_swap_dword (chip : chip_class) (c : copy_operation) (d s : Nat) (psc : Bool)
    (pi : Pseudo_instruction)
    (hd : c.def_ = ⟨PhysReg.ofReg d, v1⟩) (ho : c.op = Operand.ofReg (PhysReg.ofReg s) v1)
    (hb : c.bytes = 4) (hu : ∀ i, i < 4 → c.use i ≠ 0) :
    do_swap chip c psc pi = .ok
      (if chip.rank ≥ 9 then
        [Instruction.plain .v_swap_b32 [⟨PhysReg.ofReg d, v1⟩, ⟨PhysReg.ofReg s, v1⟩]
          [Operand.ofReg (PhysReg.ofReg s) v1, Operand.ofReg (PhysReg.ofReg d) v1]]
       else
        [Instruction.plain .v_xor_b32 [⟨PhysReg.ofReg s, v1⟩]
          [Operand.ofReg (PhysReg.ofReg s) v1, Operand.ofReg (PhysReg.ofReg d) v1],
         Instruction.plain .v_xor_b32 [⟨PhysReg.ofReg d, v1⟩]
          [Operand.ofReg (PhysReg.ofReg s) v1, Operand.ofReg (PhysReg.ofReg d) v1],
         Instruction.plain .v_xor_b32 [⟨PhysReg.ofReg s, v1⟩]
          [Operand.ofReg (PhysReg.ofReg s) v1, Operand.ofReg (PhysReg.ofReg d) v1]]) := by
  have hchunk : do_swap_chunk chip ⟨PhysReg.ofReg d, v1⟩ (Operand.ofReg (PhysReg.ofReg s) v1)
      psc pi = .ok
      (if chip.rank ≥ 9 then
        [Instruction.plain .v_swap_b32 [⟨PhysReg.ofReg d, v1⟩, ⟨PhysReg.ofReg s, v1⟩]
          [Operand.ofReg (PhysReg.ofReg s) v1, Operand.ofReg (PhysReg.ofReg d) v1]]
       else
        [Instruction.plain .v_xor_b32 [⟨PhysReg.ofReg s, v1⟩]
          [Operand.ofReg (PhysReg.ofReg s) v1, Operand.ofReg (PhysReg.ofReg d) v1],
         Instruction.plain .v_xor_b32 [⟨PhysReg.ofReg d, v1⟩]
          [Operand.ofReg (PhysReg.ofReg s) v1, Operand.ofReg (PhysReg.ofReg d) v1],
         Instruction.plain .v_xor_b32 [⟨PhysReg.ofReg s, v1⟩]
          [Operand.ofReg (PhysReg.ofReg s) v1, Operand.ofReg (PhysReg.ofReg d) v1]]) := by
    unfold do_swap_chunk
    by_cases h9 : chip.rank ≥ 9
    · simp [h9, Operand.ofReg]
    · simp [h9, Operand.ofReg, ofReg_byte]
  have hloop : do_swap_loop chip c psc pi c.bytes 0 [] = .ok
      (if chip.rank ≥ 9 then
        [Instruction.plain .v_swap_b32 [⟨PhysReg.ofReg d, v1⟩, ⟨PhysReg.ofReg s, v1⟩]
          [Operand.ofReg (PhysReg.ofReg s) v1, Operand.ofReg (PhysReg.ofReg d) v1]]
       else
        [Instruction.plain .v_xor_b32 [⟨PhysReg.ofReg s, v1⟩]
          [Operand.ofReg (PhysReg.ofReg s) v1, Operand.ofReg (PhysReg.ofReg d) v1],
         Instruction.plain .v_xor_b32 [⟨PhysReg.ofReg d, v1⟩]
          [Operand.ofReg (PhysReg.ofReg s) v1, Operand.ofReg (PhysReg.ofReg d) v1],
         Instruction.plain .v_xor_b32 [⟨PhysReg.ofReg s, v1⟩]
          [Operand.ofReg (PhysReg.ofReg s) v1, Operand.ofReg (PhysReg.ofReg d) v1]]) := by
    rw [hb]
    have hv1 : (⟨PhysReg.ofReg d, v1⟩ : Definition).bytes = 4 := rfl
    simp only [do_swap_loop, hb, split_copy_dword c d s hd ho hb, hchunk, hv1]
    simp
  unfold do_swap
  have h3 : ¬ (c.bytes = 3 ∧ c.def_.physReg.reg_b % 4 ≤ 1 ∧
      c.def_.physReg.reg_b % 4 = c.op.physReg.reg_b % 4) := by
    rw [hb]; omega
  rw [if_neg h3]
  unfold do_swap_plain
  rw [hloop, do_swap_fixup_all_used chip c psc pi (by rw [hb]; exact hu)]
  simp

theorem xor_cancel_r (a b : Nat) : (a ^^^ b) ^^^ b = a := by
  rw [Nat.xor_assoc, Nat.xor_self, Nat.xor_zero]

theorem write_fn_inside (st : reg_file) (a n : Nat) (f : Nat → Nat) (j : Nat) (h : j < n) :
    write_fn st a n f (a + j) = f j := by
  unfold write_fn
  rw [if_pos (by omega), Nat.add_sub_cancel_left]

theorem write_fn_outside (st : reg_file) (a n : Nat) (f : Nat → Nat) (x : Nat)
    (h : ¬ (a ≤ x ∧ x < a + n)) : write_fn st a n f x = st x := by
  unfold write_fn
  rw [if_neg h]

theorem step_v_xor (dst a b : Nat) (st : reg_file) (ha : 256 ≤ a ∧ a < 16384)
    (hb : 256 ≤ b ∧ b < 16384) (hdst : dst < 16384) :
    step (Instruction.plain .v_xor_b32 [⟨PhysReg.ofReg dst, v1⟩]
        [Operand.ofReg (PhysReg.ofReg a) v1, Operand.ofReg (PhysReg.ofReg b) v1]) st =
      some (write_fn st (dst * 4) 4 (fun j => st (a * 4 + j) ^^^ st (b * 4 + j))) := by
  have ra : (PhysReg.ofReg a).reg = a := ofReg_reg a ha.2
  have rb : (PhysReg.ofReg b).reg = b := ofReg_reg b hb.2
  have rd : (PhysReg.ofReg dst).reg = dst := ofReg_reg dst hdst
  have ca : ¬ (128 ≤ a ∧ a ≤ 192) := by omega
  have cb : ¬ (128 ≤ b ∧ b ≤ 192) := by omega
  have ca2 : ¬ (193 ≤ a ∧ a ≤ 208) := by omega
  have cb2 : ¬ (193 ≤ b ∧ b ≤ 208) := by omega
  simp only [step, Instruction.plain, dword_base, operand_byte, Operand.ofReg, ra, rb, rd,
    ca, cb, ca2, cb2, if_false, Bool.false_eq_true]

theorem step_v_swap (d s : Nat) (st : reg_file) (hd : 256 ≤ d ∧ d < 16384)
    (hs : 256 ≤ s ∧ s < 16384) :
    step (Instruction.plain .v_swap_b32 [⟨PhysReg.ofReg d, v1⟩, ⟨PhysReg.ofReg s, v1⟩]
        [Operand.ofReg (PhysReg.ofReg s) v1, Operand.ofReg (PhysReg.ofReg d) v1]) st =
      some (fun x =>
        if d * 4 ≤ x ∧ x < d * 4 + 4 then st (s * 4 + (x - d * 4))
        else if s * 4 ≤ x ∧ x < s * 4 + 4 then st (d * 4 + (x - s * 4))
        else st x) := by
  have rd : (PhysReg.ofReg d).reg = d := ofReg_reg d hd.2
  have rs : (PhysReg.ofReg s).reg = s := ofReg_reg s hs.2
  have cd : ¬ (128 ≤ d ∧ d ≤ 192) := by omega
  have cs : ¬ (128 ≤ s ∧ s ≤ 192) := by omega
  have cd2 : ¬ (193 ≤ d ∧ d ≤ 208) := by omega
  have cs2 : ¬ (193 ≤ s ∧ s ≤ 208) := by omega
  simp only [step, Instruction.plain, dword_base, operand_byte, Operand.ofReg, rd, rs,
    cd, cs, cd2, cs2, if_false, Bool.false_eq_true]

/-- The register file with the dwords of registers `d` and `s` exchanged. -/
theorem run_swap_dword (chip : chip_class) (d s : Nat) (st : reg_file)
    (hd : 256 ≤ d ∧ d < 16384) (hs : 256 ≤ s ∧ s < 16384) (hne : d ≠ s) :
    ∃ st1, run (if chip.rank ≥ 9 then
        [Instruction.plain .v_swap_b32 [⟨PhysReg.ofReg d, v1⟩, ⟨PhysReg.ofReg s, v1⟩]
          [Operand.ofReg (PhysReg.ofReg s) v1, Operand.ofReg (PhysReg.ofReg d) v1]]
       else
        [Instruction.plain .v_xor_b32 [⟨PhysReg.ofReg s, v1⟩]
          [Operand.ofReg (PhysReg.ofReg s) v1, Operand.ofReg (PhysReg.ofReg d) v1],
         Instruction.plain .v_xor_b32 [⟨PhysReg.ofReg d, v1⟩]
          [Operand.ofReg (PhysReg.ofReg s) v1, Operand.ofReg (PhysReg.ofReg d) v1],
         Instruction.plain .v_xor_b32 [⟨PhysReg.ofReg s, v1⟩]
          [Operand.ofReg (PhysReg.ofReg s) v1, Operand.ofReg (PhysReg.ofReg d) v1]]) st =
        some st1 ∧
      (∀ j, j < 4 → st1 (d * 4 + j) = st (s * 4 + j)) ∧
      (∀ j, j < 4 → st1 (s * 4 + j) = st (d * 4 + j)) ∧
      (∀ x, ¬ (d * 4 ≤ x ∧ x < d * 4 + 4) → ¬ (s * 4 ≤ x ∧ x < s * 4 + 4) → st1 x = st x) := by
  split
  · refine ⟨_, by rw [run, step_v_swap d s st hd hs]; rfl, ?_, ?_, ?_⟩
    · intro j hj
      rw [if_pos (by omega), Nat.add_sub_cancel_left]
    · intro j hj
      rw [if_neg (by omega), if_pos (by omega), Nat.add_sub_cancel_left]
    · intro x h1 h2
      rw [if_neg h1, if_neg h2]
  · refine ⟨_, by
      rw [run, step_v_xor s s d st hs hd hs.2]
      dsimp only
      rw [run, step_v_xor d s d _ hs hd hd.2]
      dsimp only
      rw [run, step_v_xor s s d _ hs hd hs.2]
      rfl, ?_, ?_, ?_⟩
    · intro j hj
      rw [write_fn_outside _ _ _ _ _ (by omega), write_fn_inside _ _ _ _ _ hj,
        write_fn_inside _ _ _ _ _ hj, write_fn_outside _ _ _ _ _ (by omega)]
      rw [xor_cancel_r]
    · intro j hj
      rw [write_fn_inside _ _ _ _ _ hj, write_fn_outside _ _ _ _ _ (by omega),
        write_fn_inside _ _ _ _ _ hj, write_fn_inside _ _ _ _ _ hj,
        write_fn_inside _ _ _ _ _ hj, write_fn_outside _ _ _ _ _ (by omega)]
      rw [xor_cancel_r, Nat.xor_comm (st (s * 4 + j)), xor_cancel_r]
    · intro x h1 h2
      rw [write_fn_outside _ _ _ _ _ h2, write_fn_outside _ _ _ _ _ h1,
        write_fn_outside _ _ _ _ _ h2]

/-- C20: for a full four-byte vector-register copy all of whose use counts are non-zero,
`do_swap` emits exactly one `v_swap_b32` on GFX9 and later and exactly three `v_xor_b32`
before, and executing the emitted instructions on distinct registers `d` and `s` exchanges
their contents and changes nothing else. -/
theorem do_swap_full_dword (chip : chip_class) (c : copy_operation) (d s : Nat) (psc : Bool)
    (pi : Pseudo_instruction) (st : reg_file)
    (hd : c.def_ = ⟨PhysReg.ofReg d, v1⟩) (ho : c.op = Operand.ofReg (PhysReg.ofReg s) v1)
    (hb : c.bytes = 4) (hu : ∀ i, i < 4 → c.use i ≠ 0)
    (hdr : 256 ≤ d ∧ d < 16384) (hsr : 256 ≤ s ∧ s < 16384) (hne : d ≠ s) :
    ∃ is st1, do_swap chip c psc pi = .ok is ∧
      (chip.rank ≥ 9 → is.length = 1 ∧ ∀ i ∈ is, i.opcode = .v_swap_b32) ∧
      (chip.rank < 9 → is.length = 3 ∧ ∀ i ∈ is, i.opcode = .v_xor_b32) ∧
      run is st = some st1 ∧
      (∀ j, j < 4 → st1 (d * 4 + j) = st (s * 4 + j)) ∧
      (∀ j, j < 4 → st1 (s * 4 + j) = st (d * 4 + j)) ∧
      (∀ x, ¬ (d * 4 ≤ x ∧ x < d * 4 + 4) → ¬ (s * 4 ≤ x ∧ x < s * 4 + 4) → st1 x = st x) := by
  obtain ⟨st1, hrun, h1, h2, h3⟩ := run_swap_dword chip d s st hdr hsr hne
  refine ⟨_, st1, do_swap_dword chip c d s psc pi hd ho hb hu, ?_, ?_, hrun, h1, h2, h3⟩
  · intro h9
    rw [if_pos h9]
    simp [Instruction.plain]
  · intro h9
    rw [if_neg (by omega)]
    simp [Instruction.plain]

theorem do_swap_full_dword_witness :
    ∃ is st1, do_swap .GFX8 dword_copy_in_use false parallelcopy_pi = .ok is ∧
      (chip_class.rank .GFX8 ≥ 9 → is.length = 1 ∧ ∀ i ∈ is, i.opcode = .v_swap_b32) ∧
      (chip_class.rank .GFX8 < 9 → is.length = 3 ∧ ∀ i ∈ is, i.opcode = .v_xor_b32) ∧
      run is byte_rotation_regs = some st1 ∧
      (∀ j, j < 4 → st1 (257 * 4 + j) = byte_rotation_regs (256 * 4 + j)) ∧
      (∀ j, j < 4 → st1 (256 * 4 + j) = byte_rotation_regs (257 * 4 + j)) ∧
      (∀ x, ¬ (257 * 4 ≤ x ∧ x < 257 * 4 + 4) → ¬ (256 * 4 ≤ x ∧ x < 256 * 4 + 4) →
        st1 x = byte_rotation_regs x) :=
  do_swap_full_dword .GFX8 dword_copy_in_use 257 256 false parallelcopy_pi byte_rotation_regs
    rfl rfl rfl (by decide) (by decide) (by decide) (by decide)

/-! ## The copy map as a list around the iterator -/

theorem map_find_mid (V R : copy_map) (k : PhysReg) (c : copy_operation)
    (hV : ∀ e ∈ V, e.1 ≠ k) : map_find (V ++ (k, c) :: R) k = some c := by
  induction V with
  | nil => simp [map_find]
  | cons a V ih =>
    have ha : a.1 ≠ k := hV a (List.mem_cons_self _ _)
    simp only [List.cons_append, map_find, if_neg ha]
    exact ih (fun e he => hV e (List.mem_cons_of_mem _ he))

theorem map_find_none (m : copy_map) (k : PhysReg) (h : ∀ e ∈ m, e.1 ≠ k) :
    map_find m k = none := by
  induction m with
  | nil => rfl
  | cons a m ih =>
    simp only [map_find, if_neg (h a (List.mem_cons_self _ _))]
    exact ih (fun e he => h e (List.mem_cons_of_mem _ he))

theorem map_find_skip (V R : copy_map) (k : PhysReg) (hV : ∀ e ∈ V, e.1 ≠ k) :
    map_find (V ++ R) k = map_find R k := by
  induction V with
  | nil => rfl
  | cons a V ih =>
    simp only [List.cons_append, map_find, if_neg (hV a (List.mem_cons_self _ _))]
    exact ih (fun e he => hV e (List.mem_cons_of_mem _ he))

theorem map_set_ne (m : copy_map) (k : PhysReg) (v : copy_operation) (h : ∀ e ∈ m, e.1 ≠ k) :
    map_set m k v = m := by
  unfold map_set
  conv => rhs; rw [← List.map_id m]
  apply List.map_congr_left
  intro e he
  simp [h e he]

theorem map_set_mid (V R : copy_map) (k : PhysReg) (c v : copy_operation)
    (hV : ∀ e ∈ V, e.1 ≠ k) (hR : ∀ e ∈ R, e.1 ≠ k) :
    map_set (V ++ (k, c) :: R) k v = V ++ (k, v) :: R := by
  have h1 := map_set_ne V k v hV
  have h2 := map_set_ne R k v hR
  unfold map_set at h1 h2 ⊢
  rw [List.map_append, List.map_cons, h1, h2]
  simp

theorem map_erase_ne (m : copy_map) (k : PhysReg) (h : ∀ e ∈ m, e.1 ≠ k) :
    map_erase m k = m := by
  unfold map_erase
  rw [List.filter_eq_self]
  intro e he
  simp [h e he]

theorem map_erase_mid (V R : copy_map) (k : PhysReg) (c : copy_operation)
    (hV : ∀ e ∈ V, e.1 ≠ k) (hR : ∀ e ∈ R, e.1 ≠ k) :
    map_erase (V ++ (k, c) :: R) k = V ++ R := by
  have h1 := map_erase_ne V k hV
  have h2 := map_erase_ne R k hR
  unfold map_erase at h1 h2 ⊢
  rw [List.filter_append, List.filter_cons, h1, h2]
  simp

theorem map_next_skip (V R : copy_map) (k : PhysReg) (hV : ∀ e ∈ V, e.1.reg_b ≤ k.reg_b) :
    map_next (V ++ R) k = map_next R k := by
  induction V with
  | nil => rfl
  | cons a V ih =>
    have ha := hV a (List.mem_cons_self _ _)
    simp only [List.cons_append, map_next, if_neg (Nat.not_lt.mpr ha)]
    exact ih (fun e he => hV e (List.mem_cons_of_mem _ he))

theorem map_next_begin (R : copy_map) (k : PhysReg) (hR : ∀ e ∈ R, k.reg_b < e.1.reg_b) :
    map_next R k = map_begin R := by
  cases R with
  | nil => rfl
  | cons a R => simp [map_next, map_begin, hR a (List.mem_cons_self _ _)]

theorem map_insert_skip (V R : copy_map) (k : PhysReg) (v : copy_operation)
    (hV : ∀ e ∈ V, e.1.reg_b < k.reg_b) :
    map_insert (V ++ R) k v = V ++ map_insert R k v := by
  induction V with
  | nil => rfl
  | cons a V ih =>
    have ha := hV a (List.mem_cons_self _ _)
    have hne : a.1 ≠ k := by
      intro h
      rw [h] at ha
      exact Nat.lt_irrefl _ ha
    simp only [List.cons_append, map_insert, if_neg (Nat.lt_asymm ha), if_neg hne]
    exact congrArg (List.cons a) (ih (fun e he => hV e (List.mem_cons_of_mem _ he)))

theorem map_insert_front (R : copy_map) (k : PhysReg) (v : copy_operation)
    (hR : ∀ e ∈ R, k.reg_b < e.1.reg_b) : map_insert R k v = (k, v) :: R := by
  cases R with
  | nil => rfl
  | cons a R => simp [map_insert, hR a (List.mem_cons_self _ _)]

theorem physreg_ne_of_reg_b {a b : PhysReg} (h : a.reg_b ≠ b.reg_b) : a ≠ b := by
  intro e
  exact h (by rw [e])

theorem dest_chain_mid (V R : copy_map) (k : PhysReg) (c : copy_operation) :
    dest_chain (V ++ (k, c) :: R) ↔
      dest_chain V ∧ dest_chain R ∧ (1 ≤ c.bytes ∧ k.reg_b + c.bytes ≤ 2048) ∧
      (∀ e ∈ V, e.1.reg_b + e.2.bytes ≤ k.reg_b) ∧
      (∀ e ∈ R, k.reg_b + c.bytes ≤ e.1.reg_b) := by
  unfold dest_chain
  constructor
  · rintro ⟨hp, hb⟩
    rw [List.pairwise_append, List.pairwise_cons] at hp
    obtain ⟨hV, ⟨hkR, hR⟩, hVR⟩ := hp
    refine ⟨⟨hV, fun e he => hb e (List.mem_append_left _ he)⟩,
      ⟨hR, fun e he => hb e (List.mem_append_right _ (List.mem_cons_of_mem _ he))⟩,
      hb (k, c) (List.mem_append_right _ (List.mem_cons_self _ _)),
      fun e he => hVR e he (k, c) (List.mem_cons_self _ _), hkR⟩
  · rintro ⟨⟨hV, hbV⟩, ⟨hR, hbR⟩, hc, hVk, hkR⟩
    refine ⟨?_, ?_⟩
    · rw [List.pairwise_append, List.pairwise_cons]
      refine ⟨hV, ⟨hkR, hR⟩, ?_⟩
      intro a ha b hb
      rcases List.mem_cons.mp hb with h | h
      · rw [h]; exact hVk a ha
      · have h1 := hVk a ha
        have h2 := hkR b h
        simp only at h1 h2 ⊢
        omega
    · intro e he
      rcases List.mem_append.mp he with h | h
      · exact hbV e h
      · rcases List.mem_cons.mp h with h | h
        · rw [h]; exact hc
        · exact hbR e h

theorem dest_chain_nil : dest_chain [] := by
  unfold dest_chain
  exact ⟨List.Pairwise.nil, fun e he => absurd he (List.not_mem_nil _)⟩

theorem dest_chain_cons (R : copy_map) (k : PhysReg) (c : copy_operation) :
    dest_chain ((k, c) :: R) ↔
      dest_chain R ∧ (1 ≤ c.bytes ∧ k.reg_b + c.bytes ≤ 2048) ∧
      (∀ e ∈ R, k.reg_b + c.bytes ≤ e.1.reg_b) := by
  have h := dest_chain_mid [] R k c
  simp only [List.nil_append, List.not_mem_nil, false_implies, implies_true, true_and,
    dest_chain_nil] at h
  exact h

theorem dest_chain_append (V R : copy_map) (hV : dest_chain V) (hR : dest_chain R)
    (h : ∀ a ∈ V, ∀ b ∈ R, a.1.reg_b + a.2.bytes ≤ b.1.reg_b) : dest_chain (V ++ R) := by
  unfold dest_chain at *
  refine ⟨?_, ?_⟩
  · rw [List.pairwise_append]
    exact ⟨hV.1, hR.1, h⟩
  · intro e he
    rcases List.mem_append.mp he with h1 | h1
    · exact hV.2 e h1
    · exact hR.2 e h1

theorem plus_two_reg_b (k : PhysReg) (h4 : k.reg_b % 4 = 0) (hb : k.reg_b + 8 < 65536) :
    (k.plus 2).reg_b = k.reg_b + 8 := by
  simp only [PhysReg.plus, PhysReg.ofReg, PhysReg.reg]
  omega

theorem plus_two_gt (k : PhysReg) (hb : k.reg_b + 8 < 65536) :
    k.reg_b < (k.plus 2).reg_b := by
  simp only [PhysReg.plus, PhysReg.ofReg, PhysReg.reg]
  omega

/-- The block "split large copies" on a dword-aligned register copy of more than eight bytes
in a well-ordered map: the entry is replaced by its low eight bytes followed by the rest. -/
theorem split_large_spec (V R : copy_map) (k : PhysReg) (c : copy_operation)
    (hch : dest_chain (V ++ (k, c) :: R)) (hkey : k = c.def_.physReg) (hgt : 8 < c.bytes)
    (hnc : c.op.isConstant = false) (hns : c.def_.regClass.is_subdword = false)
    (ho4 : c.op.physReg.reg_b % 4 = 0) (hk4 : k.reg_b % 4 = 0) :
    split_large (V ++ (k, c) :: R) k c =
      .ok (V ++ (k, split_low c) :: (k.plus 2, split_high k c) :: R) := by
  obtain ⟨hV, hR, hc, hVk, hkR⟩ := (dest_chain_mid V R k c).mp hch
  have hVne : ∀ e ∈ V, e.1 ≠ k := fun e he =>
    physreg_ne_of_reg_b (by have := hVk e he; have := hV.2 e he; omega)
  have hgt2 := plus_two_gt k (by omega)
  have hVlt : ∀ e ∈ V, e.1.reg_b < (k.plus 2).reg_b := fun e he => by
    have := hVk e he; have := hV.2 e he; omega
  unfold split_large
  rw [if_pos hgt, if_neg (by simp [hnc]), if_neg (by simp [hns])]
  dsimp only
  have hins : ∀ v, map_insert (V ++ (k, c) :: R) (k.plus 2) v =
      V ++ (k, c) :: map_insert R (k.plus 2) v := by
    intro v
    rw [map_insert_skip V _ _ _ hVlt]
    simp only [map_insert, if_neg (Nat.lt_asymm hgt2),
      if_neg (physreg_ne_of_reg_b (Nat.ne_of_lt hgt2))]
  rw [hins, map_find_mid V _ k c hVne]
  dsimp only
  have hal : c.op.physReg.byte = 0 ∧ c.def_.physReg.byte = 0 := by
    rw [← hkey]
    exact ⟨ho4, hk4⟩
  rw [if_pos hal]
  have hkb := plus_two_reg_b k hk4 (by omega)
  have hRgt : ∀ e ∈ R, (k.plus 2).reg_b < e.1.reg_b := fun e he => by
    have := hkR e he; omega
  rw [map_insert_front R _ _ hRgt]
  rw [map_set_mid V _ k c _ hVne]
  · rfl
  · intro e he
    rcases List.mem_cons.mp he with h | h
    · rw [h]
      exact physreg_ne_of_reg_b (by simp only; omega)
    · exact physreg_ne_of_reg_b (by have := hkR e h; omega)

theorem advance_reg_b (k : PhysReg) (n : Nat) (h : k.reg_b + n < 65536) :
    (k.advance n).reg_b = k.reg_b + n := by
  simp only [PhysReg.advance]
  omega

/-- The block "try to coalesce copies" at the entry `c` of a well-ordered map: the map is
unchanged, or `c` and the entry that follows it are replaced by one entry. -/
theorem try_coalesce_spec (V R : copy_map) (k : PhysReg) (c : copy_operation)
    (hch : dest_chain (V ++ (k, c) :: R)) :
    try_coalesce (V ++ (k, c) :: R) k c = .ok (V ++ (k, c) :: R) ∨
    ∃ B R2, R = (k.advance c.bytes, B) :: R2 ∧ c.bytes < 8 ∧ c.op.isConstant = false ∧
      k.reg_b % util_next_power_of_two (c.bytes + 1) = 0 ∧
      c.op.physReg.reg_b % util_next_power_of_two (c.bytes + 1) = 0 ∧
      B.op.physReg = c.op.physReg.advance c.bytes ∧ c.bytes + B.bytes ≤ 8 ∧
      try_coalesce (V ++ (k, c) :: R) k c = .ok (V ++ (k, coalesced k c B) :: R2) := by
  obtain ⟨hV, hR, hc, hVk, hkR⟩ := (dest_chain_mid V R k c).mp hch
  have hadv := advance_reg_b k c.bytes (by omega)
  have hVne : ∀ e ∈ V, e.1 ≠ k := fun e he =>
    physreg_ne_of_reg_b (by have := hVk e he; have := hV.2 e he; omega)
  have hRne : ∀ e ∈ R, e.1 ≠ k := fun e he =>
    physreg_ne_of_reg_b (by have := hkR e he; omega)
  have hVne2 : ∀ e ∈ V, e.1 ≠ k.advance c.bytes := fun e he =>
    physreg_ne_of_reg_b (by have := hVk e he; have := hV.2 e he; omega)
  have hkne : k ≠ k.advance c.bytes := physreg_ne_of_reg_b (by omega)
  unfold try_coalesce
  dsimp only
  split
  · rename_i hcond
    obtain ⟨h8, hnc, hka, hoa⟩ := hcond
    rw [map_find_skip V _ _ hVne2]
    simp only [map_find, if_neg hkne]
    cases R with
    | nil => left; rfl
    | cons b R2 =>
      by_cases hb : b.1 = k.advance c.bytes
      · simp only [map_find, if_pos hb]
        split
        · rename_i hother
          right
          refine ⟨b.2, R2, ?_, h8, hnc, hka, hoa, hother.1, hother.2, ?_⟩
          · rw [← hb]
          · rw [if_neg (fun h => hkne h.symm)]
            rw [map_set_mid V _ k c _ hVne hRne]
            have hR2 := (dest_chain_cons R2 b.1 b.2).mp hR
            have := map_erase_mid (V ++ [(k, coalesced k c b.2)]) R2 (k.advance c.bytes) b.2
              (by
                intro e he
                rcases List.mem_append.mp he with h | h
                · exact hVne2 e h
                · rw [List.mem_singleton.mp h]; exact hkne)
              (by
                intro e he
                have h1 := hR2.2.2 e he
                have h2 := hR2.2.1
                exact physreg_ne_of_reg_b (by rw [← hb]; omega))
            simp only [List.append_assoc, List.singleton_append] at this
            rw [← hb] at this ⊢
            simp only [coalesced] at this ⊢
            rw [this]
        · left; rfl
      · left
        have hbk := hkR b (List.mem_cons_self _ _)
        have hbgt : k.reg_b + c.bytes < b.1.reg_b := by
          rcases Nat.lt_or_ge (k.reg_b + c.bytes) b.1.reg_b with h | h
          · exact h
          · exfalso
            apply hb
            have : b.1.reg_b = (k.advance c.bytes).reg_b := by omega
            cases hb1 : b.1
            cases hk1 : k.advance c.bytes
            rw [hb1, hk1] at this
            simp only at this
            rw [this]
        have hR2 := (dest_chain_cons R2 b.1 b.2).mp hR
        rw [map_find_none (b :: R2) _ (by
          intro e he
          rcases List.mem_cons.mp he with h | h
          · rw [h]; exact hb
          · have h1 := hR2.2.2 e h
            exact physreg_ne_of_reg_b (by omega))]
  · left; rfl

/-! ## The use-count loop -/

theorem set_use_use (a : copy_operation) (i u j : Nat) :
    (set_use a i u).use j = if i = j ∧ i < a.uses.length then u else a.use j := by
  simp only [set_use, copy_operation.use, List.getD_eq_getElem?_getD, List.getElem?_set]
  by_cases h : i = j
  · subst h
    by_cases h2 : i < a.uses.length
    · simp [h2]
    · simp [h2]
      rw [List.getElem?_eq_none (by omega)]
      rfl
  · simp [h]

theorem count_range_fold (P : Nat → Prop) [DecidablePred P] (a : copy_operation) (n : Nat) :
    let r := (List.range n).foldl
      (fun a i => if P i then set_use a i (u8_inc (a.use i)) else a) a
    r.op = a.op ∧ r.def_ = a.def_ ∧ r.bytes = a.bytes ∧ r.uses.length = a.uses.length ∧
      ∀ j, r.use j = if j < n ∧ P j ∧ j < a.uses.length then u8_inc (a.use j) else a.use j := by
  induction n with
  | zero => simp
  | succ n ih =>
    simp only [List.range_succ, List.foldl_append, List.foldl_cons, List.foldl_nil]
    obtain ⟨h1, h2, h3, h4, h5⟩ := ih
    by_cases hp : P n
    · simp only [if_pos hp]
      refine ⟨by rw [← h1]; rfl, by rw [← h2]; rfl, by rw [← h3]; rfl, ?_, ?_⟩
      · rw [← h4]; simp [set_use]
      · intro j
        rw [set_use_use, h4]
        by_cases hj : n = j
        · subst hj
          rw [h5 n]
          by_cases hl : n < a.uses.length
          · simp [hl, hp]
          · simp [hl]
        · rw [if_neg (fun h => hj h.1), h5 j]
          have : (j < n + 1 ∧ P j ∧ j < a.uses.length) ↔ (j < n ∧ P j ∧ j < a.uses.length) := by
            constructor
            · rintro ⟨a1, a2, a3⟩; exact ⟨by omega, a2, a3⟩
            · rintro ⟨a1, a2, a3⟩; exact ⟨by omega, a2, a3⟩
          simp only [this]
    · simp only [if_neg hp]
      refine ⟨h1, h2, h3, h4, ?_⟩
      intro j
      rw [h5 j]
      have : (j < n + 1 ∧ P j ∧ j < a.uses.length) ↔ (j < n ∧ P j ∧ j < a.uses.length) := by
        constructor
        · rintro ⟨a1, a2, a3⟩
          refine ⟨?_, a2, a3⟩
          rcases Nat.lt_or_ge j n with h | h
          · exact h
          · exfalso; apply hp; have : j = n := by omega
            rw [← this]; exact a2
        · rintro ⟨a1, a2, a3⟩; exact ⟨by omega, a2, a3⟩
      simp only [this]

theorem count_uses_cons (e : PhysReg × copy_operation) (m : copy_map) (k : PhysReg)
    (c : copy_operation) :
    count_uses (e :: m) k c = count_uses m k
      (if e.2.op.isConstant then c
       else (List.range c.bytes).foldl (fun a i =>
        if udiff (k.reg_b + i) e.2.op.physReg.reg_b < e.2.bytes
        then set_use a i (u8_inc (a.use i)) else a) c) := by
  simp only [count_uses, List.foldl_cons]

theorem count_uses_spec (m : copy_map) (k : PhysReg) (c : copy_operation)
    (hlen : c.uses.length = 8) (hb : c.bytes ≤ 8) (hlt : ∀ j, c.use j < 256) :
    (count_uses m k c).op = c.op ∧ (count_uses m k c).def_ = c.def_ ∧
    (count_uses m k c).bytes = c.bytes ∧ (count_uses m k c).uses.length = 8 ∧
    ∀ j, j < c.bytes → (count_uses m k c).use j =
      (c.use j + m.countP (fun e => !e.2.op.isConstant &&
        decide (udiff (k.reg_b + j) e.2.op.physReg.reg_b < e.2.bytes))) % 256 := by
  induction m generalizing c with
  | nil =>
    simp only [count_uses, List.foldl_nil, List.countP_nil, Nat.add_zero, true_and]
    exact ⟨hlen, fun j _ => (Nat.mod_eq_of_lt (hlt j)).symm⟩
  | cons e m ih =>
    rw [count_uses_cons]
    by_cases hconst : e.2.op.isConstant = true
    · rw [if_pos hconst]
      obtain ⟨h1, h2, h3, h4, h5⟩ := ih c hlen hb hlt
      refine ⟨h1, h2, h3, h4, ?_⟩
      intro j hj
      rw [h5 j hj, List.countP_cons]
      simp [hconst]
    · rw [if_neg hconst]
      obtain ⟨g1, g2, g3, g4, g5⟩ := count_range_fold
        (fun i => udiff (k.reg_b + i) e.2.op.physReg.reg_b < e.2.bytes) c c.bytes
      have hlt2 : ∀ j, ((List.range c.bytes).foldl (fun a i =>
          if udiff (k.reg_b + i) e.2.op.physReg.reg_b < e.2.bytes
          then set_use a i (u8_inc (a.use i)) else a) c).use j < 256 := by
        intro j
        rw [g5 j]
        split
        · unfold u8_inc; omega
        · exact hlt j
      obtain ⟨h1, h2, h3, h4, h5⟩ := ih _ (by rw [g4]; exact hlen) (by rw [g3]; exact hb) hlt2
      refine ⟨by rw [h1, g1], by rw [h2, g2], by rw [h3, g3], h4, ?_⟩
      intro j hj
      rw [h5 j (by rw [g3]; exact hj), g5 j, List.countP_cons]
      have hj8 : j < c.uses.length := by omega
      have hnc : e.2.op.isConstant = false := by simpa using hconst
      by_cases hp : udiff (k.reg_b + j) e.2.op.physReg.reg_b < e.2.bytes
      · simp only [hj, hp, hj8, and_self, if_true, hnc, Bool.not_false, Bool.true_and,
          decide_True]
        unfold u8_inc
        omega
      · simp only [hj, hp, hj8, and_false, false_and, if_false, hnc, Bool.not_false,
          Bool.true_and, decide_False, Bool.false_eq_true, Nat.add_zero]

/-! ## Readers and byte pairs of a map -/

theorem readers_append (A B : copy_map) (x : Nat) :
    readers (A ++ B) x = readers A x + readers B x := by
  simp [readers, List.countP_append]

theorem readers_cons (e : PhysReg × copy_operation) (B : copy_map) (x : Nat) :
    readers (e :: B) x = readers B x + (if reads_byte e x then 1 else 0) := by
  simp [readers, List.countP_cons]

theorem copies_byte_append (A B : copy_map) (x y : Nat) :
    copies_byte (A ++ B) x y ↔ copies_byte A x y ∨ copies_byte B x y := by
  unfold copies_byte
  constructor
  · rintro ⟨e, he, h⟩
    rcases List.mem_append.mp he with h1 | h1
    · exact Or.inl ⟨e, h1, h⟩
    · exact Or.inr ⟨e, h1, h⟩
  · rintro (⟨e, he, h⟩ | ⟨e, he, h⟩)
    · exact ⟨e, List.mem_append_left _ he, h⟩
    · exact ⟨e, List.mem_append_right _ he, h⟩

theorem copies_byte_cons (e : PhysReg × copy_operation) (B : copy_map) (x y : Nat) :
    copies_byte (e :: B) x y ↔
      (e.2.op.isConstant = false ∧
        ∃ i, i < e.2.bytes ∧ x = e.1.reg_b + i ∧ y = e.2.op.physReg.reg_b + i) ∨
      copies_byte B x y := by
  unfold copies_byte
  constructor
  · rintro ⟨a, ha, h⟩
    rcases List.mem_cons.mp ha with h1 | h1
    · subst h1; exact Or.inl h
    · exact Or.inr ⟨a, h1, h⟩
  · rintro (h | ⟨a, ha, h⟩)
    · exact ⟨e, List.mem_cons_self _ _, h⟩
    · exact ⟨a, List.mem_cons_of_mem _ ha, h⟩

theorem countP_udiff_readers (m : copy_map) (x : Nat) (hx : x ≤ 4096)
    (hm : ∀ e ∈ m, e.2.op.isConstant = false → e.2.op.physReg.reg_b + e.2.bytes ≤ 2048) :
    m.countP (fun e => !e.2.op.isConstant &&
      decide (udiff x e.2.op.physReg.reg_b < e.2.bytes)) = readers m x := by
  unfold readers
  apply List.countP_congr
  intro e he
  unfold reads_byte
  cases hc : e.2.op.isConstant
  · have := hm e he hc
    simp only [Bool.not_false, Bool.true_and, decide_eq_true_eq, udiff]
    constructor <;> intro h <;> omega
  · simp

theorem source_ok_bound (e : PhysReg × copy_operation) (h : source_ok e)
    (hc : e.2.op.isConstant = false) : e.2.op.physReg.reg_b + e.2.bytes ≤ 2048 := by
  unfold source_ok at h
  rw [hc] at h
  simp only [Bool.false_eq_true, if_false] at h
  exact h.2.2

/-! ## One iteration of the first loop -/

theorem reads_byte_congr (k1 k2 : PhysReg) (a b : copy_operation) (x : Nat)
    (h1 : a.op = b.op) (h2 : a.bytes = b.bytes) :
    reads_byte (k1, a) x = reads_byte (k2, b) x := by
  simp [reads_byte, h1, h2]

theorem use_of_no_uses (c : copy_operation) (h : c.uses = no_uses) (j : Nat) : c.use j = 0 := by
  unfold copy_operation.use
  rw [h]
  unfold no_uses
  rcases Nat.lt_or_ge j 8 with h8 | h8
  · interval_cases j <;> rfl
  · rw [List.getD_eq_default _ _ (by simpa using h8)]

/-- Closing part of an iteration that keeps the entry at the iterator: the use counts are
written and the iterator moves to the next entry. -/
theorem pre_finish (V R R1 : copy_map) (k : PhysReg) (c c2 : copy_operation)
    (hinv : pre_inv V ((k, c) :: R)) (hne : k ≠ c.op.physReg)
    (hch : dest_chain (V ++ (k, c2) :: R1))
    (hok : ∀ e ∈ (k, c2) :: R1, source_ok e)
    (hfresh : ∀ e ∈ (k, c2) :: R1, e.2.uses = no_uses)
    (hop : c2.op.physReg = c.op.physReg) (hb8 : c2.bytes ≤ 8)
    (hrd : ∀ x, readers ((k, c2) :: R1) x = readers ((k, c) :: R) x) :
    pre_inv (V ++ [(k, count_uses (V ++ (k, c2) :: R1) k c2)]) R1 ∧
    map_set (V ++ (k, c2) :: R1) k (count_uses (V ++ (k, c2) :: R1) k c2) =
      (V ++ [(k, count_uses (V ++ (k, c2) :: R1) k c2)]) ++ R1 ∧
    map_next ((V ++ [(k, count_uses (V ++ (k, c2) :: R1) k c2)]) ++ R1) k = map_begin R1 ∧
    (∀ x y, copies_byte ((V ++ [(k, count_uses (V ++ (k, c2) :: R1) k c2)]) ++ R1) x y ↔
      copies_byte (V ++ (k, c2) :: R1) x y) := by
  obtain ⟨hch0, hok0, hfresh0, hQ⟩ := hinv
  obtain ⟨hV, hR1, hc2, hVk, hkR1⟩ := (dest_chain_mid V R1 k c2).mp hch
  have hu2 : c2.uses = no_uses := hfresh (k, c2) (List.mem_cons_self _ _)
  have hlen : c2.uses.length = 8 := by rw [hu2]; rfl
  have hzero : ∀ j, c2.use j = 0 := use_of_no_uses c2 hu2
  obtain ⟨g1, g2, g3, g4, g5⟩ := count_uses_spec (V ++ (k, c2) :: R1) k c2 hlen hb8
    (fun j => by rw [hzero j]; omega)
  generalize hc3 : count_uses (V ++ (k, c2) :: R1) k c2 = c3 at g1 g2 g3 g4 g5 ⊢
  have hVne : ∀ e ∈ V, e.1 ≠ k := fun e he =>
    physreg_ne_of_reg_b (by have := hVk e he; have := hV.2 e he; omega)
  have hR1ne : ∀ e ∈ R1, e.1 ≠ k := fun e he =>
    physreg_ne_of_reg_b (by have := hkR1 e he; omega)
  have hch3 : dest_chain (V ++ (k, c3) :: R1) :=
    (dest_chain_mid V R1 k c3).mpr ⟨hV, hR1, by rw [g3]; exact hc2, hVk,
      by rw [g3]; exact hkR1⟩
  have happ : (V ++ [(k, c3)]) ++ R1 = V ++ (k, c3) :: R1 := by simp
  have hrd3 : ∀ x, readers (V ++ (k, c3) :: R1) x = readers (V ++ (k, c2) :: R1) x := by
    intro x
    rw [readers_append, readers_append, readers_cons, readers_cons,
      reads_byte_congr k k c3 c2 x g1 g3]
  have hallok : ∀ e ∈ V ++ (k, c2) :: R1, source_ok e := by
    intro e he
    rcases List.mem_append.mp he with h | h
    · exact hok0 e (List.mem_append_left _ h)
    · exact hok e h
  refine ⟨⟨?_, ?_, ?_, ?_⟩, ?_, ?_, ?_⟩
  · rw [happ]; exact hch3
  · rw [happ]
    intro e he
    rcases List.mem_append.mp he with h | h
    · exact hok0 e (List.mem_append_left _ h)
    · rcases List.mem_cons.mp h with h | h
      · have := hok (k, c2) (List.mem_cons_self _ _)
        rw [h]
        unfold source_ok at this ⊢
        simp only [g1, g2, g3]
        exact this
      · exact hok e (List.mem_cons_of_mem _ h)
  · intro e he
    exact hfresh e (List.mem_cons_of_mem _ he)
  · intro e he
    rw [happ]
    rcases List.mem_append.mp he with h | h
    · obtain ⟨q1, q2, q3⟩ := hQ e h
      refine ⟨q1, q2, ?_⟩
      intro i hi
      rw [q3 i hi, hrd3, readers_append, readers_append, hrd]
    · rw [List.mem_singleton.mp h]
      refine ⟨by simp only [g1, hop]; exact hne, by simp only [g3]; exact hb8, ?_⟩
      intro i hi
      simp only [g3] at hi
      simp only
      rw [g5 i hi, hzero i, Nat.zero_add, hrd3,
        countP_udiff_readers _ _ (by omega) (fun e he hc => source_ok_bound e (hallok e he) hc)]
  · rw [happ]
    exact map_set_mid V R1 k c2 c3 hVne hR1ne
  · rw [happ, map_next_skip V _ k (fun e he => by have := hVk e he; omega)]
    simp only [map_next, Nat.lt_irrefl, if_false]
    exact map_next_begin R1 k (fun e he => by have := hkR1 e he; omega)
  · intro x y
    rw [happ, copies_byte_append, copies_byte_append, copies_byte_cons, copies_byte_cons]
    simp only [g1, g3]

theorem plus_two_op_reg_b (o : PhysReg) (h4 : o.reg_b % 4 = 0) (hb : o.reg_b + 8 < 65536) :
    (o.plus 2).reg_b = o.reg_b + 8 := plus_two_reg_b o h4 hb

/-- The two entries left by "split large copies" stand for the entry they replace. -/
theorem split_segment (V R : copy_map) (k : PhysReg) (c : copy_operation)
    (hch : dest_chain (V ++ (k, c) :: R)) (hok : source_ok (k, c)) (hu : c.uses = no_uses)
    (hgt : 8 < c.bytes) (hnc : c.op.isConstant = false) (hk4 : k.reg_b % 4 = 0)
    (ho4 : c.op.physReg.reg_b % 4 = 0) :
    dest_chain (V ++ (k, split_low c) :: (k.plus 2, split_high k c) :: R) ∧
    source_ok (k, split_low c) ∧ source_ok (k.plus 2, split_high k c) ∧
    (split_low c).uses = no_uses ∧ (split_high k c).uses = no_uses ∧
    (∀ x, readers ((k, split_low c) :: (k.plus 2, split_high k c) :: R) x =
      readers ((k, c) :: R) x) ∧
    (∀ x y, copies_byte ((k, split_low c) :: (k.plus 2, split_high k c) :: R) x y ↔
      copies_byte ((k, c) :: R) x y) := by
  obtain ⟨hV, hR, hc, hVk, hkR⟩ := (dest_chain_mid V R k c).mp hch
  have hkb := plus_two_reg_b k hk4 (by omega)
  have hob := source_ok_bound (k, c) hok hnc
  simp only at hob
  have hopb := plus_two_reg_b c.op.physReg ho4 (by omega)
  unfold source_ok at hok
  simp only [hnc, Bool.false_eq_true, if_false] at hok
  refine ⟨?_, ?_, ?_, hu, rfl, ?_, ?_⟩
  · refine (dest_chain_mid V _ k _).mpr ⟨hV, ?_, ?_, hVk, ?_⟩
    · refine (dest_chain_cons R _ _).mpr ⟨hR, ?_, ?_⟩
      · simp only [split_high, copy_operation.init]; omega
      · intro e he
        have := hkR e he
        simp only [split_high, copy_operation.init]; omega
    · simp only [split_low]; omega
    · intro e he
      rcases List.mem_cons.mp he with h | h
      · rw [h]; simp only [split_low]; omega
      · have := hkR e h
        simp only [split_low]; omega
  · unfold source_ok
    simp only [split_low, Operand.ofReg, Bool.false_eq_true, if_false]
    exact ⟨hok.1, by omega, by omega⟩
  · unfold source_ok
    simp only [split_high, copy_operation.init, Operand.ofReg, Bool.false_eq_true, if_false,
      true_and]
    exact ⟨by omega, by omega⟩
  · intro x
    rw [readers_cons, readers_cons, readers_cons]
    simp only [reads_byte, split_low, split_high, copy_operation.init, Operand.ofReg, hnc,
      Bool.not_false, Bool.true_and, hopb]
    by_cases h1 : c.op.physReg.reg_b ≤ x ∧ x < c.op.physReg.reg_b + 8
    · have h2 : ¬ (c.op.physReg.reg_b + 8 ≤ x ∧ x < c.op.physReg.reg_b + 8 + (c.bytes - 8)) := by
        omega
      have h3 : c.op.physReg.reg_b ≤ x ∧ x < c.op.physReg.reg_b + c.bytes := by omega
      simp [h1, h2, h3]
    · by_cases h2 : c.op.physReg.reg_b + 8 ≤ x ∧ x < c.op.physReg.reg_b + 8 + (c.bytes - 8)
      · have h3 : c.op.physReg.reg_b ≤ x ∧ x < c.op.physReg.reg_b + c.bytes := by omega
        simp [h1, h2, h3]
      · have h3 : ¬ (c.op.physReg.reg_b ≤ x ∧ x < c.op.physReg.reg_b + c.bytes) := by omega
        simp [h1, h2, h3]
  · intro x y
    rw [copies_byte_cons, copies_byte_cons, copies_byte_cons]
    simp only [split_low, split_high, copy_operation.init, Operand.ofReg, hnc, hopb, hkb,
      true_and]
    constructor
    · rintro (⟨i, hi, hx, hy⟩ | ⟨i, hi, hx, hy⟩ | h)
      · exact Or.inl ⟨i, by omega, hx, hy⟩
      · exact Or.inl ⟨i + 8, by omega, by omega, by omega⟩
      · exact Or.inr h
    · rintro (⟨i, hi, hx, hy⟩ | h)
      · rcases Nat.lt_or_ge i 8 with h8 | h8
        · exact Or.inl ⟨i, h8, hx, hy⟩
        · exact Or.inr (Or.inl ⟨i - 8, by omega, by omega, by omega⟩)
      · exact Or.inr (Or.inr h)

/-- Alignment to the next power of two above `n` excludes that the byte `n` further on is
dword-aligned at a file boundary. -/
theorem coalesce_alignment (n o : Nat) (h1 : 1 ≤ n) (h8 : n < 8)
    (ha : o % util_next_power_of_two (n + 1) = 0) :
    (o + n) % 4 ≠ 0 ∨ (n = 4 ∧ o % 8 = 0) := by
  interval_cases n <;>
    simp only [util_next_power_of_two, next_power_of_two_loop] at ha <;>
    norm_num at ha <;> omega

/-- The entry left by "try to coalesce copies" stands for the two entries it replaces. -/
theorem coalesce_segment (V R2 : copy_map) (k : PhysReg) (c B : copy_operation)
    (hch : dest_chain (V ++ (k, c) :: (k.advance c.bytes, B) :: R2))
    (hok : source_ok (k, c)) (hokB : source_ok (k.advance c.bytes, B))
    (hu : c.uses = no_uses) (h8 : c.bytes < 8) (hnc : c.op.isConstant = false)
    (hoa : c.op.physReg.reg_b % util_next_power_of_two (c.bytes + 1) = 0)
    (hB : B.op.physReg = c.op.physReg.advance c.bytes) (hsum : c.bytes + B.bytes ≤ 8) :
    dest_chain (V ++ (k, coalesced k c B) :: R2) ∧
    source_ok (k, coalesced k c B) ∧ (coalesced k c B).uses = no_uses ∧
    (∀ x, readers ((k, coalesced k c B) :: R2) x =
      readers ((k, c) :: (k.advance c.bytes, B) :: R2) x) ∧
    (∀ x y, copies_byte ((k, coalesced k c B) :: R2) x y ↔
      copies_byte ((k, c) :: (k.advance c.bytes, B) :: R2) x y) := by
  obtain ⟨hV, hR, hc, hVk, hkR⟩ := (dest_chain_mid V _ k c).mp hch
  obtain ⟨hR2, hcB, hBR2⟩ := (dest_chain_cons R2 _ B).mp hR
  have hkadv := advance_reg_b k c.bytes (by omega)
  rw [hkadv] at hcB hBR2
  have hob := source_ok_bound (k, c) hok hnc
  simp only at hob
  have hoadv := advance_reg_b c.op.physReg c.bytes (by omega)
  have hBreg : B.op.physReg.reg_b = c.op.physReg.reg_b + c.bytes := by rw [hB, hoadv]
  unfold source_ok at hok hokB
  simp only [hnc, Bool.false_eq_true, if_false] at hok
  have hal := coalesce_alignment c.bytes c.op.physReg.reg_b hc.1 h8 hoa
  have hBnc : B.op.isConstant = false := by
    cases hBc : B.op.isConstant
    · rfl
    · exfalso
      simp only [hBc, if_true, hBreg] at hokB
      omega
  simp only [hBnc, Bool.false_eq_true, if_false, hBreg] at hokB
  refine ⟨?_, ?_, hu, ?_, ?_⟩
  · refine (dest_chain_mid V R2 k _).mpr ⟨hV, hR2, ?_, hVk, ?_⟩
    · simp only [coalesced]; omega
    · intro e he
      have := hBR2 e he
      simp only [coalesced]; omega
  · unfold source_ok
    simp only [coalesced, Operand.ofReg, Bool.false_eq_true, if_false, true_and]
    exact ⟨by omega, by omega⟩
  · intro x
    rw [readers_cons, readers_cons, readers_cons]
    simp only [reads_byte, coalesced, Operand.ofReg, hnc, hBnc, Bool.not_false, Bool.true_and,
      hBreg]
    by_cases h1 : c.op.physReg.reg_b ≤ x ∧ x < c.op.physReg.reg_b + c.bytes
    · have h2 : ¬ (c.op.physReg.reg_b + c.bytes ≤ x ∧
          x < c.op.physReg.reg_b + c.bytes + B.bytes) := by omega
      have h3 : c.op.physReg.reg_b ≤ x ∧ x < c.op.physReg.reg_b + (c.bytes + B.bytes) := by
        omega
      simp [h1, h2, h3]
    · by_cases h2 : c.op.physReg.reg_b + c.bytes ≤ x ∧
          x < c.op.physReg.reg_b + c.bytes + B.bytes
      · have h3 : c.op.physReg.reg_b ≤ x ∧ x < c.op.physReg.reg_b + (c.bytes + B.bytes) := by
          omega
        simp [h1, h2, h3]
      · have h3 : ¬ (c.op.physReg.reg_b ≤ x ∧
            x < c.op.physReg.reg_b + (c.bytes + B.bytes)) := by omega
        simp [h1, h2, h3]
  · intro x y
    rw [copies_byte_cons, copies_byte_cons, copies_byte_cons]
    simp only [coalesced, Operand.ofReg, hnc, hBnc, hBreg, hkadv, true_and]
    constructor
    · rintro (⟨i, hi, hx, hy⟩ | h)
      · rcases Nat.lt_or_ge i c.bytes with h8 | h8
        · exact Or.inl ⟨i, h8, hx, hy⟩
        · exact Or.inr (Or.inl ⟨i - c.bytes, by omega, by omega, by omega⟩)
      · exact Or.inr (Or.inr h)
    · rintro (⟨i, hi, hx, hy⟩ | ⟨i, hi, hx, hy⟩ | h)
      · exact Or.inl ⟨i, by omega, hx, hy⟩
      · exact Or.inl ⟨i + c.bytes, by omega, by omega, by omega⟩
      · exact Or.inr h

theorem map_bytes_cons (e : PhysReg × copy_operation) (R : copy_map) :
    map_bytes (e :: R) = e.2.bytes + map_bytes R := by
  simp [map_bytes]

theorem split_large_small (m : copy_map) (k : PhysReg) (c : copy_operation)
    (h : ¬ 8 < c.bytes) : split_large m k c = .ok m := by
  unfold split_large
  rw [if_neg h]

theorem try_coalesce_big (m : copy_map) (k : PhysReg) (c : copy_operation)
    (h : ¬ c.bytes < 8) : try_coalesce m k c = .ok m := by
  unfold try_coalesce
  dsimp only
  rw [if_neg (fun hc => h hc.1)]

/-- One iteration of the first loop of `handle_operands` at the head of the unvisited
entries: the loop state moves on with a smaller unvisited part and the same byte-level
copies apart from no-ops. -/
theorem preprocess_step_spec (pi : Pseudo_instruction) (V R : copy_map) (k : PhysReg)
    (c : copy_operation) (w : Bool) (hinv : pre_inv V ((k, c) :: R))
    (hna : ∀ e ∈ (k, c) :: R, no_assert pi e) :
    ∃ V1 R1 w1, preprocess_step pi (V ++ (k, c) :: R) k w = .ok (V1 ++ R1, map_begin R1, w1) ∧
      pre_inv V1 R1 ∧ map_bytes R1 < map_bytes ((k, c) :: R) ∧
      (∀ e ∈ R1, no_assert pi e) ∧
      (∀ x y, x ≠ y → (copies_byte (V1 ++ R1) x y ↔ copies_byte (V ++ (k, c) :: R) x y)) := by
  have hinv0 := hinv
  obtain ⟨hch, hok, hfresh, hQ⟩ := hinv
  obtain ⟨hV, hR, hc, hVk, hkR⟩ := (dest_chain_mid V R k c).mp hch
  have hVne : ∀ e ∈ V, e.1 ≠ k := fun e he =>
    physreg_ne_of_reg_b (by have := hVk e he; have := hV.2 e he; omega)
  have hRne : ∀ e ∈ R, e.1 ≠ k := fun e he =>
    physreg_ne_of_reg_b (by have := hkR e he; omega)
  have hokc : source_ok (k, c) := hok _ (List.mem_append_right _ (List.mem_cons_self _ _))
  have hokR : ∀ e ∈ R, source_ok e := fun e he =>
    hok e (List.mem_append_right _ (List.mem_cons_of_mem _ he))
  have huc : c.uses = no_uses := hfresh _ (List.mem_cons_self _ _)
  have huR : ∀ e ∈ R, e.2.uses = no_uses := fun e he => hfresh e (List.mem_cons_of_mem _ he)
  have hkey : k = c.def_.physReg := hokc.1
  unfold preprocess_step
  rw [map_find_mid V R k c hVne]
  dsimp only
  have hnac := hna _ (List.mem_cons_self _ _)
  have hnaR : ∀ e ∈ R, no_assert pi e := fun e he => hna e (List.mem_cons_of_mem _ he)
  have hassert : ¬ (pi.tmp_in_scc = true ∧ c.def_.physReg = pi.scratch_sgpr) := by
    rintro ⟨h1, h2⟩
    apply hnac.1 h1
    rw [← h2, ← hkey]
    simp only
    omega
  rw [if_neg hassert]
  by_cases hself : k = c.op.physReg
  · rw [if_pos hself, map_erase_mid V R k c hVne hRne,
      map_next_skip V _ k (fun e he => by have := hVk e he; omega)]
    simp only [map_next, Nat.lt_irrefl, if_false]
    rw [map_next_begin R k (fun e he => by have := hkR e he; omega)]
    refine ⟨V, R, _, rfl, ⟨?_, ?_, huR, ?_⟩, ?_, hnaR, ?_⟩
    · exact dest_chain_append V R hV hR (fun a ha b hb => by
        have := hVk a ha; have := hkR b hb; omega)
    · intro e he
      rcases List.mem_append.mp he with h | h
      · exact hok e (List.mem_append_left _ h)
      · exact hokR e h
    · intro e he
      obtain ⟨q1, q2, q3⟩ := hQ e he
      refine ⟨q1, q2, ?_⟩
      intro i hi
      rw [q3 i hi, readers_append, readers_append, readers_cons]
      have hrb : reads_byte (k, c) (e.1.reg_b + i) = false := by
        unfold reads_byte
        have := hVk e he
        simp only [← hself]
        cases c.op.isConstant
        · simp; omega
        · simp
      rw [hrb]
      simp
    · rw [map_bytes_cons]; simp only; omega
    · intro x y hxy
      rw [copies_byte_append, copies_byte_append, copies_byte_cons]
      constructor
      · rintro (h | h)
        · exact Or.inl h
        · exact Or.inr (Or.inr h)
      · rintro (h | ⟨_, i, _, hx, hy⟩ | h)
        · exact Or.inl h
        · exfalso
          apply hxy
          rw [hx, hy, ← hself]
        · exact Or.inr h
  rw [if_neg hself]
  by_cases hgt : 8 < c.bytes
  · obtain ⟨hnc, hns, ho4, hk4⟩ := hnac.2 hgt
    dsimp only at hnc hns ho4 hk4
    have hsplit := split_large_spec V R k c hch hkey hgt hnc hns ho4 hk4
    · obtain ⟨s1, s2, s3, s4, s5, s6, s7⟩ :=
        split_segment V R k c hch hokc huc hgt hnc hk4 ho4
      rw [hsplit]
      dsimp only
      rw [map_find_mid V _ k (split_low c) hVne]
      dsimp only
      rw [try_coalesce_big _ k (split_low c) (by simp [split_low])]
      dsimp only
      rw [map_find_mid V _ k (split_low c) hVne]
      dsimp only
      obtain ⟨f1, f2, f3, f4⟩ := pre_finish V R ((k.plus 2, split_high k c) :: R) k c
        (split_low c) hinv0 hself s1
        (by
          intro e he
          rcases List.mem_cons.mp he with h | h
          · rw [h]; exact s2
          · rcases List.mem_cons.mp h with h | h
            · rw [h]; exact s3
            · exact hokR e h)
        (by
          intro e he
          rcases List.mem_cons.mp he with h | h
          · rw [h]; exact s4
          · rcases List.mem_cons.mp h with h | h
            · rw [h]; exact s5
            · exact huR e h)
        rfl (by simp [split_low]) s6
      rw [f2, f3]
      have hkb := plus_two_reg_b k hk4 (by omega)
      have hob := source_ok_bound (k, c) hokc hnc
      have hopb := plus_two_reg_b c.op.physReg ho4 (by simp only at hob; omega)
      refine ⟨_, _, _, rfl, f1, ?_, ?_, ?_⟩
      · rw [map_bytes_cons, map_bytes_cons]
        simp only [split_high, copy_operation.init]
        omega
      · intro e he
        rcases List.mem_cons.mp he with h | h
        · rw [h]
          refine ⟨?_, ?_⟩
          · intro ht hin
            apply hnac.1 ht
            have hb : (k.plus 2, split_high k c).2.bytes = c.bytes - 8 := rfl
            rw [hb] at hin
            simp only at hin ⊢
            rw [hkb] at hin
            omega
          · intro _
            refine ⟨rfl, rfl, ?_, ?_⟩
            · show (c.op.physReg.plus 2).reg_b % 4 = 0
              rw [hopb]; omega
            · show (k.plus 2).reg_b % 4 = 0
              rw [hkb]; omega
        · exact hnaR e h
      · intro x y _
        rw [f4, copies_byte_append, copies_byte_append, s7]
  · rw [split_large_small _ k c hgt]
    dsimp only
    rw [map_find_mid V R k c hVne]
    dsimp only
    rcases try_coalesce_spec V R k c hch with hsame | ⟨B, R2, hReq, h8, hnc, hka, hoa, hB, hsum,
        hco⟩
    · rw [hsame]
      dsimp only
      rw [map_find_mid V R k c hVne]
      dsimp only
      obtain ⟨f1, f2, f3, f4⟩ := pre_finish V R R k c c hinv0 hself hch
        (by
          intro e he
          rcases List.mem_cons.mp he with h | h
          · rw [h]; exact hokc
          · exact hokR e h)
        hfresh rfl (by omega) (fun x => rfl)
      rw [f2, f3]
      refine ⟨_, _, _, rfl, f1, ?_, hnaR, ?_⟩
      · rw [map_bytes_cons]; simp only; omega
      · intro x y _
        rw [f4]
    · subst hReq
      have hokB : source_ok (k.advance c.bytes, B) :=
        hokR _ (List.mem_cons_self _ _)
      obtain ⟨s1, s2, s3, s4, s5⟩ :=
        coalesce_segment V R2 k c B hch hokc hokB huc h8 hnc hoa hB hsum
      rw [hco]
      dsimp only
      have hVne' := hVne
      rw [map_find_mid V R2 k (coalesced k c B) hVne]
      dsimp only
      obtain ⟨f1, f2, f3, f4⟩ := pre_finish V _ R2 k c (coalesced k c B) hinv0 hself s1
        (by
          intro e he
          rcases List.mem_cons.mp he with h | h
          · rw [h]; exact s2
          · exact hokR e (List.mem_cons_of_mem _ h))
        (by
          intro e he
          rcases List.mem_cons.mp he with h | h
          · rw [h]; exact s3
          · exact huR e (List.mem_cons_of_mem _ h))
        rfl (by simp only [coalesced]; exact hsum) s4
      rw [f2, f3]
      refine ⟨_, _, _, rfl, f1, ?_, fun e he => hnaR e (List.mem_cons_of_mem _ he), ?_⟩
      · rw [map_bytes_cons, map_bytes_cons]
        have hR2 := (dest_chain_cons R2 _ B).mp hR
        simp only
        omega
      · intro x y _
        rw [f4, copies_byte_append, copies_byte_append, s5]

/-- The first loop of `handle_operands` from a loop state of a well-formed map whose entries
pass the assertions: with fuel for one iteration per pending byte it returns a map all of
whose entries are final, with the same byte-level copies apart from no-ops. -/
theorem preprocess_loop_spec (pi : Pseudo_instruction) (fuel : Nat) (V R : copy_map) (w : Bool)
    (hinv : pre_inv V R) (hna : ∀ e ∈ R, no_assert pi e) (hfuel : map_bytes R ≤ fuel) :
    ∃ m1 w1, preprocess_loop pi fuel (V ++ R) (map_begin R) w = .ok (m1, w1) ∧
      pre_inv m1 [] ∧
      (∀ x y, x ≠ y → (copies_byte m1 x y ↔ copies_byte (V ++ R) x y)) := by
  induction fuel generalizing V R w with
  | zero =>
    cases R with
    | nil =>
      refine ⟨V, w, ?_, by simpa using hinv, fun x y _ => by simp⟩
      simp [map_begin, preprocess_loop]
    | cons e R =>
      exfalso
      have h1 := ((dest_chain_mid V R e.1 e.2).mp hinv.1).2.2.1
      rw [map_bytes_cons] at hfuel
      omega
  | succ n ih =>
    cases R with
    | nil =>
      refine ⟨V, w, ?_, by simpa using hinv, fun x y _ => by simp⟩
      simp [map_begin, preprocess_loop]
    | cons e R =>
      obtain ⟨k, c⟩ := e
      simp only [map_begin, preprocess_loop]
      obtain ⟨V1, R1, w1, hstep, hinv1, hlt, hna1, hrel⟩ :=
        preprocess_step_spec pi V R k c w hinv hna
      rw [hstep]
      dsimp only
      obtain ⟨m1, w2, hloop, hinv2, hrel2⟩ := ih V1 R1 w1 hinv1 hna1 (by omega)
      refine ⟨m1, w2, hloop, hinv2, ?_⟩
      intro x y hxy
      rw [hrel2 x y hxy, hrel x y hxy]

theorem pre_inv_start (m : copy_map) (h : well_formed m) : pre_inv [] m := by
  refine ⟨h.1, fun e he => (h.2 e he).1, fun e he => (h.2 e he).2, ?_⟩
  intro e he
  exact absurd he (List.not_mem_nil _)

theorem pre_inv_final (m1 : copy_map) (h : pre_inv m1 []) :
    dest_chain m1 ∧ ∀ e ∈ m1, e.1 ≠ e.2.op.physReg ∧ e.2.bytes ≤ 8 ∧
      ∀ i, i < e.2.bytes → e.2.use i = readers m1 (e.1.reg_b + i) % 256 := by
  obtain ⟨h1, _, _, h4⟩ := h
  simp only [List.append_nil] at h1 h4
  exact ⟨h1, h4⟩

/-- C15: for a well-formed map whose wide entries are dword-aligned register copies, the
first loop of `handle_operands` returns a map in which every entry has at most eight bytes
and which copies the same source bytes to the same destination bytes: the sub-copies of an
entry of more than eight bytes cover exactly its destination bytes at the same distance from
the source (copies of a register onto itself apart, which the loop drops). -/
theorem preprocess_splits_wide (pi : Pseudo_instruction) (m : copy_map) (fuel : Nat)
    (hwf : well_formed m) (hna : ∀ e ∈ m, no_assert pi e) (hfuel : map_bytes m ≤ fuel) :
    ∃ m1 w1, preprocess_loop pi fuel m (map_begin m) false = .ok (m1, w1) ∧
      (∀ e ∈ m1, e.2.bytes ≤ 8) ∧
      (∀ x y, x ≠ y → (copies_byte m1 x y ↔ copies_byte m x y)) := by
  obtain ⟨m1, w1, h1, h2, h3⟩ :=
    preprocess_loop_spec pi fuel [] m false (pre_inv_start m hwf) hna hfuel
  refine ⟨m1, w1, h1, fun e he => ((pre_inv_final m1 h2).2 e he).2.1, h3⟩

theorem preprocess_splits_wide_witness :
    ∃ m1 w1, preprocess_loop parallelcopy_pi 16 wide_map (map_begin wide_map) false
        = .ok (m1, w1) ∧
      (∀ e ∈ m1, e.2.bytes ≤ 8) ∧
      (∀ x y, x ≠ y → (copies_byte m1 x y ↔ copies_byte wide_map x y)) :=
  preprocess_splits_wide parallelcopy_pi wide_map 16 (by decide) (by decide) (by decide)

/-- On `v[0:1] := v[1:2]` the use counts of bytes 4..7 are 1 although no other entry exists. -/
theorem use_count_includes_own_source :
    preprocessed parallelcopy_pi 8 overlap_map =
        some [(1024, 1028, 8, [0, 0, 0, 0, 1, 1, 1, 1])] ∧
      other_readers overlap_map ⟨1024⟩ (1024 + 4) = 0 := by
  decide

/-- C16 (amended): after the first loop of `handle_operands` on a well-formed map, for every
entry and every byte `i` below its byte count, `uses[i]` is the number of entries of the map
with a register source whose source range contains destination byte `i`, the entry itself
included, modulo 256 (the width of the counter). -/
theorem preprocess_use_counts (pi : Pseudo_instruction) (m : copy_map) (fuel : Nat)
    (hwf : well_formed m) (hna : ∀ e ∈ m, no_assert pi e) (hfuel : map_bytes m ≤ fuel) :
    ∃ m1 w1, preprocess_loop pi fuel m (map_begin m) false = .ok (m1, w1) ∧
      ∀ e ∈ m1, ∀ i, i < e.2.bytes → e.2.use i = readers m1 (e.1.reg_b + i) % 256 := by
  obtain ⟨m1, w1, h1, h2, _⟩ :=
    preprocess_loop_spec pi fuel [] m false (pre_inv_start m hwf) hna hfuel
  exact ⟨m1, w1, h1, fun e he => ((pre_inv_final m1 h2).2 e he).2.2⟩

theorem preprocess_use_counts_witness :
    ∃ m1 w1, preprocess_loop parallelcopy_pi 8 overlap_map (map_begin overlap_map) false
        = .ok (m1, w1) ∧
      ∀ e ∈ m1, ∀ i, i < e.2.bytes → e.2.use i = readers m1 (e.1.reg_b + i) % 256 :=
  preprocess_use_counts parallelcopy_pi overlap_map 8 (by decide) (by decide) (by decide)

/-- The first loop drops every entry of a map that consists of no-op copies only. -/
theorem preprocess_all_self (pi : Pseudo_instruction) (fuel : Nat) (R : copy_map) (w : Bool)
    (hch : dest_chain R) (hself : ∀ e ∈ R, e.1 = e.2.op.physReg)
    (hna : ∀ e ∈ R, ¬ (pi.tmp_in_scc = true ∧ e.2.def_.physReg = pi.scratch_sgpr))
    (hfuel : map_bytes R ≤ fuel) :
    ∃ w1, preprocess_loop pi fuel R (map_begin R) w = .ok ([], w1) := by
  induction R generalizing fuel w with
  | nil => exact ⟨w, by simp [map_begin, preprocess_loop]⟩
  | cons e R ih =>
    obtain ⟨k, c⟩ := e
    obtain ⟨hR, hc, hkR⟩ := (dest_chain_cons R k c).mp hch
    rw [map_bytes_cons] at hfuel
    obtain ⟨n, rfl⟩ : ∃ n, fuel = n + 1 := ⟨fuel - 1, by simp only at hfuel; omega⟩
    have hRne : ∀ e ∈ R, e.1 ≠ k := fun e he =>
      physreg_ne_of_reg_b (by have := hkR e he; omega)
    have hs : k = c.op.physReg := hself (k, c) (List.mem_cons_self _ _)
    have hstep : preprocess_step pi ((k, c) :: R) k w =
        .ok (R, map_begin R, w || decide (c.def_.physReg = scc)) := by
      unfold preprocess_step
      simp only [map_find, if_true]
      rw [if_neg (hna (k, c) (List.mem_cons_self _ _)), if_pos hs]
      have h1 := map_erase_mid [] R k c (fun e he => absurd he (List.not_mem_nil _)) hRne
      simp only [List.nil_append] at h1
      rw [h1]
      simp only [map_next, Nat.lt_irrefl, if_false]
      rw [map_next_begin R k (fun e he => by have := hkR e he; omega)]
    simp only [map_begin, preprocess_loop, hstep]
    exact ih n _ hR (fun e he => hself e (List.mem_cons_of_mem _ he))
      (fun e he => hna e (List.mem_cons_of_mem _ he)) (by simp only at hfuel; omega)

/-- C14: the first loop of `handle_operands`, which emits no instruction, leaves no entry
whose source register equals its destination register; and for a map that consists of such
entries only, `handle_operands` appends no instruction. -/
theorem noop_copies_removed (pi : Pseudo_instruction) (m : copy_map) (ctx : lower_context)
    (chip : chip_class) (fuel : Nat)
    (hwf : well_formed m) (hna : ∀ e ∈ m, no_assert pi e) (hfuel : map_bytes m + 1 ≤ fuel) :
    (∃ m1 w1, preprocess_loop pi fuel m (map_begin m) false = .ok (m1, w1) ∧
      ∀ e ∈ m1, e.1 ≠ e.2.op.physReg) ∧
    ((∀ e ∈ m, e.1 = e.2.op.physReg) →
      ∃ r, handle_operands fuel m ctx chip pi = .ok r ∧
        r.ctx.instructions = ctx.instructions) := by
  constructor
  · obtain ⟨m1, w1, h1, h2, _⟩ :=
      preprocess_loop_spec pi fuel [] m false (pre_inv_start m hwf) hna (by omega)
    exact ⟨m1, w1, h1, fun e he => ((pre_inv_final m1 h2).2 e he).1⟩
  · intro hself
    obtain ⟨w1, hpre⟩ := preprocess_all_self pi fuel m false hwf.1 hself
      (by
        rintro e he ⟨h1, h2⟩
        have hk := (hwf.2 e he).1.1
        have hb := (hwf.1.2 e he).1
        apply (hna e he).1 h1
        rw [← h2, ← hk]
        omega)
      (by omega)
    obtain ⟨n, rfl⟩ : ∃ n, fuel = n + 1 := ⟨fuel - 1, by omega⟩
    unfold handle_operands
    rw [hpre]
    simp [acyclic_loop, acyclic_step, finish_operands]

theorem noop_copies_removed_witness :
    (∃ m1 w1, preprocess_loop parallelcopy_pi 13 noop_map (map_begin noop_map) false
        = .ok (m1, w1) ∧
      ∀ e ∈ m1, e.1 ≠ e.2.op.physReg) ∧
    ∃ r, handle_operands 13 noop_map (empty_ctx .GFX9) .GFX9 parallelcopy_pi = .ok r ∧
      r.ctx.instructions = (empty_ctx .GFX9).instructions :=
  ⟨(noop_copies_removed parallelcopy_pi noop_map (empty_ctx .GFX9) .GFX9 13 (by decide)
      (by decide) (by decide)).1,
   (noop_copies_removed parallelcopy_pi noop_map (empty_ctx .GFX9) .GFX9 13 (by decide)
      (by decide) (by decide)).2 (by decide)⟩

/-- The block "try to coalesce copies" merges the entry at the iterator with its neighbour
when the conditions of the block hold. -/
theorem try_coalesce_merge (V R2 : copy_map) (k : PhysReg) (c B : copy_operation)
    (hch : dest_chain (V ++ (k, c) :: (k.advance c.bytes, B) :: R2))
    (h8 : c.bytes < 8) (hnc : c.op.isConstant = false)
    (hka : k.reg_b % util_next_power_of_two (c.bytes + 1) = 0)
    (hoa : c.op.physReg.reg_b % util_next_power_of_two (c.bytes + 1) = 0)
    (hB : B.op.physReg = c.op.physReg.advance c.bytes) (hsum : c.bytes + B.bytes ≤ 8) :
    try_coalesce (V ++ (k, c) :: (k.advance c.bytes, B) :: R2) k c =
      .ok (V ++ (k, coalesced k c B) :: R2) := by
  obtain ⟨hV, hR, hc, hVk, hkR⟩ := (dest_chain_mid V _ k c).mp hch
  obtain ⟨hR2, hcB, hBR2⟩ := (dest_chain_cons R2 _ B).mp hR
  have hadv := advance_reg_b k c.bytes (by omega)
  have hVne : ∀ e ∈ V, e.1 ≠ k := fun e he =>
    physreg_ne_of_reg_b (by have := hVk e he; have := hV.2 e he; omega)
  have hRne : ∀ e ∈ (k.advance c.bytes, B) :: R2, e.1 ≠ k := fun e he =>
    physreg_ne_of_reg_b (by have := hkR e he; omega)
  have hVne2 : ∀ e ∈ V, e.1 ≠ k.advance c.bytes := fun e he =>
    physreg_ne_of_reg_b (by have := hVk e he; have := hV.2 e he; omega)
  have hkne : k ≠ k.advance c.bytes := physreg_ne_of_reg_b (by omega)
  unfold try_coalesce
  dsimp only
  rw [if_pos ⟨h8, hnc, hka, hoa⟩, map_find_skip V _ _ hVne2]
  simp only [map_find, if_neg hkne, if_true]
  rw [if_pos ⟨hB, hsum⟩, if_neg (fun h => hkne h.symm), map_set_mid V _ k c _ hVne hRne]
  have := map_erase_mid (V ++ [(k, coalesced k c B)]) R2 (k.advance c.bytes) B
    (by
      intro e he
      rcases List.mem_append.mp he with h | h
      · exact hVne2 e h
      · rw [List.mem_singleton.mp h]; exact hkne)
    (by
      intro e he
      have h1 := hBR2 e he
      exact physreg_ne_of_reg_b (by omega))
  simp only [List.append_assoc, List.singleton_append] at this
  simp only [coalesced] at this ⊢
  rw [this]

/-- In `v0 := v2`, `v1.lo := v3.lo`, `v1.hi := v3.hi` the two half-dword copies satisfy the
conditions for coalescing, but the first of them is merged into `v0 := v2` and the second
stays alone: no entry for destination `v1` with four bytes results. -/
theorem coalescing_is_greedy :
    util_next_power_of_two (2 + 1) = 4 ∧ 1028 % 4 = 0 ∧ 1036 % 4 = 0 ∧
      preprocessed parallelcopy_pi 8 chained_map =
        some [(1024, 1032, 6, [0, 0, 0, 0, 0, 0, 0, 0]), (1030, 1038, 2, [0, 0, 0, 0, 0, 0, 0, 0])]
      := by
  decide

/-- C17 (amended): when the first loop of `handle_operands` reaches an entry `A` (key `k`,
register source, `n < 8` bytes, destination and source multiples of the next power of two
above `n`) that is not a no-op, and the map holds an entry `B` for destination `k + n` with
source `s + n` and `n + m <= 8` bytes in total, that iteration replaces `A` and `B` by one
entry with destination `k`, source `s` and `n + m` bytes, and the map describes the same
(destination byte, source byte) pairs as before. -/
theorem coalesce_step (pi : Pseudo_instruction) (V R2 : copy_map) (k : PhysReg)
    (c B : copy_operation) (w : Bool)
    (hinv : pre_inv V ((k, c) :: (k.advance c.bytes, B) :: R2))
    (hna : no_assert pi (k, c)) (hne : k ≠ c.op.physReg)
    (h8 : c.bytes < 8) (hnc : c.op.isConstant = false)
    (hka : k.reg_b % util_next_power_of_two (c.bytes + 1) = 0)
    (hoa : c.op.physReg.reg_b % util_next_power_of_two (c.bytes + 1) = 0)
    (hB : B.op.physReg = c.op.physReg.advance c.bytes) (hsum : c.bytes + B.bytes ≤ 8) :
    ∃ c3 w1, preprocess_step pi (V ++ (k, c) :: (k.advance c.bytes, B) :: R2) k w =
        .ok (V ++ (k, c3) :: R2, map_begin R2, w1) ∧
      c3.def_.physReg = k ∧ c3.op.physReg = c.op.physReg ∧ c3.op.isConstant = false ∧
      c3.bytes = c.bytes + B.bytes ∧
      ∀ x y, copies_byte (V ++ (k, c3) :: R2) x y ↔
        copies_byte (V ++ (k, c) :: (k.advance c.bytes, B) :: R2) x y := by
  have hinv0 := hinv
  obtain ⟨hch, hok, hfresh, hQ⟩ := hinv
  obtain ⟨hV, hR, hc, hVk, hkR⟩ := (dest_chain_mid V _ k c).mp hch
  have hVne : ∀ e ∈ V, e.1 ≠ k := fun e he =>
    physreg_ne_of_reg_b (by have := hVk e he; have := hV.2 e he; omega)
  have hokc : source_ok (k, c) := hok _ (List.mem_append_right _ (List.mem_cons_self _ _))
  have hokR : ∀ e ∈ (k.advance c.bytes, B) :: R2, source_ok e := fun e he =>
    hok e (List.mem_append_right _ (List.mem_cons_of_mem _ he))
  have huc : c.uses = no_uses := hfresh _ (List.mem_cons_self _ _)
  have huR : ∀ e ∈ (k.advance c.bytes, B) :: R2, e.2.uses = no_uses := fun e he =>
    hfresh e (List.mem_cons_of_mem _ he)
  have hkey : k = c.def_.physReg := hokc.1
  have hassert : ¬ (pi.tmp_in_scc = true ∧ c.def_.physReg = pi.scratch_sgpr) := by
    rintro ⟨h1, h2⟩
    apply hna.1 h1
    rw [← h2, ← hkey]
    simp only
    omega
  obtain ⟨s1, s2, s3, s4, s5⟩ := coalesce_segment V R2 k c B hch hokc
    (hokR _ (List.mem_cons_self _ _)) huc h8 hnc hoa hB hsum
  obtain ⟨f1, f2, f3, f4⟩ := pre_finish V _ R2 k c (coalesced k c B) hinv0 hne s1
    (by
      intro e he
      rcases List.mem_cons.mp he with h | h
      · rw [h]; exact s2
      · exact hokR e (List.mem_cons_of_mem _ h))
    (by
      intro e he
      rcases List.mem_cons.mp he with h | h
      · rw [h]; exact s3
      · exact huR e (List.mem_cons_of_mem _ h))
    rfl (by simp only [coalesced]; exact hsum) s4
  obtain ⟨g1, g2, g3, _, _⟩ := count_uses_spec (V ++ (k, coalesced k c B) :: R2) k
    (coalesced k c B) (by rw [s3]; rfl) (by simp only [coalesced]; exact hsum)
    (fun j => by rw [use_of_no_uses _ s3 j]; omega)
  refine ⟨count_uses (V ++ (k, coalesced k c B) :: R2) k (coalesced k c B),
    w || decide (c.def_.physReg = scc), ?_, ?_, ?_, ?_, ?_, ?_⟩
  rotate_left
  · rw [g2]; rfl
  · rw [g1]; rfl
  · rw [g1]; rfl
  · rw [g3]; rfl
  · intro x y
    have := f4 x y
    simp only [List.append_assoc, List.singleton_append] at this
    rw [this, copies_byte_append, copies_byte_append, s5]
  · unfold preprocess_step
    rw [map_find_mid V _ k c hVne]
    dsimp only
    rw [if_neg hassert, if_neg hne, split_large_small _ k c (by omega)]
    dsimp only
    rw [map_find_mid V _ k c hVne]
    dsimp only
    rw [try_coalesce_merge V R2 k c B hch h8 hnc hka hoa hB hsum]
    dsimp only
    rw [map_find_mid V R2 k (coalesced k c B) hVne]
    dsimp only
    rw [f2, f3]
    simp

theorem coalesce_step_witness :
    ∃ c3 w1, preprocess_step parallelcopy_pi coalesce_pair ⟨1024⟩ false =
        .ok ([(⟨1024⟩, c3)], none, w1) ∧
      c3.def_.physReg = ⟨1024⟩ ∧ c3.op.physReg = ⟨1032⟩ ∧ c3.op.isConstant = false ∧
      c3.bytes = 4 + 4 ∧
      ∀ x y, copies_byte [(⟨1024⟩, c3)] x y ↔ copies_byte coalesce_pair x y :=
  coalesce_step parallelcopy_pi [] [] ⟨1024⟩ (reg_copy 1024 1032 v1).2 (reg_copy 1028 1036 v1).2
    false (pre_inv_start coalesce_pair (by decide)) (by decide) (by decide) (by decide)
    (by decide) (by decide) (by decide) (by decide) (by decide)

/-! ## Pack fusion -/

/-- An operand byte is a byte when the register file holds bytes. -/
theorem operand_byte_lt (st : reg_file) (hst : ∀ x, st x < 256) (base : Nat) (o : Operand)
    (i : Nat) : operand_byte st base o i < 256 := by
  unfold operand_byte byte_of
  split
  · exact Nat.mod_lt _ (by decide)
  · split
    · exact Nat.mod_lt _ (by decide)
    · split
      · exact Nat.mod_lt _ (by decide)
      · exact hst _

/-- A write outside the bytes that an operand reads does not change what is read. -/
theorem operand_byte_write (st : reg_file) (a n : Nat) (f : Nat → Nat) (base : Nat)
    (o : Operand) (i : Nat) (h : base + i < a ∨ a + n ≤ base + i) :
    operand_byte (write_fn st a n f) base o i = operand_byte st base o i := by
  unfold operand_byte
  simp only [write_fn]
  rw [if_neg (show ¬ (a ≤ base + i ∧ base + i < a + n) by omega)]

/-- The half of its dword that an addressable two-byte source occupies. -/
theorem half_aligned_read (st : reg_file) (o : Operand) (h : half_aligned o) (i : Nat) :
    operand_byte st (dword_base o.physReg) o (o.physReg.byte + i) =
      operand_byte st o.physReg.reg_b o i := by
  have hrb : o.physReg.reg_b = o.physReg.reg * 4 + o.physReg.byte := by
    unfold PhysReg.byte PhysReg.reg; omega
  rcases h with h | ⟨h, hc, hr⟩
  · rw [h, Nat.zero_add]
    unfold dword_base
    rw [hrb, h, Nat.add_zero]
  · unfold operand_byte dword_base
    rw [if_neg (by simp [hc]), if_neg (by omega), if_neg (by omega),
      if_neg (by simp [hc]), if_neg (by omega), if_neg (by omega), hrb, Nat.add_assoc]

/-- The bytes of two packed halves. -/
theorem pack_bytes (a0 a1 a2 a3 b0 b1 b2 b3 : Nat) (la lb : Bool)
    (h0 : a0 < 256) (h1 : a1 < 256) (h2 : a2 < 256) (h3 : a3 < 256)
    (g0 : b0 < 256) (g1 : b1 < 256) (g2 : b2 < 256) (g3 : b3 < 256) :
    byte_of (half_of (a0 + a1 * 256 + a2 * 65536 + a3 * 16777216) la +
        65536 * half_of (b0 + b1 * 256 + b2 * 65536 + b3 * 16777216) lb) 0 =
      (if la then a2 else a0) ∧
    byte_of (half_of (a0 + a1 * 256 + a2 * 65536 + a3 * 16777216) la +
        65536 * half_of (b0 + b1 * 256 + b2 * 65536 + b3 * 16777216) lb) 1 =
      (if la then a3 else a1) ∧
    byte_of (half_of (a0 + a1 * 256 + a2 * 65536 + a3 * 16777216) la +
        65536 * half_of (b0 + b1 * 256 + b2 * 65536 + b3 * 16777216) lb) 2 =
      (if lb then b2 else b0) ∧
    byte_of (half_of (a0 + a1 * 256 + a2 * 65536 + a3 * 16777216) la +
        65536 * half_of (b0 + b1 * 256 + b2 * 65536 + b3 * 16777216) lb) 3 =
      (if lb then b3 else b1) := by
  cases la <;> cases lb <;> simp [half_of, byte_of] <;> omega

/-- The value of a 32-bit read, byte by byte. -/
theorem src32_bytes (st : reg_file) (o : Operand) :
    src32 st o = operand_byte st (dword_base o.physReg) o 0 +
      operand_byte st (dword_base o.physReg) o 1 * 256 +
      operand_byte st (dword_base o.physReg) o 2 * 65536 +
      operand_byte st (dword_base o.physReg) o 3 * 16777216 := by
  simp [src32, operand_val]

/-- The single `v_pack_b32_f16` writes both halves from the old register contents. -/
theorem run_pack_gfx9 (st : reg_file) (k : PhysReg) (lo hi : Operand)
    (hst : ∀ x, st x < 256) (hk : k.byte = 0) (hl : half_aligned lo) (hh : half_aligned hi) :
    run [⟨.v_pack_b32_f16, [⟨k, v1⟩], [lo, hi],
      .opsel (hi.physReg.byte ||| (lo.physReg.byte >>> 1))⟩] st =
      some (packed_state st k lo hi) := by
  have hlb : lo.physReg.byte = 0 ∨ lo.physReg.byte = 2 := by
    rcases hl with h | h
    · exact Or.inl h
    · exact Or.inr h.1
  have hhb : hi.physReg.byte = 0 ∨ hi.physReg.byte = 2 := by
    rcases hh with h | h
    · exact Or.inl h
    · exact Or.inr h.1
  have hv1 : decide ((hi.physReg.byte ||| (lo.physReg.byte >>> 1)) % 2 = 1) =
      decide (lo.physReg.byte = 2) := by
    rcases hlb with h | h <;> rcases hhb with g | g <;> rw [h, g] <;> decide
  have hv2 : decide ((hi.physReg.byte ||| (lo.physReg.byte >>> 1)) / 2 % 2 = 1) =
      decide (hi.physReg.byte = 2) := by
    rcases hlb with h | h <;> rcases hhb with g | g <;> rw [h, g] <;> decide
  obtain ⟨p0, p1, p2, p3⟩ := pack_bytes
    (operand_byte st (dword_base lo.physReg) lo 0) (operand_byte st (dword_base lo.physReg) lo 1)
    (operand_byte st (dword_base lo.physReg) lo 2) (operand_byte st (dword_base lo.physReg) lo 3)
    (operand_byte st (dword_base hi.physReg) hi 0) (operand_byte st (dword_base hi.physReg) hi 1)
    (operand_byte st (dword_base hi.physReg) hi 2) (operand_byte st (dword_base hi.physReg) hi 3)
    (decide (lo.physReg.byte = 2)) (decide (hi.physReg.byte = 2))
    (operand_byte_lt st hst _ _ _) (operand_byte_lt st hst _ _ _)
    (operand_byte_lt st hst _ _ _) (operand_byte_lt st hst _ _ _)
    (operand_byte_lt st hst _ _ _) (operand_byte_lt st hst _ _ _)
    (operand_byte_lt st hst _ _ _) (operand_byte_lt st hst _ _ _)
  have hkb : dword_base k = k.reg_b := by
    unfold PhysReg.byte at hk; unfold dword_base PhysReg.reg; omega
  have l0 := half_aligned_read st lo hl 0
  have l1 := half_aligned_read st lo hl 1
  have h0 := half_aligned_read st hi hh 0
  have h1 := half_aligned_read st hi hh 1
  have q0 : (if decide (lo.physReg.byte = 2) = true then
      operand_byte st (dword_base lo.physReg) lo 2
      else operand_byte st (dword_base lo.physReg) lo 0) =
      operand_byte st lo.physReg.reg_b lo 0 := by
    rw [← l0]; rcases hlb with h | h <;> simp [h]
  have q1 : (if decide (lo.physReg.byte = 2) = true then
      operand_byte st (dword_base lo.physReg) lo 3
      else operand_byte st (dword_base lo.physReg) lo 1) =
      operand_byte st lo.physReg.reg_b lo 1 := by
    rw [← l1]; rcases hlb with h | h <;> simp [h]
  have q2 : (if decide (hi.physReg.byte = 2) = true then
      operand_byte st (dword_base hi.physReg) hi 2
      else operand_byte st (dword_base hi.physReg) hi 0) =
      operand_byte st hi.physReg.reg_b hi 0 := by
    rw [← h0]; rcases hhb with h | h <;> simp [h]
  have q3 : (if decide (hi.physReg.byte = 2) = true then
      operand_byte st (dword_base hi.physReg) hi 3
      else operand_byte st (dword_base hi.physReg) hi 1) =
      operand_byte st hi.physReg.reg_b hi 1 := by
    rw [← h1]; rcases hhb with h | h <;> simp [h]
  rw [q0] at p0
  rw [q1] at p1
  rw [q2] at p2
  rw [q3] at p3
  simp only [run, step]
  rw [hv1, hv2, src32_bytes st lo, src32_bytes st hi]
  congr 1
  funext x
  unfold packed_state dst32 write_fn
  dsimp only
  rw [hkb]
  by_cases hx : k.reg_b ≤ x ∧ x < k.reg_b + 4
  · rw [if_pos hx]
    have hc : x = k.reg_b ∨ x = k.reg_b + 1 ∨ x = k.reg_b + 2 ∨ x = k.reg_b + 3 := by omega
    rcases hc with rfl | rfl | rfl | rfl
    · rw [Nat.sub_self, p0,
        if_neg (show ¬ (k.reg_b + 2 ≤ k.reg_b ∧ k.reg_b < k.reg_b + 2 + 2) by omega),
        if_pos (show k.reg_b ≤ k.reg_b ∧ k.reg_b < k.reg_b + 2 by omega)]
    · rw [Nat.add_sub_cancel_left, p1,
        if_neg (show ¬ (k.reg_b + 2 ≤ k.reg_b + 1 ∧ k.reg_b + 1 < k.reg_b + 2 + 2) by omega),
        if_pos (show k.reg_b ≤ k.reg_b + 1 ∧ k.reg_b + 1 < k.reg_b + 2 by omega)]
    · rw [Nat.add_sub_cancel_left, p2,
        if_pos (show k.reg_b + 2 ≤ k.reg_b + 2 ∧ k.reg_b + 2 < k.reg_b + 2 + 2 by omega),
        Nat.sub_self]
    · rw [Nat.add_sub_cancel_left, p3,
        if_pos (show k.reg_b + 2 ≤ k.reg_b + 3 ∧ k.reg_b + 3 < k.reg_b + 2 + 2 by omega),
        show k.reg_b + 3 - (k.reg_b + 2) = 1 by omega]
  · rw [if_neg hx, if_neg (show ¬ (k.reg_b + 2 ≤ x ∧ x < k.reg_b + 2 + 2) by omega),
      if_neg (show ¬ (k.reg_b ≤ x ∧ x < k.reg_b + 2) by omega)]

/-- Two separate half copies, low half first, when the high source is not overwritten by the
low copy. -/
theorem run_copy_lo_hi (st : reg_file) (k : PhysReg) (lo hi : Operand)
    (hkb : k.reg_b + 2 < 65536) (hhd : outside_dword hi k) :
    run (half_copies k lo hi).1 st = some (packed_state st k lo hi) := by
  have hb : Definition.bytes ⟨k, v2b⟩ = 2 := rfl
  have hb2 : Definition.bytes ⟨k.advance 2, v2b⟩ = 2 := rfl
  have ha : (k.advance 2).reg_b = k.reg_b + 2 := by
    unfold PhysReg.advance; dsimp only; omega
  unfold outside_dword at hhd
  simp only [half_copies, run, step, Instruction.plain]
  rw [hb, hb2, ha]
  congr 1
  funext x
  unfold packed_state
  simp only [write_fn]
  by_cases c : k.reg_b + 2 ≤ x ∧ x < k.reg_b + 2 + 2
  · rw [if_pos c, if_pos c]
    exact operand_byte_write st k.reg_b 2 _ _ _ _ (by omega)
  · rw [if_neg c, if_neg c]

/-- Two separate half copies, high half first, when the low source is not overwritten by the
high copy. -/
theorem run_copy_hi_lo (st : reg_file) (k : PhysReg) (lo hi : Operand)
    (hkb : k.reg_b + 2 < 65536) (hld : outside_dword lo k) :
    run (half_copies k lo hi).2 st = some (packed_state st k lo hi) := by
  have hb : Definition.bytes ⟨k, v2b⟩ = 2 := rfl
  have hb2 : Definition.bytes ⟨k.advance 2, v2b⟩ = 2 := rfl
  have ha : (k.advance 2).reg_b = k.reg_b + 2 := by
    unfold PhysReg.advance; dsimp only; omega
  unfold outside_dword at hld
  simp only [half_copies, run, step, Instruction.plain]
  rw [hb, hb2, ha]
  congr 1
  funext x
  unfold packed_state
  simp only [write_fn]
  by_cases c : k.reg_b ≤ x ∧ x < k.reg_b + 2
  · rw [if_pos c, if_neg (show ¬ (k.reg_b + 2 ≤ x ∧ x < k.reg_b + 2 + 2) by omega), if_pos c]
    exact operand_byte_write st (k.reg_b + 2) 2 _ _ _ _ (by omega)
  · rw [if_neg c]
    by_cases c2 : k.reg_b + 2 ≤ x ∧ x < k.reg_b + 2 + 2
    · rw [if_pos c2, if_pos c2]
    · rw [if_neg c2, if_neg c2, if_neg c]

/-- A 32-bit read of a register operand that is not an inline constant. -/
theorem src32_reg (st : reg_file) (o : Operand) (hc : o.isConstant = false)
    (hr : o.physReg.reg < 128 ∨ 209 ≤ o.physReg.reg) :
    src32 st o = st (o.physReg.reg * 4) + st (o.physReg.reg * 4 + 1) * 256 +
      st (o.physReg.reg * 4 + 2) * 65536 + st (o.physReg.reg * 4 + 3) * 16777216 := by
  have h1 : ∀ i, operand_byte st (dword_base o.physReg) o i = st (o.physReg.reg * 4 + i) := by
    intro i
    unfold operand_byte dword_base
    rw [if_neg (by simp [hc]), if_neg (by omega), if_neg (by omega)]
  simp [src32, operand_val, h1]

/-- A byte read of a register operand that is not an inline constant. -/
theorem operand_byte_reg (st : reg_file) (o : Operand) (base i : Nat)
    (hc : o.isConstant = false) (hr : o.physReg.reg < 128 ∨ 209 ≤ o.physReg.reg) :
    operand_byte st base o i = st (base + i) := by
  unfold operand_byte
  rw [if_neg (by simp [hc]), if_neg (by omega), if_neg (by omega)]

/-- The instruction `v_and_b32 r, 0xffff, r` clears the upper half of a dword register. -/
theorem step_and_mask (st : reg_file) (o : Operand) (hst : ∀ x, st x < 256)
    (hc : o.isConstant = false) (hr : o.physReg.reg < 128 ∨ 209 ≤ o.physReg.reg)
    (hb : o.physReg.byte = 0) :
    step (Instruction.plain .v_and_b32 [⟨o.physReg, v1⟩] [Operand.c32 0xFFFF, o]) st =
      some (fun x =>
        if x = o.physReg.reg_b + 2 ∨ x = o.physReg.reg_b + 3 then 0 else st x) := by
  have hkb : o.physReg.reg * 4 = o.physReg.reg_b := by
    unfold PhysReg.byte at hb; unfold PhysReg.reg; omega
  have hcb : ∀ b i, operand_byte st b (Operand.c32 0xFFFF) i = byte_of 65535 i := by
    intro b i; rfl
  have hm : ∀ y, y < 256 → 255 &&& y = y := fun y hy => and_mask_eq 8 y (by simpa using hy)
  simp only [step, Instruction.plain]
  congr 1
  funext x
  unfold write_fn dword_base
  simp only [hcb, operand_byte_reg _ o _ _ hc hr]
  rw [hkb]
  by_cases c0 : x = o.physReg.reg_b
  · subst c0
    rw [if_pos (by omega), if_neg (by omega), Nat.sub_self]
    exact hm _ (hst _)
  by_cases c1 : x = o.physReg.reg_b + 1
  · subst c1
    rw [if_pos (by omega), if_neg (by omega),
      show o.physReg.reg_b + 1 - o.physReg.reg_b = 1 by omega]
    exact hm _ (hst _)
  by_cases c2 : x = o.physReg.reg_b + 2
  · subst c2
    rw [if_pos (by omega), if_pos (by omega),
      show o.physReg.reg_b + 2 - o.physReg.reg_b = 2 by omega]
    simp [byte_of]
  by_cases c3 : x = o.physReg.reg_b + 3
  · subst c3
    rw [if_pos (by omega), if_pos (by omega),
      show o.physReg.reg_b + 3 - o.physReg.reg_b = 3 by omega]
    simp [byte_of]
  rw [if_neg (by omega), if_neg (by omega)]

/-- The bytes of two halves packed by `v_cvt_pk_u16_u32` when the upper halves are clear. -/
theorem cvt_pk_bytes (a0 a1 b0 b1 : Nat) (h0 : a0 < 256) (h1 : a1 < 256) (g0 : b0 < 256)
    (g1 : b1 < 256) :
    byte_of (min (a0 + a1 * 256 + 0 * 65536 + 0 * 16777216) 65535 +
      65536 * min (b0 + b1 * 256 + 0 * 65536 + 0 * 16777216) 65535) 0 = a0 ∧
    byte_of (min (a0 + a1 * 256 + 0 * 65536 + 0 * 16777216) 65535 +
      65536 * min (b0 + b1 * 256 + 0 * 65536 + 0 * 16777216) 65535) 1 = a1 ∧
    byte_of (min (a0 + a1 * 256 + 0 * 65536 + 0 * 16777216) 65535 +
      65536 * min (b0 + b1 * 256 + 0 * 65536 + 0 * 16777216) 65535) 2 = b0 ∧
    byte_of (min (a0 + a1 * 256 + 0 * 65536 + 0 * 16777216) 65535 +
      65536 * min (b0 + b1 * 256 + 0 * 65536 + 0 * 16777216) 65535) 3 = b1 := by
  rw [Nat.min_eq_left (by omega), Nat.min_eq_left (by omega)]
  simp [byte_of]
  omega

/-- The GFX6/7 sequence of `do_pack_2x16` writes both halves to the destination register; it
also clears the upper halves of the two source registers and changes nothing else. -/
theorem run_pack_gfx6 (st : reg_file) (k : PhysReg) (lo hi : Operand)
    (hst : ∀ x, st x < 256) (hk : k.byte = 0) (hl : dword_vgpr lo) (hh : dword_vgpr hi)
    (hld : outside_dword lo k) (hhd : outside_dword hi k) :
    ∃ st1, run [Instruction.plain .v_and_b32 [⟨lo.physReg, v1⟩] [Operand.c32 0xFFFF, lo],
        Instruction.plain .v_and_b32 [⟨hi.physReg, v1⟩] [Operand.c32 0xFFFF, hi],
        Instruction.plain .v_cvt_pk_u16_u32 [⟨k, v1⟩] [lo, hi]] st = some st1 ∧
      ∀ x, st1 x =
        if x = lo.physReg.reg_b + 2 ∨ x = lo.physReg.reg_b + 3 ∨
            x = hi.physReg.reg_b + 2 ∨ x = hi.physReg.reg_b + 3 then 0
        else packed_state st k lo hi x := by
  obtain ⟨hlc, hlr0, hlb⟩ := hl
  obtain ⟨hhc, hhr0, hhb⟩ := hh
  have hlr : lo.physReg.reg < 128 ∨ 209 ≤ lo.physReg.reg := by omega
  have hhr : hi.physReg.reg < 128 ∨ 209 ≤ hi.physReg.reg := by omega
  unfold outside_dword at hld hhd
  have hkb : k.reg * 4 = k.reg_b := by
    unfold PhysReg.byte at hk; unfold PhysReg.reg; omega
  have hlo : lo.physReg.reg * 4 = lo.physReg.reg_b := by
    unfold PhysReg.byte at hlb; unfold PhysReg.reg; omega
  have hhi : hi.physReg.reg * 4 = hi.physReg.reg_b := by
    unfold PhysReg.byte at hhb; unfold PhysReg.reg; omega
  have hkm : k.reg_b % 4 = 0 := hk
  have hlm : lo.physReg.reg_b % 4 = 0 := hlb
  have hhm : hi.physReg.reg_b % 4 = 0 := hhb
  have e1 := step_and_mask st lo hst hlc hlr hlb
  generalize hs1 : (fun x =>
    if x = lo.physReg.reg_b + 2 ∨ x = lo.physReg.reg_b + 3 then 0 else st x) = s1 at e1
  have w1 : ∀ x, s1 x =
      if x = lo.physReg.reg_b + 2 ∨ x = lo.physReg.reg_b + 3 then 0 else st x := by
    intro x; rw [← hs1]
  have hst1 : ∀ x, s1 x < 256 := by
    intro x; rw [w1]; split
    · decide
    · exact hst x
  have e2 := step_and_mask s1 hi hst1 hhc hhr hhb
  generalize hs2 : (fun x =>
    if x = hi.physReg.reg_b + 2 ∨ x = hi.physReg.reg_b + 3 then 0 else s1 x) = s2 at e2
  have w2 : ∀ x, s2 x =
      if x = hi.physReg.reg_b + 2 ∨ x = hi.physReg.reg_b + 3 then 0 else s1 x := by
    intro x; rw [← hs2]
  have hst2 : ∀ x, s2 x < 256 := by
    intro x; rw [w2]; split
    · decide
    · exact hst1 x
  have a0 : s2 (lo.physReg.reg * 4) = st lo.physReg.reg_b := by
    rw [hlo, w2, if_neg (by omega), w1, if_neg (by omega)]
  have a1 : s2 (lo.physReg.reg * 4 + 1) = st (lo.physReg.reg_b + 1) := by
    rw [hlo, w2, if_neg (by omega), w1, if_neg (by omega)]
  have a2 : s2 (lo.physReg.reg * 4 + 2) = 0 := by
    rw [hlo, w2]; split
    · rfl
    · rw [w1, if_pos (by omega)]
  have a3 : s2 (lo.physReg.reg * 4 + 3) = 0 := by
    rw [hlo, w2]; split
    · rfl
    · rw [w1, if_pos (by omega)]
  have b0 : s2 (hi.physReg.reg * 4) = st hi.physReg.reg_b := by
    rw [hhi, w2, if_neg (by omega), w1, if_neg (by omega)]
  have b1 : s2 (hi.physReg.reg * 4 + 1) = st (hi.physReg.reg_b + 1) := by
    rw [hhi, w2, if_neg (by omega), w1, if_neg (by omega)]
  have b2 : s2 (hi.physReg.reg * 4 + 2) = 0 := by
    rw [hhi, w2, if_pos (by omega)]
  have b3 : s2 (hi.physReg.reg * 4 + 3) = 0 := by
    rw [hhi, w2, if_pos (by omega)]
  obtain ⟨p0, p1, p2, p3⟩ := cvt_pk_bytes (st lo.physReg.reg_b) (st (lo.physReg.reg_b + 1))
    (st hi.physReg.reg_b) (st (hi.physReg.reg_b + 1)) (hst _) (hst _) (hst _) (hst _)
  refine Exists.intro (dst32 s2 ⟨k, v1⟩
    (min (src32 s2 lo) 65535 + 65536 * min (src32 s2 hi) 65535)) ⟨?_, ?_⟩
  · rw [run, e1]
    dsimp only
    rw [run, e2]
    dsimp only
    rw [run]
    simp only [step, Instruction.plain, run]
  · intro x
    rw [src32_reg s2 lo hlc hlr, src32_reg s2 hi hhc hhr, a0, a1, a2, a3, b0, b1, b2, b3]
    clear hlr0 hhr0 e1 e2 hs1 hs2 a0 a1 a2 a3 b0 b1 b2 b3 hst1 hst2
    unfold packed_state dst32 write_fn dword_base
    simp only [operand_byte_reg _ lo _ _ hlc hlr, operand_byte_reg _ hi _ _ hhc hhr]
    rw [hkb]
    by_cases hx : k.reg_b ≤ x ∧ x < k.reg_b + 4
    · have hn : ¬ (x = lo.physReg.reg_b + 2 ∨ x = lo.physReg.reg_b + 3 ∨
          x = hi.physReg.reg_b + 2 ∨ x = hi.physReg.reg_b + 3) := by omega
      rw [if_pos hx, if_neg hn]
      have hc : x = k.reg_b ∨ x = k.reg_b + 1 ∨ x = k.reg_b + 2 ∨ x = k.reg_b + 3 := by omega
      rcases hc with rfl | rfl | rfl | rfl
      · rw [Nat.sub_self, p0,
          if_neg (show ¬ (k.reg_b + 2 ≤ k.reg_b ∧ k.reg_b < k.reg_b + 2 + 2) by omega),
          if_pos (show k.reg_b ≤ k.reg_b ∧ k.reg_b < k.reg_b + 2 by omega), Nat.add_zero]
      · rw [Nat.add_sub_cancel_left, p1,
          if_neg (show ¬ (k.reg_b + 2 ≤ k.reg_b + 1 ∧ k.reg_b + 1 < k.reg_b + 2 + 2) by omega),
          if_pos (show k.reg_b ≤ k.reg_b + 1 ∧ k.reg_b + 1 < k.reg_b + 2 by omega)]
      · rw [Nat.add_sub_cancel_left, p2,
          if_pos (show k.reg_b + 2 ≤ k.reg_b + 2 ∧ k.reg_b + 2 < k.reg_b + 2 + 2 by omega),
          Nat.sub_self, Nat.add_zero]
      · rw [Nat.add_sub_cancel_left, p3,
          if_pos (show k.reg_b + 2 ≤ k.reg_b + 3 ∧ k.reg_b + 3 < k.reg_b + 2 + 2 by omega),
          show k.reg_b + 3 - (k.reg_b + 2) = 1 by omega]
    · rw [if_neg hx, w2, w1,
        if_neg (show ¬ (k.reg_b + 2 ≤ x ∧ x < k.reg_b + 2 + 2) by omega),
        if_neg (show ¬ (k.reg_b ≤ x ∧ x < k.reg_b + 2) by omega)]
      by_cases d1 : x = hi.physReg.reg_b + 2 ∨ x = hi.physReg.reg_b + 3
      · rw [if_pos d1, if_pos (Or.inr (Or.inr d1))]
      · rw [if_neg d1]
        by_cases d2 : x = lo.physReg.reg_b + 2 ∨ x = lo.physReg.reg_b + 3
        · rw [if_pos d2, if_pos (d2.elim Or.inl (fun h => Or.inr (Or.inl h)))]
        · rw [if_neg d2, if_neg (fun h => h.elim (fun a => d2 (Or.inl a))
            (fun h => h.elim (fun a => d2 (Or.inr a)) d1))]

/-- Erasing a key removes it from the map. -/
theorem map_find_erase_self (m : copy_map) (k : PhysReg) : map_find (map_erase m k) k = none := by
  apply map_find_none
  intro e he
  unfold map_erase at he
  simpa using (List.mem_filter.mp he).2

/-- A key that is absent stays absent when another key is erased. -/
theorem map_find_erase_none (m : copy_map) (k j : PhysReg) (h : map_find m k = none) :
    map_find (map_erase m j) k = none := by
  induction m with
  | nil => rfl
  | cons a m ih =>
    simp only [map_find] at h
    by_cases hak : a.1 = k
    · rw [if_pos hak] at h; cases h
    · rw [if_neg hak] at h
      unfold map_erase at ih ⊢
      rw [List.filter_cons]
      split
      · simp only [map_find, if_neg hak]; exact ih h
      · exact ih h

/-- Decrementing use counts keeps the keys. -/
theorem map_find_dec_uses_none (m : copy_map) (hit : PhysReg → Nat → Bool) (k : PhysReg)
    (h : map_find m k = none) : map_find (dec_uses m hit) k = none := by
  induction m with
  | nil => rfl
  | cons a m ih =>
    simp only [map_find] at h
    by_cases hak : a.1 = k
    · rw [if_pos hak] at h; cases h
    · rw [if_neg hak] at h
      unfold dec_uses at ih ⊢
      simp only [List.map_cons, map_find, if_neg hak]
      exact ih h

/-- The keys of the map after the pack step are the other keys. -/
theorem dec_uses_keys (m : copy_map) (hit : PhysReg → Nat → Bool) :
    (dec_uses m hit).map Prod.fst = m.map Prod.fst := by
  unfold dec_uses
  rw [List.map_map]
  rfl

/-- The keys that remain when two keys are erased. -/
theorem map_erase_keys (m : copy_map) (k j : PhysReg) :
    (map_erase (map_erase m k) j).map Prod.fst =
      (m.map Prod.fst).filter (fun x => x != k && x != j) := by
  unfold map_erase
  rw [List.filter_filter, List.filter_map]
  congr 1
  apply List.filter_congr
  intro e _
  simp [Bool.and_comm]

/-- The iteration of the acyclic loop that finds a pair to pack. -/
theorem acyclic_step_pack (chip : chip_class) (pi : Pseudo_instruction) (s : loop_state)
    (k : PhysReg) (skip : Bool) (c other : copy_operation) (is : List Instruction)
    (hpos : loop_position s = some (k, skip))
    (hc : map_find s.m k = some c) (ho : map_find s.m (k.advance 2) = some other)
    (hk : k.byte = 0) (hcb : c.bytes = 2) (hob : other.bytes = 2)
    (hcu : c.is_used = false) (hou : other.is_used = false)
    (hp : do_pack_2x16 chip ⟨k, v1⟩ c.op other.op = .ok is) :
    ∃ s1, acyclic_step chip pi s = .ok (.continued s1) ∧ s1.instrs = s.instrs ++ is ∧
      s1.m.map Prod.fst = (s.m.map Prod.fst).filter (fun x => x != k && x != k.advance 2) ∧
      s1.swaps = s.swaps ∧ s1.copies = s.copies := by
  have hne : s.m ≠ [] := by
    intro h; rw [h] at hc; cases hc
  have hpp : pack_partner s.m k c = some other := by
    unfold pack_partner
    rw [if_pos ⟨hk, hcb⟩, ho]
    dsimp only
    rw [if_pos ⟨hob, hcu, hou⟩]
  unfold acyclic_step
  rw [if_neg hne, hpos]
  dsimp only
  rw [hc]
  dsimp only
  unfold acyclic_body
  rw [hpp]
  dsimp only
  unfold acyclic_pack
  rw [hp]
  exact ⟨_, rfl, rfl, by dsimp only; rw [dec_uses_keys, map_erase_keys], rfl, rfl⟩

/-- C18 (counterexample): on GFX9 `handle_operands` lowers the two half copies
`v0.lo := bytes 1..2 of v1`, `v0.hi := v2.lo` to one `v_pack_b32_f16` with operand select 0,
which writes bytes 0..1 of `v1` to `v0.lo`; the two separate copies write bytes 1..2. -/
theorem pack_selects_wrong_half :
    (handle_operands 20 odd_pack_map (empty_ctx .GFX9) .GFX9 parallelcopy_pi).toOption.map
        (fun r => r.ctx.instructions) =
      some [⟨.v_pack_b32_f16, [⟨⟨1024⟩, v1⟩],
        [Operand.ofReg ⟨1029⟩ v2b, Operand.ofReg ⟨1032⟩ v2b], .opsel 0⟩] ∧
    (run [⟨.v_pack_b32_f16, [⟨⟨1024⟩, v1⟩],
        [Operand.ofReg ⟨1029⟩ v2b, Operand.ofReg ⟨1032⟩ v2b], .opsel 0⟩] address_bytes).map
        (fun f => (f 1024, f 1025)) = some (4, 5) ∧
    (run (half_copies ⟨1024⟩ (Operand.ofReg ⟨1029⟩ v2b) (Operand.ofReg ⟨1032⟩ v2b)).1
        address_bytes).map (fun f => (f 1024, f 1025)) = some (5, 6) ∧
    (run (half_copies ⟨1024⟩ (Operand.ofReg ⟨1029⟩ v2b) (Operand.ofReg ⟨1032⟩ v2b)).2
        address_bytes).map (fun f => (f 1024, f 1025)) = some (5, 6) := by
  decide

/-- C18 (amended): when the acyclic loop of `handle_operands` stands at a two-byte entry for
bytes 0-1 of a register, the map holds a two-byte entry for bytes 2-3 of that register and
neither entry has a use, the iteration removes exactly these two entries, counts no swap and
no copy, and appends the instructions of one `do_pack_2x16` call, which on GFX9 and later is
one `v_pack_b32_f16`.  If both sources are halves that the operand select can address and lie
outside the destination register, then on GFX8 and later the register file after these
instructions is the one after the two half copies in either order; on GFX6/7, for sources that
start a VGPR, it differs from that only in the upper halves of the two source registers, which
are cleared. -/
theorem pack_fusion (chip : chip_class) (pi : Pseudo_instruction) (s : loop_state)
    (k : PhysReg) (skip : Bool) (c other : copy_operation) (st : reg_file)
    (hpos : loop_position s = some (k, skip))
    (hc : map_find s.m k = some c) (ho : map_find s.m (k.advance 2) = some other)
    (hk : k.byte = 0) (hkb : k.reg_b + 2 < 65536) (hcb : c.bytes = 2) (hob : other.bytes = 2)
    (hcu : c.is_used = false) (hou : other.is_used = false)
    (hst : ∀ x, st x < 256)
    (hl : half_aligned c.op) (hh : half_aligned other.op)
    (hld : outside_dword c.op k) (hhd : outside_dword other.op k)
    (h67 : chip.rank < 8 → dword_vgpr c.op ∧ dword_vgpr other.op) :
    ∃ is s1 st1,
      do_pack_2x16 chip ⟨k, v1⟩ c.op other.op = .ok is ∧
      acyclic_step chip pi s = .ok (.continued s1) ∧
      s1.instrs = s.instrs ++ is ∧
      s1.m.map Prod.fst = (s.m.map Prod.fst).filter (fun x => x != k && x != k.advance 2) ∧
      s1.swaps = s.swaps ∧ s1.copies = s.copies ∧
      (9 ≤ chip.rank → is = [⟨.v_pack_b32_f16, [⟨k, v1⟩], [c.op, other.op],
        .opsel (other.op.physReg.byte ||| (c.op.physReg.byte >>> 1))⟩]) ∧
      run is st = some st1 ∧
      run (half_copies k c.op other.op).1 st = some (packed_state st k c.op other.op) ∧
      run (half_copies k c.op other.op).2 st = some (packed_state st k c.op other.op) ∧
      (8 ≤ chip.rank → st1 = packed_state st k c.op other.op) ∧
      (chip.rank < 8 → ∀ x, st1 x =
        if x = c.op.physReg.reg_b + 2 ∨ x = c.op.physReg.reg_b + 3 ∨
            x = other.op.physReg.reg_b + 2 ∨ x = other.op.physReg.reg_b + 3 then 0
        else packed_state st k c.op other.op x) := by
  have hc1 := run_copy_lo_hi st k c.op other.op hkb hhd
  have hc2 := run_copy_hi_lo st k c.op other.op hkb hld
  by_cases h9 : 9 ≤ chip.rank
  · have hp : do_pack_2x16 chip ⟨k, v1⟩ c.op other.op =
        .ok [⟨.v_pack_b32_f16, [⟨k, v1⟩], [c.op, other.op],
          .opsel (other.op.physReg.byte ||| (c.op.physReg.byte >>> 1))⟩] := by
      unfold do_pack_2x16; rw [if_pos h9]
    obtain ⟨s1, e1, e2, e3, e4, e5⟩ :=
      acyclic_step_pack chip pi s k skip c other _ hpos hc ho hk hcb hob hcu hou hp
    exact ⟨_, s1, _, hp, e1, e2, e3, e4, e5, fun _ => rfl,
      run_pack_gfx9 st k c.op other.op hst hk hl hh, hc1, hc2, fun _ => rfl,
      fun h => absurd h (by omega)⟩
  by_cases h8 : 8 ≤ chip.rank
  · have hp : do_pack_2x16 chip ⟨k, v1⟩ c.op other.op =
        .ok (half_copies k c.op other.op).1 := by
      unfold do_pack_2x16; rw [if_neg h9, if_pos h8]; rfl
    obtain ⟨s1, e1, e2, e3, e4, e5⟩ :=
      acyclic_step_pack chip pi s k skip c other _ hpos hc ho hk hcb hob hcu hou hp
    exact ⟨_, s1, _, hp, e1, e2, e3, e4, e5, fun h => absurd h h9, hc1, hc1, hc2,
      fun _ => rfl, fun h => absurd h (by omega)⟩
  · obtain ⟨hl6, hh6⟩ := h67 (by omega)
    have hp : do_pack_2x16 chip ⟨k, v1⟩ c.op other.op =
        .ok [Instruction.plain .v_and_b32 [⟨c.op.physReg, v1⟩] [Operand.c32 0xFFFF, c.op],
          Instruction.plain .v_and_b32 [⟨other.op.physReg, v1⟩] [Operand.c32 0xFFFF, other.op],
          Instruction.plain .v_cvt_pk_u16_u32 [⟨k, v1⟩] [c.op, other.op]] := by
      unfold do_pack_2x16; rw [if_neg h9, if_neg h8, if_pos ⟨hl6.2.2, hh6.2.2⟩]
    obtain ⟨s1, e1, e2, e3, e4, e5⟩ :=
      acyclic_step_pack chip pi s k skip c other _ hpos hc ho hk hcb hob hcu hou hp
    obtain ⟨st1, r1, r2⟩ := run_pack_gfx6 st k c.op other.op hst hk hl6 hh6 hld hhd
    exact ⟨_, s1, st1, hp, e1, e2, e3, e4, e5, fun h => absurd h h9, r1, hc1, hc2,
      fun h => absurd h h8, fun _ => r2⟩

theorem pack_fusion_witness :
    ∃ is s1 st1,
      do_pack_2x16 .GFX9 ⟨⟨1024⟩, v1⟩ (Operand.ofReg ⟨1030⟩ v2b) (Operand.ofReg ⟨1032⟩ v2b) =
        .ok is ∧
      acyclic_step .GFX9 parallelcopy_pi ⟨pack_map, some ⟨1024⟩, true, false, [], 0, 0⟩ =
        .ok (.continued s1) ∧
      s1.instrs = [] ++ is ∧
      s1.m.map Prod.fst = (pack_map.map Prod.fst).filter
        (fun x => x != (⟨1024⟩ : PhysReg) && x != (⟨1024⟩ : PhysReg).advance 2) ∧
      s1.swaps = 0 ∧ s1.copies = 0 ∧
      (9 ≤ chip_class.GFX9.rank → is = [⟨.v_pack_b32_f16, [⟨⟨1024⟩, v1⟩],
        [Operand.ofReg ⟨1030⟩ v2b, Operand.ofReg ⟨1032⟩ v2b],
        .opsel ((Operand.ofReg ⟨1032⟩ v2b).physReg.byte |||
          ((Operand.ofReg ⟨1030⟩ v2b).physReg.byte >>> 1))⟩]) ∧
      run is address_bytes = some st1 ∧
      run (half_copies ⟨1024⟩ (Operand.ofReg ⟨1030⟩ v2b) (Operand.ofReg ⟨1032⟩ v2b)).1
        address_bytes = some (packed_state address_bytes ⟨1024⟩ (Operand.ofReg ⟨1030⟩ v2b)
          (Operand.ofReg ⟨1032⟩ v2b)) ∧
      run (half_copies ⟨1024⟩ (Operand.ofReg ⟨1030⟩ v2b) (Operand.ofReg ⟨1032⟩ v2b)).2
        address_bytes = some (packed_state address_bytes ⟨1024⟩ (Operand.ofReg ⟨1030⟩ v2b)
          (Operand.ofReg ⟨1032⟩ v2b)) ∧
      (8 ≤ chip_class.GFX9.rank → st1 = packed_state address_bytes ⟨1024⟩
        (Operand.ofReg ⟨1030⟩ v2b) (Operand.ofReg ⟨1032⟩ v2b)) ∧
      (chip_class.GFX9.rank < 8 → ∀ x, st1 x =
        if x = (Operand.ofReg ⟨1030⟩ v2b).physReg.reg_b + 2 ∨
            x = (Operand.ofReg ⟨1030⟩ v2b).physReg.reg_b + 3 ∨
            x = (Operand.ofReg ⟨1032⟩ v2b).physReg.reg_b + 2 ∨
            x = (Operand.ofReg ⟨1032⟩ v2b).physReg.reg_b + 3 then 0
        else packed_state address_bytes ⟨1024⟩ (Operand.ofReg ⟨1030⟩ v2b)
          (Operand.ofReg ⟨1032⟩ v2b) x) :=
  pack_fusion .GFX9 parallelcopy_pi ⟨pack_map, some ⟨1024⟩, true, false, [], 0, 0⟩ ⟨1024⟩ true
    (copy_operation.init (Operand.ofReg ⟨1030⟩ v2b) ⟨⟨1024⟩, v2b⟩ 2)
    (copy_operation.init (Operand.ofReg ⟨1032⟩ v2b) ⟨⟨1026⟩, v2b⟩ 2) address_bytes
    (by decide) (by decide) (by decide) (by decide) (by decide) (by decide) (by decide)
    (by decide) (by decide) (fun x => Nat.mod_lt x (by decide)) (by decide) (by decide)
    (by decide) (by decide) (by decide)

/-! ## Chunks of `split_copy` -/

/-- The test `can_increase` of `split_copy`, before the use counts are looked at, holds
exactly when the doubled chunk fits. -/
theorem can_increase_iff (src : copy_operation) (offset max_size next : Nat) :
    (if (!src.op.isConstant &&
        ((src.def_.physReg.advance offset).reg_b % next == 0 &&
          decide (offset + next ≤ src.bytes) &&
          decide (next ≤ chunk_limit src max_size))) = true
      then (src.op.physReg.advance offset).reg_b % next == 0
      else ((src.def_.physReg.advance offset).reg_b % next == 0 &&
        decide (offset + next ≤ src.bytes) &&
        decide (next ≤ chunk_limit src max_size))) = true ↔
    chunk_fits src offset max_size next := by
  unfold chunk_fits
  cases hk : src.op.isConstant
  · simp only [Bool.not_false, Bool.true_and]
    constructor
    · intro h
      split at h
      · rename_i h0
        simp only [Bool.and_eq_true, beq_iff_eq, decide_eq_true_eq] at h0 h
        exact ⟨h0.2, h0.1.2, h0.1.1, fun _ => h⟩
      · rename_i h0
        exact absurd h h0
    · intro ⟨h1, h2, h3, h4⟩
      simp [h1, h2, h3, h4 trivial]
  · simp only [Bool.not_true, Bool.false_and, Bool.false_eq_true, if_false, Bool.and_eq_true,
      beq_iff_eq, decide_eq_true_eq]
    constructor
    · intro h
      exact ⟨h.2, h.1.2, h.1.1, fun h => by cases h⟩
    · intro ⟨h1, h2, h3, _⟩
      exact ⟨⟨h3, h2⟩, h1⟩

/-- The loop of `split_copy` keeps the chunk fitting and multiplies it by a power of two. -/
theorem split_copy_loop_fits (src : copy_operation) (offset max_size : Nat) (ign : Bool) :
    ∀ fuel b, chunk_fits src offset max_size b →
      chunk_fits src offset max_size (split_copy_loop src offset ign (chunk_limit src max_size)
        (src.def_.physReg.advance offset).reg_b (src.op.physReg.advance offset).reg_b fuel b) ∧
      ∃ j, split_copy_loop src offset ign (chunk_limit src max_size)
        (src.def_.physReg.advance offset).reg_b (src.op.physReg.advance offset).reg_b fuel b =
        b * 2 ^ j := by
  intro fuel
  induction fuel with
  | zero => intro b hb; exact ⟨hb, 0, by simp [split_copy_loop]⟩
  | succ f ih =>
    intro b hb
    simp only [split_copy_loop]
    rw [if_pos hb.1]
    by_cases hc : chunk_fits src offset max_size (b * 2)
    · have hcan := (can_increase_iff src offset max_size (b * 2)).mpr hc
      obtain ⟨r1, j, r3⟩ := ih (b * 2) hc
      simp only [hcan]
      cases ign
      · simp only [Bool.false_eq_true, if_false, Bool.true_and]
        split
        · exact ⟨r1, j + 1, by rw [r3, pow_succ]; ring⟩
        · exact ⟨hb, 0, by simp⟩
      · simp only [if_true]
        exact ⟨r1, j + 1, by rw [r3, pow_succ]; ring⟩
    · have hcan := (can_increase_iff src offset max_size (b * 2)).not.mpr hc
      simp only [Bool.not_eq_true] at hcan
      simp only [hcan]
      rw [if_neg (by cases ign <;> simp)]
      exact ⟨hb, 0, by simp⟩

/-- With `ignore_uses` set and enough iterations the loop of `split_copy` stops at a chunk
whose double does not fit. -/
theorem split_copy_loop_maximal (src : copy_operation) (offset max_size : Nat) :
    ∀ fuel b, 1 ≤ b → chunk_fits src offset max_size b →
      chunk_limit src max_size < b * 2 ^ fuel →
      ¬ chunk_fits src offset max_size
        (2 * split_copy_loop src offset true (chunk_limit src max_size)
          (src.def_.physReg.advance offset).reg_b (src.op.physReg.advance offset).reg_b
          fuel b) := by
  intro fuel
  induction fuel with
  | zero =>
    intro b _ hb hlt
    have := hb.1
    simp at hlt
    omega
  | succ f ih =>
    intro b hb1 hb hlt
    simp only [split_copy_loop]
    rw [if_pos hb.1]
    by_cases hc : chunk_fits src offset max_size (b * 2)
    · have hcan := (can_increase_iff src offset max_size (b * 2)).mpr hc
      simp only [hcan, if_true]
      exact ih (b * 2) (by omega) hc
        (by have : b * 2 ^ (f + 1) = b * 2 * 2 ^ f := by ring
            omega)
    · have hcan := (can_increase_iff src offset max_size (b * 2)).not.mpr hc
      simp only [Bool.not_eq_true] at hcan
      simp only [hcan, if_true, Bool.false_eq_true, if_false]
      rw [Nat.mul_comm]; exact hc

/-- The byte count of the class that `split_copy` gives a chunk of `b` bytes. -/
theorem chunk_class_bytes (t : RegType) (b : Nat) :
    (if b % 4 = 0 then RegClass.ofSize t (b / 4)
      else (RegClass.ofSize t b).as_subdword).bytes = b := by
  split
  · simp only [RegClass.bytes, RegClass.ofSize]
    simp only [Bool.false_eq_true, if_false]
    omega
  · simp [RegClass.bytes, RegClass.ofSize, RegClass.as_subdword]

/-- The chunk size of `split_copy` is 1, 2, 4 or 8, fits, and with `ignore_uses` cannot be
doubled. -/
theorem split_copy_bytes_spec (offset : Nat) (src : copy_operation) (ign : Bool)
    (max_size : Nat) (ho : offset < src.bytes) (hm : 1 ≤ max_size) :
    chunk_fits src offset max_size (split_copy_bytes offset src ign max_size) ∧
    (split_copy_bytes offset src ign max_size = 1 ∨ split_copy_bytes offset src ign max_size = 2 ∨
      split_copy_bytes offset src ign max_size = 4 ∨
      split_copy_bytes offset src ign max_size = 8) ∧
    (ign = true →
      ¬ chunk_fits src offset max_size (2 * split_copy_bytes offset src ign max_size)) := by
  have hl8 : chunk_limit src max_size ≤ 8 := by
    unfold chunk_limit; split <;> omega
  have hl1 : 1 ≤ chunk_limit src max_size := by
    unfold chunk_limit; split <;> omega
  have h1 : chunk_fits src offset max_size 1 :=
    ⟨hl1, by omega, Nat.mod_one _, fun _ => Nat.mod_one _⟩
  have hb : split_copy_bytes offset src ign max_size =
      split_copy_loop src offset ign (chunk_limit src max_size)
        (src.def_.physReg.advance offset).reg_b (src.op.physReg.advance offset).reg_b 4 1 := rfl
  obtain ⟨f1, j, f2⟩ := split_copy_loop_fits src offset max_size ign 4 1 h1
  rw [← hb] at f1 f2
  refine ⟨f1, ?_, ?_⟩
  · have hle := f1.1
    rw [f2, Nat.one_mul] at hle ⊢
    have hj : j < 4 := by
      by_contra hj
      have : 2 ^ 4 ≤ 2 ^ j := Nat.pow_le_pow_right (by decide) (by omega)
      omega
    interval_cases j <;> simp
  · intro hi
    subst hi
    rw [hb]
    exact split_copy_loop_maximal src offset max_size 4 1 (by omega) h1 (by norm_num; omega)

/-- C27 (counterexample): with `max_size = 0` the chunk of `split_copy` has one byte, which is
more than `max_size`. -/
theorem split_copy_exceeds_zero_max :
    (split_copy 0 dword_copy true 0).toOption.map (fun r => r.1.bytes) = some 1 := by
  decide

/-- C27 (amended): for every copy, `offset < copy.bytes` and `max_size ≥ 1`, `split_copy`
returns for a register source (and for a constant source unless its assertion fails it
returns) a chunk at `offset` whose byte size `b` is 1, 2, 4 or 8, at most `max_size`, at most
4 for a vector destination, inside the copy, and divides the destination byte address and, for
a register source, the source byte address; with `ignore_uses` set the doubled size violates
one of these constraints. -/
theorem split_copy_chunk (offset : Nat) (src : copy_operation) (ignore_uses : Bool)
    (max_size : Nat) (ho : offset < src.bytes) (hm : 1 ≤ max_size) :
    (src.op.isConstant = false → ∃ r, split_copy offset src ignore_uses max_size = .ok r) ∧
    ∀ d op, split_copy offset src ignore_uses max_size = .ok (d, op) →
      d.physReg = src.def_.physReg.advance offset ∧
      (src.op.isConstant = false → op.physReg = src.op.physReg.advance offset ∧
        op.bytes = d.bytes) ∧
      (d.bytes = 1 ∨ d.bytes = 2 ∨ d.bytes = 4 ∨ d.bytes = 8) ∧
      d.bytes ≤ max_size ∧ (src.def_.regClass.type = .vgpr → d.bytes ≤ 4) ∧
      offset + d.bytes ≤ src.bytes ∧ d.physReg.reg_b % d.bytes = 0 ∧
      (src.op.isConstant = false → op.physReg.reg_b % d.bytes = 0) ∧
      (ignore_uses = true → ¬ chunk_fits src offset max_size (2 * d.bytes)) := by
  obtain ⟨hf, hp, hmax⟩ := split_copy_bytes_spec offset src ignore_uses max_size ho hm
  constructor
  · intro hk
    unfold split_copy
    simp only [hk, Bool.false_eq_true, if_false]
    exact ⟨_, rfl⟩
  · intro d op h
    have hd : d = ⟨src.def_.physReg.advance offset,
        if split_copy_bytes offset src ignore_uses max_size % 4 = 0 then
          RegClass.ofSize src.def_.regClass.type
            (split_copy_bytes offset src ignore_uses max_size / 4)
        else (RegClass.ofSize src.def_.regClass.type
          (split_copy_bytes offset src ignore_uses max_size)).as_subdword⟩ := by
      unfold split_copy at h
      dsimp only at h
      split at h
      · split at h
        · split at h <;> simp only [Except.ok.injEq, Prod.mk.injEq] at h <;> exact h.1.symm
        · cases h
      · simp only [Except.ok.injEq, Prod.mk.injEq] at h; exact h.1.symm
    have hdb : d.bytes = split_copy_bytes offset src ignore_uses max_size := by
      rw [hd]; exact chunk_class_bytes _ _
    have hdp : d.physReg = src.def_.physReg.advance offset := by rw [hd]
    have hop : src.op.isConstant = false → op.physReg = src.op.physReg.advance offset ∧
        op.bytes = d.bytes := by
      intro hk
      unfold split_copy at h
      simp only [hk, Bool.false_eq_true, if_false, Except.ok.injEq, Prod.mk.injEq] at h
      rw [← h.2, hdb]
      exact ⟨rfl, chunk_class_bytes _ _⟩
    rw [hdb, hdp]
    obtain ⟨g1, g2, g3, g4⟩ := hf
    refine ⟨rfl, ?_, hp, ?_, ?_, g2, g3, ?_, hmax⟩
    · intro hk; rw [← hdb]; exact hop hk
    · unfold chunk_limit at g1; omega
    · intro hv; unfold chunk_limit at g1; rw [if_pos hv] at g1; omega
    · intro hk; rw [(hop hk).1]; exact g4 hk

theorem split_copy_chunk_witness :
    (dword_copy.op.isConstant = false → ∃ r, split_copy 0 dword_copy true 8 = .ok r) ∧
    ∀ d op, split_copy 0 dword_copy true 8 = .ok (d, op) →
      d.physReg = dword_copy.def_.physReg.advance 0 ∧
      (dword_copy.op.isConstant = false → op.physReg = dword_copy.op.physReg.advance 0 ∧
        op.bytes = d.bytes) ∧
      (d.bytes = 1 ∨ d.bytes = 2 ∨ d.bytes = 4 ∨ d.bytes = 8) ∧
      d.bytes ≤ 8 ∧ (dword_copy.def_.regClass.type = .vgpr → d.bytes ≤ 4) ∧
      0 + d.bytes ≤ dword_copy.bytes ∧ d.physReg.reg_b % d.bytes = 0 ∧
      (dword_copy.op.isConstant = false → op.physReg.reg_b % d.bytes = 0) ∧
      (true = true → ¬ chunk_fits dword_copy 0 8 (2 * d.bytes)) :=
  split_copy_chunk 0 dword_copy true 8 (by decide) (by decide)

/-! ## Membership in updated maps -/

theorem mem_map_insert (m : copy_map) (k : PhysReg) (v : copy_operation)
    (e : PhysReg × copy_operation) (h : e ∈ map_insert m k v) : e = (k, v) ∨ e ∈ m := by
  induction m with
  | nil => simp only [map_insert, List.mem_singleton] at h; exact Or.inl h
  | cons a m ih =>
    simp only [map_insert] at h
    split at h
    · rcases List.mem_cons.mp h with h | h
      · exact Or.inl h
      · exact Or.inr h
    · split at h
      · rcases List.mem_cons.mp h with h | h
        · exact Or.inl h
        · exact Or.inr (List.mem_cons_of_mem _ h)
      · rcases List.mem_cons.mp h with h | h
        · exact Or.inr (by rw [h]; exact List.mem_cons_self _ _)
        · rcases ih h with h | h
          · exact Or.inl h
          · exact Or.inr (List.mem_cons_of_mem _ h)

theorem mem_map_set (m : copy_map) (k : PhysReg) (v : copy_operation)
    (e : PhysReg × copy_operation) (h : e ∈ map_set m k v) : e = (k, v) ∨ e ∈ m := by
  unfold map_set at h
  obtain ⟨a, ha, rfl⟩ := List.mem_map.mp h
  split
  · rename_i hk; left; rw [hk]
  · right; exact ha

theorem mem_map_erase (m : copy_map) (k : PhysReg) (e : PhysReg × copy_operation)
    (h : e ∈ map_erase m k) : e ∈ m := by
  unfold map_erase at h
  exact (List.mem_filter.mp h).1

theorem map_find_mem (m : copy_map) (k : PhysReg) (c : copy_operation)
    (h : map_find m k = some c) : (k, c) ∈ m := by
  induction m with
  | nil => cases h
  | cons a m ih =>
    simp only [map_find] at h
    split at h
    · rename_i hk
      simp only [Option.some.injEq] at h
      rw [← hk, ← h]; exact List.mem_cons_self _ _
    · exact List.mem_cons_of_mem _ (ih h)

/-! ## Largest-first selection -/

theorem select_swap_from_spec (largest : Nat) :
    ∀ (rest : copy_map) (cur : PhysReg × copy_operation),
      (select_swap_from largest cur rest = cur ∨ select_swap_from largest cur rest ∈ rest) ∧
      cur.2.bytes ≤ (select_swap_from largest cur rest).2.bytes ∧
      ((select_swap_from largest cur rest).2.bytes = largest ∨
        ∀ x ∈ rest, x.2.bytes ≤ (select_swap_from largest cur rest).2.bytes) := by
  intro rest
  induction rest with
  | nil => intro cur; exact ⟨Or.inl rfl, le_refl _, Or.inr (fun x hx => by cases hx)⟩
  | cons e rest ih =>
    intro cur
    simp only [select_swap_from]
    split
    · rename_i hgt
      split
      · rename_i heq
        exact ⟨Or.inr (List.mem_cons_self _ _), by omega, Or.inl heq⟩
      · obtain ⟨h1, h2, h3⟩ := ih e
        refine ⟨Or.inr ?_, by omega, ?_⟩
        · rcases h1 with h1 | h1
          · rw [h1]; exact List.mem_cons_self _ _
          · exact List.mem_cons_of_mem _ h1
        · rcases h3 with h3 | h3
          · exact Or.inl h3
          · right
            intro x hx
            rcases List.mem_cons.mp hx with hx | hx
            · rw [hx]; exact h2
            · exact h3 x hx
    · rename_i hgt
      obtain ⟨h1, h2, h3⟩ := ih cur
      refine ⟨?_, h2, ?_⟩
      · rcases h1 with h1 | h1
        · exact Or.inl h1
        · exact Or.inr (List.mem_cons_of_mem _ h1)
      · rcases h3 with h3 | h3
        · exact Or.inl h3
        · right
          intro x hx
          rcases List.mem_cons.mp hx with hx | hx
          · rw [hx]; omega
          · exact h3 x hx

/-- The selected entry is in the map and no entry is larger, when no entry exceeds
`largest`. -/
theorem select_swap_spec (largest : Nat) (m : copy_map) (e : PhysReg × copy_operation)
    (hb : bytes_bounded largest m) (h : select_swap largest m = some e) :
    e ∈ m ∧ ∀ x ∈ m, x.2.bytes ≤ e.2.bytes := by
  cases m with
  | nil => cases h
  | cons a m =>
    simp only [select_swap, Option.some.injEq] at h
    obtain ⟨h1, h2, h3⟩ := select_swap_from_spec largest (a :: m) a
    rw [h] at h1 h2 h3
    constructor
    · rcases h1 with h1 | h1
      · rw [h1]; exact List.mem_cons_self _ _
      · exact h1
    · rcases h3 with h3 | h3
      · intro x hx; rw [h3]; exact hb x hx
      · exact h3

theorem largest_bytes_fold (m : copy_map) :
    ∀ l, l ≤ m.foldl (fun l e => max l e.2.bytes) l ∧
      ∀ e ∈ m, e.2.bytes ≤ m.foldl (fun l e => max l e.2.bytes) l := by
  induction m with
  | nil => intro l; exact ⟨le_refl _, fun e he => by cases he⟩
  | cons a m ih =>
    intro l
    simp only [List.foldl_cons]
    obtain ⟨h1, h2⟩ := ih (max l a.2.bytes)
    refine ⟨by omega, ?_⟩
    intro e he
    rcases List.mem_cons.mp he with he | he
    · rw [he]; omega
    · exact h2 e he

theorem largest_bytes_bound (m : copy_map) : bytes_bounded (largest_bytes m) m :=
  fun e he => (largest_bytes_fold m 0).2 e he

theorem memcpy_uses_ok (src : List Nat) (off n : Nat) (u : List Nat)
    (h : memcpy_uses src off n = .ok u) : off + n ≤ 8 := by
  unfold memcpy_uses at h
  split at h
  · assumption
  · cases h

theorem bytes_bounded_insert (L : Nat) (m : copy_map) (k : PhysReg) (v : copy_operation)
    (hm : bytes_bounded L m) (hv : v.bytes ≤ L) : bytes_bounded L (map_insert m k v) := by
  intro e he
  rcases mem_map_insert m k v e he with h | h
  · rw [h]; exact hv
  · exact hm e h

theorem bytes_bounded_set (L : Nat) (m : copy_map) (k : PhysReg) (v : copy_operation)
    (hm : bytes_bounded L m) (hv : v.bytes ≤ L) : bytes_bounded L (map_set m k v) := by
  intro e he
  rcases mem_map_set m k v e he with h | h
  · rw [h]; exact hv
  · exact hm e h

theorem bytes_bounded_erase (L : Nat) (m : copy_map) (k : PhysReg)
    (hm : bytes_bounded L m) : bytes_bounded L (map_erase m k) :=
  fun e he => hm e (mem_map_erase m k e he)

/-- Splitting a self-intersecting swap inserts entries no larger than the swap and shortens
the swap. -/
theorem split_self_intersecting_bytes (L : Nat) (m m1 : copy_map) (swap swap1 : copy_operation)
    (hL : L < 4294967296) (hm : bytes_bounded L m) (hs : swap.bytes ≤ L)
    (h : split_self_intersecting m swap = .ok (m1, swap1)) :
    bytes_bounded L m1 ∧ swap1.bytes ≤ swap.bytes := by
  unfold split_self_intersecting at h
  by_cases hgt : swap.def_.physReg.reg_b > swap.op.physReg.reg_b
  all_goals
    simp only [hgt, if_true, if_false] at h
    split at h
    · rename_i hlt
      split at h
      · cases h
      · rename_i mu hmu
        split at h
        · cases h
        · rename_i eu heu
          split at h
          · cases h
          · rename_i su hsu
            simp only [Except.ok.injEq, Prod.mk.injEq] at h
            obtain ⟨h1, h2⟩ := h
            have b1 := memcpy_uses_ok _ _ _ _ hmu
            have b2 := memcpy_uses_ok _ _ _ _ heu
            constructor
            · rw [← h1]
              apply bytes_bounded_insert
              · apply bytes_bounded_insert _ _ _ _ hm
                dsimp only
                omega
              · dsimp only
                omega
            · rw [← h2]
              dsimp only
              omega
    · simp only [Except.ok.injEq, Prod.mk.injEq] at h
      rw [← h.1, ← h.2]
      exact ⟨hm, le_refl _⟩

theorem intersection_mask_nonzero (a_start a_size b_start b_size : Int) (imask : Nat)
    (h : get_intersection_mask a_start a_size b_start b_size = .ok imask) (hn : imask ≠ 0) :
    MAX2i (b_start - a_start) 0 < a_size ∧ MAX2i (b_start + b_size - a_start) 0 ≠ 0 := by
  unfold get_intersection_mask at h
  dsimp only at h
  split at h
  · simp only [Except.ok.injEq] at h
    exact absurd h.symm hn
  · rename_i hc
    constructor
    · by_contra h1
      exact hc (Or.inl (by omega))
    · intro h2
      exact hc (Or.inr h2)

/-- The pieces into which a target is split have at most the bytes of the target. -/
theorem target_pieces (so sb tq tb : Nat) (hL : tb < 4294967296) (hlt : tb < sb)
    (h1 : MAX2i ((tq : Int) - (so : Int)) 0 < (sb : Int))
    (h2 : MAX2i ((tq : Int) + (tb : Int) - (so : Int)) 0 ≠ 0) :
    (MAX2i ((tq : Int) + (tb : Int) - ((so : Int) + (sb : Int))) 0).toNat ≤ tb ∧
    (((tb : Int) - MAX2i (-((tq : Int) - (so : Int))) 0 -
      MAX2i ((tq : Int) + (tb : Int) - ((so : Int) + (sb : Int))) 0) % 4294967296).toNat ≤ tb ∧
    (MAX2i (-((tq : Int) - (so : Int))) 0).toNat ≤ tb := by
  unfold MAX2i at *
  split_ifs at * <;> omega

theorem rewrite_target_bytes (L : Nat) (swap : copy_operation) (m : copy_map) (tk : PhysReg)
    (bytes_left : Nat) (out : target_outcome) (hL : L < 4294967296)
    (hm : bytes_bounded L m) (h : rewrite_target swap m tk bytes_left = .ok out) :
    bytes_bounded L out.map := by
  unfold rewrite_target at h
  split at h
  · cases h
  · rename_i t ht
    have htL : t.bytes ≤ L := hm _ (map_find_mem m tk t ht)
    split at h
    · simp only [Except.ok.injEq] at h
      rw [← h]
      exact bytes_bounded_set L m tk _ hm htL
    · split at h
      · cases h
      · rename_i imask hmask
        split at h
        · simp only [Except.ok.injEq] at h
          rw [← h]; exact hm
        · rename_i hne
          split at h
          · cases h
          · rename_i hlt
            simp only [not_not] at hlt
            obtain ⟨i1, i2⟩ := intersection_mask_nonzero _ _ _ _ _ hmask hne
            obtain ⟨p1, p2, p3⟩ := target_pieces swap.def_.physReg.reg_b swap.bytes
              t.op.physReg.reg_b t.bytes (by omega) hlt i1 i2
            dsimp only at h
            split at h
            · cases h
            · rename_i m1 hm1
              have b1 : bytes_bounded L m1 := by
                split at hm1
                · split at hm1
                  · cases hm1
                  · split at hm1
                    · cases hm1
                    · simp only [Except.ok.injEq] at hm1
                      rw [← hm1]
                      exact bytes_bounded_insert L m _ _ hm (by dsimp only; omega)
                · simp only [Except.ok.injEq] at hm1
                  rw [← hm1]; exact hm
              split at h
              · cases h
              · rename_i t1 ht1
                split at h
                · cases h
                · rename_i m2 hm2
                  have b2 : bytes_bounded L m2 := by
                    split at hm2
                    · split at hm2
                      · cases hm2
                      · simp only [Except.ok.injEq] at hm2
                        rw [← hm2]
                        exact bytes_bounded_insert L m1 _ _ b1 (by dsimp only; omega)
                    · simp only [Except.ok.injEq] at hm2
                      rw [← hm2]; exact b1
                  split at h
                  · cases h
                  · rename_i t2 ht2
                    split at h
                    · cases h
                    · rename_i m3 hm3
                      have b3 : bytes_bounded L m3 := by
                        split at hm3
                        · split at hm3
                          · cases hm3
                          · simp only [Except.ok.injEq] at hm3
                            rw [← hm3]
                            exact bytes_bounded_set L m2 _ _ b2 (by dsimp only; omega)
                        · simp only [Except.ok.injEq] at hm3
                          rw [← hm3]; exact b2
                      split at h <;>
                        (simp only [Except.ok.injEq] at h
                         rw [← h]; exact b3)

theorem rewrite_loop_bytes (L : Nat) (swap : copy_operation) (hL : L < 4294967296) :
    ∀ (fuel : Nat) (m : copy_map) (it : Option PhysReg) (bl : Nat) (m1 : copy_map),
      bytes_bounded L m → rewrite_loop swap fuel m it bl = .ok m1 → bytes_bounded L m1 := by
  intro fuel
  induction fuel with
  | zero =>
    intro m it bl m1 hm h
    cases it with
    | none => simp only [rewrite_loop, Except.ok.injEq] at h; rw [← h]; exact hm
    | some k => simp only [rewrite_loop] at h; cases h
  | succ f ih =>
    intro m it bl m1 hm h
    cases it with
    | none => simp only [rewrite_loop, Except.ok.injEq] at h; rw [← h]; exact hm
    | some k =>
      simp only [rewrite_loop] at h
      split at h
      · cases h
      · rename_i m2 hr
        simp only [Except.ok.injEq] at h
        rw [← h]
        exact rewrite_target_bytes L swap m k bl _ hL hm hr
      · rename_i m2 left hr
        exact ih _ _ _ _ (rewrite_target_bytes L swap m k bl _ hL hm hr) h

/-- An iteration of the cyclic phase creates no entry larger than `largest`. -/
theorem cyclic_step_bytes (chip : chip_class) (pi : Pseudo_instruction) (L fuel : Nat)
    (s s1 : loop_state) (hL : L < 4294967296) (hm : bytes_bounded L s.m)
    (h : cyclic_step chip pi L fuel s = .ok s1) : bytes_bounded L s1.m := by
  unfold cyclic_step at h
  split at h
  · simp only [Except.ok.injEq] at h; rw [← h]; exact hm
  · rename_i k c hsel
    have hc : c.bytes ≤ L := hm _ (select_swap_spec L s.m (k, c) hm hsel).1
    split at h
    · cases h
    · split at h
      · cases h
      · split at h
        · simp only [Except.ok.injEq] at h; rw [← h]
          exact bytes_bounded_erase L s.m k hm
        · split at h
          · cases h
          · split at h
            · cases h
            · rename_i m1 swap hsplit
              obtain ⟨hb1, hb2⟩ := split_self_intersecting_bytes L s.m m1 c swap hL hm hc hsplit
              split at h
              · cases h
              · split at h
                · cases h
                · dsimp only at h
                  split at h
                  · cases h
                  · rename_i m3 hr
                    simp only [Except.ok.injEq] at h; rw [← h]
                    exact rewrite_loop_bytes L swap hL _ _ _ _ _
                      (bytes_bounded_erase L m1 k hb1) hr

/-- C23: in every iteration of the cyclic phase that starts with the map of state `s`, the
entry that `handle_operands` selects for swapping is an entry of the current map whose byte
width is maximal among all entries of the current map. -/
theorem largest_first_selection (chip : chip_class) (pi : Pseudo_instruction)
    (s s1 : loop_state) (e : PhysReg × copy_operation)
    (hL : largest_bytes s.m < 4294967296)
    (hr : cyclic_reaches chip pi (largest_bytes s.m) s s1)
    (h : select_swap (largest_bytes s.m) s1.m = some e) :
    e ∈ s1.m ∧ ∀ x ∈ s1.m, x.2.bytes ≤ e.2.bytes := by
  have hb : bytes_bounded (largest_bytes s.m) s1.m := by
    clear h
    induction hr with
    | start => exact largest_bytes_bound s.m
    | iteration s2 s3 fuel _ _ hstep ih =>
      exact cyclic_step_bytes chip pi _ fuel s2 s3 hL ih hstep
  exact select_swap_spec _ _ _ hb h

theorem largest_first_selection_witness :
    (⟨1024⟩, (⟨Operand.ofReg ⟨1032⟩ v2, ⟨⟨1024⟩, v2⟩, 8, [1, 1, 1, 1, 1, 1, 1, 1]⟩ :
        copy_operation)) ∈ mixed_cycle_map ∧
      ∀ x ∈ mixed_cycle_map, x.2.bytes ≤ 8 :=
  largest_first_selection .GFX9 parallelcopy_pi ⟨mixed_cycle_map, none, false, false, [], 0, 0⟩
    ⟨mixed_cycle_map, none, false, false, [], 0, 0⟩ _ (by decide) (cyclic_reaches.start)
    (by decide)

/-! ## Use counts after a copy -/

theorem range_fold_use (P : Nat → Prop) [DecidablePred P] (g : Nat → Nat) (a : copy_operation)
    (n : Nat) :
    ((List.range n).foldl (fun a i => if P i then set_use a i (g (a.use i)) else a) a).op =
      a.op ∧
    ((List.range n).foldl (fun a i => if P i then set_use a i (g (a.use i)) else a) a).def_ =
      a.def_ ∧
    ((List.range n).foldl (fun a i => if P i then set_use a i (g (a.use i)) else a) a).bytes =
      a.bytes ∧
    ((List.range n).foldl (fun a i => if P i then set_use a i (g (a.use i)) else a)
      a).uses.length = a.uses.length ∧
    ∀ j, ((List.range n).foldl (fun a i => if P i then set_use a i (g (a.use i)) else a)
      a).use j = if j < n ∧ P j ∧ j < a.uses.length then g (a.use j) else a.use j := by
  induction n with
  | zero => simp
  | succ n ih =>
    simp only [List.range_succ, List.foldl_append, List.foldl_cons, List.foldl_nil]
    obtain ⟨h1, h2, h3, h4, h5⟩ := ih
    by_cases hp : P n
    · simp only [if_pos hp]
      refine ⟨by rw [← h1]; rfl, by rw [← h2]; rfl, by rw [← h3]; rfl, ?_, ?_⟩
      · rw [← h4]; simp [set_use]
      · intro j
        rw [set_use_use, h4]
        by_cases hj : n = j
        · subst hj
          rw [h5 n]
          by_cases hl : n < a.uses.length
          · simp [hl, hp]
          · simp [hl]
        · rw [if_neg (fun h => hj h.1), h5 j]
          by_cases hc : j < n ∧ P j ∧ j < a.uses.length
          · rw [if_pos hc, if_pos ⟨by omega, hc.2⟩]
          · rw [if_neg hc, if_neg (fun h => hc ⟨by omega, h.2⟩)]
    · simp only [if_neg hp]
      refine ⟨h1, h2, h3, h4, ?_⟩
      intro j
      rw [h5 j]
      by_cases hc : j < n ∧ P j ∧ j < a.uses.length
      · rw [if_pos hc, if_pos ⟨by omega, hc.2⟩]
      · rw [if_neg hc, if_neg]
        intro h
        by_cases hj : j = n
        · subst hj; exact hp h.2.1
        · exact hc ⟨by omega, h.2⟩

/-- The unsigned distance test of the decrement loop is a range test. -/
theorem udiff_lt_iff (x b n : Nat) (hx : x < 4294967296) (hb : b < 65536)
    (hn : n ≤ 4294901760) : udiff x b < n ↔ b ≤ x ∧ x < b + n := by
  unfold udiff
  rw [Nat.mod_eq_of_lt (show b < 4294967296 by omega)]
  constructor
  · intro h
    by_cases hle : b ≤ x
    · rw [show x + 4294967296 - b = (x - b) + 4294967296 by omega, Nat.add_mod_right,
        Nat.mod_eq_of_lt (by omega)] at h
      omega
    · rw [Nat.mod_eq_of_lt (by omega)] at h
      omega
  · intro ⟨h1, h2⟩
    rw [show x + 4294967296 - b = (x - b) + 4294967296 by omega, Nat.add_mod_right,
      Nat.mod_eq_of_lt (by omega)]
    omega

theorem udiff_of_le (x b : Nat) (hx : x < 4294967296) (hb : b ≤ x) : udiff x b = x - b := by
  unfold udiff
  rw [Nat.mod_eq_of_lt (show b < 4294967296 by omega),
    show x + 4294967296 - b = (x - b) + 4294967296 by omega, Nat.add_mod_right,
    Nat.mod_eq_of_lt (by omega)]

/-- The decrement loop after a copy, entry by entry. -/
theorem release_uses_spec (m : copy_map) (c : copy_operation) (did : Bool)
    (hc : c.op.physReg.reg_b < 65536) (hb : c.bytes ≤ 65536)
    (hm : ∀ e ∈ m, e.1.reg_b + e.2.bytes ≤ 4294967296) (n : Nat)
    (e : PhysReg × copy_operation) (he : m[n]? = some e) :
    ∃ e1, (release_uses m c did)[n]? = some e1 ∧ e1.1 = e.1 ∧ e1.2.op = e.2.op ∧
      e1.2.def_ = e.2.def_ ∧ e1.2.bytes = e.2.bytes ∧
      ∀ j, e1.2.use j =
        if did = true ∧ c.op.isConstant = false ∧ j < e.2.bytes ∧ j < e.2.uses.length ∧
            source_hit c (e.1.reg_b + j)
        then u8_dec (e.2.use j) else e.2.use j := by
  have hem : e ∈ m := List.mem_iff_getElem?.mpr ⟨n, he⟩
  unfold release_uses
  split
  · rename_i hcond
    unfold dec_uses
    rw [List.getElem?_map, he]
    refine ⟨_, rfl, rfl, ?_⟩
    obtain ⟨h1, h2, h3, _, h5⟩ := range_fold_use
      (fun i => (decide (udiff (e.1.reg_b + i) c.op.physReg.reg_b < c.bytes) &&
        c.use (udiff (e.1.reg_b + i) c.op.physReg.reg_b) == 0) = true) u8_dec e.2 e.2.bytes
    refine ⟨h1, h2, h3, ?_⟩
    intro j
    dsimp only
    rw [h5 j]
    by_cases hj : j < e.2.bytes
    · have hx : e.1.reg_b + j < 4294967296 := by have := hm e hem; omega
      have hiff := udiff_lt_iff (e.1.reg_b + j) c.op.physReg.reg_b c.bytes hx hc (by omega)
      by_cases hit : source_hit c (e.1.reg_b + j)
      · have hu := udiff_of_le _ _ hx hit.1
        by_cases hl : j < e.2.uses.length
        · rw [if_pos, if_pos ⟨hcond.1, hcond.2, hj, hl, hit⟩]
          refine ⟨hj, ?_, hl⟩
          simp only [Bool.and_eq_true, decide_eq_true_eq, beq_iff_eq]
          exact ⟨hiff.mpr ⟨hit.1, hit.2.1⟩, by rw [hu]; exact hit.2.2⟩
        · rw [if_neg (fun h => hl h.2.2), if_neg (fun h => hl h.2.2.2.1)]
      · rw [if_neg, if_neg (fun h => hit h.2.2.2.2)]
        intro h
        simp only [Bool.and_eq_true, decide_eq_true_eq, beq_iff_eq] at h
        obtain ⟨_, ⟨h1, h2⟩, _⟩ := h
        have hr := hiff.mp h1
        apply hit
        exact ⟨hr.1, hr.2, by rw [← udiff_of_le _ _ hx hr.1]; exact h2⟩
    · rw [if_neg (fun h => hj h.1), if_neg (fun h => hj h.2.2.1)]
  · rename_i hcond
    refine ⟨e, he, rfl, rfl, rfl, rfl, ?_⟩
    intro j
    rw [if_neg]
    intro h
    exact hcond ⟨h.1, h.2.1⟩

/-- C24 (counterexample): in the chain `v0 := v1`, `v1 := v2` the iteration that copies
`v0 := v1` lowers the use counts of `v1 := v2` from 1 to 0, although the source `v2` of that
entry overlaps neither the bytes written (`v0`) nor the bytes read (`v1`) by the copy. -/
theorem decrement_hits_destination :
    (acyclic_step .GFX9 parallelcopy_pi ⟨chain_map, some ⟨1024⟩, true, false, [], 0, 0⟩).toOption.map
        (fun o => o.state.m) =
      some [(⟨1028⟩, ⟨Operand.ofReg ⟨1032⟩ v1, ⟨⟨1028⟩, v1⟩, 4, [0, 0, 0, 0, 0, 0, 0, 0]⟩)] ∧
    (1032 + 4 ≤ 1024 ∨ 1024 + 4 ≤ 1032) ∧ (1032 + 4 ≤ 1028 ∨ 1028 + 4 ≤ 1032) := by
  decide

/-- C24 (amended): the iteration of `handle_operands` that copies (part of) the entry `c`
leaves the map that results from removing or splitting `c`, with use counts changed as
follows: when a copy was made and the source of `c` is a register, `uses[j]` of an entry is
decremented by one (as an 8-bit counter) for every byte `j` of its destination that lies in the
source range of `c` at a position that was copied; no other use count and no other field
changes. -/
theorem use_counts_after_copy (chip : chip_class) (pi : Pseudo_instruction) (s : loop_state)
    (k : PhysReg) (c : copy_operation) (out : step_outcome)
    (hc : c.op.physReg.reg_b < 65536) (hb : c.bytes ≤ 65536)
    (h : acyclic_copy chip pi s k c = .ok out) :
    ∃ r m1, do_copy chip c s.preserve_scc pi.scratch_sgpr = .ok r ∧
      remainder_map s.m k c = .ok m1 ∧
      ((∀ e ∈ m1, e.1.reg_b + e.2.bytes ≤ 4294967296) →
        ∀ (n : Nat) (e : PhysReg × copy_operation), m1[n]? = some e →
          ∃ e1 : PhysReg × copy_operation, out.state.m[n]? = some e1 ∧ e1.1 = e.1 ∧ e1.2.op = e.2.op ∧
            e1.2.def_ = e.2.def_ ∧ e1.2.bytes = e.2.bytes ∧
            ∀ j, e1.2.use j =
              if r.did_copy = true ∧ c.op.isConstant = false ∧ j < e.2.bytes ∧
                  j < e.2.uses.length ∧ source_hit c (e.1.reg_b + j)
              then u8_dec (e.2.use j) else e.2.use j) := by
  unfold acyclic_copy at h
  cases hr : do_copy chip c s.preserve_scc pi.scratch_sgpr with
  | error e => rw [hr] at h; cases h
  | ok r =>
    rw [hr] at h
    cases hm1 : remainder_map s.m k c with
    | error e => rw [hm1] at h; cases h
    | ok m1 =>
      rw [hm1] at h
      simp only [Except.ok.injEq] at h
      refine ⟨r, m1, rfl, rfl, ?_⟩
      intro hm n e he
      rw [← h]
      exact release_uses_spec m1 c r.did_copy hc hb hm n e he

theorem use_counts_after_copy_witness :
    ∃ r m1, do_copy .GFX9 (⟨Operand.ofReg ⟨1028⟩ v1, ⟨⟨1024⟩, v1⟩, 4,
          [0, 0, 0, 0, 0, 0, 0, 0]⟩ : copy_operation) false parallelcopy_pi.scratch_sgpr =
        .ok r ∧
      remainder_map chain_map ⟨1024⟩ ⟨Operand.ofReg ⟨1028⟩ v1, ⟨⟨1024⟩, v1⟩, 4,
          [0, 0, 0, 0, 0, 0, 0, 0]⟩ = .ok m1 ∧
      ((∀ e ∈ m1, e.1.reg_b + e.2.bytes ≤ 4294967296) →
        ∀ (n : Nat) (e : PhysReg × copy_operation), m1[n]? = some e →
          ∃ e1 : PhysReg × copy_operation, (step_outcome.continued
              ⟨[(⟨1028⟩, ⟨Operand.ofReg ⟨1032⟩ v1, ⟨⟨1028⟩, v1⟩, 4,
                [0, 0, 0, 0, 0, 0, 0, 0]⟩)], some ⟨1028⟩, true, false,
                [Instruction.plain .copy [⟨⟨1024⟩, v1⟩] [Operand.ofReg ⟨1028⟩ v1]], 0,
                1⟩).state.m[n]? = some e1 ∧ e1.1 = e.1 ∧ e1.2.op = e.2.op ∧
            e1.2.def_ = e.2.def_ ∧ e1.2.bytes = e.2.bytes ∧
            ∀ j, e1.2.use j =
              if r.did_copy = true ∧ (⟨Operand.ofReg ⟨1028⟩ v1, ⟨⟨1024⟩, v1⟩, 4,
                    [0, 0, 0, 0, 0, 0, 0, 0]⟩ : copy_operation).op.isConstant = false ∧
                  j < e.2.bytes ∧ j < e.2.uses.length ∧
                  source_hit ⟨Operand.ofReg ⟨1028⟩ v1, ⟨⟨1024⟩, v1⟩, 4,
                    [0, 0, 0, 0, 0, 0, 0, 0]⟩ (e.1.reg_b + j)
              then u8_dec (e.2.use j) else e.2.use j) :=
  use_counts_after_copy .GFX9 parallelcopy_pi ⟨chain_map, some ⟨1024⟩, true, false, [], 0, 0⟩
    ⟨1024⟩ ⟨Operand.ofReg ⟨1028⟩ v1, ⟨⟨1024⟩, v1⟩, 4, [0, 0, 0, 0, 0, 0, 0, 0]⟩ _
    (by decide) (by decide) (by rfl)

/-! ## Unknown reduction operators -/

/-- C30: for a raw `ReduceOp` value that names no operator, `emit_reduction` stops at an
assertion or in the unreachable branch of `get_reduction_identity` before its first `bld`
call: the instruction vector of the context is the one on entry. -/
theorem emit_reduction_unknown_op (decode : Nat → Option ReduceOp) (ctx : lower_context)
    (op : aco_opcode) (raw cluster_size : Nat) (tmp stmp vtmp sitmp : PhysReg)
    (src : Operand) (dst : Definition) (h : decode raw = none) :
    get_reduction_identity_raw decode raw 0 = .error .assertion ∧
    emit_reduction_raw decode ctx op raw cluster_size tmp stmp vtmp sitmp src dst =
      .failed_at_entry .assertion ctx.instructions := by
  have h0 : ∀ idx, get_reduction_identity_raw decode raw idx = .error .assertion := by
    intro idx; unfold get_reduction_identity_raw; rw [h]
  refine ⟨h0 0, ?_⟩
  unfold emit_reduction_raw
  split
  · rfl
  · split
    · rfl
    · rw [h0 0]

theorem emit_reduction_unknown_op_witness :
    get_reduction_identity_raw sample_numbering 1000 0 = .error .assertion ∧
    emit_reduction_raw sample_numbering (empty_ctx .GFX9) .p_reduce 1000 64 (PhysReg.ofReg 256)
        (PhysReg.ofReg 10) (PhysReg.ofReg 257) (PhysReg.ofReg 12)
        (Operand.ofReg (PhysReg.ofReg 258) v1) ⟨PhysReg.ofReg 259, v1⟩ =
      .failed_at_entry .assertion (empty_ctx .GFX9).instructions :=
  emit_reduction_unknown_op sample_numbering (empty_ctx .GFX9) .p_reduce 1000 64
    (PhysReg.ofReg 256) (PhysReg.ofReg 10) (PhysReg.ofReg 257) (PhysReg.ofReg 12)
    (Operand.ofReg (PhysReg.ofReg 258) v1) ⟨PhysReg.ofReg 259, v1⟩ (by decide)

/-! ## `get_intersection_mask` -/

theorem u_bit_consecutive_bits (start count : Nat) (h : start + count ≤ 32) :
    ∃ m, u_bit_consecutive start count = .ok m ∧
      ∀ i, m.testBit i = decide (start ≤ i ∧ i < start + count) := by
  unfold u_bit_consecutive
  rw [if_neg (by omega)]
  by_cases hc : count = 32
  · rw [if_pos hc]
    refine ⟨_, rfl, ?_⟩
    intro i
    have hs : start = 0 := by omega
    subst hs; subst hc
    rw [show (4294967295 : Nat) = 2 ^ 32 - 1 by norm_num, Nat.testBit_two_pow_sub_one]
    simp
  · rw [if_neg hc]
    refine ⟨_, rfl, ?_⟩
    intro i
    rw [show (4294967296 : Nat) = 2 ^ 32 by norm_num, Nat.testBit_mod_two_pow,
      Nat.testBit_shiftLeft, Nat.one_shiftLeft, Nat.testBit_two_pow_sub_one]
    by_cases h1 : start ≤ i
    · by_cases h2 : i < start + count
      · simp [h1, h2]; omega
      · simp [h1, h2]; omega
    · simp [h1]

/-- C35 (counterexample): a range `b` that ends more than 32 bytes after `a_start` makes
`get_intersection_mask` call `u_bit_consecutive(0, 40)`, whose assertion
`start + count <= 32` fails, although bytes 0..3 of `a` lie in `b`. -/
theorem intersection_mask_long_range :
    get_intersection_mask 0 4 0 40 = .error .assertion := by
  rfl

/-- C35 (amended): for `0 <= a_size <= 32` and `0 <= b_size`, when the range `b` starts at or
after the end of `a` or ends at most 32 bytes after `a_start`, `get_intersection_mask` returns
the mask whose bit `i` is set if and only if `i < a_size` and
`b_start <= a_start + i < b_start + b_size`; hence it returns 0 exactly when no byte of `a`
lies in `b`. -/
theorem intersection_mask_bits (a_start a_size b_start b_size : Int)
    (ha0 : 0 ≤ a_size) (ha : a_size ≤ 32) (hb0 : 0 ≤ b_size)
    (hlen : b_start - a_start < a_size → b_start + b_size - a_start ≤ 32) :
    ∃ mask, get_intersection_mask a_start a_size b_start b_size = .ok mask ∧
      (∀ i : Nat, mask.testBit i = true ↔
        ((i : Int) < a_size ∧ b_start ≤ a_start + i ∧ a_start + i < b_start + b_size)) ∧
      (mask = 0 ↔ ∀ i : Nat, ¬ ((i : Int) < a_size ∧ b_start ≤ a_start + i ∧
        a_start + i < b_start + b_size)) := by
  have key : ∃ mask, get_intersection_mask a_start a_size b_start b_size = .ok mask ∧
      (∀ i : Nat, mask.testBit i = true ↔
        ((i : Int) < a_size ∧ b_start ≤ a_start + i ∧ a_start + i < b_start + b_size)) := by
    unfold get_intersection_mask
    dsimp only
    by_cases hc : MAX2i (b_start - a_start) 0 ≥ a_size ∨ MAX2i (b_start + b_size - a_start) 0 = 0
    · rw [if_pos hc]
      refine ⟨0, rfl, ?_⟩
      intro i
      simp only [Nat.zero_testBit, Bool.false_eq_true, false_iff]
      unfold MAX2i at hc
      intro ⟨h1, h2, h3⟩
      rcases hc with hc | hc
      · split at hc <;> omega
      · split at hc <;> omega
    · rw [if_neg hc]
      have hs : MAX2i (b_start - a_start) 0 < a_size := by
        by_contra h; exact hc (Or.inl (by omega))
      have he : MAX2i (b_start + b_size - a_start) 0 ≠ 0 := fun h => hc (Or.inr h)
      have hpos : 0 < b_start + b_size - a_start := by
        unfold MAX2i at he; split at he <;> omega
      have hlt : b_start - a_start < a_size := by
        unfold MAX2i at hs; split at hs <;> omega
      have hend : MAX2i (b_start + b_size - a_start) 0 = b_start + b_size - a_start := by
        unfold MAX2i; rw [if_pos (by omega)]
      have hle := hlen hlt
      have hstart0 : 0 ≤ MAX2i (b_start - a_start) 0 := by
        unfold MAX2i; split <;> omega
      have hse : MAX2i (b_start - a_start) 0 ≤ b_start + b_size - a_start := by
        unfold MAX2i; split <;> omega
      obtain ⟨m1, e1, b1⟩ := u_bit_consecutive_bits 0 ((a_size % 4294967296).toNat) (by omega)
      obtain ⟨m2, e2, b2⟩ := u_bit_consecutive_bits (MAX2i (b_start - a_start) 0).toNat
        (((MAX2i (b_start + b_size - a_start) 0 - MAX2i (b_start - a_start) 0)
          % 4294967296).toNat) (by rw [hend]; omega)
      rw [e1]
      dsimp only
      rw [e2]
      refine ⟨_, rfl, ?_⟩
      intro i
      rw [Nat.testBit_and, b1, b2, hend]
      simp only [Bool.and_eq_true, decide_eq_true_eq]
      unfold MAX2i at *
      split_ifs at * <;> omega
  obtain ⟨mask, h1, h2⟩ := key
  refine ⟨mask, h1, h2, ?_⟩
  constructor
  · intro h0 i hi
    have := (h2 i).mpr hi
    rw [h0] at this
    simp at this
  · intro hall
    apply Nat.eq_of_testBit_eq
    intro i
    rw [Nat.zero_testBit]
    cases hb : mask.testBit i
    · rfl
    · exact absurd ((h2 i).mp hb) (hall i)

theorem intersection_mask_bits_witness :
    ∃ mask, get_intersection_mask 1024 8 1028 4 = .ok mask ∧
      (∀ i : Nat, mask.testBit i = true ↔
        ((i : Int) < 8 ∧ (1028 : Int) ≤ 1024 + i ∧ (1024 : Int) + i < 1028 + 4)) ∧
      (mask = 0 ↔ ∀ i : Nat, ¬ ((i : Int) < 8 ∧ (1028 : Int) ≤ 1024 + i ∧
        (1024 : Int) + i < 1028 + 4)) :=
  intersection_mask_bits 1024 8 1028 4 (by decide) (by decide) (by decide) (by decide)

/-! ## Reads of `uses` in `split_copy` -/

theorem inner_reads_bound (src : copy_operation) (offset bytes : Nat) :
    ∀ n i idx, idx ∈ inner_reads src offset bytes n i → idx < offset + bytes * 2 := by
  intro n
  induction n with
  | zero => intro i idx h; simp [inner_reads] at h
  | succ n ih =>
    intro i idx h
    simp only [inner_reads] at h
    by_cases hi : i < bytes
    · rw [if_pos hi] at h
      split at h
      · rcases List.mem_cons.mp h with h | h
        · omega
        · rcases List.mem_cons.mp h with h | h
          · omega
          · exact ih _ _ h
      · simp only [List.mem_cons, List.mem_singleton, List.not_mem_nil, or_false] at h
        omega
    · rw [if_neg hi] at h; simp at h

theorem mem_ite_elim (c : Bool) (A B : List Nat) (x : Nat)
    (h : x ∈ if c = true then A else B) : (c = true ∧ x ∈ A) ∨ x ∈ B := by
  cases c
  · right; simpa using h
  · left; exact ⟨rfl, by simpa using h⟩

theorem can_increase_inside (isc : Bool) (def_b op_b offset next limit bytes : Nat)
    (h : (if (!isc && (def_b % next == 0 && decide (offset + next ≤ bytes) &&
        decide (next ≤ limit))) = true then op_b % next == 0
      else (def_b % next == 0 && decide (offset + next ≤ bytes) &&
        decide (next ≤ limit))) = true) : offset + next ≤ bytes := by
  cases isc
  · simp only [Bool.not_false, Bool.true_and] at h
    split at h
    · rename_i h0
      simp only [Bool.and_eq_true, decide_eq_true_eq] at h0
      exact h0.1.2
    · rename_i h0
      exact absurd h h0
  · simp only [Bool.not_true, Bool.false_and, Bool.false_eq_true, if_false, Bool.and_eq_true,
      decide_eq_true_eq] at h
    exact h.1.2

theorem split_copy_reads_loop_bound (src : copy_operation) (offset : Nat) (ign : Bool)
    (limit def_b op_b : Nat) :
    ∀ fuel b idx, idx ∈ split_copy_reads_loop src offset ign limit def_b op_b fuel b →
      idx < src.bytes := by
  intro fuel
  induction fuel with
  | zero => intro b idx h; simp [split_copy_reads_loop] at h
  | succ f ih =>
    intro b idx h
    simp only [split_copy_reads_loop] at h
    by_cases hle : b ≤ limit
    · rw [if_pos hle] at h
      have hreads : ∀ idx, idx ∈ (if (!ign && (if (!src.op.isConstant &&
          (def_b % (b * 2) == 0 && decide (offset + b * 2 ≤ src.bytes) &&
            decide (b * 2 ≤ limit))) = true then op_b % (b * 2) == 0
          else (def_b % (b * 2) == 0 && decide (offset + b * 2 ≤ src.bytes) &&
            decide (b * 2 ≤ limit)))) = true
          then inner_reads src offset b b 0 else []) → idx < src.bytes := by
        intro idx hx
        rcases mem_ite_elim _ _ _ _ hx with ⟨hc, hx⟩ | hx
        · have h2 := can_increase_inside _ _ _ _ _ _ _ (Bool.and_elim_right hc)
          have := inner_reads_bound src offset b b 0 idx hx
          omega
        · simp at hx
      rcases mem_ite_elim _ _ _ _ h with ⟨_, h⟩ | h
      · rcases List.mem_append.mp h with h | h
        · exact hreads idx h
        · exact ih _ _ h
      · exact hreads idx h
    · rw [if_neg hle] at h; simp at h

/-- C36: every index at which `split_copy` reads `copy.uses` is smaller than `copy.bytes`,
hence within the 8-element array when `copy.bytes <= 8`. -/
theorem split_copy_reads_in_bounds (offset : Nat) (src : copy_operation) (ignore_uses : Bool)
    (max_size : Nat) (hb : src.bytes ≤ 8) (idx : Nat)
    (h : idx ∈ split_copy_reads offset src ignore_uses max_size) :
    idx < src.bytes ∧ idx < 8 := by
  unfold split_copy_reads at h
  have := split_copy_reads_loop_bound src offset ignore_uses _ _ _ 4 1 idx h
  exact ⟨this, by omega⟩

theorem split_copy_reads_in_bounds_witness :
    4 < half_used_copy.bytes ∧ 4 < 8 :=
  split_copy_reads_in_bounds 0 half_used_copy false 8 (by decide) 4 (by decide)

/-! ## Copy map of `p_create_vector` -/

theorem create_vector_copies_get (def_type : RegType) :
    ∀ (ops : List vector_operand) (reg : PhysReg) (k : Nat) (o : vector_operand),
      ops[k]? = some o →
      (create_vector_copies def_type reg ops)[k]? =
        some (create_vector_copy def_type ⟨(reg.reg_b + bytes_before ops k) % 65536⟩ o) ∨
      65536 ≤ reg.reg_b := by
  intro ops
  induction ops with
  | nil => intro reg k o h; simp at h
  | cons a ops ih =>
    intro reg k o h
    by_cases hr : 65536 ≤ reg.reg_b
    · exact Or.inr hr
    left
    cases k with
    | zero =>
      simp only [List.getElem?_cons_zero, Option.some.injEq] at h
      subst h
      simp only [create_vector_copies, List.getElem?_cons_zero, bytes_before, List.take_zero,
        List.map_nil, List.sum_nil, Nat.add_zero]
      rw [Nat.mod_eq_of_lt (by omega)]
    | succ k =>
      simp only [List.getElem?_cons_succ] at h
      simp only [create_vector_copies, List.getElem?_cons_succ]
      rcases ih (reg.advance a.op.bytes) k o h with h1 | h1
      · rw [h1]
        simp only [bytes_before, List.take_succ_cons, List.map_cons, List.sum_cons,
          PhysReg.advance]
        congr 3
        omega
      · exfalso
        simp only [PhysReg.advance] at h1
        have := Nat.mod_lt (reg.reg_b + a.op.bytes) (show 0 < 65536 by decide)
        omega

theorem create_vector_map_mem_loop (l : List (Option (PhysReg × copy_operation))) :
    ∀ (m : copy_map) (e : PhysReg × copy_operation),
      e ∈ l.foldl (fun m c =>
        match c with
        | some e => map_insert m e.1 e.2
        | none => m) m → e ∈ m ∨ some e ∈ l := by
  induction l with
  | nil => intro m e h; exact Or.inl h
  | cons c l ih =>
    intro m e h
    simp only [List.foldl_cons] at h
    rcases ih _ e h with h1 | h1
    · cases c with
      | none => exact Or.inl h1
      | some a =>
        rcases mem_map_insert _ _ _ _ h1 with h2 | h2
        · right
          rw [h2]
          exact List.mem_cons_self _ _
        · exact Or.inl h2
    · exact Or.inr (List.mem_cons_of_mem _ h1)

theorem map_find_insert_self (m : copy_map) (k : PhysReg) (v : copy_operation) :
    map_find (map_insert m k v) k = some v := by
  induction m with
  | nil => simp [map_insert, map_find]
  | cons e rest ih =>
    simp only [map_insert]
    by_cases h1 : k.reg_b < e.1.reg_b
    · rw [if_pos h1]
      simp [map_find]
    · rw [if_neg h1]
      by_cases h2 : e.1 = k
      · rw [if_pos h2]
        simp [map_find]
      · rw [if_neg h2]
        simp only [map_find, if_neg h2]
        exact ih

theorem map_find_insert_other (m : copy_map) (k k1 : PhysReg) (v : copy_operation)
    (h : k ≠ k1) : map_find (map_insert m k v) k1 = map_find m k1 := by
  induction m with
  | nil => simp [map_insert, map_find, h]
  | cons e rest ih =>
    simp only [map_insert]
    by_cases h1 : k.reg_b < e.1.reg_b
    · rw [if_pos h1]
      simp only [map_find, if_neg h]
    · rw [if_neg h1]
      by_cases h2 : e.1 = k
      · rw [if_pos h2]
        have h3 : e.1 ≠ k1 := by rw [h2]; exact h
        simp only [map_find, if_neg h, if_neg h3]
      · rw [if_neg h2]
        simp only [map_find]
        rw [ih]

theorem create_vector_fold_other (l : List (Option (PhysReg × copy_operation))) :
    ∀ (m : copy_map) (key : PhysReg), (∀ e, some e ∈ l → e.1 ≠ key) →
      map_find (l.foldl (fun m c =>
        match c with
        | some e => map_insert m e.1 e.2
        | none => m) m) key = map_find m key := by
  induction l with
  | nil => intro m key _; rfl
  | cons c l ih =>
    intro m key h
    rw [List.foldl_cons, ih _ key (fun e he => h e (List.mem_cons_of_mem _ he))]
    cases c with
    | none => rfl
    | some e =>
      exact map_find_insert_other m e.1 key e.2 (h e (List.mem_cons_self _ _))

theorem create_vector_copy_key (def_type : RegType) (reg : PhysReg) (o : vector_operand)
    (e : PhysReg × copy_operation) (h : create_vector_copy def_type reg o = some e) :
    e.1 = reg := by
  unfold create_vector_copy at h
  split at h
  · simp only [Option.some.injEq] at h
    rw [← h]
  · split at h
    · cases h
    · simp only [Option.some.injEq] at h
      rw [← h]

theorem create_vector_keys_ge (def_type : RegType) :
    ∀ (ops : List vector_operand) (reg : PhysReg),
      (∀ o ∈ ops, 1 ≤ o.op.bytes) →
      reg.reg_b + bytes_before ops ops.length ≤ 65536 →
      ∀ e, some e ∈ create_vector_copies def_type reg ops → reg.reg_b ≤ e.1.reg_b := by
  intro ops
  induction ops with
  | nil => intro reg _ _ e he; simp [create_vector_copies] at he
  | cons a rest ih =>
    intro reg hpos hfit e he
    simp only [create_vector_copies, List.mem_cons] at he
    have ha := hpos a (List.mem_cons_self _ _)
    have hsum : bytes_before (a :: rest) (a :: rest).length =
        a.op.bytes + bytes_before rest rest.length := by
      simp [bytes_before]
    rw [hsum] at hfit
    rcases he with he | he
    · rw [create_vector_copy_key def_type reg a e he.symm]
    · cases rest with
      | nil => simp [create_vector_copies] at he
      | cons b rest2 =>
        have hb := hpos b (List.mem_cons_of_mem _ (List.mem_cons_self _ _))
        have hsum2 : bytes_before (b :: rest2) (b :: rest2).length =
            b.op.bytes + bytes_before rest2 rest2.length := by
          simp [bytes_before]
        rw [hsum2] at hfit
        have hadv : (reg.advance a.op.bytes).reg_b = reg.reg_b + a.op.bytes := by
          simp only [PhysReg.advance]
          omega
        have := ih (reg.advance a.op.bytes) (fun o ho => hpos o (List.mem_cons_of_mem _ ho))
          (by rw [hadv, hsum2]; omega) e he
        omega

theorem create_vector_fold_find (def_type : RegType) :
    ∀ (ops : List vector_operand) (reg : PhysReg) (m : copy_map) (k : Nat)
      (o : vector_operand) (e : PhysReg × copy_operation),
      (∀ o ∈ ops, 1 ≤ o.op.bytes) →
      reg.reg_b + bytes_before ops ops.length ≤ 65536 →
      ops[k]? = some o →
      create_vector_copy def_type ⟨(reg.reg_b + bytes_before ops k) % 65536⟩ o = some e →
      map_find ((create_vector_copies def_type reg ops).foldl (fun m c =>
        match c with
        | some e => map_insert m e.1 e.2
        | none => m) m) e.1 = some e.2 := by
  intro ops
  induction ops with
  | nil => intro reg m k o e _ _ h; simp at h
  | cons a rest ih =>
    intro reg m k o e hpos hfit hk he
    have ha := hpos a (List.mem_cons_self _ _)
    have hsum : bytes_before (a :: rest) (a :: rest).length =
        a.op.bytes + bytes_before rest rest.length := by
      simp [bytes_before]
    rw [hsum] at hfit
    simp only [create_vector_copies, List.foldl_cons]
    cases k with
    | zero =>
      simp only [List.getElem?_cons_zero, Option.some.injEq] at hk
      subst hk
      have hreg : (⟨(reg.reg_b + bytes_before (a :: rest) 0) % 65536⟩ : PhysReg) = reg := by
        have : bytes_before (a :: rest) 0 = 0 := by simp [bytes_before]
        rw [this, Nat.add_zero, Nat.mod_eq_of_lt (by omega)]
      rw [hreg] at he
      have hkey := create_vector_copy_key def_type reg a e he
      rw [he]
      dsimp only
      rw [create_vector_fold_other _ _ e.1, map_find_insert_self]
      intro e1 he1
      cases rest with
      | nil => simp [create_vector_copies] at he1
      | cons b rest2 =>
        have hb := hpos b (List.mem_cons_of_mem _ (List.mem_cons_self _ _))
        have hsum2 : bytes_before (b :: rest2) (b :: rest2).length =
            b.op.bytes + bytes_before rest2 rest2.length := by
          simp [bytes_before]
        rw [hsum2] at hfit
        have hadv : (reg.advance a.op.bytes).reg_b = reg.reg_b + a.op.bytes := by
          simp only [PhysReg.advance]
          omega
        have := create_vector_keys_ge def_type (b :: rest2) (reg.advance a.op.bytes)
          (fun o ho => hpos o (List.mem_cons_of_mem _ ho))
          (by rw [hadv, hsum2]; omega) e1 he1
        intro heq
        rw [heq, hkey] at this
        omega
    | succ k =>
      simp only [List.getElem?_cons_succ] at hk
      have hlt : k < rest.length := by
        by_contra hc
        rw [List.getElem?_eq_none (by omega)] at hk
        cases hk
      have hbb : bytes_before (a :: rest) (k + 1) = a.op.bytes + bytes_before rest k := by
        simp [bytes_before]
      have hle : bytes_before rest k ≤ bytes_before rest rest.length := by
        unfold bytes_before
        have h1 : (List.map (fun o : vector_operand => o.op.bytes) rest).sum =
            (List.map (fun o : vector_operand => o.op.bytes) (rest.take k)).sum +
            (List.map (fun o : vector_operand => o.op.bytes) (rest.drop k)).sum := by
          rw [← List.sum_append, ← List.map_append, List.take_append_drop]
        rw [List.take_length, h1]
        omega
      have hne : rest ≠ [] := by
        intro h
        rw [h] at hlt
        simp at hlt
      have hadv : (reg.advance a.op.bytes).reg_b = reg.reg_b + a.op.bytes := by
        simp only [PhysReg.advance]
        have : 1 ≤ bytes_before rest rest.length := by
          cases rest with
          | nil => exact absurd rfl hne
          | cons b rest2 =>
            have hb := hpos b (List.mem_cons_of_mem _ (List.mem_cons_self _ _))
            have : bytes_before (b :: rest2) (b :: rest2).length =
                b.op.bytes + bytes_before rest2 rest2.length := by
              simp [bytes_before]
            omega
        omega
      refine ih (reg.advance a.op.bytes) _ k o e
        (fun o ho => hpos o (List.mem_cons_of_mem _ ho)) (by rw [hadv]; omega) hk ?_
      rw [hadv]
      rw [hbb] at he
      rw [← he]
      congr 2
      omega

/-- C38: in the `p_create_vector` case of `lower_to_hw_instr`, operand `k` is handled at the
definition's register advanced by the byte sizes of the operands before it: a constant operand
and a defined register operand create a copy of `op.bytes()` bytes with that destination and
the operand as source, an undefined operand creates none, and every entry of the map passed to
`handle_operands` is one of the copies created.  When every operand has at least one byte and
the vector ends inside the register file, the map holds the copy of operand `k` under its
destination. -/
theorem create_vector_copy_map (d : Definition) (ops : List vector_operand) (k : Nat)
    (o : vector_operand) (hreg : d.physReg.reg_b < 65536) (hk : ops[k]? = some o) :
    ∃ c, (create_vector_copies d.regClass.type d.physReg ops)[k]? = some c ∧
      (o.op.isConstant = false → o.isUndefined = true → c = none) ∧
      ((o.op.isConstant = true ∨ o.isUndefined = false) →
        ∃ cp : copy_operation,
          c = some (⟨(d.physReg.reg_b + bytes_before ops k) % 65536⟩, cp) ∧
          cp.op = o.op ∧ cp.bytes = o.op.bytes ∧
          cp.def_.physReg = ⟨(d.physReg.reg_b + bytes_before ops k) % 65536⟩) ∧
      (∀ e ∈ create_vector_map d ops,
        some e ∈ create_vector_copies d.regClass.type d.physReg ops) ∧
      ((∀ o ∈ ops, 1 ≤ o.op.bytes) →
        d.physReg.reg_b + bytes_before ops ops.length ≤ 65536 →
        ∀ cp : copy_operation,
          c = some (⟨(d.physReg.reg_b + bytes_before ops k) % 65536⟩, cp) →
          map_find (create_vector_map d ops)
            ⟨(d.physReg.reg_b + bytes_before ops k) % 65536⟩ = some cp) := by
  rcases create_vector_copies_get d.regClass.type ops d.physReg k o hk with h | h
  · refine ⟨_, h, ?_, ?_, ?_, ?_⟩
    · intro h1 h2
      simp only [create_vector_copy, h1, h2, if_true, Bool.false_eq_true, if_false]
    · intro h1
      by_cases hc : o.op.isConstant = true
      · simp only [create_vector_copy, hc, if_true]
        exact ⟨_, rfl, rfl, rfl, rfl⟩
      · have hu : o.isUndefined = false := by
          rcases h1 with h1 | h1
          · exact absurd h1 hc
          · exact h1
        simp only [create_vector_copy, hc, hu, if_false, Bool.false_eq_true]
        exact ⟨_, rfl, rfl, rfl, rfl⟩
    · intro e he
      rcases create_vector_map_mem_loop _ [] e he with h1 | h1
      · cases h1
      · exact h1
    · intro hpos hfit cp hcp
      exact create_vector_fold_find d.regClass.type ops d.physReg [] k o _ hpos hfit hk hcp
  · omega

theorem create_vector_copy_map_witness :
    ∃ c, (create_vector_copies sample_vector_definition.regClass.type
        sample_vector_definition.physReg sample_vector_operands)[2]? = some c ∧
      ((Operand.c32 0).isConstant = false → false = true → c = none) ∧
      (((Operand.c32 0).isConstant = true ∨ false = false) →
        ∃ cp : copy_operation,
          c = some (⟨(sample_vector_definition.physReg.reg_b +
            bytes_before sample_vector_operands 2) % 65536⟩, cp) ∧
          cp.op = Operand.c32 0 ∧ cp.bytes = (Operand.c32 0).bytes ∧
          cp.def_.physReg = ⟨(sample_vector_definition.physReg.reg_b +
            bytes_before sample_vector_operands 2) % 65536⟩) ∧
      (∀ e ∈ create_vector_map sample_vector_definition sample_vector_operands,
        some e ∈ create_vector_copies sample_vector_definition.regClass.type
          sample_vector_definition.physReg sample_vector_operands) ∧
      ((∀ o ∈ sample_vector_operands, 1 ≤ o.op.bytes) →
        sample_vector_definition.physReg.reg_b +
          bytes_before sample_vector_operands sample_vector_operands.length ≤ 65536 →
        ∀ cp : copy_operation,
          c = some (⟨(sample_vector_definition.physReg.reg_b +
            bytes_before sample_vector_operands 2) % 65536⟩, cp) →
          map_find (create_vector_map sample_vector_definition sample_vector_operands)
            ⟨(sample_vector_definition.physReg.reg_b +
              bytes_before sample_vector_operands 2) % 65536⟩ = some cp) :=
  create_vector_copy_map sample_vector_definition sample_vector_operands 2
    ⟨Operand.c32 0, false⟩ (by decide) (by decide)

/-- The map built for the sample vector holds the copies of the first and the third operand
under `v0` and `v2`, and nothing for the undefined second operand. -/
theorem sample_vector_map :
    (create_vector_map sample_vector_definition sample_vector_operands).map
      (fun e => (e.1.reg_b, e.2.op, e.2.bytes)) =
      [(1024, Operand.ofReg ⟨1040⟩ v1, 4), (1032, Operand.c32 0, 4)] := by
  decide

/-! ## The block loop of `lower_to_hw_instr` -/

theorem handle_appends (fuel : Nat) (s s1 : block_state) (m : copy_map) (bi : block_instruction)
    (h : s.handle fuel m bi = .ok s1) :
    ∃ out, s1.ctx.instructions = s.ctx.instructions ++ out := by
  unfold block_state.handle at h
  cases hr : handle_operands fuel m s.ctx s.ctx.program.chip_class bi.pi with
  | error e => simp only [hr] at h; cases h
  | ok r =>
    simp only [hr, Except.ok.injEq] at h
    obtain ⟨ls, _, hs⟩ := handle_operands_finish _ _ _ _ _ _ hr
    subst h
    exact ⟨ls.instrs, by rw [hs]; rfl⟩

theorem emit_appends (s : block_state) (is : List Instruction) :
    (s.emit is).ctx.instructions = s.ctx.instructions ++ is := rfl

theorem lower_exit_early_if_appends (env : block_env) (s s1 : block_state)
    (bi : block_instruction) (rest : List block_instruction)
    (h : lower_exit_early_if env s bi rest = .ok s1) :
    ∃ out, s1.ctx.instructions = s.ctx.instructions ++ out := by
  unfold lower_exit_early_if at h
  dsimp only at h
  split at h
  · cases h
  · simp only [Except.ok.injEq] at h
    subst h
    exact ⟨[], (List.append_nil _).symm⟩
  · have hctx : (match s.discard_block with
        | some _ => s
        | none => (⟨s.ctx, s.linear_succs, some s.num_blocks, discard_block_instructions env,
            s.discard_preds, s.num_blocks + 1⟩ : block_state)).ctx = s.ctx := by
      cases s.discard_block <;> rfl
    split at h
    · split at h
      · cases h
      · simp only [Except.ok.injEq] at h
        subst h
        dsimp only
        rw [hctx]
        exact ⟨_, rfl⟩
    · cases h

theorem lower_pseudo_appends (fuel : Nat) (env : block_env) (s s1 : block_state)
    (bi : block_instruction) (rest : List block_instruction)
    (h : lower_pseudo fuel env s bi rest = .ok s1) :
    ∃ out, s1.ctx.instructions = s.ctx.instructions ++ out := by
  unfold lower_pseudo at h
  split at h
  all_goals first
    | exact lower_exit_early_if_appends env s s1 bi rest h
    | (iterate 6 (all_goals ((try dsimp only at h); (try split at h)))
       all_goals first
        | (cases h; done)
        | exact handle_appends _ _ _ _ _ h
        | (simp only [Except.ok.injEq] at h
           subst h
           first
             | exact ⟨[], (List.append_nil _).symm⟩
             | exact ⟨_, emit_appends _ _⟩))

theorem lower_branch_appends (s s1 : block_state) (bi : block_instruction)
    (h : lower_branch s bi = .ok s1) :
    ∃ out, s1.ctx.instructions = s.ctx.instructions ++ out := by
  unfold lower_branch at h
  split at h
  all_goals
    (iterate 6 (all_goals (try split at h))
     all_goals first
      | (cases h; done)
      | (simp only [Except.ok.injEq] at h
         subst h
         exact ⟨_, emit_appends _ _⟩))

theorem lower_reduction_appends (s s1 : block_state) (bi : block_instruction)
    (h : lower_reduction s bi = .ok s1) :
    ∃ out, s1.ctx.instructions = s.ctx.instructions ++ out := by
  unfold lower_reduction at h
  split at h
  · split at h
    · cases h
    · simp only [Except.ok.injEq] at h
      subst h
      exact ⟨_, emit_appends _ _⟩
  · cases h

/-- One iteration of the loop over the instructions only appends to `ctx.instructions`: an
instruction that is no pseudo-instruction is appended itself, a removable branch appends
nothing. -/
theorem lower_instruction_appends (fuel : Nat) (env : block_env) (s s1 : block_state)
    (bi : block_instruction) (rest : List block_instruction)
    (h : lower_instruction fuel env s bi rest = .ok s1) :
    ∃ out, s1.ctx.instructions = s.ctx.instructions ++ out ∧
      (bi.format.is_hardware = true → out = [bi.instr]) ∧
      (bi.format = .PSEUDO_BRANCH → can_remove env bi = true → out = []) := by
  unfold lower_instruction at h
  split at h
  · rename_i hf
    obtain ⟨out, ho⟩ := lower_pseudo_appends fuel env s s1 bi rest h
    refine ⟨out, ho, ?_, ?_⟩
    · intro h1; rw [hf] at h1; cases h1
    · intro h1; rw [hf] at h1; cases h1
  · rename_i hf
    by_cases hc : can_remove env bi = true
    · rw [if_pos hc] at h
      simp only [Except.ok.injEq] at h
      subst h
      refine ⟨[], (List.append_nil _).symm, ?_, fun _ _ => rfl⟩
      intro h1; rw [hf] at h1; cases h1
    · rw [if_neg hc] at h
      obtain ⟨out, ho⟩ := lower_branch_appends s s1 bi h
      refine ⟨out, ho, ?_, ?_⟩
      · intro h1; rw [hf] at h1; cases h1
      · intro _ h2; exact absurd h2 hc
  · rename_i hf
    obtain ⟨out, ho⟩ := lower_reduction_appends s s1 bi h
    refine ⟨out, ho, ?_, ?_⟩
    · intro h1; rw [hf] at h1; cases h1
    · intro h1; rw [hf] at h1; cases h1
  · rename_i n hf
    simp only [Except.ok.injEq] at h
    subst h
    refine ⟨[bi.instr], rfl, fun _ => rfl, ?_⟩
    intro h1; rw [hf] at h1; cases h1

theorem lower_block_loop_outputs (fuel : Nat) (env : block_env) :
    ∀ (instrs : List block_instruction) (s s1 : block_state),
      lower_block_loop fuel env s instrs = .ok s1 →
      ∃ outs : List (List Instruction), outs.length = instrs.length ∧
        s1.ctx.instructions = s.ctx.instructions ++ outs.flatten ∧
        ∀ (k : Nat) (bi : block_instruction), instrs[k]? = some bi →
          (∃ (sk sk1 : block_state) (out : List Instruction),
            lower_instruction fuel env sk bi (instrs.drop (k + 1)) = .ok sk1 ∧
            outs[k]? = some out ∧
            sk.ctx.instructions = s.ctx.instructions ++ (outs.take k).flatten ∧
            sk1.ctx.instructions = sk.ctx.instructions ++ out) ∧
          (bi.format.is_hardware = true → outs[k]? = some [bi.instr]) ∧
          (bi.format = .PSEUDO_BRANCH → can_remove env bi = true → outs[k]? = some []) := by
  intro instrs
  induction instrs with
  | nil =>
    intro s s1 h
    simp only [lower_block_loop, Except.ok.injEq] at h
    subst h
    exact ⟨[], rfl, by simp, by intro k bi hk; simp at hk⟩
  | cons a rest ih =>
    intro s s1 h
    rw [lower_block_loop] at h
    cases hl : lower_instruction fuel env s a rest with
    | error e => simp only [hl] at h; cases h
    | ok s2 =>
      simp only [hl] at h
      obtain ⟨out, ho, hhw, hbr⟩ := lower_instruction_appends fuel env s s2 a rest hl
      obtain ⟨outs, hlen, hj, hk⟩ := ih s2 s1 h
      refine ⟨out :: outs, by simp [hlen], ?_, ?_⟩
      · rw [hj, ho, List.flatten_cons, List.append_assoc]
      · intro k bi hb
        cases k with
        | zero =>
          simp only [List.getElem?_cons_zero, Option.some.injEq] at hb
          subst hb
          refine ⟨⟨s, s2, out, ?_, ?_, ?_, ho⟩, ?_, ?_⟩
          · simpa using hl
          · exact List.getElem?_cons_zero
          · simp
          · intro h1
            rw [hhw h1]
            exact List.getElem?_cons_zero
          · intro h1 h2
            rw [hbr h1 h2]
            exact List.getElem?_cons_zero
        | succ k =>
          simp only [List.getElem?_cons_succ] at hb
          obtain ⟨⟨sk, sk1, o, e1, e2, e3, e4⟩, e5, e6⟩ := hk k bi hb
          refine ⟨⟨sk, sk1, o, ?_, ?_, ?_, e4⟩, ?_, ?_⟩
          · simpa using e1
          · simpa using e2
          · rw [e3, ho, List.take_succ_cons, List.flatten_cons, List.append_assoc]
          · intro h1
            simpa using e5 h1
          · intro h1 h2
            simpa using e6 h1 h2

theorem hardware_outputs_filter :
    ∀ (instrs : List block_instruction) (outs : List (List Instruction)),
      outs.length = instrs.length →
      (∀ (k : Nat) (bi : block_instruction), instrs[k]? = some bi →
        bi.format.is_hardware = true → outs[k]? = some [bi.instr]) →
      (instrs.filter (fun bi => bi.format.is_hardware)).map (fun bi => bi.instr)
        = (List.zipWith (fun bi out => if bi.format.is_hardware then out else [])
            instrs outs).flatten := by
  intro instrs
  induction instrs with
  | nil => intro outs _ _; simp
  | cons a rest ih =>
    intro outs h1 h4
    cases outs with
    | nil => simp at h1
    | cons o outs =>
      have hr := ih outs (by simpa using h1) (fun k bi hk hf => by
        have := h4 (k + 1) bi (by simpa using hk) hf
        simpa using this)
      have h0 := h4 0 a (by simp)
      simp only [List.getElem?_cons_zero, Option.some.injEq] at h0
      by_cases hf : a.format.is_hardware = true
      · simp only [List.filter_cons, hf, if_true, List.map_cons, List.zipWith_cons_cons,
          List.flatten_cons, h0 hf, hr, List.singleton_append]
      · simp only [List.filter_cons, hf, if_false, List.zipWith_cons_cons,
          List.flatten_cons, hr, List.nil_append, Bool.false_eq_true]

theorem sample_block_lowered :
    lower_block 16 sample_env sample_state sample_block = .ok sample_block_state := by
  rfl

theorem sample_block_instructions :
    sample_block_state.ctx.instructions =
      [Instruction.plain .v_mov_b32 [⟨⟨1028⟩, v1⟩] [Operand.ofReg ⟨1024⟩ v1],
       Instruction.plain .copy [⟨⟨1032⟩, v1⟩] [Operand.ofReg ⟨1028⟩ v1],
       ⟨.s_cbranch_scc0, [], [Operand.ofReg scc s1], .imm 2⟩,
       Instruction.plain .v_mov_b32 [⟨⟨1036⟩, v1⟩] [Operand.ofReg ⟨1032⟩ v1]] := by
  decide

/-- C39: the loop over a block of `lower_to_hw_instr` leaves in the block, after the optional
mode instruction, the concatenation in instruction order of one output list per instruction:
the iteration for instruction `k` starts with exactly the output of the instructions before
it and only appends its own output; the output of an instruction whose format is not
`PSEUDO`, `PSEUDO_BRANCH` or `PSEUDO_REDUCTION` is that instruction alone, so these
instructions appear unchanged and in their order. -/
theorem real_instructions_pass_through (fuel : Nat) (env : block_env) (s s1 : block_state)
    (instrs : List block_instruction) (h : lower_block fuel env s instrs = .ok s1) :
    ∃ (ms : List Instruction) (outs : List (List Instruction)),
      mode_instructions env = .ok ms ∧ outs.length = instrs.length ∧
      s1.ctx.instructions = ms ++ outs.flatten ∧
      (∀ (k : Nat) (bi : block_instruction), instrs[k]? = some bi →
        (∃ (sk sk1 : block_state) (out : List Instruction),
          lower_instruction fuel env sk bi (instrs.drop (k + 1)) = .ok sk1 ∧
          outs[k]? = some out ∧
          sk.ctx.instructions = ms ++ (outs.take k).flatten ∧
          sk1.ctx.instructions = sk.ctx.instructions ++ out) ∧
        (bi.format.is_hardware = true → outs[k]? = some [bi.instr])) ∧
      (instrs.filter (fun bi => bi.format.is_hardware)).map (fun bi => bi.instr)
        = (List.zipWith (fun bi out => if bi.format.is_hardware then out else [])
            instrs outs).flatten := by
  unfold lower_block at h
  cases hm : mode_instructions env with
  | error e => simp only [hm] at h; cases h
  | ok ms =>
    simp only [hm] at h
    obtain ⟨outs, h1, h2, h3⟩ := lower_block_loop_outputs fuel env instrs _ s1 h
    refine ⟨ms, outs, rfl, h1, h2, ?_, ?_⟩
    · intro k bi hk
      obtain ⟨e1, e2, _⟩ := h3 k bi hk
      exact ⟨e1, e2⟩
    · exact hardware_outputs_filter instrs outs h1 (fun k bi hk hf => (h3 k bi hk).2.1 hf)

theorem real_instructions_pass_through_witness :
    ∃ (ms : List Instruction) (outs : List (List Instruction)),
      mode_instructions sample_env = .ok ms ∧ outs.length = sample_block.length ∧
      sample_block_state.ctx.instructions = ms ++ outs.flatten ∧
      (∀ (k : Nat) (bi : block_instruction), sample_block[k]? = some bi →
        (∃ (sk sk1 : block_state) (out : List Instruction),
          lower_instruction 16 sample_env sk bi (sample_block.drop (k + 1)) = .ok sk1 ∧
          outs[k]? = some out ∧
          sk.ctx.instructions = ms ++ (outs.take k).flatten ∧
          sk1.ctx.instructions = sk.ctx.instructions ++ out) ∧
        (bi.format.is_hardware = true → outs[k]? = some [bi.instr])) ∧
      (sample_block.filter (fun bi => bi.format.is_hardware)).map (fun bi => bi.instr)
        = (List.zipWith (fun bi out => if bi.format.is_hardware then out else [])
            sample_block outs).flatten :=
  real_instructions_pass_through 16 sample_env sample_state sample_block_state sample_block
    sample_block_lowered

/-! ## Turnip: GMEM partition -/

theorem share_step (A T c B n d : Nat) (hc : 0 < T + c) (h1 : n * (T + c) ≤ (B + n) * c)
    (h2 : A * (T + c) ≤ (B + n) * d) : A * T ≤ B * d := by
  have e0 : n * T ≤ B * c := by nlinarith
  have e1 : T * (A * (T + c)) ≤ T * ((B + n) * d) := Nat.mul_le_mul_left T h2
  have e2 : d * (n * T) ≤ d * (B * c) := Nat.mul_le_mul_left d e0
  apply Nat.le_of_mul_le_mul_right _ hc
  nlinarith

theorem attachment_nblocks_bounds (sh B T c off px : Nat) (go : Int) (hT : c ≤ T)
    (hc : 1 ≤ c) (hlt : B * T < 4294967296)
    (hs : max 1 (c >>> sh) * T ≤ B * c) :
    1 ≤ attachment_nblocks sh ⟨B, T, off, px⟩ ⟨c, go⟩ ∧
    attachment_nblocks sh ⟨B, T, off, px⟩ ⟨c, go⟩ ≤ B ∧
    attachment_nblocks sh ⟨B, T, off, px⟩ ⟨c, go⟩ * T ≤ B * c := by
  have hBc : B * c ≤ B * T := Nat.mul_le_mul_left B hT
  have hT0 : 0 < T := by omega
  have hA : max 1 (c >>> sh) ≤ B * c / T := (Nat.le_div_iff_mul_le hT0).mpr hs
  have hshare : B * c / T ≤ B := Nat.div_le_of_le_mul (by rw [Nat.mul_comm T B]; exact hBc)
  have hmask : (B * c / T) &&& (4294967296 - max 1 (c >>> sh)) ≤ B * c / T := Nat.and_le_left
  have hn : attachment_nblocks sh ⟨B, T, off, px⟩ ⟨c, go⟩ =
      max ((B * c / T) &&& (4294967296 - max 1 (c >>> sh))) (max 1 (c >>> sh)) := by
    simp only [attachment_nblocks]
    rw [Nat.mod_eq_of_lt (by omega)]
  rw [hn]
  have h1 : 1 ≤ max 1 (c >>> sh) := le_max_left _ _
  have h2 : max ((B * c / T) &&& (4294967296 - max 1 (c >>> sh))) (max 1 (c >>> sh)) ≤
      B * c / T := max_le hmask hA
  refine ⟨le_trans h1 (le_max_right _ _), le_trans h2 hshare, ?_⟩
  calc _ ≤ B * c / T * T := Nat.mul_le_mul_right T h2
    _ ≤ B * c := Nat.div_mul_le_self _ _

theorem gmem_cpp_sum_cons (a : tu_render_pass_attachment)
    (rest : List tu_render_pass_attachment) :
    gmem_cpp_sum (a :: rest) =
      (if 0 ≤ a.gmem_offset then a.cpp else 0) + gmem_cpp_sum rest := by
  by_cases h : 0 ≤ a.gmem_offset
  · simp [gmem_cpp_sum, tu_render_pass_attachment.in_gmem, List.filter_cons, h]
  · simp [gmem_cpp_sum, tu_render_pass_attachment.in_gmem, List.filter_cons, h]

theorem gmem_loop_spec (g sh ccu : Nat) (hsh : sh < 32) (hccu : ccu < 2147483648) :
    ∀ (atts : List tu_render_pass_attachment) (s : gmem_state),
      s.cpp_total = gmem_cpp_sum atts →
      s.gmem_blocks * s.cpp_total < 4294967296 →
      (∀ a ∈ atts, 0 ≤ a.gmem_offset →
        1 ≤ a.cpp ∧ max 1 (a.cpp >>> sh) * s.cpp_total ≤ s.gmem_blocks * a.cpp) →
      s.offset + s.gmem_blocks * g ≤ ccu →
      ∃ (out : List tu_render_pass_attachment) (nbs : List Nat) (s1 : gmem_state),
        gmem_loop g sh atts s = .ok (out, nbs, s1) ∧
        nbs.sum + s1.gmem_blocks = s.gmem_blocks ∧
        s1.pixels ≤ s.pixels ∧
        (s1.pixels = s.pixels ∨ ∃ (k : Nat) (a : tu_render_pass_attachment) (n : Nat),
          (atts.filter (fun a => a.in_gmem))[k]? = some a ∧ nbs[k]? = some n ∧
          s1.pixels = n * g / a.cpp) ∧
        nbs.length = (atts.filter (fun a => a.in_gmem)).length ∧
        ∀ (k : Nat) (a : tu_render_pass_attachment),
          (atts.filter (fun a => a.in_gmem))[k]? = some a →
          ∃ n, nbs[k]? = some n ∧ 1 ≤ n ∧
            (out.filter (fun a => a.in_gmem))[k]? =
              some ⟨a.cpp, ((s.offset + g * (nbs.take k).sum : Nat) : Int)⟩ ∧
            s1.pixels ≤ n * g / a.cpp := by
  intro atts
  induction atts with
  | nil =>
    intro s _ _ _ _
    exact ⟨[], [], s, rfl, by simp, le_refl _, Or.inl rfl, rfl, by intro k a h; simp at h⟩
  | cons a rest ih =>
    intro s hT hlt hshare hoff
    by_cases hg : a.gmem_offset < 0
    · have hng : ¬ (0 ≤ a.gmem_offset) := by omega
      have hin : a.in_gmem = false := by
        simp [tu_render_pass_attachment.in_gmem, hng]
      have hsum : gmem_cpp_sum (a :: rest) = gmem_cpp_sum rest := by
        rw [gmem_cpp_sum_cons, if_neg hng, Nat.zero_add]
      obtain ⟨out, nbs, s1, h1, h2, h3, h4, h5, h6⟩ := ih s (by rw [hT, hsum]) hlt
        (fun b hb => hshare b (List.mem_cons_of_mem _ hb)) hoff
      refine ⟨a :: out, nbs, s1, ?_, h2, h3, ?_, ?_, ?_⟩
      · simp only [gmem_loop, hg, if_true, h1]
      · simpa only [List.filter_cons, hin, Bool.false_eq_true, if_false] using h4
      · simpa only [List.filter_cons, hin, Bool.false_eq_true, if_false] using h5
      · simpa only [List.filter_cons, hin, Bool.false_eq_true, if_false] using h6
    · have hge : 0 ≤ a.gmem_offset := by omega
      have hin : a.in_gmem = true := by
        simp [tu_render_pass_attachment.in_gmem, hge]
      have hsum : gmem_cpp_sum (a :: rest) = a.cpp + gmem_cpp_sum rest := by
        rw [gmem_cpp_sum_cons, if_pos hge]
      obtain ⟨hc1, hsa⟩ := hshare a (List.mem_cons_self _ _) hge
      have hcT : a.cpp ≤ s.cpp_total := by rw [hT, hsum]; omega
      have hT0 : 0 < s.cpp_total := by omega
      obtain ⟨hn1, hnB, hnT⟩ := attachment_nblocks_bounds sh s.gmem_blocks s.cpp_total a.cpp
        s.offset s.pixels a.gmem_offset hcT hc1 hlt hsa
      generalize hnd : attachment_nblocks sh ⟨s.gmem_blocks, s.cpp_total, s.offset, s.pixels⟩
        ⟨a.cpp, a.gmem_offset⟩ = n at hn1 hnB hnT
      have hB : s.gmem_blocks < 4294967296 := by
        calc s.gmem_blocks ≤ s.gmem_blocks * s.cpp_total := Nat.le_mul_of_pos_right _ hT0
          _ < 4294967296 := hlt
      have hTlt : s.cpp_total < 4294967296 := by
        have : 0 < s.gmem_blocks := by omega
        calc s.cpp_total ≤ s.gmem_blocks * s.cpp_total := Nat.le_mul_of_pos_left _ this
          _ < 4294967296 := hlt
      have hng : n * g ≤ s.gmem_blocks * g := Nat.mul_le_mul_right g hnB
      have e1 : (s.gmem_blocks + 4294967296 - n) % 4294967296 = s.gmem_blocks - n := by omega
      have e2 : (s.cpp_total + 4294967296 - a.cpp) % 4294967296 = gmem_cpp_sum rest := by
        rw [hT, hsum] at hTlt ⊢
        omega
      have e3 : n * g % 4294967296 = n * g := Nat.mod_eq_of_lt (by omega)
      have e4 : (s.offset + n * g) % 4294967296 = s.offset + n * g :=
        Nat.mod_eq_of_lt (by omega)
      have e5 : to_int32 s.offset = (s.offset : Int) := by
        unfold to_int32
        rw [if_pos (by omega)]
      have hloop : gmem_loop g sh (a :: rest) s =
          match gmem_loop g sh rest ⟨s.gmem_blocks - n, gmem_cpp_sum rest, s.offset + n * g,
              min s.pixels (n * g / a.cpp)⟩ with
          | .error e => .error e
          | .ok (atts, nbs, s2) => .ok (⟨a.cpp, (s.offset : Int)⟩ :: atts, n :: nbs, s2) := by
        rw [gmem_loop, if_neg hg, if_neg (by omega), if_neg (by omega), if_neg (by omega)]
        have hnd2 : attachment_nblocks sh s a = n := hnd
        simp only [hnd2, e1, e2, e3, e4, e5]
      obtain ⟨out, nbs, s1, h1, h2, h3, h4, h5, h6⟩ := ih
        ⟨s.gmem_blocks - n, gmem_cpp_sum rest, s.offset + n * g, min s.pixels (n * g / a.cpp)⟩
        rfl
        (by
          dsimp only
          calc (s.gmem_blocks - n) * gmem_cpp_sum rest
              ≤ s.gmem_blocks * s.cpp_total :=
                Nat.mul_le_mul (Nat.sub_le _ _) (by rw [hT, hsum]; omega)
            _ < 4294967296 := hlt)
        (by
          intro b hb hbg
          obtain ⟨hb1, hb2⟩ := hshare b (List.mem_cons_of_mem _ hb) hbg
          refine ⟨hb1, ?_⟩
          dsimp only
          have hBn : s.gmem_blocks = (s.gmem_blocks - n) + n := by omega
          have hTc : s.cpp_total = gmem_cpp_sum rest + a.cpp := by rw [hT, hsum]; omega
          rw [hTc, hBn] at hb2
          rw [hTc] at hnT
          rw [hBn] at hnT
          exact share_step _ _ _ _ _ _ (by omega) hnT hb2)
        (by
          dsimp only
          have : (s.gmem_blocks - n) * g + n * g = s.gmem_blocks * g := by
            rw [← Nat.add_mul]
            congr 1
            omega
          omega)
      dsimp only at h2 h3 h4 h6
      refine ⟨⟨a.cpp, (s.offset : Int)⟩ :: out, n :: nbs, s1, ?_, ?_, ?_, ?_, ?_, ?_⟩
      · rw [hloop, h1]
      · simp only [List.sum_cons]
        rw [Nat.add_assoc, h2]
        exact Nat.add_sub_of_le hnB
      · exact le_trans h3 (min_le_left _ _)
      · rcases h4 with h4 | ⟨k, b, m, hk1, hk2, hk3⟩
        · rcases min_choice s.pixels (n * g / a.cpp) with hm | hm
          · left; rw [h4, hm]
          · right
            refine ⟨0, a, n, ?_, List.getElem?_cons_zero, by rw [h4, hm]⟩
            simp only [List.filter_cons, hin, if_true, List.getElem?_cons_zero]
        · right
          refine ⟨k + 1, b, m, ?_, ?_, hk3⟩
          · simpa only [List.filter_cons, hin, if_true, List.getElem?_cons_succ] using hk1
          · simpa only [List.getElem?_cons_succ] using hk2
      · simp only [List.filter_cons, hin, if_true, List.length_cons, h5]
      · intro k b hk
        simp only [List.filter_cons, hin, if_true] at hk
        have hin2 : (⟨a.cpp, (s.offset : Int)⟩ : tu_render_pass_attachment).in_gmem = true := by
          simp [tu_render_pass_attachment.in_gmem]
        simp only [List.filter_cons, hin2, if_true]
        cases k with
        | zero =>
          simp only [List.getElem?_cons_zero, Option.some.injEq] at hk
          subst hk
          refine ⟨n, List.getElem?_cons_zero, hn1, ?_, le_trans h3 (min_le_right _ _)⟩
          simp
        | succ k =>
          simp only [List.getElem?_cons_succ] at hk ⊢
          obtain ⟨m, hm1, hm2, hm3, hm4⟩ := h6 k b hk
          refine ⟨m, hm1, hm2, ?_, hm4⟩
          rw [hm3]
          simp only [List.take_succ_cons, List.sum_cons, Option.some.injEq,
            tu_render_pass_attachment.mk.injEq, true_and, Nat.cast_inj]
          ring

theorem cpp_total_loop_spec :
    ∀ (atts : List tu_render_pass_attachment) (s : cpp_state),
      s.cpp_total < 4294967296 → s.tile_align_w % 32 = 0 →
      (s.block_align_shift = 4 ∨ (s.block_align_shift = 3 ∧ s.tile_align_w % 64 = 0)) →
      (cpp_total_loop atts s).cpp_total = (s.cpp_total + gmem_cpp_sum atts) % 4294967296 ∧
      (cpp_total_loop atts s).block_align_shift < 32 := by
  intro atts
  induction atts with
  | nil =>
    intro s h1 _ h3
    simp only [cpp_total_loop, gmem_cpp_sum, List.filter_nil, List.map_nil, List.sum_nil,
      Nat.add_zero]
    exact ⟨(Nat.mod_eq_of_lt h1).symm, by omega⟩
  | cons a rest ih =>
    intro s h1 h2 h3
    rw [gmem_cpp_sum_cons]
    by_cases hg : 0 ≤ a.gmem_offset
    · rw [if_pos hg]
      by_cases hc : a.cpp = 1 ∧ s.tile_align_w % 64 ≠ 0
      · have := ih ⟨(s.cpp_total + a.cpp) % 4294967296, (s.tile_align_w * 2) % 4294967296,
          (s.block_align_shift + 4294967296 - 1) % 4294967296⟩
          (Nat.mod_lt _ (by decide)) (by dsimp only; omega) (by dsimp only; omega)
        rw [cpp_total_loop, if_pos hg]
        dsimp only
        rw [if_pos hc]
        dsimp only at this
        rw [this.1]
        refine ⟨?_, this.2⟩
        omega
      · have := ih ⟨(s.cpp_total + a.cpp) % 4294967296, s.tile_align_w, s.block_align_shift⟩
          (Nat.mod_lt _ (by decide)) h2 h3
        rw [cpp_total_loop, if_pos hg]
        dsimp only
        rw [if_neg hc]
        dsimp only at this
        rw [this.1]
        refine ⟨?_, this.2⟩
        omega
    · rw [if_neg hg, Nat.zero_add]
      rw [cpp_total_loop, if_neg hg]
      exact ih s h1 h2 h3

theorem prefix_sum_step :
    ∀ (l : List Nat) (j k nj : Nat), j < k → l[j]? = some nj →
      (l.take j).sum + nj ≤ (l.take k).sum := by
  intro l
  induction l with
  | nil => intro j k nj _ h; simp at h
  | cons x l ih =>
    intro j k nj hjk h
    obtain ⟨k1, rfl⟩ : ∃ k1, k = k1 + 1 := ⟨k - 1, by omega⟩
    cases j with
    | zero =>
      simp only [List.getElem?_cons_zero, Option.some.injEq] at h
      subst h
      simp only [List.take_zero, List.sum_nil, List.take_succ_cons, List.sum_cons]
      omega
    | succ j =>
      simp only [List.getElem?_cons_succ] at h
      have := ih j k1 nj (by omega) h
      simp only [List.take_succ_cons, List.sum_cons]
      omega

theorem head_le_sum (l : List Nat) (n : Nat) (h : l[0]? = some n) : n ≤ l.sum := by
  have := prefix_sum_step l 0 l.length n (by
    cases l with
    | nil => simp at h
    | cons x l => simp) h
  simpa using this

/-- C40, counterexample: three gmem attachments of `cpp` 4 with two blocks of 16384 bytes are
handed one block each, three in total, and `gmem_blocks` wraps to `0xffffffff`. -/
theorem gmem_blocks_underflow :
    32768 / gmem_align 64 16 = 2 ∧
    (create_render_pass_common crowded_attachments 64 16 32768).toOption.map
      (fun r => (r.nblocks, r.gmem_blocks, r.attachments.map (fun a => a.gmem_offset))) =
      some ([1, 1, 1], 4294967295, [0, 16384, 32768]) := by
  decide

/-- C40, amended: when `cpp_total` is not zero, `tile_align_w` is a multiple of 32,
`gmem_align` is not zero, `ccu_offset_gmem` is below `2^31`, the product of the number of
blocks and `cpp_total` fits 32 bits, and the proportional share `gmem_blocks * cpp / cpp_total`
of every gmem attachment is at least its alignment, `create_render_pass_common` returns; one
block count of at least 1 is handed out per gmem attachment; the counts and the final
`gmem_blocks` add up to `ccu_offset_gmem / gmem_align`; gmem attachment `k` keeps its `cpp` and
gets offset `gmem_align` times the sum of the counts before it, so the range of an earlier
attachment ends at or before the offset of a later one; and `gmem_pixels` is the least of
`nblocks * gmem_align / cpp`. -/
theorem gmem_partition_spec (atts : List tu_render_pass_attachment)
    (w h ccu : Nat) (hw : w % 32 = 0) (hg : 0 < gmem_align w h) (hccu : ccu < 2147483648)
    (hpos : 0 < gmem_cpp_sum atts)
    (hprod : ccu / gmem_align w h * gmem_cpp_sum atts < 4294967296)
    (hshare : ∀ a ∈ atts, 0 ≤ a.gmem_offset →
      max 1 (a.cpp >>> (cpp_total_loop atts ⟨0, w, 4⟩).block_align_shift) * gmem_cpp_sum atts
        ≤ ccu / gmem_align w h * a.cpp) :
    ∃ r, create_render_pass_common atts w h ccu = .ok r ∧
      r.nblocks.length = (atts.filter (fun a => a.in_gmem)).length ∧
      r.nblocks.sum + r.gmem_blocks = ccu / gmem_align w h ∧
      (∀ (k : Nat) (a : tu_render_pass_attachment),
        (atts.filter (fun a => a.in_gmem))[k]? = some a →
        ∃ n, r.nblocks[k]? = some n ∧ 1 ≤ n ∧
          (r.attachments.filter (fun a => a.in_gmem))[k]? =
            some ⟨a.cpp, ((gmem_align w h * (r.nblocks.take k).sum : Nat) : Int)⟩ ∧
          r.gmem_pixels ≤ n * gmem_align w h / a.cpp) ∧
      (∀ (j k nj : Nat), j < k → r.nblocks[j]? = some nj →
        gmem_align w h * (r.nblocks.take j).sum + nj * gmem_align w h ≤
          gmem_align w h * (r.nblocks.take k).sum) ∧
      ∃ (k : Nat) (a : tu_render_pass_attachment) (n : Nat),
        (atts.filter (fun a => a.in_gmem))[k]? = some a ∧ r.nblocks[k]? = some n ∧
        r.gmem_pixels = n * gmem_align w h / a.cpp := by
  have hsum32 : gmem_cpp_sum atts < 4294967296 := by
    by_cases hB : ccu / gmem_align w h = 0
    · exfalso
      have hne : (atts.filter (fun a => a.in_gmem)) ≠ [] := by
        intro he
        simp [gmem_cpp_sum, he] at hpos
      obtain ⟨a, ha⟩ := List.exists_mem_of_ne_nil _ hne
      have ha2 := List.mem_filter.mp ha
      have hage : 0 ≤ a.gmem_offset := by
        simpa [tu_render_pass_attachment.in_gmem] using ha2.2
      have := hshare a ha2.1 hage
      rw [hB, Nat.zero_mul] at this
      have h1 : 1 ≤ max 1 (a.cpp >>> (cpp_total_loop atts ⟨0, w, 4⟩).block_align_shift) :=
        le_max_left _ _
      have h2 : 1 * gmem_cpp_sum atts ≤
          max 1 (a.cpp >>> (cpp_total_loop atts ⟨0, w, 4⟩).block_align_shift) *
            gmem_cpp_sum atts := Nat.mul_le_mul_right _ h1
      omega
    · calc gmem_cpp_sum atts ≤ ccu / gmem_align w h * gmem_cpp_sum atts :=
          Nat.le_mul_of_pos_left _ (Nat.pos_of_ne_zero hB)
        _ < 4294967296 := hprod
  obtain ⟨hc1, hc2⟩ := cpp_total_loop_spec atts ⟨0, w, 4⟩ (show 0 < 4294967296 by decide) hw (Or.inl rfl)
  dsimp only at hc1
  rw [Nat.zero_add, Nat.mod_eq_of_lt hsum32] at hc1
  obtain ⟨out, nbs, s1, h1, h2, h3, h4, h5, h6⟩ :=
    gmem_loop_spec (gmem_align w h) (cpp_total_loop atts ⟨0, w, 4⟩).block_align_shift ccu hc2
      hccu atts ⟨ccu / gmem_align w h, gmem_cpp_sum atts, 0, 4294967295⟩ rfl hprod
      (by
        intro a ha hage
        have hs := hshare a ha hage
        refine ⟨?_, hs⟩
        by_contra hz
        have hz0 : a.cpp = 0 := by omega
        rw [hz0, Nat.mul_zero] at hs
        have h1 : 1 ≤ max 1 (0 >>> (cpp_total_loop atts ⟨0, w, 4⟩).block_align_shift) :=
          le_max_left _ _
        have h2 := Nat.mul_le_mul_right (gmem_cpp_sum atts) h1
        omega)
      (by
        dsimp only
        rw [Nat.zero_add]
        exact Nat.div_mul_le_self _ _)
  dsimp only at h2 h3 h4 h6
  refine ⟨⟨(cpp_total_loop atts ⟨0, w, 4⟩).tile_align_w, s1.pixels, out, nbs, s1.gmem_blocks⟩,
    ?_, h5, h2, ?_, ?_, ?_⟩
  · unfold create_render_pass_common
    dsimp only
    rw [if_neg (by omega), if_neg (by omega), hc1, h1]
  · intro k a hk
    obtain ⟨n, hn1, hn2, hn3, hn4⟩ := h6 k a hk
    refine ⟨n, hn1, hn2, ?_, hn4⟩
    rw [hn3, Nat.zero_add]
  · intro j k nj hjk hj
    have := prefix_sum_step nbs j k nj hjk hj
    dsimp only
    calc gmem_align w h * (nbs.take j).sum + nj * gmem_align w h
        = gmem_align w h * ((nbs.take j).sum + nj) := by ring
      _ ≤ gmem_align w h * (nbs.take k).sum := Nat.mul_le_mul_left _ this
  · rcases h4 with h4 | h4
    · exfalso
      have hne : (atts.filter (fun a => a.in_gmem)) ≠ [] := by
        intro he
        simp [gmem_cpp_sum, he] at hpos
      obtain ⟨a, rest, hcons⟩ := List.exists_cons_of_ne_nil hne
      obtain ⟨n, hn1, _, _, hn4⟩ := h6 0 a (by rw [hcons]; exact List.getElem?_cons_zero)
      have hle : n ≤ nbs.sum := head_le_sum nbs n hn1
      have hB : n ≤ ccu / gmem_align w h := by omega
      have h7 : n * gmem_align w h ≤ ccu :=
        le_trans (Nat.mul_le_mul_right _ hB) (Nat.div_mul_le_self _ _)
      have h8 : n * gmem_align w h / a.cpp ≤ n * gmem_align w h := Nat.div_le_self _ _
      omega
    · exact h4

theorem gmem_partition_spec_witness :
    ∃ r, create_render_pass_common sample_attachments 64 16 1048576 = .ok r ∧
      r.nblocks.length = (sample_attachments.filter (fun a => a.in_gmem)).length ∧
      r.nblocks.sum + r.gmem_blocks = 1048576 / gmem_align 64 16 ∧
      (∀ (k : Nat) (a : tu_render_pass_attachment),
        (sample_attachments.filter (fun a => a.in_gmem))[k]? = some a →
        ∃ n, r.nblocks[k]? = some n ∧ 1 ≤ n ∧
          (r.attachments.filter (fun a => a.in_gmem))[k]? =
            some ⟨a.cpp, ((gmem_align 64 16 * (r.nblocks.take k).sum : Nat) : Int)⟩ ∧
          r.gmem_pixels ≤ n * gmem_align 64 16 / a.cpp) ∧
      (∀ (j k nj : Nat), j < k → r.nblocks[j]? = some nj →
        gmem_align 64 16 * (r.nblocks.take j).sum + nj * gmem_align 64 16 ≤
          gmem_align 64 16 * (r.nblocks.take k).sum) ∧
      ∃ (k : Nat) (a : tu_render_pass_attachment) (n : Nat),
        (sample_attachments.filter (fun a => a.in_gmem))[k]? = some a ∧
        r.nblocks[k]? = some n ∧
        r.gmem_pixels = n * gmem_align 64 16 / a.cpp :=
  gmem_partition_spec sample_attachments 64 16 1048576 (by decide) (by decide) (by decide)
    (by decide) (by decide) (by decide)

theorem sample_partition :
    (create_render_pass_common sample_attachments 64 16 1048576).toOption.map
      (fun r => (r.nblocks, r.gmem_pixels, r.attachments.map (fun a => a.gmem_offset))) =
      some ([12, 52], 196608, [0, 196608]) := by
  decide

/-! ## `emit_reduction` saves and restores `exec` -/

theorem emit_all_pair (a b : Except Fault (List Instruction)) (is : List Instruction)
    (h : emit_all [a, b] = .ok is) : ∃ xs ys, a = .ok xs ∧ b = .ok ys ∧ is = xs ++ ys := by
  cases a with
  | error e => simp [emit_all] at h
  | ok xs =>
    cases b with
    | error e => simp [emit_all] at h
    | ok ys =>
      simp only [emit_all, List.append_nil, Except.ok.injEq] at h
      exact ⟨xs, ys, rfl, rfl, h.symm⟩

theorem emit_all_triple (a b c : Except Fault (List Instruction)) (is : List Instruction)
    (h : emit_all [a, b, c] = .ok is) :
    ∃ xs ys zs, a = .ok xs ∧ b = .ok ys ∧ c = .ok zs ∧ is = xs ++ (ys ++ zs) := by
  cases a with
  | error e => simp [emit_all] at h
  | ok xs =>
    cases b with
    | error e => simp [emit_all] at h
    | ok ys =>
      cases c with
      | error e => simp [emit_all] at h
      | ok zs =>
        simp only [emit_all, List.append_nil, Except.ok.injEq] at h
        exact ⟨xs, ys, zs, rfl, rfl, rfl, h.symm⟩

/-- What follows the restore of `exec` in the epilogue. -/
theorem reduction_epilogue_shape (p : Program) (op : aco_opcode) (reduce_op : ReduceOp)
    (v : reduction_vars) (stmp : PhysReg) (needs : Bool) (src : Operand) (dst : Definition)
    (es : List Instruction)
    (h : reduction_epilogue p op reduce_op v stmp needs src dst = .ok es) :
    ∃ pre post, es = pre ++ s_mov_exec p (Operand.ofReg stmp (lane_mask_class p.wave_size))
        :: post ∧
      ((op = .p_reduce ∧ dst.regClass.type = .vgpr ∧
          emit_op p dst.physReg v.tmp v.vtmp (PhysReg.ofReg 0) reduce_op src.size = .ok post) ∨
       (dst.regClass.type = .sgpr ∧ post = (List.range src.size).map (fun k =>
          readlane (sdef dst.physReg k) (vop v.tmp k) (Operand.c32 (p.wave_size - 1)))) ∨
       (dst.regClass.type ≠ .sgpr ∧ post = (List.range src.size).map (fun k =>
          Instruction.plain .v_mov_b32 [vdef dst.physReg k] [vop v.tmp k])) ∨
       post = []) := by
  unfold reduction_epilogue at h
  dsimp only at h
  split at h
  · rename_i hc
    obtain ⟨xs, ys, hx, hy, rfl⟩ := emit_all_pair _ _ _ h
    simp only [emitted, Except.ok.injEq] at hx
    subst hx
    exact ⟨[], ys, rfl, Or.inl ⟨hc.1, hc.2.2, hy⟩⟩
  · obtain ⟨xs, ys, zs, hx, hy, hz, rfl⟩ := emit_all_triple _ _ _ _ h
    simp only [emitted, Except.ok.injEq] at hy hz
    subst hy
    refine ⟨xs, zs, rfl, Or.inr ?_⟩
    subst hz
    by_cases hs : dst.regClass.type = .sgpr
    · left
      exact ⟨hs, by rw [if_pos hs]⟩
    · right
      rw [if_neg hs]
      by_cases hd : dst.physReg ≠ v.tmp
      · left; exact ⟨hs, by rw [if_pos hd]⟩
      · right; rw [if_neg hd]

theorem set_identity_regs (v : reduction_vars) (i : Nat) (o : Operand) :
    (v.set_identity i o).tmp = v.tmp ∧ (v.set_identity i o).vtmp = v.vtmp := by
  unfold reduction_vars.set_identity
  split <;> exact ⟨rfl, rfl⟩

theorem reduction_prologue_shape (p : Program) (op : aco_opcode) (reduce_op : ReduceOp)
    (tmp stmp vtmp sitmp : PhysReg) (src : Operand) :
    (∃ rest, (reduction_prologue p op reduce_op tmp stmp vtmp sitmp src).1 =
      save_exec p stmp :: rest) ∧
    (reduction_prologue p op reduce_op tmp stmp vtmp sitmp src).2.tmp = tmp ∧
    (reduction_prologue p op reduce_op tmp stmp vtmp sitmp src).2.vtmp = vtmp := by
  have key : ∀ (l : List Nat) (acc : List Instruction × reduction_vars × List Operand),
      (l.foldl (fun (acc : List Instruction × reduction_vars × List Operand) i =>
        let ident := acc.2.1.identity i
        if ident.isLiteral ∧ op = .p_exclusive_scan ∧ p.chip_class.rank < 10 then
          (acc.1 ++ [Instruction.plain .s_mov_b32 [sdef sitmp i] [ident],
                     Instruction.plain .v_mov_b32 [vdef tmp i] [sop sitmp i]],
           acc.2.1.set_identity i (sop sitmp i), acc.2.2 ++ [vop tmp i])
        else if ident.isLiteral then
          (acc.1 ++ [Instruction.plain .v_mov_b32 [vdef tmp i] [ident]], acc.2.1,
           acc.2.2 ++ [vop tmp i])
        else (acc.1, acc.2.1, acc.2.2 ++ [ident])) acc).2.1.tmp = acc.2.1.tmp ∧
      (l.foldl (fun (acc : List Instruction × reduction_vars × List Operand) i =>
        let ident := acc.2.1.identity i
        if ident.isLiteral ∧ op = .p_exclusive_scan ∧ p.chip_class.rank < 10 then
          (acc.1 ++ [Instruction.plain .s_mov_b32 [sdef sitmp i] [ident],
                     Instruction.plain .v_mov_b32 [vdef tmp i] [sop sitmp i]],
           acc.2.1.set_identity i (sop sitmp i), acc.2.2 ++ [vop tmp i])
        else if ident.isLiteral then
          (acc.1 ++ [Instruction.plain .v_mov_b32 [vdef tmp i] [ident]], acc.2.1,
           acc.2.2 ++ [vop tmp i])
        else (acc.1, acc.2.1, acc.2.2 ++ [ident])) acc).2.1.vtmp = acc.2.1.vtmp := by
    intro l
    induction l with
    | nil => intro acc; exact ⟨rfl, rfl⟩
    | cons i l ih =>
      intro acc
      rw [List.foldl_cons]
      obtain ⟨h1, h2⟩ := ih (
        let ident := acc.2.1.identity i
        if ident.isLiteral ∧ op = .p_exclusive_scan ∧ p.chip_class.rank < 10 then
          (acc.1 ++ [Instruction.plain .s_mov_b32 [sdef sitmp i] [ident],
                     Instruction.plain .v_mov_b32 [vdef tmp i] [sop sitmp i]],
           acc.2.1.set_identity i (sop sitmp i), acc.2.2 ++ [vop tmp i])
        else if ident.isLiteral then
          (acc.1 ++ [Instruction.plain .v_mov_b32 [vdef tmp i] [ident]], acc.2.1,
           acc.2.2 ++ [vop tmp i])
        else (acc.1, acc.2.1, acc.2.2 ++ [ident]))
      rw [h1, h2]
      dsimp only
      split
      · exact set_identity_regs _ _ _
      · split <;> exact ⟨rfl, rfl⟩
  refine ⟨⟨_, rfl⟩, ?_, ?_⟩
  · exact (key _ _).1
  · exact (key _ _).2

theorem emit_reduction_shape (p : Program) (op : aco_opcode) (reduce_op : ReduceOp)
    (cluster_size : Nat) (tmp stmp vtmp sitmp : PhysReg) (src : Operand) (dst : Definition)
    (is : List Instruction)
    (h : emit_reduction p op reduce_op cluster_size tmp stmp vtmp sitmp src dst = .ok is) :
    ∃ pre post, is = save_exec p stmp ::
        (pre ++ s_mov_exec p (Operand.ofReg stmp (lane_mask_class p.wave_size)) :: post) ∧
      ((op = .p_reduce ∧ dst.regClass.type = .vgpr ∧
          emit_op p dst.physReg tmp vtmp (PhysReg.ofReg 0) reduce_op src.size = .ok post) ∨
       (dst.regClass.type = .sgpr ∧ ∃ t : PhysReg, post = (List.range src.size).map (fun k =>
          readlane (sdef dst.physReg k) (vop t k) (Operand.c32 (p.wave_size - 1)))) ∨
       (dst.regClass.type ≠ .sgpr ∧ ∃ t : PhysReg, post = (List.range src.size).map (fun k =>
          Instruction.plain .v_mov_b32 [vdef dst.physReg k] [vop t k])) ∨
       post = []) := by
  obtain ⟨⟨rest, hrest⟩, ht, hv⟩ :=
    reduction_prologue_shape p op reduce_op tmp stmp vtmp sitmp src
  unfold emit_reduction at h
  split at h
  · cases h
  split at h
  · cases h
  dsimp only at h
  split at h
  · cases h
  rename_i body_is v1 needs hbody
  split at h
  · cases h
  rename_i es hes
  simp only [Except.ok.injEq] at h
  obtain ⟨pre, post, hes2, hpost⟩ := reduction_epilogue_shape _ _ _ _ _ _ _ _ _ hes
  refine ⟨rest ++ body_is ++ pre, post, ?_, ?_⟩
  · rw [← h, hrest, hes2]
    simp only [List.cons_append, List.append_assoc]
  · rcases hpost with ⟨h1, h2, h3⟩ | ⟨h2, h3⟩ | h3 | h3
    · left
      refine ⟨h1, h2, ?_⟩
      subst h1
      simp only at hbody
      split at hbody
      · cases hbody
      · simp only [Except.ok.injEq, Prod.mk.injEq] at hbody
        rw [← hbody.2.1, ht, hv] at h3
        exact h3
    · right; left; exact ⟨h2, _, h3⟩
    · right; right; left; exact ⟨h3.1, _, h3.2⟩
    · right; right; right; exact h3

set_option maxHeartbeats 4000000 in
theorem wstep_sgpr_frame (W : Nat) (i : Instruction) (st st1 : wave_state) (r : Nat)
    (h : wstep W i st = some st1)
    (hk : ∀ d ∈ i.definitions, d.physReg.reg ≠ r ∧ d.physReg.reg + 1 ≠ r) :
    st1.sgpr r = st.sgpr r := by
  unfold wstep at h
  split at h
  all_goals first
    | (cases h; done)
    | (rw [show i.definitions = _ from by assumption] at hk
       simp only [List.mem_cons, List.mem_singleton, List.not_mem_nil, or_false, forall_eq_or_imp,
         forall_eq] at hk
       try split at h
       try split at h
       all_goals first
         | (cases h; done)
         | (simp only [Option.some.injEq] at h
            subst h
            simp only [set_mask, set_sgpr, set_vgpr]
            try dsimp only
            try split_ifs
            all_goals first
              | rfl
              | omega
              | (dsimp only
                 split_ifs
                 all_goals first
                   | rfl
                   | omega)))

theorem wrun_sgpr_frame (W : Nat) (r : Nat) :
    ∀ (is : List Instruction) (st st1 : wave_state), wrun W is st = some st1 →
      keeps_sgpr is r → st1.sgpr r = st.sgpr r := by
  intro is
  induction is with
  | nil =>
    intro st st1 h _
    simp only [wrun, Option.some.injEq] at h
    rw [h]
  | cons i rest ih =>
    intro st st1 h hk
    rw [wrun] at h
    cases hs : wstep W i st with
    | none => simp only [hs] at h; cases h
    | some st2 =>
      simp only [hs] at h
      rw [ih st2 st1 h (fun j hj => hk j (List.mem_cons_of_mem _ hj))]
      exact wstep_sgpr_frame W i st st2 r hs (hk i (List.mem_cons_self _ _))

theorem wrun_append (W : Nat) :
    ∀ (xs ys : List Instruction) (st st1 : wave_state), wrun W (xs ++ ys) st = some st1 →
      ∃ st2, wrun W xs st = some st2 ∧ wrun W ys st2 = some st1 := by
  intro xs
  induction xs with
  | nil => intro ys st st1 h; exact ⟨st, rfl, h⟩
  | cons i rest ih =>
    intro ys st st1 h
    rw [List.cons_append, wrun] at h
    cases hs : wstep W i st with
    | none => simp only [hs] at h; cases h
    | some st2 =>
      simp only [hs] at h
      obtain ⟨st3, h1, h2⟩ := ih ys st2 st1 h
      exact ⟨st3, by rw [wrun, hs]; exact h1, h2⟩

theorem exec_reg : exec.reg = 126 := by decide

theorem scc_reg : scc.reg = 253 := by decide

/-- The first instruction copies `exec` to `stmp`. -/
theorem wstep_save_exec (p : Program) (stmp : PhysReg) (st st1 : wave_state)
    (hs : stmp.reg + 2 ≤ 106) (h : wstep p.wave_size (save_exec p stmp) st = some st1) :
    st1.sgpr stmp.reg = st.sgpr 126 ∧
    (p.wave_size = 64 → st1.sgpr (stmp.reg + 1) = st.sgpr 127) := by
  have hrd0 : ∀ rc, rd st (Operand.ofReg exec rc) 0 0 = st.sgpr 126 := by
    intro rc
    simp [rd, Operand.ofReg, exec_reg]
  have hrd1 : ∀ rc, rd st (Operand.ofReg exec rc) 1 0 = st.sgpr 127 := by
    intro rc
    simp [rd, Operand.ofReg, exec_reg]
  by_cases hw : p.wave_size = 64
  · have e : save_exec p stmp = Instruction.plain .s_or_saveexec_b64
        [⟨stmp, lane_mask_class p.wave_size⟩, ⟨scc, s1⟩, ⟨exec, lane_mask_class p.wave_size⟩]
        [Operand.all_ones64, Operand.ofReg exec (lane_mask_class p.wave_size)] := by
      simp only [save_exec, hw, if_true]
    rw [e] at h
    simp only [wstep, Instruction.plain, Option.some.injEq] at h
    subst h
    simp only [set_sgpr, exec_reg, scc_reg, hrd0, hrd1]
    refine ⟨?_, fun _ => ?_⟩
    · rw [if_neg (by omega), if_neg (by omega), if_neg (by omega), if_neg (by omega),
        if_pos trivial]
    · rw [if_neg (by omega), if_neg (by omega), if_neg (by omega), if_pos trivial]
  · have e : save_exec p stmp = Instruction.plain .s_or_saveexec_b32
        [⟨stmp, lane_mask_class p.wave_size⟩, ⟨scc, s1⟩, ⟨exec, lane_mask_class p.wave_size⟩]
        [Operand.all_ones64, Operand.ofReg exec (lane_mask_class p.wave_size)] := by
      simp only [save_exec, hw, if_false]
    rw [e] at h
    simp only [wstep, Instruction.plain, Option.some.injEq] at h
    subst h
    simp only [set_sgpr, exec_reg, scc_reg, hrd0]
    refine ⟨?_, fun h64 => absurd h64 hw⟩
    rw [if_neg (by omega), if_neg (by omega), if_pos trivial]

/-- The restore copies `stmp` back to `exec`. -/
theorem wstep_restore_exec (p : Program) (stmp : PhysReg) (st st1 : wave_state)
    (hs : stmp.reg + 2 ≤ 106)
    (h : wstep p.wave_size
      (s_mov_exec p (Operand.ofReg stmp (lane_mask_class p.wave_size))) st = some st1) :
    st1.sgpr 126 = st.sgpr stmp.reg ∧
    (p.wave_size = 64 → st1.sgpr 127 = st.sgpr (stmp.reg + 1)) := by
  have hrd0 : ∀ rc, rd st (Operand.ofReg stmp rc) 0 0 = st.sgpr stmp.reg := by
    intro rc
    simp only [rd, Operand.ofReg, Bool.false_eq_true, if_false, Nat.add_zero]
    rw [if_neg (by omega)]
  have hrd1 : ∀ rc, rd st (Operand.ofReg stmp rc) 1 0 = st.sgpr (stmp.reg + 1) := by
    intro rc
    simp only [rd, Operand.ofReg, Bool.false_eq_true, if_false]
    rw [if_neg (by omega)]
  by_cases hw : p.wave_size = 64
  · have e : s_mov_exec p (Operand.ofReg stmp (lane_mask_class p.wave_size)) =
        Instruction.plain .s_mov_b64 [⟨exec, lane_mask_class p.wave_size⟩]
          [Operand.ofReg stmp (lane_mask_class p.wave_size)] := by
      simp only [s_mov_exec, hw, if_true]
    rw [e] at h
    simp only [wstep, Instruction.plain, Option.some.injEq] at h
    subst h
    simp only [set_sgpr, exec_reg, hrd0, hrd1]
    exact ⟨by simp, fun _ => by simp⟩
  · have e : s_mov_exec p (Operand.ofReg stmp (lane_mask_class p.wave_size)) =
        Instruction.plain .s_mov_b32 [⟨exec, lane_mask_class p.wave_size⟩]
          [Operand.ofReg stmp (lane_mask_class p.wave_size)] := by
      simp only [s_mov_exec, hw, if_false]
    rw [e] at h
    simp only [wstep, Instruction.plain, Option.some.injEq] at h
    subst h
    simp only [set_sgpr, exec_reg, hrd0]
    exact ⟨by simp, fun h64 => absurd h64 hw⟩

theorem plus_reg (r : PhysReg) (k : Nat) (h : r.reg + k < 16384) : (r.plus k).reg = r.reg + k := by
  unfold PhysReg.plus
  exact ofReg_reg _ h

theorem vcc_reg_106 : vcc.reg = 106 := by decide

theorem emit_int64_op_defs (p : Program) (dst s0 s1r vt : PhysReg) (op : ReduceOp)
    (is : List Instruction) (h : emit_int64_op p dst s0 s1r vt op = .ok is)
    (hd : vgpr_pair dst) (h0 : vgpr_pair s0) (h1 : vgpr_pair s1r) :
    ∀ i ∈ is, ∀ d ∈ i.definitions, d.physReg.reg = 106 ∨ 256 ≤ d.physReg.reg := by
  have h256 : s0.reg ≥ 256 := h0.1
  have key : ∀ d : Definition, (d.physReg = dst ∨ d.physReg = dst.plus 1 ∨
      d.physReg = s0.plus 1 ∨ d.physReg = s1r.plus 1 ∨ d.physReg = vcc) →
      d.physReg.reg = 106 ∨ 256 ≤ d.physReg.reg := by
    unfold vgpr_pair at hd h0 h1
    intro d hdd
    rcases hdd with e | e | e | e | e <;> rw [e]
    · right; exact hd.1
    · right; rw [plus_reg _ _ (by omega)]; omega
    · right; rw [plus_reg _ _ (by omega)]; omega
    · right; rw [plus_reg _ _ (by omega)]; omega
    · left; exact vcc_reg_106
  have hne : (if s0.reg ≥ 256 then v1 else s1) = v1 := if_pos h256
  have hvs : decide (v1 = s1) = false := by decide
  unfold emit_int64_op at h
  simp only [hne, hvs, Bool.false_and, Bool.false_or, Bool.false_eq_true, if_false, or_self,
    List.nil_append, Bool.and_false] at h
  intro i hi d hdd
  apply key
  split at h
  all_goals first
    | (simp only [Except.ok.injEq] at h
       subst h
       simp only [List.mem_cons, List.mem_singleton, List.not_mem_nil, or_false] at hi
       rcases hi with rfl | rfl | rfl <;>
         simp only [Instruction.plain, List.mem_cons, List.mem_singleton, List.not_mem_nil,
           or_false] at hdd <;>
         rcases hdd with rfl | rfl <;> simp [vdef])
    | (simp only [Except.ok.injEq] at h
       subst h
       cases hi)
    | skip
  by_cases hsw : s1r = dst <;> by_cases hr : p.chip_class.rank < 9 <;>
    simp only [hsw, hr, emit_vadd32, decide_True, decide_False, if_true, if_false,
      Bool.false_eq_true] at h <;>
    split at h <;>
    first
      | (cases h; done)
      | (simp only [Except.ok.injEq] at h
         subst h
         simp only [List.mem_cons, List.mem_append, List.mem_singleton,
           List.not_mem_nil, or_false] at hi
         rcases hi with ((((rfl | rfl) | rfl) | rfl) | rfl) | rfl <;>
         simp only [Instruction.plain, List.mem_cons, List.mem_singleton, List.not_mem_nil,
           or_false] at hdd <;>
         rcases hdd with rfl | rfl <;> simp [vdef])

theorem emit_op_defs (p : Program) (dst s0 s1r vt : PhysReg) (op : ReduceOp) (size : Nat)
    (is : List Instruction) (h : emit_op p dst s0 s1r vt op size = .ok is)
    (hd : vgpr_pair dst) (h0 : vgpr_pair s0) (h1 : vgpr_pair s1r) :
    ∀ i ∈ is, ∀ d ∈ i.definitions, d.physReg.reg = 106 ∨ 256 ≤ d.physReg.reg := by
  unfold emit_op at h
  dsimp only at h
  split at h
  · exact emit_int64_op_defs p dst s0 s1r vt op is h hd h0 h1
  all_goals
    (try split at h)
    all_goals
      (try split at h)
      all_goals
        (simp only [Except.ok.injEq] at h
         subst h
         intro i hi d hdd
         simp only [List.mem_singleton] at hi
         subst hi
         simp only [Instruction.plain, List.mem_cons, List.mem_singleton, List.not_mem_nil,
           or_false] at hdd
         rcases hdd with rfl | rfl
         · right; exact hd.1
         all_goals (left; exact vcc_reg_106))

theorem keeps_exec_of_defs (is : List Instruction)
    (h : ∀ i ∈ is, ∀ d ∈ i.definitions, d.physReg.reg + 1 < 126 ∨ 256 ≤ d.physReg.reg) :
    keeps_sgpr is 126 ∧ keeps_sgpr is 127 := by
  constructor <;> intro i hi d hd <;> have := h i hi d hd <;> omega

/-- C37: the sequence of `emit_reduction` is the save of `exec` into `stmp`, a middle part, the
move of `stmp` into `exec`, and a rest.  For vector registers `tmp`, `vtmp`, a destination
that is a vector register or lies below `vcc`, and `stmp` below `vcc`, no definition of the
rest reaches `exec`; and when the middle part has no definition reaching `stmp`, every run of
the sequence on the wave interpreter ends with `exec` as it was on entry. -/
theorem emit_reduction_restores_exec (p : Program) (op : aco_opcode) (reduce_op : ReduceOp)
    (cluster_size : Nat) (tmp stmp vtmp sitmp : PhysReg) (src : Operand) (dst : Definition)
    (is : List Instruction)
    (h : emit_reduction p op reduce_op cluster_size tmp stmp vtmp sitmp src dst = .ok is)
    (htmp : vgpr_pair tmp) (hvtmp : vgpr_pair vtmp) (hstmp : stmp.reg + 2 ≤ 106)
    (hsd : dst.regClass.type = .sgpr → dst.physReg.reg + src.size ≤ 106)
    (hvd : dst.regClass.type ≠ .sgpr →
      vgpr_pair dst.physReg ∧ dst.physReg.reg + src.size ≤ 512) :
    ∃ pre post, is = save_exec p stmp ::
        (pre ++ s_mov_exec p (Operand.ofReg stmp (lane_mask_class p.wave_size)) :: post) ∧
      keeps_sgpr post 126 ∧ keeps_sgpr post 127 ∧
      ∀ st st1, keeps_sgpr pre stmp.reg → keeps_sgpr pre (stmp.reg + 1) →
        wrun p.wave_size is st = some st1 →
        st1.sgpr 126 = st.sgpr 126 ∧ (p.wave_size = 64 → st1.sgpr 127 = st.sgpr 127) := by
  obtain ⟨pre, post, his, hpost⟩ := emit_reduction_shape _ _ _ _ _ _ _ _ _ _ _ h
  have hk : keeps_sgpr post 126 ∧ keeps_sgpr post 127 := by
    apply keeps_exec_of_defs
    rcases hpost with ⟨_, h2, h3⟩ | ⟨h2, t, h3⟩ | ⟨h2, t, h3⟩ | h3
    · have hv := hvd (by rw [h2]; decide)
      intro i hi d hd
      rcases emit_op_defs _ _ _ _ _ _ _ _ h3 hv.1 htmp hvtmp i hi d hd with e | e <;> omega
    · have hs := hsd h2
      subst h3
      intro i hi d hd
      simp only [List.mem_map, List.mem_range] at hi
      obtain ⟨k, hk, rfl⟩ := hi
      simp only [readlane, Instruction.plain, List.mem_singleton] at hd
      subst hd
      left
      simp only [sdef]
      rw [plus_reg _ _ (by omega)]
      omega
    · have hv := hvd h2
      unfold vgpr_pair at hv
      subst h3
      intro i hi d hd
      simp only [List.mem_map, List.mem_range] at hi
      obtain ⟨k, hk, rfl⟩ := hi
      simp only [Instruction.plain, List.mem_singleton] at hd
      subst hd
      right
      simp only [vdef]
      rw [plus_reg _ _ (by omega)]
      omega
    · subst h3
      intro i hi
      cases hi
  refine ⟨pre, post, his, hk.1, hk.2, ?_⟩
  intro st st1 hp0 hp1 hrun
  rw [his, wrun] at hrun
  cases hs : wstep p.wave_size (save_exec p stmp) st with
  | none => simp only [hs] at hrun; cases hrun
  | some sa =>
    simp only [hs] at hrun
    obtain ⟨sb, hb1, hb2⟩ := wrun_append _ _ _ _ _ hrun
    rw [wrun] at hb2
    cases hr : wstep p.wave_size
        (s_mov_exec p (Operand.ofReg stmp (lane_mask_class p.wave_size))) sb with
    | none => simp only [hr] at hb2; cases hb2
    | some sc =>
      simp only [hr] at hb2
      obtain ⟨e1, e2⟩ := wstep_save_exec p stmp st sa hstmp hs
      obtain ⟨r1, r2⟩ := wstep_restore_exec p stmp sb sc hstmp hr
      have f0 := wrun_sgpr_frame _ stmp.reg pre sa sb hb1 hp0
      have f1 := wrun_sgpr_frame _ (stmp.reg + 1) pre sa sb hb1 hp1
      have g0 := wrun_sgpr_frame _ 126 post sc st1 hb2 hk.1
      have g1 := wrun_sgpr_frame _ 127 post sc st1 hb2 hk.2
      refine ⟨?_, fun h64 => ?_⟩
      · rw [g0, r1, f0, e1]
      · rw [g1, r2 h64, f1, e2 h64]

theorem sample_reduce_emitted :
    emit_reduction sample_reduce_program .p_reduce .iadd32 64 (PhysReg.ofReg 257)
      (PhysReg.ofReg 10) (PhysReg.ofReg 258) (PhysReg.ofReg 12)
      (Operand.ofReg (PhysReg.ofReg 256) v1) ⟨PhysReg.ofReg 20, s1⟩ =
      .ok sample_reduce_instructions := by
  rfl

theorem sample_reduce_length : sample_reduce_instructions.length = 10 := by
  decide

theorem emit_reduction_restores_exec_witness :
    ∃ pre post, sample_reduce_instructions = save_exec sample_reduce_program (PhysReg.ofReg 10) ::
        (pre ++ s_mov_exec sample_reduce_program
          (Operand.ofReg (PhysReg.ofReg 10) (lane_mask_class sample_reduce_program.wave_size))
          :: post) ∧
      keeps_sgpr post 126 ∧ keeps_sgpr post 127 ∧
      ∀ st st1, keeps_sgpr pre (PhysReg.ofReg 10).reg →
        keeps_sgpr pre ((PhysReg.ofReg 10).reg + 1) →
        wrun sample_reduce_program.wave_size sample_reduce_instructions st = some st1 →
        st1.sgpr 126 = st.sgpr 126 ∧
          (sample_reduce_program.wave_size = 64 → st1.sgpr 127 = st.sgpr 127) :=
  emit_reduction_restores_exec sample_reduce_program .p_reduce .iadd32 64 (PhysReg.ofReg 257)
    (PhysReg.ofReg 10) (PhysReg.ofReg 258) (PhysReg.ofReg 12)
    (Operand.ofReg (PhysReg.ofReg 256) v1) ⟨PhysReg.ofReg 20, s1⟩ sample_reduce_instructions
    sample_reduce_emitted (by decide) (by decide) (by decide) (by decide) (by decide)

/-! ## 64-bit operations with a scalar first source, and overlapping destinations -/

theorem emit_int64_op_iadd64_scalar_list (p : Program) (ra rb rd : Nat) (vtmp : PhysReg)
    (ha : ra < 256) (hv : vtmp.reg ≠ 0) :
    emit_int64_op p (PhysReg.ofReg rd) (PhysReg.ofReg ra) (PhysReg.ofReg rb) vtmp .iadd64 =
      .ok [Instruction.plain .v_mov_b32 [vdef vtmp 1]
            [Operand.ofReg ((PhysReg.ofReg ra).plus 1) s1],
           Instruction.plain
            (if p.chip_class.rank ≥ 10 then .v_add_co_u32_e64 else .v_add_co_u32)
            [⟨PhysReg.ofReg rd, v1⟩, ⟨vcc, lane_mask_class p.wave_size⟩]
            [Operand.ofReg (PhysReg.ofReg ra) s1, Operand.ofReg (PhysReg.ofReg rb) v1],
           Instruction.plain .v_addc_co_u32
            [vdef (PhysReg.ofReg rd) 1, ⟨vcc, lane_mask_class p.wave_size⟩]
            [vop vtmp 1, vop (PhysReg.ofReg rb) 1,
             Operand.ofReg vcc (lane_mask_class p.wave_size)]] := by
  have hra : (PhysReg.ofReg ra).reg = ra := ofReg_reg ra (by omega)
  have h256 : ¬ (PhysReg.ofReg ra).reg ≥ 256 := by rw [hra]; omega
  simp [emit_int64_op, h256, hv, s1, v1, RegClass.ofSize, vop, vdef]

theorem wstep_mov (W : Nat) (d : Definition) (o : Operand) (st : wave_state) :
    wstep W (Instruction.plain .v_mov_b32 [d] [o]) st =
      some (set_vgpr st d.physReg.reg (active W st) (fun l => rd st o 0 l)) := rfl

theorem rd_sgpr (st : wave_state) (r : Nat) (rc : RegClass) (l : Nat) (h : r < 256) :
    rd st (Operand.ofReg (PhysReg.ofReg r) rc) 0 l = st.sgpr r := by
  simp only [rd, Operand.ofReg, Bool.false_eq_true, if_false, Nat.add_zero,
    ofReg_reg r (show r < 16384 by omega)]
  rw [if_neg (by omega)]

theorem set_vgpr_sgpr (st : wave_state) (r : Nat) (en : Nat → Bool) (f : Nat → Nat) :
    (set_vgpr st r en f).sgpr = st.sgpr := rfl

theorem dword_value_vgpr (st : wave_state) (r l : Nat) (h : 256 ≤ r) :
    dword_value st r l = st.vgpr r l := by
  unfold dword_value
  rw [if_pos h]

theorem dword_value_sgpr (st : wave_state) (r l : Nat) (h : r < 256) :
    dword_value st r l = st.sgpr r := by
  unfold dword_value
  rw [if_neg (by omega)]

/-- The `iadd64` sequence for a scalar first source: its high dword goes through `vtmp+1`. -/
theorem iadd64_scalar_source (p : Program) (ra rb rd vt : Nat) (st : wave_state)
    (l : Nat) (hW : p.wave_size = 32 ∨ p.wave_size = 64)
    (ha : ra + 1 < 256) (hb : 256 ≤ rb ∧ rb + 1 < 512) (hd : 256 ≤ rd ∧ rd + 1 < 512)
    (hv : 256 ≤ vt ∧ vt + 1 < 512)
    (hvb : vt + 1 ≠ rb ∧ vt + 1 ≠ rb + 1) (hvd : vt + 1 ≠ rd) (hdb : rd ≠ rb + 1)
    (hl : active p.wave_size st l = true)
    (hxl : st.sgpr ra < 4294967296) (hyl : st.vgpr rb l < 4294967296) :
    ∃ is st1,
      emit_int64_op p (PhysReg.ofReg rd) (PhysReg.ofReg ra) (PhysReg.ofReg rb)
        (PhysReg.ofReg vt) .iadd64 = .ok is ∧
      wrun p.wave_size is st = some st1 ∧
      st1.vgpr rd l + 4294967296 * st1.vgpr (rd + 1) l =
        ((st.sgpr ra + 4294967296 * st.sgpr (ra + 1)) +
         (st.vgpr rb l + 4294967296 * st.vgpr (rb + 1) l)) % 18446744073709551616 := by
  have hlW : l < p.wave_size := by
    unfold active at hl
    simp at hl
    exact hl.1
  have hvcc : (⟨vcc, lane_mask_class p.wave_size⟩ : Definition).physReg.reg + 1 < 126 ∨
      127 < (⟨vcc, lane_mask_class p.wave_size⟩ : Definition).physReg.reg := by
    left; simp [vcc_reg]
  have e1 : rd ≠ rd + 1 := by omega
  have e2 : rd + 1 ≠ rd := by omega
  have e4 : rb + 1 ≠ rd := Ne.symm hdb
  have e5 : rb ≠ vt + 1 := Ne.symm hvb.1
  have e6 : rb + 1 ≠ vt + 1 := Ne.symm hvb.2
  have hvt0 : (PhysReg.ofReg vt).reg ≠ 0 := by
    rw [ofReg_reg vt (by omega)]
    omega
  apply Exists.intro _
  apply Exists.intro _
  refine And.intro (emit_int64_op_iadd64_scalar_list p ra rb rd (PhysReg.ofReg vt) (by omega)
    hvt0) ?_
  rw [wrun, wstep_mov]
  dsimp only
  rw [wrun, wstep_add_co _ _ (by split <;> simp)]
  dsimp only
  rw [wrun, wstep_addc_co]
  dsimp only
  rw [wrun]
  refine ⟨rfl, ?_⟩
  rw [ofReg_plus ra 1 (by omega)]
  simp only [vdef, vop, ofReg_plus rd 1 (show rd < 16384 by omega),
    ofReg_plus rb 1 (show rb < 16384 by omega), ofReg_plus vt 1 (show vt < 16384 by omega),
    ofReg_reg rd (show rd < 16384 by omega),
    ofReg_reg (rd + 1) (show rd + 1 < 16384 by omega),
    ofReg_reg (vt + 1) (show vt + 1 < 16384 by omega)]
  simp only [set_mask_vgpr_at, set_vgpr_same, set_vgpr_other _ _ _ _ _ _ e1,
    set_vgpr_other _ _ _ _ _ _ e2, set_vgpr_other _ _ _ _ _ _ e4,
    set_vgpr_other _ _ _ _ _ _ e5, set_vgpr_other _ _ _ _ _ _ e6,
    set_vgpr_other _ _ _ _ _ _ hvd,
    active_set_mask _ _ _ _ _ hvcc, active_set_vgpr, hl, if_true,
    rd_mask_set_mask_vcc _ hW _ _ _ hlW,
    rd_sgpr _ ra _ _ (show ra < 256 by omega), rd_sgpr _ (ra + 1) _ _ ha, set_vgpr_sgpr,
    rd_vgpr_at _ rb _ _ ⟨hb.1, by omega⟩,
    rd_vgpr_at _ (vt + 1) _ _ ⟨by omega, by omega⟩,
    rd_vgpr_at _ (rb + 1) _ _ ⟨by omega, by omega⟩, Bool.true_and, decide_eq_true_eq]
  exact iadd64_arith _ _ _ _ hxl hyl

theorem emit_int64_op_minmax_scalar_list (p : Program) (ra rb rd : Nat) (vtmp : PhysReg)
    (op : ReduceOp) (hop : op = .umin64 ∨ op = .umax64 ∨ op = .imin64 ∨ op = .imax64)
    (ha : ra < 256) (hv : vtmp.reg ≠ 0) :
    emit_int64_op p (PhysReg.ofReg rd) (PhysReg.ofReg ra) (PhysReg.ofReg rb) vtmp op =
      .ok [Instruction.plain .v_mov_b32 [⟨vtmp, v1⟩] [Operand.ofReg (PhysReg.ofReg ra) s1],
           Instruction.plain .v_mov_b32 [vdef vtmp 1]
            [Operand.ofReg ((PhysReg.ofReg ra).plus 1) s1],
           Instruction.plain (int64_cmp_opcode op) [⟨vcc, lane_mask_class p.wave_size⟩]
            [Operand.ofReg vtmp v2, Operand.ofReg (PhysReg.ofReg rb) v2],
           Instruction.plain .v_cndmask_b32 [⟨PhysReg.ofReg rd, v1⟩]
            [Operand.ofReg vtmp v1, Operand.ofReg (PhysReg.ofReg rb) v1,
             Operand.ofReg vcc (lane_mask_class p.wave_size)],
           Instruction.plain .v_cndmask_b32 [vdef (PhysReg.ofReg rd) 1]
            [vop vtmp 1, vop (PhysReg.ofReg rb) 1,
             Operand.ofReg vcc (lane_mask_class p.wave_size)]] := by
  have hra : (PhysReg.ofReg ra).reg = ra := ofReg_reg ra (by omega)
  have h256 : ¬ (PhysReg.ofReg ra).reg ≥ 256 := by rw [hra]; omega
  rcases hop with h | h | h | h <;> subst h <;>
    simp [emit_int64_op, h256, hv, s1, v1, RegClass.ofSize, vop, vdef]

/-- The minimum and maximum sequence for a scalar first source, which is first moved to the
pair `vtmp`. -/
theorem minmax_scalar_source (p : Program) (op : ReduceOp) (ra rb rd vt : Nat)
    (st : wave_state) (l : Nat)
    (hop : op = .umin64 ∨ op = .umax64 ∨ op = .imin64 ∨ op = .imax64)
    (hW : p.wave_size = 32 ∨ p.wave_size = 64)
    (ha : ra + 1 < 256) (hb : 256 ≤ rb ∧ rb + 1 < 512) (hd : 256 ≤ rd ∧ rd + 1 < 512)
    (hv : 256 ≤ vt ∧ vt + 1 < 512) (hvb : vt + 1 < rb ∨ rb + 1 < vt)
    (hvd : rd ≠ vt + 1) (hdb : rd ≠ rb + 1)
    (hl : active p.wave_size st l = true)
    (hxl : st.sgpr ra < 4294967296) (hxh : st.sgpr (ra + 1) < 4294967296)
    (hyl : st.vgpr rb l < 4294967296) (hyh : st.vgpr (rb + 1) l < 4294967296) :
    ∃ is st1,
      emit_int64_op p (PhysReg.ofReg rd) (PhysReg.ofReg ra) (PhysReg.ofReg rb)
        (PhysReg.ofReg vt) op = .ok is ∧
      wrun p.wave_size is st = some st1 ∧
      int64_minmax_spec op
        (st.sgpr ra + 4294967296 * st.sgpr (ra + 1))
        (st.vgpr rb l + 4294967296 * st.vgpr (rb + 1) l)
        (st1.vgpr rd l + 4294967296 * st1.vgpr (rd + 1) l) := by
  have hlW : l < p.wave_size := by
    unfold active at hl
    simp at hl
    exact hl.1
  have e1 : rd ≠ rd + 1 := by omega
  have e2 : rd + 1 ≠ rd := by omega
  have e3 : vt + 1 ≠ rd := Ne.symm hvd
  have e4 : rb + 1 ≠ rd := Ne.symm hdb
  have e5 : vt ≠ vt + 1 := by omega
  have e6 : rb ≠ vt := by omega
  have e7 : rb ≠ vt + 1 := by omega
  have e8 : rb + 1 ≠ vt := by omega
  have e9 : rb + 1 ≠ vt + 1 := by omega
  have hvcc : (⟨vcc, lane_mask_class p.wave_size⟩ : Definition).physReg.reg + 1 < 126 ∨
      127 < (⟨vcc, lane_mask_class p.wave_size⟩ : Definition).physReg.reg := by
    left; simp [vcc_reg]
  have hvt0 : (PhysReg.ofReg vt).reg ≠ 0 := by
    rw [ofReg_reg vt (by omega)]
    omega
  obtain ⟨c, hc, hstep⟩ := wstep_cmp64 p.wave_size op hop ⟨vcc, lane_mask_class p.wave_size⟩
    (Operand.ofReg (PhysReg.ofReg vt) v2) (Operand.ofReg (PhysReg.ofReg rb) v2)
    (set_vgpr
      (set_vgpr st (PhysReg.ofReg vt).reg (active p.wave_size st)
        (fun l => Aco.rd st (Operand.ofReg (PhysReg.ofReg ra) s1) 0 l))
      (vdef (PhysReg.ofReg vt) 1).physReg.reg
      (active p.wave_size
        (set_vgpr st (PhysReg.ofReg vt).reg (active p.wave_size st)
          (fun l => Aco.rd st (Operand.ofReg (PhysReg.ofReg ra) s1) 0 l)))
      (fun l => Aco.rd
        (set_vgpr st (PhysReg.ofReg vt).reg (active p.wave_size st)
          (fun l => Aco.rd st (Operand.ofReg (PhysReg.ofReg ra) s1) 0 l))
        (Operand.ofReg ((PhysReg.ofReg ra).plus 1) s1) 0 l))
  apply Exists.intro _
  apply Exists.intro _
  refine And.intro (emit_int64_op_minmax_scalar_list p ra rb rd (PhysReg.ofReg vt) op hop
    (by omega) hvt0) ?_
  rw [wrun, wstep_mov]
  dsimp only
  rw [wrun, wstep_mov]
  dsimp only
  rw [wrun, hstep]
  dsimp only
  rw [wrun, wstep_cndmask]
  dsimp only
  rw [wrun, wstep_cndmask]
  dsimp only
  rw [wrun]
  refine ⟨rfl, ?_⟩
  rw [ofReg_plus ra 1 (by omega)]
  simp only [vdef, vop, ofReg_plus rd 1 (show rd < 16384 by omega),
    ofReg_plus rb 1 (show rb < 16384 by omega), ofReg_plus vt 1 (show vt < 16384 by omega),
    ofReg_reg rd (show rd < 16384 by omega), ofReg_reg vt (show vt < 16384 by omega),
    ofReg_reg (rd + 1) (show rd + 1 < 16384 by omega),
    ofReg_reg (vt + 1) (show vt + 1 < 16384 by omega)]
  simp only [set_mask_vgpr_at, set_vgpr_same, set_vgpr_other _ _ _ _ _ _ e1,
    set_vgpr_other _ _ _ _ _ _ e2, set_vgpr_other _ _ _ _ _ _ e3, set_vgpr_other _ _ _ _ _ _ e4,
    set_vgpr_other _ _ _ _ _ _ e5, set_vgpr_other _ _ _ _ _ _ e6, set_vgpr_other _ _ _ _ _ _ e7,
    set_vgpr_other _ _ _ _ _ _ e8, set_vgpr_other _ _ _ _ _ _ e9,
    active_set_mask _ _ _ _ _ hvcc, active_set_vgpr, hl, if_true, rd_mask_set_vgpr,
    rd_mask_set_mask_vcc _ hW _ _ _ hlW,
    rd_sgpr _ ra _ _ (show ra < 256 by omega), rd_sgpr _ (ra + 1) _ _ ha, set_vgpr_sgpr,
    rd64_vgpr _ vt _ _ ⟨hv.1, by omega⟩, rd64_vgpr _ rb _ _ ⟨hb.1, by omega⟩,
    rd_vgpr_at _ vt _ _ ⟨hv.1, by omega⟩, rd_vgpr_at _ rb _ _ ⟨hb.1, by omega⟩,
    rd_vgpr_at _ (vt + 1) _ _ ⟨by omega, by omega⟩,
    rd_vgpr_at _ (rb + 1) _ _ ⟨by omega, by omega⟩, Bool.true_and, select_pair]
  have hx : st.sgpr ra + 4294967296 * st.sgpr (ra + 1) < 18446744073709551616 := by omega
  have hy : st.vgpr rb l + 4294967296 * st.vgpr (rb + 1) l < 18446744073709551616 := by omega
  exact minmax64_sel op hop c hc _ _ hx hy

/-- C8, counterexample: with the source pair `v[1:2]` and the destination pair `v[0:1]`
(`dst_reg + 1` is the low register of the first source) the sequence for `imul64` writes the
high result over the low source dword before the last multiplication reads it: for
`x = 2 + 3 * 2^32` and `y = 5 + 6 * 2^32` it leaves `135 + 27 * 2^32`, not `x * y`. -/
theorem imul64_clobbers_low_source :
    int64_result (program_of .GFX8 64) 256 257 260 (PhysReg.ofReg 270) .imul64
      numbered_wave 3 = some 115964117127 ∧
    (pair_value numbered_wave 257 3 * pair_value numbered_wave 260 3)
      % 18446744073709551616 = 115964117002 := by
  decide

/-- C9, counterexample: with the source pair `v[0:1]` and `dst_reg = v1`, the high register
of that source, the low addition overwrites the high source dword before the addition with
carry reads it: for `x = 1 + 2 * 2^32` and `y = 5 + 6 * 2^32` the sequence for `iadd64`
leaves `6 + 12 * 2^32`, not `x + y = 6 + 8 * 2^32`. -/
theorem iadd64_clobbers_high_source :
    int64_result (program_of .GFX8 64) 257 256 260 (PhysReg.ofReg 270) .iadd64
      numbered_wave 3 = some 51539607558 ∧
    (pair_value numbered_wave 256 3 + pair_value numbered_wave 260 3)
      % 18446744073709551616 = 34359738374 := by
  decide

/-- C10, counterexample: with the source pair `v[0:1]` and `dst_reg = v1`, the first select
overwrites the high source dword before the second select reads it: for `x = 1 + 2 * 2^32`
and `y = 5 + 6 * 2^32` the sequence for `umin64` leaves `1 + 2^32`, not `x`. -/
theorem minmax_clobbers_high_source :
    int64_result (program_of .GFX8 64) 257 256 260 (PhysReg.ofReg 270) .umin64
      numbered_wave 3 = some 4294967297 ∧
    min (pair_value numbered_wave 256 3) (pair_value numbered_wave 260 3) = 8589934593 := by
  decide

/-- C9 (amended): for `x` in the pair `ra` (vector registers, or scalar registers with the
vector register `vtmp+1` free: not a register of the second source and not `dst_reg`), `y` in
the vector pair `rb`, and a destination pair `rd` whose low register is not the high register
of a vector source (the destination may equal either source pair), the add-with-carry
sequence that `emit_int64_op` emits for `iadd64` on any chip class leaves, in every active
lane, `(rd+1 : rd)` equal to `(x + y) mod 2^64`. -/
theorem emit_int64_op_iadd64 (p : Program) (ra rb rd vt : Nat) (st : wave_state)
    (l : Nat) (hW : p.wave_size = 32 ∨ p.wave_size = 64)
    (ha : (256 ≤ ra ∧ ra + 1 < 512 ∧ rd ≠ ra + 1) ∨
      (ra + 1 < 256 ∧ (256 ≤ vt ∧ vt + 1 < 512) ∧ (vt + 1 ≠ rb ∧ vt + 1 ≠ rb + 1) ∧
        vt + 1 ≠ rd))
    (hb : 256 ≤ rb ∧ rb + 1 < 512) (hd : 256 ≤ rd ∧ rd + 1 < 512) (hdb : rd ≠ rb + 1)
    (hl : active p.wave_size st l = true)
    (hxl : dword_value st ra l < 4294967296) (hyl : dword_value st rb l < 4294967296) :
    ∃ is st1,
      emit_int64_op p (PhysReg.ofReg rd) (PhysReg.ofReg ra) (PhysReg.ofReg rb)
        (PhysReg.ofReg vt) .iadd64 = .ok is ∧
      wrun p.wave_size is st = some st1 ∧
      pair_value st1 rd l =
        (pair_value st ra l + pair_value st rb l) % 18446744073709551616 := by
  rw [dword_value_vgpr _ _ _ hb.1] at hyl
  simp only [pair_value, dword_value_vgpr _ rb _ hb.1,
    dword_value_vgpr _ (rb + 1) _ (show 256 ≤ rb + 1 by omega)]
  rcases ha with ⟨h1, h2, h3⟩ | ⟨h1, h2, h3, h4⟩
  · rw [dword_value_vgpr _ _ _ h1] at hxl
    obtain ⟨is, st1, e1, e2, e3⟩ := iadd64_vector_source p ra rb rd (PhysReg.ofReg vt) st l hW
      ⟨h1, h2⟩ hb hd h3 hdb hl hxl hyl
    refine ⟨is, st1, e1, e2, ?_⟩
    rw [dword_value_vgpr _ rd _ hd.1, dword_value_vgpr _ (rd + 1) _ (by omega),
      dword_value_vgpr _ ra _ h1, dword_value_vgpr _ (ra + 1) _ (by omega)]
    exact e3
  · rw [dword_value_sgpr _ _ _ (by omega)] at hxl
    obtain ⟨is, st1, e1, e2, e3⟩ := iadd64_scalar_source p ra rb rd vt st l hW
      h1 hb hd h2 h3 h4 hdb hl hxl hyl
    refine ⟨is, st1, e1, e2, ?_⟩
    rw [dword_value_vgpr _ rd _ hd.1, dword_value_vgpr _ (rd + 1) _ (by omega),
      dword_value_sgpr _ ra _ (by omega), dword_value_sgpr _ (ra + 1) _ h1]
    exact e3

theorem emit_int64_op_iadd64_witness :
    ∃ is st1,
      emit_int64_op (program_of .GFX8 64) (PhysReg.ofReg 264) (PhysReg.ofReg 10)
        (PhysReg.ofReg 260) (PhysReg.ofReg 270) .iadd64 = .ok is ∧
      wrun (program_of .GFX8 64).wave_size is numbered_wave = some st1 ∧
      pair_value st1 264 3 =
        (pair_value numbered_wave 10 3 + pair_value numbered_wave 260 3)
          % 18446744073709551616 :=
  emit_int64_op_iadd64 (program_of .GFX8 64) 10 260 264 270 numbered_wave 3
    (Or.inr rfl) (Or.inr (by decide)) (by decide) (by decide) (by decide) (by decide)
    (by decide) (by decide)

/-- C10 (amended): for `x` in the pair `ra` (vector registers, or scalar registers with the
vector pair `vtmp` disjoint from the second source and `vtmp+1` not `dst_reg`), `y` in the
vector pair `rb`, and a destination whose low register is not the high register of a vector
source, the compare-and-select sequence that `emit_int64_op` emits for `umin64`, `umax64`,
`imin64` and `imax64` leaves, in every active lane, the destination pair equal to the
unsigned minimum, unsigned maximum, signed minimum and signed maximum of `x` and `y`, for all
64-bit values. -/
theorem emit_int64_op_minmax (p : Program) (op : ReduceOp) (ra rb rd vt : Nat)
    (st : wave_state) (l : Nat)
    (hop : op = .umin64 ∨ op = .umax64 ∨ op = .imin64 ∨ op = .imax64)
    (hW : p.wave_size = 32 ∨ p.wave_size = 64)
    (ha : (256 ≤ ra ∧ ra + 1 < 512 ∧ rd ≠ ra + 1) ∨
      (ra + 1 < 256 ∧ (256 ≤ vt ∧ vt + 1 < 512) ∧ (vt + 1 < rb ∨ rb + 1 < vt) ∧
        rd ≠ vt + 1))
    (hb : 256 ≤ rb ∧ rb + 1 < 512) (hd : 256 ≤ rd ∧ rd + 1 < 512) (hdb : rd ≠ rb + 1)
    (hl : active p.wave_size st l = true)
    (hxl : dword_value st ra l < 4294967296) (hxh : dword_value st (ra + 1) l < 4294967296)
    (hyl : dword_value st rb l < 4294967296) (hyh : dword_value st (rb + 1) l < 4294967296) :
    ∃ is st1,
      emit_int64_op p (PhysReg.ofReg rd) (PhysReg.ofReg ra) (PhysReg.ofReg rb)
        (PhysReg.ofReg vt) op = .ok is ∧
      wrun p.wave_size is st = some st1 ∧
      int64_minmax_spec op (pair_value st ra l) (pair_value st rb l) (pair_value st1 rd l) := by
  rw [dword_value_vgpr _ _ _ hb.1] at hyl
  rw [dword_value_vgpr _ _ _ (show 256 ≤ rb + 1 by omega)] at hyh
  simp only [pair_value, dword_value_vgpr _ rb _ hb.1,
    dword_value_vgpr _ (rb + 1) _ (show 256 ≤ rb + 1 by omega)]
  rcases ha with ⟨h1, h2, h3⟩ | ⟨h1, h2, h3, h4⟩
  · rw [dword_value_vgpr _ _ _ h1] at hxl
    rw [dword_value_vgpr _ _ _ (show 256 ≤ ra + 1 by omega)] at hxh
    obtain ⟨is, st1, e1, e2, e3⟩ := minmax_vector_source p op ra rb rd (PhysReg.ofReg vt) st l
      hop hW ⟨h1, h2⟩ hb hd h3 hdb hl hxl hxh hyl hyh
    refine ⟨is, st1, e1, e2, ?_⟩
    rw [dword_value_vgpr _ rd _ hd.1, dword_value_vgpr _ (rd + 1) _ (by omega),
      dword_value_vgpr _ ra _ h1, dword_value_vgpr _ (ra + 1) _ (by omega)]
    exact e3
  · rw [dword_value_sgpr _ _ _ (by omega)] at hxl
    rw [dword_value_sgpr _ _ _ h1] at hxh
    obtain ⟨is, st1, e1, e2, e3⟩ := minmax_scalar_source p op ra rb rd vt st l hop hW
      h1 hb hd h2 h3 h4 hdb hl hxl hxh hyl hyh
    refine ⟨is, st1, e1, e2, ?_⟩
    rw [dword_value_vgpr _ rd _ hd.1, dword_value_vgpr _ (rd + 1) _ (by omega),
      dword_value_sgpr _ ra _ (by omega), dword_value_sgpr _ (ra + 1) _ h1]
    exact e3

theorem emit_int64_op_minmax_witness :
    ∃ is st1,
      emit_int64_op (program_of .GFX10 32) (PhysReg.ofReg 264) (PhysReg.ofReg 10)
        (PhysReg.ofReg 260) (PhysReg.ofReg 270) .imin64 = .ok is ∧
      wrun (program_of .GFX10 32).wave_size is numbered_wave = some st1 ∧
      int64_minmax_spec .imin64 (pair_value numbered_wave 10 3)
        (pair_value numbered_wave 260 3) (pair_value st1 264 3) :=
  emit_int64_op_minmax (program_of .GFX10 32) .imin64 10 260 264 270 numbered_wave 3
    (by decide) (Or.inl rfl) (Or.inr (by decide)) (by decide) (by decide) (by decide)
    (by decide) (by decide) (by decide) (by decide) (by decide)

end Aco
